import Mathlib

/-!
GoldenDict DSL engine: UTF-8 codec, index file, article loader, article scan,
abbreviations, file names, encoding names, HTML rendering, article and
resource requests

A shallow embedding of `src/common/utf8.cc` and of the index, loader,
builder, renderer and request code of `src/dict/dsl.cc`, with properties of the
specification stated and proved over it.

Conventions of the embedding:
* a byte (`unsigned char`) is a `Fin 256`; a `wchar` (32-bit code point) is a
  `Nat`; a `string` is a `List Byte` and a `wstring` a `List Nat`;
* a `uint32_t` is a `Nat` reduced modulo `2^32` where it is stored;
* a function that returns `-1` or throws returns `none` / `Except.error`;
* functions, constants and classes declared outside the two source files
  (the markup primitives, the scanner, the chunk store, the format versions,
  what the renderer takes from Qt and the file system) are parameters of the
  definitions that use them.

The definitions come first, the theorems after them.
-/

/-- A byte, the `unsigned char` of the source. -/
abbrev Byte := Fin 256

/-- A `gd::wstring`: a sequence of 32-bit code points (`gd::wchar`), each a
`Nat`. -/
abbrev wstring := List Nat

/-- Equality of results that may be errors is decidable. -/
instance instDecidableEqExcept {ε α : Type} [DecidableEq ε] [DecidableEq α] :
    DecidableEq (Except ε α)
  | .ok a, .ok b => if h : a = b then isTrue (by rw [h]) else isFalse (fun e => h (by cases e; rfl))
  | .error a, .error b =>
    if h : a = b then isTrue (by rw [h]) else isFalse (fun e => h (by cases e; rfl))
  | .ok _, .error _ => isFalse (fun e => by cases e)
  | .error _, .ok _ => isFalse (fun e => by cases e)

namespace Utf8

/-- The test `( *in & 0xC0 ) != 0x80` of `decode`, negated: the byte is a
continuation byte. -/
def isContinuation (b : Byte) : Bool := (b.val &&& 0xC0) == 0x80

/-- The pointer overload `Utf8::decode( char const *, size_t, wchar * )`:
`none` is the return value `-1`, `some ws` the code points written (the
return value is their number). -/
def decode : List Byte → Option wstring
  | [] => some []
  | b :: rest =>
    if b.val &&& 0x80 ≠ 0 then
      if b.val &&& 0x40 ≠ 0 then
        if b.val &&& 0x20 ≠ 0 then
          if b.val &&& 0x10 ≠ 0 then
            -- Four-byte sequence
            if b.val &&& 8 ≠ 0 then none
            else
              match rest with
              | b1 :: b2 :: b3 :: rest3 =>
                if !isContinuation b1 then none
                else if !isContinuation b2 then none
                else if !isContinuation b3 then none
                else
                  (decode rest3).map fun ws =>
                    ((((b.val &&& 7) <<< 18) ||| ((b1.val &&& 0x3F) <<< 12))
                      ||| ((b2.val &&& 0x3F) <<< 6) ||| (b3.val &&& 0x3F)) :: ws
              | _ => none
          else
            -- Three-byte sequence
            match rest with
            | b1 :: b2 :: rest2 =>
              if !isContinuation b1 then none
              else if !isContinuation b2 then none
              else
                (decode rest2).map fun ws =>
                  ((((b.val &&& 0xF) <<< 12) ||| ((b1.val &&& 0x3F) <<< 6))
                    ||| (b2.val &&& 0x3F)) :: ws
            | _ => none
        else
          -- Two-byte sequence
          match rest with
          | b1 :: rest1 =>
            if !isContinuation b1 then none
            else
              (decode rest1).map fun ws =>
                (((b.val &&& 0x1F) <<< 6) ||| (b1.val &&& 0x3F)) :: ws
          | _ => none
      else
        -- This char is from the middle of encoding, it can't be leading
        none
    else
      -- One-byte encoding
      (decode rest).map fun ws => b.val :: ws

/-- The string overload `Utf8::decode( string const & )`: the empty string
decodes to the empty string, a negative result of the pointer overload
throws `exCantDecode` (carrying the input). -/
def decodeString (bs : List Byte) : Except (List Byte) wstring :=
  if bs.isEmpty then .ok []
  else
    match decode bs with
    | none => .error bs
    | some ws => .ok ws

/-- Truncation of an integer to `unsigned char` when it is stored through
`*out++`. -/
def toByte (n : Nat) : Byte := ⟨n % 256, Nat.mod_lt _ (by decide)⟩

/-- The pointer overload `Utf8::encode( wchar const *, size_t, char * )`: the
bytes written to `out` (the return value is their number). -/
def encode : wstring → List Byte
  | [] => []
  | w :: rest =>
    if w < 0x80 then
      toByte w :: encode rest
    else if w < 0x800 then
      toByte (0xC0 ||| (w >>> 6)) :: toByte (0x80 ||| (w &&& 0x3F)) :: encode rest
    else if w < 0x10000 then
      toByte (0xE0 ||| (w >>> 12)) :: toByte (0x80 ||| ((w >>> 6) &&& 0x3F)) ::
        toByte (0x80 ||| (w &&& 0x3F)) :: encode rest
    else
      toByte (0xF0 ||| (w >>> 18)) :: toByte (0x80 ||| ((w >>> 12) &&& 0x3F)) ::
        toByte (0x80 ||| ((w >>> 6) &&& 0x3F)) :: toByte (0x80 ||| (w &&& 0x3F)) :: encode rest

/-- Table 3-7 of the Unicode Standard (well-formed UTF-8 byte sequences): the
ranges in which the bytes that follow the first byte `b` must lie, `none`
when no well-formed sequence starts with `b`. -/
def followingRanges (b : Byte) : Option (List (Nat × Nat)) :=
  if b.val ≤ 0x7F then some []
  else if 0xC2 ≤ b.val ∧ b.val ≤ 0xDF then some [(0x80, 0xBF)]
  else if b.val = 0xE0 then some [(0xA0, 0xBF), (0x80, 0xBF)]
  else if 0xE1 ≤ b.val ∧ b.val ≤ 0xEC then some [(0x80, 0xBF), (0x80, 0xBF)]
  else if b.val = 0xED then some [(0x80, 0x9F), (0x80, 0xBF)]
  else if 0xEE ≤ b.val ∧ b.val ≤ 0xEF then some [(0x80, 0xBF), (0x80, 0xBF)]
  else if b.val = 0xF0 then some [(0x90, 0xBF), (0x80, 0xBF), (0x80, 0xBF)]
  else if 0xF1 ≤ b.val ∧ b.val ≤ 0xF3 then some [(0x80, 0xBF), (0x80, 0xBF), (0x80, 0xBF)]
  else if b.val = 0xF4 then some [(0x80, 0x8F), (0x80, 0xBF), (0x80, 0xBF)]
  else none

/-- Validity of a byte sequence as UTF-8 in the sense of the Unicode Standard,
read left to right with the ranges still owed to the current sequence. -/
def validUtf8From : List (Nat × Nat) → List Byte → Bool
  | [], [] => true
  | _ :: _, [] => false
  | [], b :: rest =>
    match followingRanges b with
    | none => false
    | some owed => validUtf8From owed rest
  | (lo, hi) :: owed, b :: rest => lo ≤ b.val && b.val ≤ hi && validUtf8From owed rest

/-- Validity of a whole byte sequence as UTF-8 (Unicode Standard, Table 3-7):
it excludes overlong forms, encoded surrogates and values above U+10FFFF. -/
def validUtf8 (bs : List Byte) : Bool := validUtf8From [] bs

/-- The code point is a surrogate, U+D800..U+DFFF. -/
def isSurrogate (w : Nat) : Bool := 0xD800 ≤ w && w ≤ 0xDFFF

/-- The byte has the form `10xxxxxx`. -/
def isTrailForm (b : Byte) : Bool := 0x80 ≤ b.val && b.val < 0xC0

/-- The number of further bytes a lead byte announces: 0 for a byte below
`0x80`, 1 / 2 / 3 for the forms `110xxxxx` / `1110xxxx` / `11110xxx`, and
`none` for the forms `10xxxxxx` and `11111xxx`, which cannot lead. -/
def announcedTrail (b : Byte) : Option Nat :=
  if b.val < 0x80 then some 0
  else if b.val < 0xC0 then none
  else if b.val < 0xE0 then some 1
  else if b.val < 0xF0 then some 2
  else if b.val < 0xF8 then some 3
  else none

/-- Reading the input left to right with `pending` further bytes still owed
to the last lead byte: a lead byte of the form `10xxxxxx` or `11111xxx` is
met, or an owed byte is missing (the input ran out) or is not of the form
`10xxxxxx`.  Written from the words of the specification, with the byte
forms given as value ranges. -/
def meetsBadLeadFrom : Nat → List Byte → Bool
  | 0, [] => false
  | _ + 1, [] => true
  | 0, b :: rest =>
    match announcedTrail b with
    | none => true
    | some k => meetsBadLeadFrom k rest
  | k + 1, b :: rest => if isTrailForm b then meetsBadLeadFrom k rest else true

/-- The failure condition of the specification for a whole input. -/
def meetsBadLead (bs : List Byte) : Bool := meetsBadLeadFrom 0 bs

end Utf8

namespace Utf8

/-! ### `findFirstLinePosition` (`utf8.cc`, lines 179-190) -/

/-- The library function `std::search( s1, s1 + s1length, s2, s2 + s2length )`,
as the distance from `s1` of the iterator it returns: the index of the first
occurrence of `s2` in `s1`, or the length of `s1` when there is none. -/
def search : List Byte → List Byte → Nat
  | [], _ => 0
  | c :: rest, s2 => if s2.isPrefixOf (c :: rest) then 0 else search rest s2 + 1

/-- The function `findFirstLinePosition`, on the `s1length` bytes at `s1` and
the `s2length` bytes at `s2`. -/
def findFirstLinePosition (s1 s2 : List Byte) : Int :=
  let pos := search s1 s2
  if pos == s1.length then (pos : Int)
  else
    --the line size.
    (pos : Int) + (s2.length : Int)

/-- The pattern occurs in the text: at some index the text goes on with the
pattern. -/
def Occurs (s2 s1 : List Byte) : Prop := ∃ i, i < s1.length ∧ s2.isPrefixOf (s1.drop i) = true

end Utf8
namespace Utf8

/-- The string overload `Utf8::encode( wstring const & )`: the empty string
encodes to the empty string, another one to the bytes the pointer overload
writes. -/
def encodeString (ws : wstring) : List Byte :=
  if ws.isEmpty then [] else encode ws

end Utf8
namespace Utf8

/-! ### The codec over buffers of a given size

The list functions `encode` and `decode` cannot read or write outside a
buffer.  Here the pointer overloads are embedded once more with the sizes of
the buffers at hand: every `*in` of `decode` is a read at an index of the
input that is checked against its size, every `*out++` a write that is
checked against the number of elements allocated. -/

/-- The write `*out++ = x` into a buffer of `capacity` elements of which
`out` are written: `none` when it is outside the buffer. -/
def put {α : Type} (capacity : Nat) (out : List α) (x : α) : Option (List α) :=
  if out.length < capacity then some (out ++ [x]) else none

/-- The pointer overload of `encode` writing to a buffer of `capacity`
bytes, `out` being the bytes written so far: the bytes written, `none` when
a write is outside the buffer. -/
def encodeChecked (capacity : Nat) : wstring → List Byte → Option (List Byte)
  | [], out => some out
  | w :: rest, out =>
    if w < 0x80 then
      (put capacity out (toByte w)).bind fun out => encodeChecked capacity rest out
    else if w < 0x800 then
      (put capacity out (toByte (0xC0 ||| (w >>> 6)))).bind fun out =>
      (put capacity out (toByte (0x80 ||| (w &&& 0x3F)))).bind fun out =>
      encodeChecked capacity rest out
    else if w < 0x10000 then
      (put capacity out (toByte (0xE0 ||| (w >>> 12)))).bind fun out =>
      (put capacity out (toByte (0x80 ||| ((w >>> 6) &&& 0x3F)))).bind fun out =>
      (put capacity out (toByte (0x80 ||| (w &&& 0x3F)))).bind fun out =>
      encodeChecked capacity rest out
    else
      (put capacity out (toByte (0xF0 ||| (w >>> 18)))).bind fun out =>
      (put capacity out (toByte (0x80 ||| ((w >>> 12) &&& 0x3F)))).bind fun out =>
      (put capacity out (toByte (0x80 ||| ((w >>> 6) &&& 0x3F)))).bind fun out =>
      (put capacity out (toByte (0x80 ||| (w &&& 0x3F)))).bind fun out =>
      encodeChecked capacity rest out

/-- The string overload of `encode`, with its buffer of `in.size() * 4`
bytes: `none` when a write is outside the buffer. -/
def encodeStringChecked (ws : wstring) : Option (List Byte) :=
  if ws.isEmpty then some [] else encodeChecked (ws.length * 4) ws []

/-- How a run of the pointer overload of `decode` ends. -/
inductive DecodeRun where
  /-- The return value `-1`. -/
  | invalid
  /-- The code points written; the return value is their number. -/
  | decoded (out : wstring)
  /-- A byte is read at an index that is not below the size of the input. -/
  | readOutside (index : Nat)
  /-- A code point is written outside the output buffer. -/
  | writeOutside
  /-- The model ran out of fuel. -/
  | outOfFuel
  deriving DecidableEq, Repr

/-- The loop of the pointer overload of `decode` over the input `input`,
from the index `pos` with `inSize` bytes still to read, `out` being the code
points written to a buffer of `capacity` elements.  One unit of fuel is one
iteration. -/
def decodeLoop (input : List Byte) (capacity : Nat) :
    Nat → Nat → Nat → wstring → DecodeRun
  | 0, _, _, _ => .outOfFuel
  | fuel + 1, pos, inSize, out =>
    if inSize = 0 then .decoded out
    else
      let inSize := inSize - 1
      match input[pos]? with
      | none => .readOutside pos
      | some b =>
        if b.val &&& 0x80 ≠ 0 then
          if b.val &&& 0x40 ≠ 0 then
            if b.val &&& 0x20 ≠ 0 then
              if b.val &&& 0x10 ≠ 0 then
                -- Four-byte sequence
                if b.val &&& 8 ≠ 0 then .invalid
                else if inSize < 3 then .invalid
                else
                  let inSize := inSize - 3
                  match input[pos + 1]? with
                  | none => .readOutside (pos + 1)
                  | some b1 =>
                    if !isContinuation b1 then .invalid
                    else
                      match input[pos + 2]? with
                      | none => .readOutside (pos + 2)
                      | some b2 =>
                        if !isContinuation b2 then .invalid
                        else
                          match input[pos + 3]? with
                          | none => .readOutside (pos + 3)
                          | some b3 =>
                            if !isContinuation b3 then .invalid
                            else
                              match put capacity out
                                ((((b.val &&& 7) <<< 18) ||| ((b1.val &&& 0x3F) <<< 12))
                                  ||| ((b2.val &&& 0x3F) <<< 6) ||| (b3.val &&& 0x3F)) with
                              | none => .writeOutside
                              | some out => decodeLoop input capacity fuel (pos + 4) inSize out
              else
                -- Three-byte sequence
                if inSize < 2 then .invalid
                else
                  let inSize := inSize - 2
                  match input[pos + 1]? with
                  | none => .readOutside (pos + 1)
                  | some b1 =>
                    if !isContinuation b1 then .invalid
                    else
                      match input[pos + 2]? with
                      | none => .readOutside (pos + 2)
                      | some b2 =>
                        if !isContinuation b2 then .invalid
                        else
                          match put capacity out
                            ((((b.val &&& 0xF) <<< 12) ||| ((b1.val &&& 0x3F) <<< 6))
                              ||| (b2.val &&& 0x3F)) with
                          | none => .writeOutside
                          | some out => decodeLoop input capacity fuel (pos + 3) inSize out
            else
              -- Two-byte sequence
              if inSize = 0 then .invalid
              else
                let inSize := inSize - 1
                match input[pos + 1]? with
                | none => .readOutside (pos + 1)
                | some b1 =>
                  if !isContinuation b1 then .invalid
                  else
                    match put capacity out
                      (((b.val &&& 0x1F) <<< 6) ||| (b1.val &&& 0x3F)) with
                    | none => .writeOutside
                    | some out => decodeLoop input capacity fuel (pos + 2) inSize out
          else
            -- This char is from the middle of encoding, it can't be leading
            .invalid
        else
          -- One-byte encoding
          match put capacity out b.val with
          | none => .writeOutside
          | some out => decodeLoop input capacity fuel (pos + 1) inSize out

/-- The pointer overload of `decode` called on the whole of `input` with an
output buffer of `capacity` elements. -/
def decodeChecked (input : List Byte) (capacity : Nat) : DecodeRun :=
  decodeLoop input capacity (input.length + 1) 0 input.length []

/-- The string overload of `decode`, with its buffer of `in.size()`
elements; `invalid` stands for the exception `exCantDecode`. -/
def decodeStringChecked (input : List Byte) : DecodeRun :=
  if input.isEmpty then .decoded [] else decodeChecked input input.length

/-- The run of `decode` that reads and writes inside its buffers and comes
to what the list function `decode` gives. -/
def runOf : Option wstring → DecodeRun
  | none => .invalid
  | some ws => .decoded ws

end Utf8
namespace Dsl

open Utf8 (toByte)

/-- A `std::string`: a sequence of bytes. -/
abbrev ByteString := List Byte

/-! ### Index header (`dsl.cc`, lines 82-141) -/

/-- The enum constant `Signature`: DSLX on little-endian. -/
def Signature : Nat := 0x584c5344

/-- The enum constant `CurrentFormatVersion = 23 + BtreeIndexing::FormatVersion +
Folding::Version`.  The two library constants are declared outside the
sources at hand and are parameters. -/
def CurrentFormatVersion (btreeFormatVersion foldingVersion : Nat) : Nat :=
  23 + btreeFormatVersion + foldingVersion

/-- The enum constant `CurrentZipSupportVersion`. -/
def CurrentZipSupportVersion : Nat := 2

/-- The record `IdxHeader`; every field but `dslEncoding` is a `uint32_t`. -/
structure IdxHeader where
  signature : Nat
  formatVersion : Nat
  zipSupportVersion : Nat
  dslEncoding : Int
  chunksOffset : Nat
  hasAbrv : Nat
  abrvAddress : Nat
  indexBtreeMaxElements : Nat
  indexRootOffset : Nat
  articleCount : Nat
  wordCount : Nat
  langFrom : Nat
  langTo : Nat
  hasZipFile : Nat
  hasSoundDictionaryName : Nat
  zipIndexBtreeMaxElements : Nat
  zipIndexRootOffset : Nat
  deriving DecidableEq, Repr

/-- The header after `memset( &idxHeader, 0, sizeof( idxHeader ) )`. -/
def IdxHeader.zero : IdxHeader :=
  { signature := 0, formatVersion := 0, zipSupportVersion := 0, dslEncoding := 0,
    chunksOffset := 0, hasAbrv := 0, abrvAddress := 0, indexBtreeMaxElements := 0,
    indexRootOffset := 0, articleCount := 0, wordCount := 0, langFrom := 0, langTo := 0,
    hasZipFile := 0, hasSoundDictionaryName := 0, zipIndexBtreeMaxElements := 0,
    zipIndexRootOffset := 0 }

/-- The function `indexIsOldOrBad( indexFile, hasZipFile )`.  `readHeader` is
what `idx.readRecords( &header, sizeof( header ), 1 )` delivers from the opened
index file: `none` when the count it returns is not 1 (the header cannot be
read in full), `some header` otherwise. -/
def indexIsOldOrBad (btreeFormatVersion foldingVersion : Nat) (readHeader : Option IdxHeader)
    (hasZipFile : Bool) : Bool :=
  match readHeader with
  | none => true
  | some header =>
    header.signature != Signature ||
    header.formatVersion != CurrentFormatVersion btreeFormatVersion foldingVersion ||
    (header.hasZipFile != 0) != hasZipFile ||
    (hasZipFile && header.zipSupportVersion != CurrentZipSupportVersion)

/-! ### Reading and writing the index file -/

/-- The bytes `idx.write( (uint32_t) n )` and `addToBlock( &sz, sizeof( uint32_t ) )`
store for an integer converted to `uint32_t`, least significant byte first. -/
def writeU32 (n : Nat) : ByteString :=
  [toByte (n % 2 ^ 32), toByte (n % 2 ^ 32 / 2 ^ 8), toByte (n % 2 ^ 32 / 2 ^ 16),
    toByte (n % 2 ^ 32 / 2 ^ 24)]

/-- The statements `idx.read< uint32_t >()` and `memcpy( &x, p, sizeof( uint32_t ) )`
followed by `p += sizeof( uint32_t )`: the value read and the bytes that
remain, `none` when fewer than four bytes are left. -/
def readU32 : ByteString → Option (Nat × ByteString)
  | b0 :: b1 :: b2 :: b3 :: rest =>
    some (b0.val + 2 ^ 8 * b1.val + 2 ^ 16 * b2.val + 2 ^ 24 * b3.val, rest)
  | _ => none

/-- Reading `n` bytes: the bytes read and those that remain, `none` when fewer
than `n` are left. -/
def readBytes (n : Nat) (bs : ByteString) : Option (ByteString × ByteString) :=
  if n ≤ bs.length then some (bs.take n, bs.drop n) else none

/-- The name section the builder writes after the dummy header
(`makeDictionaries`, lines 1928-1939): the bytes written and the value of
`idxHeader.hasSoundDictionaryName`.  `dictionaryName` and `soundDictName` are
the UTF-8 names. -/
def writeNameSection (dictionaryName soundDictName : ByteString) : ByteString × Nat :=
  let out := writeU32 dictionaryName.length ++ dictionaryName
  if !soundDictName.isEmpty then
    (out ++ writeU32 soundDictName.length ++ soundDictName, 1)
  else
    (out, 0)

/-- What the constructor `DslDictionary::DslDictionary` reads after
`idx.seek( sizeof( idxHeader ) )` (lines 295-309) from the bytes that follow the
header: `dictionaryName`, `preferredSoundDictionary` and the bytes left
unread; `none` when a read runs past the end of the file (it throws). -/
def readNameSection (afterHeader : ByteString) :
    Option (ByteString × ByteString × ByteString) :=
  match readU32 afterHeader with
  | none => none
  | some (dNameSize, rest) =>
    match (if dNameSize > 0 then readBytes dNameSize rest else some ([], rest)) with
    | none => none
    | some (dictionaryName, rest) =>
      match readU32 rest with
      | none => none
      | some (sNameSize, rest) =>
        match (if sNameSize > 0 then readBytes sNameSize rest else some ([], rest)) with
        | none => none
        | some (preferredSoundDictionary, rest) =>
          some (dictionaryName, preferredSoundDictionary, rest)

/-! ### The abbreviation block -/

/-- A `map< string, string >`: its entries in the order of iteration, which is
the strictly increasing order of the keys. -/
abbrev StringMap := List (ByteString × ByteString)

/-- The entries are in strictly increasing key order, as the iteration of a
`std::map` delivers them. -/
def StringMap.Ordered (m : StringMap) : Prop := m.Pairwise fun a b => a.1 < b.1

/-- The assignment `abrv[ key ] = value` on a map. -/
def StringMap.assign : StringMap → ByteString → ByteString → StringMap
  | [], key, value => [(key, value)]
  | (k, v) :: rest, key, value =>
    if key < k then (key, value) :: (k, v) :: rest
    else if key = k then (key, value) :: rest
    else (k, v) :: StringMap.assign rest key value

/-- The entries of the abbreviation block, as the loop of lines 2019-2028
writes them: `sz` is the size converted to `uint32_t`, and `sz` bytes of the
string follow. -/
def writeAbrvEntries : StringMap → ByteString
  | [] => []
  | (k, v) :: rest =>
    writeU32 k.length ++ k.take (k.length % 2 ^ 32) ++
      writeU32 v.length ++ v.take (v.length % 2 ^ 32) ++ writeAbrvEntries rest

/-- The abbreviation block the builder adds to the chunk store (lines
2015-2028): the count, then the entries. -/
def writeAbrvBlock (abrv : StringMap) : ByteString :=
  writeU32 abrv.length ++ writeAbrvEntries abrv

/-- The loop `while( total-- )` of `doDeferredInit` (lines 402-419): the map
after `total` entries were read from `abrvBlock` and the bytes left unread;
`none` when the block is too short for what is read. -/
def readAbrvEntries : Nat → ByteString → StringMap → Option (StringMap × ByteString)
  | 0, abrvBlock, abrv => some (abrv, abrvBlock)
  | total + 1, abrvBlock, abrv =>
    match readU32 abrvBlock with
    | none => none
    | some (keySz, abrvBlock) =>
      match readBytes keySz abrvBlock with
      | none => none
      | some (key, abrvBlock) =>
        match readU32 abrvBlock with
        | none => none
        | some (valueSz, abrvBlock) =>
          match readBytes valueSz abrvBlock with
          | none => none
          | some (value, abrvBlock) =>
            readAbrvEntries total abrvBlock (abrv.assign key value)

/-- The abbreviation reader of `doDeferredInit` (lines 392-419) on the block
`chunks->getBlock( idxHeader.abrvAddress, chunk )`, starting from the empty
member `abrv`. -/
def readAbrvBlock (abrvBlock : ByteString) : Option (StringMap × ByteString) :=
  match readU32 abrvBlock with
  | none => none
  | some (total, abrvBlock) => readAbrvEntries total abrvBlock []

/-- A map with `2^32` entries: the `i`-th key is `i` zero bytes, every value
is empty. -/
def oversizedAbrv : StringMap :=
  (List.range (2 ^ 32)).map fun i => (List.replicate i (0 : Byte), [])

end Dsl

namespace Dsl

/-! ### Strings of code points

The members of `std::basic_string` the article code uses, on a `wstring`.
`npos` is `none`. -/

/-- The index of the first element that satisfies `p`. -/
def indexWhere (p : Nat → Bool) : wstring → Option Nat
  | [] => none
  | c :: rest => if p c then some 0 else (indexWhere p rest).map (· + 1)

/-- The member `s.find_first_of( chars, pos )`. -/
def findFirstOf (s : wstring) (chars : List Nat) (pos : Nat) : Option Nat :=
  (indexWhere (fun c => chars.contains c) (s.drop pos)).map (· + pos)

/-- The member `s.find( ch, pos )`. -/
def findChar (s : wstring) (ch : Nat) (pos : Nat) : Option Nat :=
  (indexWhere (fun c => c == ch) (s.drop pos)).map (· + pos)

/-- The construction `wstring( s, pos, n )` and the member `s.substr( pos, n )`. -/
def substr (s : wstring) (pos n : Nat) : wstring := (s.drop pos).take n

/-- The element `s[ i ]`, read inside the string. -/
def charAt (s : wstring) (i : Nat) : Nat := s.getD i 0

/-- The function `isDslWs`: space and tab only. -/
def isDslWs (ch : Nat) : Bool := ch == 32 || ch == 9

/-! ### The markup primitives

`loadArticle` and `makeDictionaries` call functions of `dsl_details` and
`folding` that are declared outside the sources at hand; they are parameters
of the embedding, each a total function of the values it is passed.  A
function that changes its argument in place returns the changed value. -/

/-- The markup and folding primitives used by the article code. -/
structure Prims where
  /-- The call `expandOptionalParts( str, &result )`: the string as the call leaves it
  and the list as the call leaves it, given the list it was passed. -/
  expandOptionalParts : wstring → List wstring → wstring × List wstring
  /-- The call `processUnsortedParts( str, strip )`. -/
  processUnsortedParts : wstring → Bool → wstring
  /-- The call `expandTildes( str, tildeReplacement )`. -/
  expandTildes : wstring → wstring → wstring
  /-- The call `unescapeDsl( str )`. -/
  unescapeDsl : wstring → wstring
  /-- The call `normalizeHeadword( str )`. -/
  normalizeHeadword : wstring → wstring
  /-- The call `isAtSignFirst( str )`. -/
  isAtSignFirst : wstring → Bool
  /-- The call `Folding::trimWhitespace( str )`. -/
  trimWhitespace : wstring → wstring
  /-- The call `Folding::applySimpleCaseOnly( str )`. -/
  applySimpleCaseOnly : wstring → wstring
  /-- The call `Folding::applyDiacriticsOnly( str )`. -/
  applyDiacriticsOnly : wstring → wstring
  /-- The call `Folding::applyWhitespaceOnly( str )`. -/
  applyWhitespaceOnly : wstring → wstring

/-! ### `DslDictionary::loadArticle` (lines 500-730) -/

/-- What `dict_data_read_` and the decoding that follows deliver to the header
walk of `loadArticle`. -/
inductive ArticleRead where
  /-- The call of `dict_data_read_` returned null; `dict_error_str( dz )` is the
  message, as a wide string. -/
  | failed (errorStr : wstring)
  /-- The article bytes were read, decoded with the stored encoding and
  stripped of comments. -/
  | decoded (text : wstring)

/-- The value of `articleData` when the header walk starts (lines 538-562):
the placeholder `U"\n\r\t" + "DICTZIP error: " + message` after a failed read,
the decoded text otherwise. -/
def articleDataOf : ArticleRead → wstring
  | .failed errorStr =>
    [10, 13, 9] ++ ("DICTZIP error: ".toList.map Char.toNat) ++ errorStr
  | .decoded text => text

/-- The variables of the header walk. -/
structure WalkState where
  pos : Nat
  hadFirstHeadword : Bool
  foundDisplayedHeadword : Bool
  headwordIndex : Nat
  tildeValue : wstring
  tildeValueWithUnsorted : wstring
  displayedHeadword : wstring
  deriving DecidableEq, Repr

/-- The loop `while( hpos != string::npos )` of lines 595-601 on `head`, run
for at most `fuel` rounds: the value of `hpos` when it ends. -/
def tildeScan (head : wstring) : Nat → Option Nat → Option Nat
  | 0, hpos => hpos
  | _ + 1, none => none
  | fuel + 1, some hpos =>
    if hpos == 0 || charAt head hpos != 92 then some hpos
    else tildeScan head fuel (findChar head 126 (hpos + 1))

/-- Lines 588-607: the headword of a line of an embedded card.  For a
non-empty line of an embedded card that starts with whitespace and holds an
`@`, the trimmed text after the `@`, or the empty string when the tilde scan
stops at a tilde. -/
def insidedHeadword (P : Prims) (insidedCard : Bool) (rawHeadword : wstring) : wstring :=
  if insidedCard && !rawHeadword.isEmpty && isDslWs (charAt rawHeadword 0) then
    match findChar rawHeadword 64 0 with
    | none => rawHeadword
    | some hpos =>
      let head := P.trimWhitespace (rawHeadword.drop (hpos + 1))
      match tildeScan head (head.length + 1) (findChar head 126 0) with
      | none => head
      | some _ => []
  else rawHeadword

/-- Lines 646-650: the test `found` for one expanded alternative `i`, after
`unescapeDsl( i )` and `normalizeHeadword( i )`. -/
def altMatches (P : Prims) (ignoreDiacritics : Bool) (requestedHeadwordFolded : wstring)
    (i : wstring) : Bool :=
  let i := P.normalizeHeadword (P.unescapeDsl i)
  if ignoreDiacritics then
    P.applyDiacriticsOnly (P.trimWhitespace i) == P.applyDiacriticsOnly requestedHeadwordFolded
  else
    P.trimWhitespace i == requestedHeadwordFolded

/-- Lines 582-673: the processing of one headword line `rawHeadword` while no
displayed headword is found yet.  The position is not touched. -/
def processHeadword (P : Prims) (insidedCard ignoreDiacritics : Bool)
    (requestedHeadwordFolded : wstring) (st : WalkState) (rawHeadword : wstring) : WalkState :=
  let rawHeadword := insidedHeadword P insidedCard rawHeadword
  if rawHeadword.isEmpty then st
  else
    -- We need our tilde expansion value
    let st :=
      if !st.hadFirstHeadword then
        let r := P.expandOptionalParts rawHeadword []
        let tildeValue := match r.2 with
          | [] => r.1
          | front :: _ => front
        { st with tildeValue := P.processUnsortedParts tildeValue false,
                  tildeValueWithUnsorted := tildeValue }
      else st
    let str := rawHeadword
    let str := if st.hadFirstHeadword then P.expandTildes str st.tildeValueWithUnsorted else str
    let str := P.processUnsortedParts str true
    let str := P.applySimpleCaseOnly str
    let lst := (P.expandOptionalParts str []).2
    if lst.any (altMatches P ignoreDiacritics requestedHeadwordFolded) then
      -- Found it. Now we should make a displayed headword for it.
      let rawHeadword :=
        if st.hadFirstHeadword then P.expandTildes rawHeadword st.tildeValueWithUnsorted
        else rawHeadword
      { st with displayedHeadword := P.processUnsortedParts rawHeadword false,
                foundDisplayedHeadword := true }
    else
      { st with headwordIndex := (st.headwordIndex + 1) % 2 ^ 32, hadFirstHeadword := true }

/-- Lines 695-713, at a position `pos` whose character is whitespace: whether
the walk ends there.  For a top-level article it does; for an embedded card
it goes on when the line holds an `@` that is the first character after the
whitespace and is not preceded by a backslash. -/
def stopsAtIndentedLine (P : Prims) (insidedCard : Bool) (articleData : wstring) (pos : Nat) :
    Bool :=
  if insidedCard then
    let hpos := (findFirstOf articleData [10, 13] pos).getD articleData.length
    let str := substr articleData pos (hpos - pos)
    match findChar str 64 0 with
    | none => true
    | some hpos => charAt str (hpos - 1) == 92 || !P.isAtSignFirst str
  else true

/-- Lines 676-713: from the end `pos` of the current line, the position the
walk moves to and whether the loop goes round again (`true`) or is left by a
`break` (`false`). -/
def advance (P : Prims) (insidedCard : Bool) (articleData : wstring) (pos : Nat) : Nat × Bool :=
  if pos == articleData.length then (pos, false)
  else
    -- Skip \n\r
    let pos := if charAt articleData pos == 13 then pos + 1 else pos
    let pos := if pos != articleData.length && charAt articleData pos == 10 then pos + 1 else pos
    if pos == articleData.length then (pos, false)
    else if isDslWs (charAt articleData pos) then
      (pos, !stopsAtIndentedLine P insidedCard articleData pos)
    else (pos, true)

/-- The loop `for( headwordIndex = 0; ; )` of lines 573-714, run for at most
`fuel` rounds: the variables when the loop is left, `none` when the fuel runs
out first. -/
def headerWalk (P : Prims) (insidedCard ignoreDiacritics : Bool)
    (requestedHeadwordFolded articleData : wstring) : Nat → WalkState → Option WalkState
  | 0, _ => none
  | fuel + 1, st =>
    let begin := st.pos
    let pos := (findFirstOf articleData [10, 13] begin).getD articleData.length
    let st :=
      if !st.foundDisplayedHeadword then
        processHeadword P insidedCard ignoreDiacritics requestedHeadwordFolded st
          (substr articleData begin (pos - begin))
      else st
    let next := advance P insidedCard articleData pos
    if next.2 then
      headerWalk P insidedCard ignoreDiacritics requestedHeadwordFolded articleData fuel
        { st with pos := next.1 }
    else some { st with pos := next.1 }

/-- The values `loadArticle` leaves in its reference parameters. -/
structure LoadResult where
  tildeValue : wstring
  displayedHeadword : wstring
  headwordIndex : Nat
  articleText : wstring
  /-- The local `foundDisplayedHeadword` when the function returns: a
  headword alternative matched the request. -/
  foundDisplayedHeadword : Bool
  /-- The local `insidedCard`: the article is an embedded card. -/
  insidedCard : Bool
  deriving DecidableEq, Repr

/-- How `loadArticle` can fail to return. -/
inductive LoadError where
  /-- The call `articleData.at( 0 )` throws `std::out_of_range`. -/
  | outOfRange
  /-- The rounds allowed to the header walk did not suffice. -/
  | outOfFuel
  deriving DecidableEq, Repr

/-- The function `DslDictionary::loadArticle` from line 565 on, given what was
read (lines 508-563) and the values the caller passed in `tildeValue` and
`displayedHeadword`.  The header walk is allowed one round per character of
the article and one more. -/
def loadArticle (P : Prims) (read : ArticleRead) (requestedHeadwordFolded : wstring)
    (ignoreDiacritics : Bool) (tildeValue displayedHeadword : wstring) :
    Except LoadError LoadResult :=
  let articleData := articleDataOf read
  match articleData with
  | [] => .error .outOfRange
  | first :: _ =>
    -- Check is we retrieve insided card
    let insidedCard := isDslWs first
    let start : WalkState :=
      { pos := 0, hadFirstHeadword := false, foundDisplayedHeadword := false,
        headwordIndex := 0, tildeValue := tildeValue, tildeValueWithUnsorted := [],
        displayedHeadword := displayedHeadword }
    match headerWalk P insidedCard ignoreDiacritics requestedHeadwordFolded articleData
        (articleData.length + 1) start with
    | none => .error .outOfFuel
    | some st =>
      let displayedHeadword :=
        if !st.foundDisplayedHeadword then
          -- use tilde expansion value (or requestedHeadwordFolded for insided card)
          if insidedCard then requestedHeadwordFolded else st.tildeValue
        else st.displayedHeadword
      .ok { tildeValue := st.tildeValue,
            displayedHeadword := displayedHeadword,
            headwordIndex := st.headwordIndex,
            articleText :=
              if st.pos != articleData.length then articleData.drop st.pos else [],
            foundDisplayedHeadword := st.foundDisplayedHeadword,
            insidedCard := insidedCard }

/-- Lines 1593-1624 of `DslArticleRequest::run`: the displayed headword of one
article of the chain for the requested `word`, after the special case of the
embedded card; `none` when `loadArticle` throws. -/
def requestDisplayedHeadword (P : Prims) (read : ArticleRead) (word : wstring)
    (ignoreDiacritics : Bool) : Option wstring :=
  let wordCaseFolded := P.applySimpleCaseOnly word
  match loadArticle P read wordCaseFolded ignoreDiacritics [] [] with
  | .error _ => none
  | .ok r =>
    if r.displayedHeadword.isEmpty || isDslWs (charAt r.displayedHeadword 0) then
      some word -- Special case - insided card
    else some r.displayedHeadword

/-- Code points of a string literal. -/
def ws (s : String) : wstring := s.toList.map Char.toNat

/-- Markup primitives as they act on plain text, that is, text without
parentheses, braces, brackets, backslashes, tildes and diacritics: nothing is
expanded or removed, whitespace is trimmed at both ends, simple case folding
maps the letters `A`..`Z` to `a`..`z`, and `isAtSignFirst` tells whether the
first character after spaces and tabs is `@`.  Used to run the article code
on such text. -/
def Prims.plain : Prims where
  expandOptionalParts := fun str result => (str, result ++ [str])
  processUnsortedParts := fun str _ => str
  expandTildes := fun str _ => str
  unescapeDsl := fun str => str
  normalizeHeadword := fun str => str
  isAtSignFirst := fun str => (str.dropWhile isDslWs).head? == some 64
  trimWhitespace := fun str =>
    ((str.dropWhile fun c => c == 32 || c == 9 || c == 10 || c == 13).reverse.dropWhile
      fun c => c == 32 || c == 9 || c == 10 || c == 13).reverse
  applySimpleCaseOnly := fun str => str.map fun c => if 65 ≤ c ∧ c ≤ 90 then c + 32 else c
  applyDiacriticsOnly := fun str => str
  applyWhitespaceOnly := fun str => str.filter fun c => !(c == 32 || c == 9 || c == 10 || c == 13)

/-! ### The body of an article, in the words of the specification -/

/-- A line starts at position `p` of the text, lines being separated by
`"\r\n"`, `"\r"` or `"\n"`: `p` is the start of the text, or follows a line
feed, or follows a carriage return that is not itself followed by a line
feed. -/
def isLineStart (text : wstring) (p : Nat) : Bool :=
  p == 0 || charAt text (p - 1) == 10 || (charAt text (p - 1) == 13 && charAt text p != 10)

/-- The start of the first line whose first character is a space or tab. -/
def firstIndentedLine (text : wstring) : Option Nat :=
  (List.range text.length).find? fun p => isLineStart text p && isDslWs (charAt text p)

/-- The suffix of the text that begins at the start of the first line whose
first character is a space or tab; empty if no line starts so. -/
def bodyOf (text : wstring) : wstring :=
  match firstIndentedLine text with
  | some p => text.drop p
  | none => []

end Dsl

namespace Dsl

/-! ### The header walk of `DslDictionary::getArticleText` (lines 1291-1397) -/

/-- The variables of the header walk of `getArticleText`. -/
structure TextWalk where
  pos : Nat
  articleHeadword : wstring
  tildeValue : wstring
  deriving DecidableEq, Repr

/-- How the header walk of `getArticleText` can fail to deliver. -/
inductive TextFault where
  /-- The call `articleData.at( 0 )` throws `std::out_of_range`. -/
  | outOfRange
  /-- The element `articleData[ pos ]` is read with `pos` equal to `npos`,
  outside the string. -/
  | readAtNpos
  /-- The rounds allowed to the walk did not suffice. -/
  | outOfFuel
  deriving DecidableEq, Repr

/-- Lines 1305-1342: the processing of the line `articleHeadword` while no
headword is kept yet.  Lines 1309-1329 are lines 588-607 of `loadArticle`
again, embedded as `insidedHeadword`. -/
def textHeadword (P : Prims) (insidedCard : Bool) (st : TextWalk) (articleHeadword : wstring) :
    TextWalk :=
  let articleHeadword := insidedHeadword P insidedCard articleHeadword
  if !articleHeadword.isEmpty then
    let tildeValue := articleHeadword
    let articleHeadword := P.processUnsortedParts articleHeadword true
    let r := P.expandOptionalParts articleHeadword []
    let articleHeadword := match r.2 with
      | [] => r.1
      | front :: _ => front
    { st with articleHeadword := articleHeadword, tildeValue := tildeValue }
  else { st with articleHeadword := articleHeadword }

/-- The loop `for( ; ; )` of lines 1298-1385, run for at most `fuel` rounds.
The result of `find_first_of` is kept as it is returned, `none` being `npos`:
the count `pos - begin` of line 1309 then exceeds the rest of the string, the
test `pos == articleData.size()` of line 1346 fails, and line 1351 reads
`articleData[ pos ]`.  Lines 1346-1384 are lines 676-713 of `loadArticle`
again, embedded as `advance`. -/
def textWalk (P : Prims) (insidedCard : Bool) (articleData : wstring) :
    Nat → TextWalk → Except TextFault TextWalk
  | 0, _ => .error .outOfFuel
  | fuel + 1, st =>
    let begin := st.pos
    let pos := findFirstOf articleData [10, 13] begin
    let st :=
      if st.articleHeadword.isEmpty then
        -- Process the headword
        textHeadword P insidedCard st
          (match pos with
            | some pos => substr articleData begin (pos - begin)
            | none => articleData.drop begin)
      else st
    match pos with
    | none => .error .readAtNpos
    | some pos =>
      let next := advance P insidedCard articleData pos
      if next.2 then textWalk P insidedCard articleData fuel { st with pos := next.1 }
      else .ok { st with pos := next.1 }

/-- What the header walk of `getArticleText` delivers: the headword kept and
the text of the article after the headwords. -/
structure TextHeader where
  articleHeadword : wstring
  tildeValue : wstring
  articleText : wstring
  deriving DecidableEq, Repr

/-- Lines 1291-1397 of `getArticleText`, on the decoded article stripped of
comments.  The walk is allowed one round per character of the article and
one more. -/
def articleTextHeader (P : Prims) (articleData : wstring) : Except TextFault TextHeader :=
  match articleData with
  | [] => .error .outOfRange
  | first :: _ =>
    -- Check if we retrieve insided card
    let insidedCard := isDslWs first
    match textWalk P insidedCard articleData (articleData.length + 1)
        { pos := 0, articleHeadword := [], tildeValue := [] } with
    | .error e => .error e
    | .ok st =>
      .ok { articleHeadword :=
              if !st.articleHeadword.isEmpty then
                P.normalizeHeadword (P.unescapeDsl st.articleHeadword)
              else st.articleHeadword,
            tildeValue := st.tildeValue,
            articleText :=
              if st.pos != articleData.length then articleData.drop st.pos else [] }

end Dsl
namespace Dsl

/-! ### `loadArticle` with every index checked

The article code reads elements with `s[ i ]`, which is only defined for an
index inside the string, and builds substrings from a position, which throws
when the position exceeds the size.  Here the header walk is embedded once
more with these indexes and positions checked: `none` is an index outside
the string or a position beyond its size. -/

/-- The element `s[ i ]`, `none` when `i` is not below the size. -/
def readAt (s : wstring) (i : Nat) : Option Nat := s[i]?

/-- The loop of lines 595-601 with the read `head[ hpos ]` checked. -/
def tildeScanChecked (head : wstring) : Nat → Option Nat → Option (Option Nat)
  | 0, hpos => some hpos
  | _ + 1, none => some none
  | fuel + 1, some hpos =>
    if hpos == 0 then some (some hpos)
    else
      (readAt head hpos).bind fun c =>
        if c != 92 then some (some hpos)
        else tildeScanChecked head fuel (findChar head 126 (hpos + 1))

/-- Lines 588-607 with the reads `rawHeadword[ 0 ]` and `head[ hpos ]` and the
position of `rawHeadword.substr( hpos + 1 )` checked. -/
def insidedHeadwordChecked (P : Prims) (insidedCard : Bool) (rawHeadword : wstring) :
    Option wstring :=
  if insidedCard && !rawHeadword.isEmpty then
    (readAt rawHeadword 0).bind fun c =>
      if isDslWs c then
        match findChar rawHeadword 64 0 with
        | none => some rawHeadword
        | some hpos =>
          if hpos + 1 ≤ rawHeadword.length then
            let head := P.trimWhitespace (rawHeadword.drop (hpos + 1))
            (tildeScanChecked head (head.length + 1) (findChar head 126 0)).map fun r =>
              match r with
              | none => head
              | some _ => []
          else none
      else some rawHeadword
  else some rawHeadword

/-- Lines 695-713 with the position of `wstring( articleData, pos, hpos - pos )`
and the read `str[ hpos - 1 ]` checked; the index `hpos - 1` is outside the
string when `hpos` is zero. -/
def stopsAtIndentedLineChecked (P : Prims) (insidedCard : Bool) (articleData : wstring)
    (pos : Nat) : Option Bool :=
  if insidedCard then
    let hpos := (findFirstOf articleData [10, 13] pos).getD articleData.length
    if pos ≤ articleData.length then
      let str := substr articleData pos (hpos - pos)
      match findChar str 64 0 with
      | none => some true
      | some hpos =>
        if 1 ≤ hpos then
          (readAt str (hpos - 1)).map fun c => c == 92 || !P.isAtSignFirst str
        else none
    else none
  else some true

/-- Lines 676-713 with the reads `articleData[ pos ]` checked. -/
def advanceChecked (P : Prims) (insidedCard : Bool) (articleData : wstring) (pos : Nat) :
    Option (Nat × Bool) :=
  if pos == articleData.length then some (pos, false)
  else
    -- Skip \n\r
    (readAt articleData pos).bind fun c =>
      let pos := if c == 13 then pos + 1 else pos
      (if pos != articleData.length then
          (readAt articleData pos).map fun c => if c == 10 then pos + 1 else pos
        else some pos).bind fun pos =>
        if pos == articleData.length then some (pos, false)
        else
          (readAt articleData pos).bind fun c =>
            if isDslWs c then
              (stopsAtIndentedLineChecked P insidedCard articleData pos).map fun stops =>
                (pos, !stops)
            else some (pos, true)

/-- How the checked header walk can fail to deliver. -/
inductive WalkFault where
  /-- An element is read outside its string, or a substring is built from a
  position beyond the size. -/
  | outside
  /-- The rounds allowed to the walk did not suffice. -/
  | outOfFuel
  deriving DecidableEq, Repr

/-- The loop of lines 573-714 with the position of
`wstring( articleData, begin, pos - begin )` and the reads of the lines it
runs checked.  The processing of the headword (lines 582-673) reads elements
in lines 588-607 only. -/
def headerWalkChecked (P : Prims) (insidedCard ignoreDiacritics : Bool)
    (requestedHeadwordFolded articleData : wstring) : Nat → WalkState → Except WalkFault WalkState
  | 0, _ => .error .outOfFuel
  | fuel + 1, st =>
    let begin := st.pos
    let pos := (findFirstOf articleData [10, 13] begin).getD articleData.length
    let processed : Option WalkState :=
      if !st.foundDisplayedHeadword then
        if begin ≤ articleData.length then
          (insidedHeadwordChecked P insidedCard (substr articleData begin (pos - begin))).map
            fun _ =>
              processHeadword P insidedCard ignoreDiacritics requestedHeadwordFolded st
                (substr articleData begin (pos - begin))
        else none
      else some st
    match processed with
    | none => .error .outside
    | some st =>
      match advanceChecked P insidedCard articleData pos with
      | none => .error .outside
      | some next =>
        if next.2 then
          headerWalkChecked P insidedCard ignoreDiacritics requestedHeadwordFolded articleData
            fuel { st with pos := next.1 }
        else .ok { st with pos := next.1 }

/-- How the checked `loadArticle` can fail to return. -/
inductive LoadFault where
  /-- The call `articleData.at( 0 )` throws `std::out_of_range`. -/
  | outOfRange
  /-- An element is read outside its string, or a substring is built from a
  position beyond the size. -/
  | outside
  /-- The rounds allowed to the header walk did not suffice. -/
  | outOfFuel
  deriving DecidableEq, Repr

/-- The function `loadArticle` from line 565 on with the checked header walk;
the position of `wstring( articleData, pos )` of line 727 is checked too. -/
def loadArticleChecked (P : Prims) (read : ArticleRead) (requestedHeadwordFolded : wstring)
    (ignoreDiacritics : Bool) (tildeValue displayedHeadword : wstring) :
    Except LoadFault LoadResult :=
  let articleData := articleDataOf read
  match articleData with
  | [] => .error .outOfRange
  | first :: _ =>
    let insidedCard := isDslWs first
    let start : WalkState :=
      { pos := 0, hadFirstHeadword := false, foundDisplayedHeadword := false,
        headwordIndex := 0, tildeValue := tildeValue, tildeValueWithUnsorted := [],
        displayedHeadword := displayedHeadword }
    match headerWalkChecked P insidedCard ignoreDiacritics requestedHeadwordFolded articleData
        (articleData.length + 1) start with
    | .error .outOfFuel => .error .outOfFuel
    | .error .outside => .error .outside
    | .ok st =>
      if st.pos ≤ articleData.length then
        let displayedHeadword :=
          if !st.foundDisplayedHeadword then
            if insidedCard then requestedHeadwordFolded else st.tildeValue
          else st.displayedHeadword
        .ok { tildeValue := st.tildeValue,
              displayedHeadword := displayedHeadword,
              headwordIndex := st.headwordIndex,
              articleText :=
                if st.pos != articleData.length then articleData.drop st.pos else [],
              foundDisplayedHeadword := st.foundDisplayedHeadword,
              insidedCard := insidedCard }
      else .error .outside

end Dsl
namespace Dsl

/-! ### The article scan of `makeDictionaries` (lines 2037-2262)

The scanner `DslScanner` is declared outside the sources at hand.  The scan
is embedded as a machine that is fed the lines the scanner delivers, one
line a step: its state holds the variables of `makeDictionaries` that live
across a read, and the place of the next read (the main loop at line 2047,
the headword loop at line 2087 or the body loop at line 2142).  Variables
that only feed warnings (`dogLine`, `wasEmptyLine`, `headwordLine`, and
`noSignificantLines` after its use at line 2137) are left out. -/

/-- A line the scanner delivers: `curString` and `curOffset` after a call of
`readNextLineWithoutComments` that returned true. -/
structure Line where
  text : wstring
  offset : Nat
  deriving DecidableEq, Repr

/-- The record `InsidedCard`. -/
structure InsidedCard where
  offset : Nat
  size : Nat
  headwords : List wstring
  deriving DecidableEq, Repr

/-- Conversion of a `size_t` to `uint32_t`. -/
def toU32 (n : Nat) : Nat := n % 2 ^ 32

/-- The difference `curOffset - offset` of a `size_t` and a `uint32_t`, stored
in a `uint32_t`. -/
def subU32 (curOffset offset : Nat) : Nat :=
  (((curOffset : Int) - (offset : Int)) % (2 ^ 32 : Int)).toNat

/-- The blocks of a `ChunkedStorage::Writer`, newest first, each block the
`uint32_t` values added to it.  The address `startNewBlock` returns is stood
for by the number of blocks that exist when it is called. -/
abbrev Chunks := List (List Nat)

/-- The call `chunks.startNewBlock()`: the store with a new empty block, and
the address of that block. -/
def Chunks.startNewBlock (chunks : Chunks) : Chunks × Nat := ([] :: chunks, chunks.length)

/-- The call `chunks.addToBlock( &x, sizeof( uint32_t ) )`: `x` is added to the
block started last. -/
def Chunks.addToBlock : Chunks → Nat → Chunks
  | [], _ => []
  | block :: chunks, x => (block ++ [x]) :: chunks

/-- The variables of the body loop (lines 2127-2134). -/
structure BodyVars where
  /-- The list `allEntryWords`, as the loop of lines 2118-2122 left it. -/
  allEntryWords : List wstring
  articleOffset : Nat
  insideInsided : Bool
  insidedCards : List InsidedCard
  offset : Nat
  insidedHeadwords : List wstring
  linesInsideCard : Nat
  deriving DecidableEq, Repr

/-- Where the scan reads its next line. -/
inductive Phase where
  /-- The main loop, line 2047, with `hasString` false. -/
  | main
  /-- The headword loop, line 2087, with `allEntryWords` and `articleOffset`. -/
  | headwords (allEntryWords : List wstring) (articleOffset : Nat)
  /-- The body loop, line 2142, with `haveLine` false. -/
  | body (v : BodyVars)
  deriving DecidableEq, Repr

/-- An article the scan has finished: the contents of its chunk block and the
embedded cards recorded for it.  The code keeps no such list; it is kept
here to state properties of the scan. -/
structure ArticleRecord where
  articleOffset : Nat
  articleSize : Nat
  insidedCards : List InsidedCard
  deriving DecidableEq, Repr

/-- The state of the scan. -/
structure Scan where
  chunks : Chunks
  /-- The calls `indexedWords.addWord( word, offset, maxHeadwordSize )` made so
  far, oldest first: the word and the block address passed. -/
  addedWords : List (wstring × Nat)
  articleCount : Nat
  wordCount : Nat
  /-- The articles finished so far, oldest first. -/
  articles : List ArticleRecord
  phase : Phase
  deriving DecidableEq, Repr

/-- The loop of lines 2118-2122 (and 2249-2253): every word is unescaped and
normalized in place. -/
def normalizedWords (P : Prims) (allEntryWords : List wstring) : List wstring :=
  allEntryWords.map fun w => P.normalizeHeadword (P.unescapeDsl w)

/-- The element `allEntryWords.front()`, read from a list that is not
empty. -/
def front (allEntryWords : List wstring) : wstring := allEntryWords.headD []

/-- Lines 2240-2258 for one embedded card: its block is created and its
headwords are indexed. -/
def indexCard (P : Prims) (s : Scan) (insidedCard : InsidedCard) : Scan :=
  let (chunks, desc_offset) := s.chunks.startNewBlock
  let chunks := chunks.addToBlock insidedCard.offset
  let chunks := chunks.addToBlock insidedCard.size
  let s := { s with chunks := chunks }
  let s := insidedCard.headwords.foldl
    (fun (s : Scan) hw =>
      let allEntryWords := normalizedWords P (P.expandOptionalParts hw []).2
      { s with addedWords := s.addedWords ++ allEntryWords.map fun w => (w, desc_offset),
               wordCount := toU32 (s.wordCount + allEntryWords.length) })
    s
  { s with articleCount := toU32 (s.articleCount + 1) }

/-- Lines 2145-2156 and 2236-2258: the body loop is left with `curOffset` the
offset of the line that ended the article (or of the end of the file); an
embedded card still open is recorded, the size of the article is added to
its block, and the embedded cards are indexed. -/
def finishArticle (P : Prims) (s : Scan) (v : BodyVars) (curOffset : Nat) : Scan :=
  let insidedCards :=
    if v.insideInsided then
      v.insidedCards ++ [⟨v.offset, subU32 curOffset v.offset, v.insidedHeadwords⟩]
    else v.insidedCards
  let articleSize := subU32 curOffset v.articleOffset
  let s := { s with chunks := s.chunks.addToBlock articleSize }
  let s := insidedCards.foldl (indexCard P) s
  { s with articles := s.articles ++ [⟨v.articleOffset, articleSize, insidedCards⟩],
           phase := .main }

/-- Lines 2171-2229: the variables of the body loop after a line of the body
that is not empty. -/
def bodyStep (P : Prims) (v : BodyVars) (line : Line) : BodyVars :=
  let counted : BodyVars :=
    if v.insideInsided then { v with linesInsideCard := toU32 (v.linesInsideCard + 1) } else v
  -- Find embedded cards
  match findChar line.text 64 0 with
  | none => counted
  | some n =>
    if charAt line.text (n - 1) == 92 then counted
    else if !P.isAtSignFirst line.text then counted
    else
      -- Handle embedded card
      let v : BodyVars :=
        if v.insideInsided then
          if v.linesInsideCard != 0 then
            { v with insidedCards := v.insidedCards ++
                       [⟨v.offset, subU32 line.offset v.offset, v.insidedHeadwords⟩],
                     insidedHeadwords := [],
                     linesInsideCard := 0,
                     offset := toU32 line.offset }
          else v
        else { v with offset := toU32 line.offset, linesInsideCard := 0 }
      let headword := P.trimWhitespace (line.text.drop (n + 1))
      if !headword.isEmpty then
        let headword := P.expandTildes (P.processUnsortedParts headword true)
          (front v.allEntryWords)
        { v with insidedHeadwords := v.insidedHeadwords ++ [headword], insideInsided := true }
      else { v with insideInsided := false }

/-- Lines 2158-2229: a line of the body, empty or starting with whitespace.
An empty line changes nothing. -/
def bodyLine (P : Prims) (s : Scan) (v : BodyVars) (line : Line) : Scan :=
  if line.text.isEmpty then s else { s with phase := .body (bodyStep P v line) }

/-- Lines 2112-2138: the headword loop was left at `line`, which starts with
whitespace.  The article gets its block and its index entries; the line is
the first line of the body when it has a character that is not whitespace. -/
def beginArticle (P : Prims) (s : Scan) (allEntryWords : List wstring) (articleOffset : Nat)
    (line : Line) : Scan :=
  -- Insert new entry
  let (chunks, descOffset) := s.chunks.startNewBlock
  let chunks := chunks.addToBlock articleOffset
  let allEntryWords := normalizedWords P allEntryWords
  let s := { s with chunks := chunks,
                    addedWords := s.addedWords ++ allEntryWords.map fun w => (w, descOffset),
                    articleCount := toU32 (s.articleCount + 1),
                    wordCount := toU32 (s.wordCount + allEntryWords.length) }
  let v : BodyVars :=
    { allEntryWords := allEntryWords, articleOffset := articleOffset, insideInsided := false,
      insidedCards := [], offset := toU32 line.offset, insidedHeadwords := [],
      linesInsideCard := 0 }
  let noSignificantLines := (P.applyWhitespaceOnly line.text).isEmpty
  let haveLine := !noSignificantLines
  if haveLine then bodyLine P { s with phase := .body v } v line
  else { s with phase := .body v }

/-- Lines 2052-2079: `line` is taken for the main headword of an article
unless it is empty, longer than 100 characters or starts with whitespace. -/
def mainLine (P : Prims) (s : Scan) (line : Line) : Scan :=
  if line.text.isEmpty || line.text.length > 100 then { s with phase := .main }
  else if isDslWs (charAt line.text 0) then { s with phase := .main }
  else
    -- Ok, got the headword
    let allEntryWords := (P.expandOptionalParts (P.processUnsortedParts line.text true) []).2
    { s with phase := .headwords allEntryWords (toU32 line.offset) }

/-- One line delivered by the scanner.  `skipped` tells which lines a read in
headword mode (third argument true, line 2047) passes over. -/
def scanLine (P : Prims) (skipped : wstring → Bool) (s : Scan) (line : Line) : Scan :=
  match s.phase with
  | .main => if skipped line.text then s else mainLine P s line
  | .headwords allEntryWords articleOffset =>
    -- Lingvo skips empty strings between the headwords
    if line.text.isEmpty then s
    else if isDslWs (charAt line.text 0) then beginArticle P s allEntryWords articleOffset line
    else
      let curString := P.expandTildes (P.processUnsortedParts line.text true)
        (front allEntryWords)
      { s with phase := .headwords (P.expandOptionalParts curString allEntryWords).2
                 articleOffset }
  | .body v =>
    if !line.text.isEmpty && !isDslWs (charAt line.text 0) then
      mainLine P (finishArticle P s v line.offset) line
    else bodyLine P s v line

/-- The end of the file: a read returns false with `curOffset` the offset of
the end.  The main loop ends cleanly, the headword loop drops its headwords
(premature end of file), the body loop finishes its article. -/
def scanEnd (P : Prims) (s : Scan) (eofOffset : Nat) : Scan :=
  match s.phase with
  | .main => s
  | .headwords _ _ => { s with phase := .main }
  | .body v => finishArticle P s v eofOffset

/-- The article scan of `makeDictionaries` (lines 2037-2262) over the lines
the scanner delivers, starting with the chunk store as the abbreviation part
left it; the counts it ends with are the ones written to the header (lines
2316-2317). -/
def scanArticles (P : Prims) (skipped : wstring → Bool) (chunks : Chunks) (lines : List Line)
    (eofOffset : Nat) : Scan :=
  scanEnd P
    (lines.foldl (scanLine P skipped)
      { chunks := chunks, addedWords := [], articleCount := 0, wordCount := 0, articles := [],
        phase := .main })
    eofOffset

/-- The number of embedded cards recorded for the articles finished. -/
def recordedCards (s : Scan) : Nat := (s.articles.map fun a => a.insidedCards.length).sum

end Dsl

namespace Dsl

/-! ### Counting what the scan indexed -/

/-- One if an article is open (the scan is in the body loop), else zero. -/
def openArticles (s : Scan) : Nat :=
  match s.phase with
  | .body _ => 1
  | _ => 0

/-- What the scan maintains: with `base` blocks in the store at the start,
the article count is, modulo `2^32`, the number of articles finished or open
plus the number of embedded cards recorded, and that number of blocks was
created. -/
def CountInv (base : Nat) (s : Scan) : Prop :=
  s.articleCount = (s.articles.length + recordedCards s + openArticles s) % 2 ^ 32 ∧
  s.chunks.length = base + s.articles.length + recordedCards s + openArticles s

/-- The chunk blocks of the articles finished, oldest first: for each
article its block `(articleOffset, articleSize)`, then a block `(offset,
size)` for each of its embedded cards. -/
def blocksOf (articles : List ArticleRecord) : List (List Nat) :=
  articles.flatMap fun a =>
    [a.articleOffset, a.articleSize] :: a.insidedCards.map fun c => [c.offset, c.size]

/-- The block of the article that is open, holding its offset only: the
scan is in the body loop. -/
def openBlock (s : Scan) : List (List Nat) :=
  match s.phase with
  | .body v => [[v.articleOffset]]
  | _ => []

/-- What the scan maintains of the chunk store (newest block first): the
block of the open article, the blocks of the articles finished, and the
blocks `base` the store held at the start. -/
def ChunkInv (base : Chunks) (s : Scan) : Prop :=
  s.chunks = openBlock s ++ (blocksOf s.articles).reverse ++ base

/-- A source of `n` articles, the `i`-th being the headword line `a` at
offset `5 * i` and the body line `"\tb"` at offset `5 * i + 2`. -/
def articlesSource (n : Nat) : List Line :=
  (List.range n).flatMap fun i => [⟨ws "a", 5 * i⟩, ⟨ws "\tb", 5 * i + 2⟩]

/-- A scanner that in headword mode passes over the lines that are empty or
start with a space or tab. -/
def skipsBlank (text : wstring) : Bool := text.isEmpty || isDslWs (charAt text 0)

/-- The state of the scan between two articles of `articlesSource`: `n`
articles are finished or open, no embedded card is recorded or open. -/
def BetweenArticles (n : Nat) (s : Scan) : Prop :=
  s.articles.length + openArticles s = n ∧ recordedCards s = 0 ∧
    (s.phase = .main ∨
      ∃ v, s.phase = .body v ∧ v.insideInsided = false ∧ v.insidedCards = [])

end Dsl

namespace Dsl

/-! ### The parent articles of a source, read off its lines

An article is a headword line, the lines after it that are not indented,
and a body that the first indented line begins.  The count below follows the
lines with no more than the place of the reader: between articles, among the
headwords of one, or in a body. -/

/-- Where a line is met. -/
inductive Place where
  /-- Between two articles, or before the first. -/
  | between
  /-- Among the headword lines of an article. -/
  | headwords
  /-- In the body of an article. -/
  | body
  deriving DecidableEq, Repr

/-- A line starts with a space or tab. -/
def indented (text : wstring) : Bool := !text.isEmpty && isDslWs (charAt text 0)

/-- A line is taken for the first headword of an article: it is not empty,
has at most 100 characters and is not indented. -/
def startsArticle (text : wstring) : Bool :=
  !text.isEmpty && decide (text.length ≤ 100) && !isDslWs (charAt text 0)

/-- The place after a line, and one when the line is the first indented line
after the headwords of an article, which is then indexed.  Between articles
a line the scanner passes over counts for nothing; among the headwords an
empty line is skipped and every other line that is not indented is a
further headword; a line of a body that is neither empty nor indented ends
the article. -/
def placeStep (skipped : wstring → Bool) : Place → wstring → Place × Nat
  | .between, text =>
    if skipped text then (.between, 0)
    else if startsArticle text then (.headwords, 0) else (.between, 0)
  | .headwords, text => if indented text then (.body, 1) else (.headwords, 0)
  | .body, text =>
    if text.isEmpty || indented text then (.body, 0)
    else if startsArticle text then (.headwords, 0) else (.between, 0)

/-- The place reached and the articles counted over the lines, from a place
and a count. -/
def countArticles (skipped : wstring → Bool) (lines : List Line) (start : Place × Nat) :
    Place × Nat :=
  lines.foldl
    (fun acc line => ((placeStep skipped acc.1 line.text).1,
      acc.2 + (placeStep skipped acc.1 line.text).2))
    start

/-- The number of parent articles of a source: the headword groups that are
followed by an indented line. -/
def parentArticles (skipped : wstring → Bool) (lines : List Line) : Nat :=
  (countArticles skipped lines (.between, 0)).2

/-- The place of the scan. -/
def placeOf : Phase → Place
  | .main => .between
  | .headwords _ _ => .headwords
  | .body _ => .body

/-- A source of one headword line `a` followed by an empty line. -/
def loneHeadwordSource : List Line := [⟨ws "a", 0⟩, ⟨[], 2⟩]

end Dsl
namespace Dsl

/-! ### The word count of the scan and what `addWord` keeps -/

/-- Modelled from the spec: `IndexedWords::addWord( word, offset,
maxHeadwordSize )` is declared outside the sources at hand.  The specification
says that headword keys exceeding the configured maximum are silently
dropped: the call inserts nothing for a word longer than `maxHeadwordSize`. -/
def addWordDrops (maxHeadwordSize : Nat) (word : wstring) : Bool :=
  decide (maxHeadwordSize < word.length)

/-- The calls of `addWord` that were not dropped: the headword entries that
reach the B-tree. -/
def insertedWords (maxHeadwordSize : Nat) (s : Scan) : List (wstring × Nat) :=
  s.addedWords.filter fun entry => !addWordDrops maxHeadwordSize entry.1

/-- What the scan maintains of the word count: it is, modulo `2^32`, the
number of calls of `addWord` made so far. -/
def WordInv (s : Scan) : Prop := s.wordCount = s.addedWords.length % 2 ^ 32

/-- A source of one article with the headword `a`, the alternative headword
`bcd` and the body line `"\tx"`. -/
def longAltSource : List Line := [⟨ws "a", 0⟩, ⟨ws "bcd", 2⟩, ⟨ws "\tx", 6⟩]

end Dsl
namespace Dsl

/-! ### The abbreviation part of `makeDictionaries` (lines 1949-2035)

The scanner of the abbreviation file is declared outside the sources at
hand.  It is embedded by the lines it delivers, as for the article scan, and
by the two places where it can raise: its construction and a read. -/

/-- The abbreviation file as `makeDictionaries` meets it. -/
inductive AbrvFile where
  /-- No abbreviation file was found: `abrvFileName` is empty. -/
  | absent
  /-- The construction `DslScanner abrvScanner( abrvFileName )` raises. -/
  | unreadable
  /-- The scanner delivers `lines`; the read that follows the last of them
  returns false, or raises when `readRaises` is true. -/
  | opened (lines : List Line) (readRaises : Bool)
  deriving DecidableEq, Repr

/-- Where the loop of line 1960 reads its next line. -/
inductive AbrvPhase where
  /-- The read of line 1963, in headword mode. -/
  | outer
  /-- The read of line 1982, with the keys collected so far. -/
  | keys (keys : List wstring)
  /-- The loop was left at line 1994, `eof` being set by an empty line
  (line 1982). -/
  | ended
  deriving DecidableEq, Repr

/-- The state of the loop of line 1960: the map `abrv` and the place of the
next read. -/
structure AbrvScan where
  abrv : StringMap
  phase : AbrvPhase
  deriving DecidableEq, Repr

/-- Lines 1975-1980: a key line is processed and its expansions are added to
`keys`. -/
def addKeys (P : Prims) (keys : List wstring) (curString : wstring) : List wstring :=
  let curString := P.processUnsortedParts curString true
  let curString := if !keys.isEmpty then P.expandTildes curString (front keys) else curString
  (P.expandOptionalParts curString keys).2

/-- Lines 1996-2009: the definition line gives the value of every key
collected.  `renderAsText` is the expression
`ArticleDom( curString ).root.renderAsText()`, which strips the markup. -/
def defineKeys (P : Prims) (renderAsText : wstring → wstring) (abrv : StringMap)
    (keys : List wstring) (curString : wstring) : StringMap :=
  let curString := curString.dropWhile isDslWs
  let curString := if !keys.isEmpty then P.expandTildes curString (front keys) else curString
  -- If the string has any dsl markup, we strip it
  let value := Utf8.encode (renderAsText curString)
  keys.foldl
    (fun abrv key =>
      abrv.assign
        (Utf8.encode (P.trimWhitespace (P.normalizeHeadword (P.unescapeDsl key)))) value)
    abrv

/-- One line delivered by the scanner of the abbreviation file. -/
def abrvLine (P : Prims) (renderAsText : wstring → wstring) (skipped : wstring → Bool)
    (s : AbrvScan) (line : Line) : AbrvScan :=
  match s.phase with
  | .ended => s
  | .outer =>
    -- Skip any whitespace
    if skipped line.text then s
    else if line.text.isEmpty || isDslWs (charAt line.text 0) then s
    else { s with phase := .keys (addKeys P [] line.text) }
  | .keys keys =>
    if line.text.isEmpty then { s with phase := .ended }
    else if isDslWs (charAt line.text 0) then
      { abrv := defineKeys P renderAsText s.abrv keys line.text, phase := .outer }
    else { s with phase := .keys (addKeys P keys line.text) }

/-- What the abbreviation part leaves behind. -/
structure AbrvResult where
  /-- The header field `hasAbrv`. -/
  hasAbrv : Nat
  /-- The map `abrv` when the loop of line 1960 was left; empty when it was
  not reached. -/
  abrv : StringMap
  /-- The bytes added to the block started at line 2013, when it was
  started. -/
  abrvBlock : Option ByteString
  deriving DecidableEq, Repr

/-- Lines 1949-2035.  The header was zeroed at line 1921, so `hasAbrv` is 0
unless line 2012 is reached; an exception is caught at line 2030. -/
def readAbbreviations (P : Prims) (renderAsText : wstring → wstring)
    (skipped : wstring → Bool) : AbrvFile → AbrvResult
  | .absent => { hasAbrv := 0, abrv := [], abrvBlock := none }
  | .unreadable => { hasAbrv := 0, abrv := [], abrvBlock := none }
  | .opened lines readRaises =>
    let s := lines.foldl (abrvLine P renderAsText skipped) { abrv := [], phase := .outer }
    if readRaises && s.phase != .ended then
      { hasAbrv := 0, abrv := s.abrv, abrvBlock := none }
    else { hasAbrv := 1, abrv := s.abrv, abrvBlock := some (writeAbrvBlock s.abrv) }

/-- An abbreviation file with the one entry `a` / `"\tb"`. -/
def oneAbrvSource : List Line := [⟨ws "a", 0⟩, ⟨ws "\tb", 2⟩]

end Dsl
namespace Dsl

/-! ### Embedded cards, in the words of the specification

The body loop of `makeDictionaries` tells three kinds of non-empty lines
apart (lines 2176-2229).  The cards the specification describes are defined
over these kinds, by runs of `@` headword lines; the cards the loop records
are compared with them. -/

/-- What a non-empty line of a body is to the search for embedded cards. -/
inductive BodyKind where
  /-- A line of body text: it has no `@`, or its first `@` follows a
  backslash, or is not the first character after the blanks. -/
  | text
  /-- An `@` headword line, with the headword it carries. -/
  | headword (headword : wstring)
  /-- An `@` line without headword, which closes a card. -/
  | closing
  deriving DecidableEq, Repr

/-- The kind of a line, by the tests of lines 2176-2221; the headword is
processed as at lines 2223-2224. -/
def bodyKind (P : Prims) (allEntryWords : List wstring) (text : wstring) : BodyKind :=
  match findChar text 64 0 with
  | none => .text
  | some n =>
    if charAt text (n - 1) == 92 then .text
    else if !P.isAtSignFirst text then .text
    else
      let headword := P.trimWhitespace (text.drop (n + 1))
      if !headword.isEmpty then
        .headword (P.expandTildes (P.processUnsortedParts headword true) (front allEntryWords))
      else .closing

/-- An embedded card as the specification describes it: the headwords of a
run of `@` headword lines, the source offset of the first line of the run,
and the source offset of the line that closes the card. -/
structure CardSpan where
  offset : Nat
  closeOffset : Nat
  headwords : List wstring
  deriving DecidableEq, Repr

/-- A card that is not closed yet: the offset of the first `@` line of its
run, the headwords of the run, and the number of non-empty body lines met
since. -/
structure OpenCard where
  offset : Nat
  headwords : List wstring
  bodyLines : Nat
  deriving DecidableEq, Repr

/-- The cards closed so far and the card that is open, if any. -/
structure Grouping where
  cards : List CardSpan
  current : Option OpenCard
  deriving DecidableEq, Repr

/-- One non-empty line of the body, by the specification.  A line of body
text belongs to the open card.  An `@` headword line joins the run of the open
card when no body line came between; it closes the open card and starts a
new one when at least one body line came between; it starts a card when none
is open.  A closing `@` line closes the open card. -/
def groupStep (g : Grouping) (kind : BodyKind) (offset : Nat) : Grouping :=
  match kind, g.current with
  | .text, none => g
  | .text, some c => { g with current := some { c with bodyLines := c.bodyLines + 1 } }
  | .headword h, none => { g with current := some ⟨offset, [h], 0⟩ }
  | .headword h, some c =>
    if c.bodyLines = 0 then { g with current := some { c with headwords := c.headwords ++ [h] } }
    else { cards := g.cards ++ [⟨c.offset, offset, c.headwords⟩], current := some ⟨offset, [h], 0⟩ }
  | .closing, none => g
  | .closing, some c => { cards := g.cards ++ [⟨c.offset, offset, c.headwords⟩], current := none }

/-- The cards of a body, by the specification: `items` are the kinds and
source offsets of its non-empty lines, and `endOffset` is the source offset
of the line that ends the parent article, which closes a card still open. -/
def specCards (items : List (BodyKind × Nat)) (endOffset : Nat) : List CardSpan :=
  let g := items.foldl (fun g item => groupStep g item.1 item.2) ⟨[], none⟩
  match g.current with
  | none => g.cards
  | some c => g.cards ++ [⟨c.offset, endOffset, c.headwords⟩]

/-- Whether the line is an `@` headword line. -/
def BodyKind.isHeadword : BodyKind → Bool
  | .headword _ => true
  | _ => false

/-- Whether some closing `@` line comes right after an `@` headword line, with
no non-empty body line between them; `afterHeadword` tells whether the line
before the first one was an `@` headword line. -/
def closesEmptyCard : Bool → List BodyKind → Bool
  | _, [] => false
  | _, .text :: rest => closesEmptyCard false rest
  | _, .headword _ :: rest => closesEmptyCard true rest
  | afterHeadword, .closing :: rest => afterHeadword || closesEmptyCard false rest

/-- The record of a card as the builder stores it: offset and size are
`uint32_t`. -/
def CardSpan.stored (c : CardSpan) : InsidedCard :=
  ⟨toU32 c.offset, subU32 c.closeOffset (toU32 c.offset), c.headwords⟩

/-- Lines 2147-2151: the cards of the body loop when it is left with
`curOffset`, a card still open being recorded. -/
def closedCards (v : BodyVars) (curOffset : Nat) : List InsidedCard :=
  if v.insideInsided then
    v.insidedCards ++ [⟨v.offset, subU32 curOffset v.offset, v.insidedHeadwords⟩]
  else v.insidedCards

/-- The variables of the body loop when it is entered (lines 2127-2134) for
an article with the headwords `allEntryWords`. -/
def BodyVars.start (allEntryWords : List wstring) (articleOffset offset : Nat) : BodyVars :=
  { allEntryWords := allEntryWords, articleOffset := articleOffset, insideInsided := false,
    insidedCards := [], offset := offset, insidedHeadwords := [], linesInsideCard := 0 }

/-- The kinds and source offsets of lines that are not empty. -/
def bodyItems (P : Prims) (allEntryWords : List wstring) (lines : List Line) :
    List (BodyKind × Nat) :=
  lines.map fun line => (bodyKind P allEntryWords line.text, line.offset)

/-- The lines of an article that go through the search for embedded cards:
`first` is the line that ended the headwords, taken when it has a character
that is not whitespace (`haveLine`, line 2137), and the lines of `rest` that
are not empty follow. -/
def articleBody (P : Prims) (first : Line) (rest : List Line) : List Line :=
  (if (P.applyWhitespaceOnly first.text).isEmpty then [] else [first]) ++
    rest.filter fun line => !line.text.isEmpty

/-- How the variables of the body loop stand for a grouping of the
specification, after at most `n` lines. -/
def CardsRel (v : BodyVars) (g : Grouping) (n : Nat) : Prop :=
  v.insidedCards = g.cards.map CardSpan.stored ∧
    match g.current with
    | none => v.insideInsided = false ∧ v.insidedHeadwords = []
    | some c =>
      v.insideInsided = true ∧ v.offset = toU32 c.offset ∧ v.insidedHeadwords = c.headwords ∧
        v.linesInsideCard = c.bodyLines ∧ c.bodyLines ≤ n

/-- A scan that has read the headword `w` of an article at offset 0 and is in
the headword loop. -/
def afterHeadwordW : Scan :=
  { chunks := [], addedWords := [], articleCount := 0, wordCount := 0, articles := [],
    phase := .headwords [ws "w"] 0 }

/-- A body with three `@` headword lines: `b` and `c` with nothing between
them, then a line of text, then `d` and a line of text. -/
def threeCardLines : List Line :=
  [⟨ws "\t@c", 6⟩, ⟨ws "\tx", 10⟩, ⟨ws "\t@d", 13⟩, ⟨ws "\ty", 17⟩]

/-- A body of one card with `n` lines of text and a second `@` headword line:
the line `@a` at offset 2, the `i`-th line of text at offset `6 + 3 * i`, the
line `@b` at offset `6 + 3 * n`. -/
def longCardRest (n : Nat) : List Line :=
  ((List.range n).map fun i => (⟨ws "\tx", 6 + 3 * i⟩ : Line)) ++ [⟨ws "\t@b", 6 + 3 * n⟩]

/-- A source beyond `2^32` bytes: the headword `w` at offset `2^32`, the line
`@a` at offset `2^32 + 2` and a line of text at offset `2^32 + 6`. -/
def farSource : List Line :=
  [⟨ws "w", 2 ^ 32⟩, ⟨ws "\t@a", 2 ^ 32 + 2⟩, ⟨ws "\tx", 2 ^ 32 + 6⟩]

end Dsl
namespace Dsl

/-! ### Headword lines the builder passes over -/

/-- The call `chunks->getBlock( address, ... )`: the block whose address
`startNewBlock` returned. -/
def Chunks.getBlock (chunks : Chunks) (address : Nat) : Option (List Nat) :=
  chunks.reverse[address]?

/-- What a line that is not empty and does not start with a blank does to
the article before it: the body loop is left and the article finished with
the offset of the line (lines 2145-2258); in the main loop nothing is
open. -/
def closePrevious (P : Prims) (s : Scan) (line : Line) : Scan :=
  match s.phase with
  | .body v => finishArticle P s v line.offset
  | _ => s

/-- The words passed to `addWord` for the cards of an article: for each card
and each of its headwords, the expansions of the headword, unescaped and
normalized (lines 2245-2253). -/
def cardWords (P : Prims) (cards : List InsidedCard) : List wstring :=
  cards.flatMap fun card =>
    card.headwords.flatMap fun hw => normalizedWords P (P.expandOptionalParts hw []).2

/-- The scan before its first line. -/
def Scan.start (chunks : Chunks) : Scan :=
  { chunks := chunks, addedWords := [], articleCount := 0, wordCount := 0, articles := [],
    phase := .main }

/-- A source whose first headword line has 200 characters, followed by a
line of 150 characters and the body line `"\tx"`. -/
def twoLongSource : List Line :=
  [⟨List.replicate 200 97, 0⟩, ⟨List.replicate 150 98, 201⟩, ⟨ws "\tx", 352⟩]

/-- A source whose first headword line has 200 characters, followed by the
alternative headword `cat` and the body line `"\tx"`. -/
def longThenShortSource : List Line :=
  [⟨List.replicate 200 97, 0⟩, ⟨ws "cat", 201⟩, ⟨ws "\tx", 205⟩]

end Dsl
namespace Dsl

/-! ### Sources for the embedded cards of an article -/

/-- The article `w` whose body is the line `@a` at offset 2, the closing line
`@` at offset 6, the line of text `x` at offset 9, the line `@b` at offset 12
and the line of text `y` at offset 16. -/
def staleSource : List Line :=
  [⟨ws "w", 0⟩, ⟨ws "\t@a", 2⟩, ⟨ws "\t@", 6⟩, ⟨ws "\tx", 9⟩, ⟨ws "\t@b", 12⟩,
    ⟨ws "\ty", 16⟩]

end Dsl
namespace Dsl

/-! ### The ranges of the embedded cards of an article -/

/-- The cards lie one after another between `lo` and `hi`: the first starts
at `lo` or later, each next one where the one before ends or later, and the
last ends at `hi` or before. -/
def CardsWithin : Nat → List InsidedCard → Nat → Prop
  | lo, [], hi => lo ≤ hi
  | lo, card :: cards, hi => lo ≤ card.offset ∧ CardsWithin (card.offset + card.size) cards hi

/-- What the scan maintains of the ranges when `cur` is the offset of the
line read last: the cards of every article finished lie within the article,
the article whose headwords are read starts at `cur` or before, and the
cards closed of the open article lie between its start and the variable
`offset`, which is `cur` at most. -/
def RangesInv (cur : Nat) (s : Scan) : Prop :=
  (∀ a ∈ s.articles,
    CardsWithin a.articleOffset a.insidedCards (a.articleOffset + a.articleSize)) ∧
  match s.phase with
  | .main => True
  | .headwords _ articleOffset => articleOffset ≤ cur
  | .body v => v.offset ≤ cur ∧ CardsWithin v.articleOffset v.insidedCards v.offset

/-- A source that crosses `2^32` bytes: the headword `w` at offset
`2^32 - 2`, the line `@a` at offset `2^32 + 1` and a line of text at offset
`2^32 + 4`. -/
def crossingSource : List Line :=
  [⟨ws "w", 2 ^ 32 - 2⟩, ⟨ws "\t@a", 2 ^ 32 + 1⟩, ⟨ws "\tx", 2 ^ 32 + 4⟩]

end Dsl
namespace Dsl

/-! ### The body loop of `makeDictionaries` with the read `curString[ n - 1 ]`
checked -/

/-- Lines 2171-2229 with the read `curString[ n - 1 ]` of line 2177, the one
element the lines read, checked: the index is outside the string when `n` is
zero. -/
def bodyStepChecked (P : Prims) (v : BodyVars) (line : Line) : Option BodyVars :=
  match findChar line.text 64 0 with
  | none => some (bodyStep P v line)
  | some n =>
    if 1 ≤ n then (readAt line.text (n - 1)).map fun _ => bodyStep P v line
    else none

/-- Lines 2158-2229 with the checked read. -/
def bodyLineChecked (P : Prims) (s : Scan) (v : BodyVars) (line : Line) : Option Scan :=
  if line.text.isEmpty then some s
  else (bodyStepChecked P v line).map fun v => { s with phase := .body v }

/-- Lines 2112-2138 with the checked read. -/
def beginArticleChecked (P : Prims) (s : Scan) (allEntryWords : List wstring)
    (articleOffset : Nat) (line : Line) : Option Scan :=
  let (chunks, descOffset) := s.chunks.startNewBlock
  let chunks := chunks.addToBlock articleOffset
  let allEntryWords := normalizedWords P allEntryWords
  let s := { s with chunks := chunks,
                    addedWords := s.addedWords ++ allEntryWords.map fun w => (w, descOffset),
                    articleCount := toU32 (s.articleCount + 1),
                    wordCount := toU32 (s.wordCount + allEntryWords.length) }
  let v : BodyVars :=
    { allEntryWords := allEntryWords, articleOffset := articleOffset, insideInsided := false,
      insidedCards := [], offset := toU32 line.offset, insidedHeadwords := [],
      linesInsideCard := 0 }
  let noSignificantLines := (P.applyWhitespaceOnly line.text).isEmpty
  let haveLine := !noSignificantLines
  if haveLine then bodyLineChecked P { s with phase := .body v } v line
  else some { s with phase := .body v }

/-- One line delivered by the scanner, with the checked read. -/
def scanLineChecked (P : Prims) (skipped : wstring → Bool) (s : Scan) (line : Line) :
    Option Scan :=
  match s.phase with
  | .main => some (if skipped line.text then s else mainLine P s line)
  | .headwords allEntryWords articleOffset =>
    if line.text.isEmpty then some s
    else if isDslWs (charAt line.text 0) then
      beginArticleChecked P s allEntryWords articleOffset line
    else
      let curString := P.expandTildes (P.processUnsortedParts line.text true)
        (front allEntryWords)
      some { s with phase := .headwords (P.expandOptionalParts curString allEntryWords).2
                      articleOffset }
  | .body v =>
    if !line.text.isEmpty && !isDslWs (charAt line.text 0) then
      some (mainLine P (finishArticle P s v line.offset) line)
    else bodyLineChecked P s v line

/-- The article scan with the checked read: `none` when a line is read at an
index outside it. -/
def scanArticlesChecked (P : Prims) (skipped : wstring → Bool) (chunks : Chunks)
    (lines : List Line) (eofOffset : Nat) : Option Scan :=
  (lines.foldlM (scanLineChecked P skipped)
    { chunks := chunks, addedWords := [], articleCount := 0, wordCount := 0, articles := [],
      phase := .main }).map fun s => scanEnd P s eofOffset

end Dsl
namespace Dsl

/-! ### The file name filter of `makeDictionaries` (lines 1847-1865)

`strcasecmp` and `strncasecmp` are library functions; they are embedded as
they act in the "C" locale, on the C string a pointer into
`fileName.c_str()` designates: the bytes up to the first zero byte. -/

/-- The library function `tolower` on a byte: the letters `A`..`Z` go to
`a`..`z`. -/
def toLowerByte (c : Byte) : Byte := if 65 ≤ c.val ∧ c.val ≤ 90 then c + 32 else c

/-- The bytes of a string literal of the source. -/
def bytes (s : String) : ByteString := s.toList.map fun ch => Utf8.toByte ch.toNat

/-- The C string at a pointer: the bytes before the first zero byte. -/
def cString (s : ByteString) : ByteString := s.takeWhile fun c => c != 0

/-- The test `strcasecmp( s1, s2 ) == 0`. -/
def strcasecmpEq (s1 s2 : ByteString) : Bool :=
  (cString s1).map toLowerByte == (cString s2).map toLowerByte

/-- The test `strncasecmp( s1, s2, n ) == 0`. -/
def strncasecmpEq (s1 s2 : ByteString) (n : Nat) : Bool :=
  ((cString s1).take n).map toLowerByte == ((cString s2).take n).map toLowerByte

/-- Lines 1850-1865 for one file name: `none` when the loop goes on to the
next name (one of the two `continue`), else `extSize`, with which the body
of the loop goes on to the `try` block of line 1869, where the first file is
looked for. -/
def candidateExtSize (fileName : ByteString) : Option Nat :=
  -- Try .dsl and .dsl.dz suffixes
  let uncompressedDsl := decide (fileName.length ≥ 4) &&
    strcasecmpEq (fileName.drop (fileName.length - 4)) (bytes ".dsl")
  if !uncompressedDsl &&
      (decide (fileName.length < 7) ||
        !strcasecmpEq (fileName.drop (fileName.length - 7)) (bytes ".dsl.dz")) then none
  else
    -- Make sure it's not an abbreviation file
    let extSize := if uncompressedDsl then 4 else 7
    if decide (fileName.length - extSize ≥ 5) &&
        strncasecmpEq (fileName.drop (fileName.length - extSize - 5)) (bytes "_abrv") 5 then
      none
    else some extSize

/-- Lines 1874-1875: the name without its extension, for a name that passed
the filter. -/
def baseNameOf (fileName : ByteString) : ByteString :=
  if fileName.getD (fileName.length - 4) 0 == Utf8.toByte 46 then
    fileName.take (fileName.length - 4)
  else fileName.take (fileName.length - 7)

/-- What the loop of line 1847 does with one file name before it opens or
looks for any file. -/
inductive FileStep where
  /-- The name is passed over: no scanner is made, no file is looked for. -/
  | skipped
  /-- The name is a candidate: the `try` block is entered with `baseName`. -/
  | candidate (baseName : ByteString)
  deriving DecidableEq, Repr

/-- Lines 1847-1875 for one file name. -/
def fileStep (fileName : ByteString) : FileStep :=
  match candidateExtSize fileName with
  | none => .skipped
  | some _ => .candidate (baseNameOf fileName)

/-- A name ends in `suffix` when letter case is ignored: it is some `stem`
followed by bytes that are `suffix` (given in lower case) once lowered. -/
def EndsWithNoCase (name suffix : ByteString) : Prop :=
  ∃ stem ext, name = stem ++ ext ∧ ext.map toLowerByte = suffix

end Dsl
namespace Utf8

/-! ### Encoding names (`utf8.cc`, lines 192-244) -/

/-- The enumeration `Encoding`, declared outside the sources at hand: the
eight enumerators the two functions name. -/
inductive Encoding where
  | Utf8
  | Utf16LE
  | Utf16BE
  | Utf32LE
  | Utf32BE
  | Windows1250
  | Windows1251
  | Windows1252
  deriving DecidableEq, Repr

/-- The function `getEncodingNameFor`; `none` stands for a value of the
enumeration type that is none of its enumerators (the `default` label). -/
def getEncodingNameFor : Option Encoding → Dsl.ByteString
  | some .Utf32LE => Dsl.bytes "UTF-32LE"
  | some .Utf32BE => Dsl.bytes "UTF-32BE"
  | some .Utf16LE => Dsl.bytes "UTF-16LE"
  | some .Utf16BE => Dsl.bytes "UTF-16BE"
  | some .Windows1252 => Dsl.bytes "WINDOWS-1252"
  | some .Windows1251 => Dsl.bytes "WINDOWS-1251"
  | some .Utf8 => Dsl.bytes "UTF-8"
  | some .Windows1250 => Dsl.bytes "WINDOWS-1250"
  | none => Dsl.bytes "UTF-8"

/-- The library function `QByteArray::toUpper` on one byte: the letters
`a`..`z` go to `A`..`Z`. -/
def toUpperByte (c : Byte) : Byte := if 97 ≤ c.val ∧ c.val ≤ 122 then c - 32 else c

/-- The function `getEncodingForName`. -/
def getEncodingForName (_name : Dsl.ByteString) : Encoding :=
  let name := _name.map toUpperByte
  if name == Dsl.bytes "UTF-32LE" then .Utf32LE
  else if name == Dsl.bytes "UTF-32BE" then .Utf32BE
  else if name == Dsl.bytes "UTF-16LE" then .Utf16LE
  else if name == Dsl.bytes "UTF-16BE" then .Utf16BE
  else if name == Dsl.bytes "WINDOWS-1252" then .Windows1252
  else if name == Dsl.bytes "WINDOWS-1251" then .Windows1251
  else if name == Dsl.bytes "UTF-8" then .Utf8
  else if name == Dsl.bytes "WINDOWS-1250" then .Windows1250
  else .Utf8

/-- The enumerators, in the order of the `switch` of `getEncodingNameFor`. -/
def allEncodings : List Encoding :=
  [.Utf32LE, .Utf32BE, .Utf16LE, .Utf16BE, .Windows1252, .Windows1251, .Utf8, .Windows1250]

/-- The conversion `Encoding( idxHeader.dslEncoding )` of line 549 of
`dsl.cc`: the enumerator whose value is the integer stored in the header, if
there is one.  `code` gives the values of the enumerators, which are
declared outside the sources at hand. -/
def encodingOfTag (code : Encoding → Int) (dslEncoding : Int) : Option Encoding :=
  allEncodings.find? fun e => code e == dslEncoding

/-- The name `variant` is `name` in some letter case: byte for byte the same,
or the lower-case letter of the same letter. -/
def SameUpToCase (name variant : Dsl.ByteString) : Prop :=
  List.Forall₂ (fun c v => v = c ∨ v = Dsl.toLowerByte c) name variant

/-- A numbering of the enumerators, for use in examples. -/
def exampleCode : Encoding → Int
  | .Utf8 => 0
  | .Utf16LE => 1
  | .Utf16BE => 2
  | .Utf32LE => 3
  | .Utf32BE => 4
  | .Windows1250 => 5
  | .Windows1251 => 6
  | .Windows1252 => 7

end Utf8
namespace Dsl

/-! ### `DslArticleRequest::run` (lines 1562-1681)

The request runs in a thread of its own; another thread may set the flag
`isCancelled` at any time.  The embedding takes the values the loads of the
flag deliver, in the order of the loads, as a parameter. -/

/-- What a `Dictionary::DataRequest` holds when `run` returns. -/
structure DataRequest where
  /-- The bytes added by `appendString`. -/
  data : ByteString
  hasAnyData : Bool
  /-- The string passed to `setErrorString`, when it was called. -/
  errorString : Option ByteString
  /-- The call `finish()` was made. -/
  finished : Bool
  deriving DecidableEq, Repr

/-- What `run` takes from outside the sources at hand and from the
dictionary. -/
structure RequestEnv where
  P : Prims
  ignoreDiacritics : Bool
  /-- The value of `dict.ensureInitDone()`: empty when the dictionary is
  initialised. -/
  ensureInitDone : ByteString
  /-- The member `articleOffset` of the links of `chain` once the chains of
  the alternatives were added (lines 1577-1585). -/
  chain : List Nat
  /-- What lines 508-563 of `loadArticle` read for the block at an address. -/
  fetch : Nat → ArticleRead
  /-- Lines 1626-1665: the text built for an article that was loaded, given the
  requested word, the values `loadArticle` returned (the displayed headword
  after the special case of line 1623) and `dict.articleNom`; an error when
  `dslToHtml` raises. -/
  render : wstring → LoadResult → Nat → Except Unit ByteString
  /-- The string `QObject::tr( "Article loading error" ).toStdString()`. -/
  loadingError : ByteString
  /-- The value the `k`-th load of `isCancelled` delivers: the load of line
  1564 is the load 0, the load of line 1597 for the `i`-th link of the chain
  (counted from 1) is the load `i`. -/
  isCancelled : Nat → Bool

/-- Lines 1670-1672: the text appended for an article that could not be
loaded. -/
def loadingErrorText (E : RequestEnv) : ByteString :=
  bytes "<span class=\"dsl_article\">" ++ E.loadingError ++ bytes "</span>"

/-- The loop of line 1595 over the links left, `k` being the number of the
next load of `isCancelled`, with the set `articlesIncluded`, the member
`dict.articleNom` (a `quint8`) and the request as they stand. -/
def articleLoop (E : RequestEnv) (word : wstring) :
    List Nat → Nat → List (Nat × Nat) → Nat → DataRequest → DataRequest
  | [], _, _, _, r => { r with finished := true }
  | x :: rest, k, articlesIncluded, articleNom, r =>
    -- Check if we're cancelled occasionally
    if E.isCancelled k then { r with finished := true }
    else
      -- Grab that article
      match loadArticle E.P (E.fetch x) (E.P.applySimpleCaseOnly word) E.ignoreDiacritics [] []
        with
      | .error _ =>
        articleLoop E word rest (k + 1) articlesIncluded articleNom
          { r with data := r.data ++ loadingErrorText E, hasAnyData := true }
      | .ok a =>
        if articlesIncluded.contains (x, a.headwordIndex) then
          -- We already have this article in the body.
          articleLoop E word rest (k + 1) articlesIncluded articleNom r
        else
          let articleNom := (articleNom + 1) % 256
          let displayedHeadword :=
            if a.displayedHeadword.isEmpty || isDslWs (charAt a.displayedHeadword 0) then word
            else a.displayedHeadword
          let articleText :=
            match E.render word { a with displayedHeadword := displayedHeadword } articleNom with
            | .ok text => text
            | .error _ => loadingErrorText E
          articleLoop E word rest (k + 1) ((x, a.headwordIndex) :: articlesIncluded) articleNom
            { r with data := r.data ++ articleText, hasAnyData := true }

/-- The member `DslArticleRequest::run` for the requested `word`, with the
value `articleNom` of `dict.articleNom` when it starts. -/
def runArticleRequest (E : RequestEnv) (word : wstring) (articleNom : Nat) : DataRequest :=
  if E.isCancelled 0 then
    { data := [], hasAnyData := false, errorString := none, finished := true }
  else if !E.ensureInitDone.isEmpty then
    { data := [], hasAnyData := false, errorString := some E.ensureInitDone, finished := true }
  else
    articleLoop E word E.chain 1 [] articleNom
      { data := [], hasAnyData := false, errorString := none, finished := false }

/-- The request in which the flag is never seen set. -/
def RequestEnv.uncancelled (E : RequestEnv) : RequestEnv :=
  { E with isCancelled := fun _ => false }

/-- A request for `cat` in a dictionary with the article `cat` at the
addresses 0 and 8, the chain holding both; an article is rendered as the
bytes of its body.  The flag is seen set by the load `k`. -/
def catRequest (k : Nat) : RequestEnv where
  P := Prims.plain
  ignoreDiacritics := false
  ensureInitDone := []
  chain := [0, 8]
  fetch := fun _ => .decoded (ws "cat\n\tbody\n")
  render := fun _ a _ => .ok (Utf8.encode a.articleText)
  loadingError := bytes "Article loading error"
  isCancelled := fun j => j == k

end Dsl
namespace Dsl

/-! ### `DslResourceRequest::run` (lines 1729-1812) -/

/-- How a call `File::loadFromFile( n, data )` ends. -/
inductive FileLoad where
  /-- The exception `File::exCantOpen` is raised. -/
  | cantOpen
  /-- Another exception is raised. -/
  | raised
  /-- The file is read into `data`. -/
  | loaded (content : ByteString)
  deriving DecidableEq, Repr

/-- What `run` takes from the dictionary and from outside the sources at
hand. -/
structure ResourceEnv where
  /-- The value the load of `isCancelled` at line 1732 delivers. -/
  isCancelled : Bool
  /-- The value of `dict.ensureInitDone()`. -/
  ensureInitDone : ByteString
  /-- The value of `dict.getContainingFolder().toStdString()`. -/
  containingFolder : ByteString
  /-- The value of `Utils::Fs::separator()`. -/
  separator : ByteString
  /-- The member `resourceDir1`: the name of the dictionary file followed by
  `.files` and the separator (line 311). -/
  resourceDir1 : ByteString
  /-- The member `resourceDir2`: the same with a final `.dz` of the name
  chopped (lines 312-315). -/
  resourceDir2 : ByteString
  /-- The call `File::loadFromFile( n, data )` for the path `n`. -/
  loadFromFile : ByteString → FileLoad
  /-- The value of `dict.resourceZip.isOpen()`. -/
  zipIsOpen : Bool
  /-- The call `dict.resourceZip.loadFile( name, data )`: the content read,
  `none` when it returns false. -/
  zipLoadFile : wstring → Option ByteString
  /-- The call `Filetype::isNameOfTiff( resourceName )`. -/
  isNameOfTiff : ByteString → Bool
  /-- The call `GdTiff::tiff2img( data )`: the converted data, or an
  exception. -/
  tiff2img : ByteString → Except Unit ByteString

/-- Lines 1745-1790: the data loaded for the resource, or the exception that
reaches the handler of line 1804. -/
def loadResource (E : ResourceEnv) (resourceName : ByteString) : Except Unit ByteString :=
  let n := E.containingFolder ++ E.separator ++ resourceName
  match E.loadFromFile n with
  | .loaded data => .ok data
  | .raised => .error ()
  | .cantOpen =>
    let n := E.resourceDir1 ++ resourceName
    match E.loadFromFile n with
    | .loaded data => .ok data
    | .raised => .error ()
    | .cantOpen =>
      let n := E.resourceDir2 ++ resourceName
      match E.loadFromFile n with
      | .loaded data => .ok data
      | .raised => .error ()
      | .cantOpen =>
        -- Try reading from zip file
        if E.zipIsOpen then
          match Utf8.decodeString resourceName with
          | .error _ => .error ()
          | .ok name =>
            match E.zipLoadFile name with
            | none => .error () -- Make it fail since we couldn't read the archive
            | some data => .ok data
        else .error ()

/-- The member `DslResourceRequest::run`.  When the resource is not loaded
the flag `hasAnyData` is not set, and the data is given as empty. -/
def runResourceRequest (E : ResourceEnv) (resourceName : ByteString) : DataRequest :=
  -- Some runnables linger enough that they are cancelled before they start
  if E.isCancelled then
    { data := [], hasAnyData := false, errorString := none, finished := true }
  else if !E.ensureInitDone.isEmpty then
    { data := [], hasAnyData := false, errorString := some E.ensureInitDone, finished := true }
  else
    match loadResource E resourceName with
    | .error _ => { data := [], hasAnyData := false, errorString := none, finished := true }
    | .ok data =>
      if E.isNameOfTiff resourceName then
        -- Convert it
        match E.tiff2img data with
        | .error _ => { data := [], hasAnyData := false, errorString := none, finished := true }
        | .ok data => { data := data, hasAnyData := true, errorString := none, finished := true }
      else { data := data, hasAnyData := true, errorString := none, finished := true }

/-- The content of the first file of `paths` that can be loaded. -/
def firstLoaded (E : ResourceEnv) (paths : List ByteString) : Option ByteString :=
  paths.findSome? fun n =>
    match E.loadFromFile n with
    | .loaded content => some content
    | _ => none

/-- How the first file of `paths` that does not fail with `File::exCantOpen`
ends; `cantOpen` when every file of `paths` fails so. -/
def firstOutcome (E : ResourceEnv) : List ByteString → FileLoad
  | [] => .cantOpen
  | n :: paths =>
    match E.loadFromFile n with
    | .cantOpen => firstOutcome E paths
    | .raised => .raised
    | .loaded content => .loaded content

/-- The three paths in the order of the specification: `<name>.files/`,
`<stem>.files/`, the containing folder. -/
def specPaths (E : ResourceEnv) (resourceName : ByteString) : List ByteString :=
  [E.resourceDir1 ++ resourceName, E.resourceDir2 ++ resourceName,
    E.containingFolder ++ E.separator ++ resourceName]

/-- The three paths in the order `run` tries them: the containing folder,
`<name>.files/`, `<stem>.files/`. -/
def triedPaths (E : ResourceEnv) (resourceName : ByteString) : List ByteString :=
  [E.containingFolder ++ E.separator ++ resourceName, E.resourceDir1 ++ resourceName,
    E.resourceDir2 ++ resourceName]

/-- The same request with another resource archive. -/
def ResourceEnv.withZip (E : ResourceEnv) (zipIsOpen : Bool)
    (zipLoadFile : wstring → Option ByteString) : ResourceEnv :=
  { E with zipIsOpen := zipIsOpen, zipLoadFile := zipLoadFile }

/-- The dictionary `/d/x.dsl.dz` with a file `a.png` holding `A` in
`/d/x.dsl.dz.files/` and a file `a.png` holding `B` in the containing folder
`/d`; no archive. -/
def twoFilesEnv : ResourceEnv where
  isCancelled := false
  ensureInitDone := []
  containingFolder := bytes "/d"
  separator := bytes "/"
  resourceDir1 := bytes "/d/x.dsl.dz.files/"
  resourceDir2 := bytes "/d/x.dsl.files/"
  loadFromFile := fun n =>
    if n = bytes "/d/x.dsl.dz.files/a.png" then .loaded (bytes "A")
    else if n = bytes "/d/a.png" then .loaded (bytes "B")
    else .cantOpen
  zipIsOpen := false
  zipLoadFile := fun _ => none
  isNameOfTiff := fun _ => false
  tiff2img := fun data => .ok data

/-- The dictionary of `twoFilesEnv` with a file `a.png` in the containing
folder that is opened and then fails to be read. -/
def brokenFileEnv : ResourceEnv :=
  { twoFilesEnv with
    loadFromFile := fun n =>
      if n = bytes "/d/x.dsl.dz.files/a.png" then .loaded (bytes "A")
      else if n = bytes "/d/a.png" then .raised
      else .cantOpen }

end Dsl
namespace Dsl

/-! ### `DslDictionary::nodeToHtml` (lines 747-755 and 775-1137)

The class `ArticleDom::Node` is declared outside the sources at hand; it is
embedded with the members `nodeToHtml` reads.  What `nodeToHtml` takes from
Qt, from the file system and from other files of the repository is a
parameter of the embedding (`Renderer`).  The counter `optionalPartNom`, the
only member `nodeToHtml` changes, is passed in and returned. -/

/-- A node of the article tree: the members `isTag`, `tagName`, `tagAttrs` and
`text`, and the child nodes (the node is a list of nodes). -/
inductive Node where
  | mk (isTag : Bool) (tagName tagAttrs text : wstring) (children : List Node)

/-- A text node. -/
def Node.ofText (text : wstring) : Node := .mk false [] [] text []

/-- A tag node. -/
def Node.tag (tagName tagAttrs : wstring) (children : List Node) : Node :=
  .mk true tagName tagAttrs [] children

/-- How a rendering can end without a result. -/
inductive RenderError where
  /-- An exception raised by code outside the sources at hand. -/
  | external
  /-- A loop of the embedding was cut off. -/
  | outOfFuel
  deriving DecidableEq, Repr

/-- What `nodeToHtml` takes from outside the sources at hand. -/
structure Renderer where
  /-- The call `Html::escape( str )`. -/
  escape : ByteString → ByteString
  /-- The expression `QString::fromStdU32String( str ).toUtf8().data()`, read
  as a C string. -/
  qUtf8 : wstring → ByteString
  /-- The member `node.renderAsText()`. -/
  renderAsText : Node → wstring
  /-- The member `abrv`, the abbreviation table. -/
  abrv : StringMap
  /-- The value of `getId()`. -/
  dictId : ByteString
  /-- The member `articleNom`. -/
  articleNom : Nat
  /-- The tags `s`, `video`, `url`, `lang`, `ref` and `@`, which are rendered
  through `QUrl`, the file system and the resource archive: what is added to
  the result before the children, and what is added after them when
  `processNodeChildren( node )` is called for the tag (`none` when it is
  not). -/
  external : Node → Except RenderError (ByteString × Option ByteString)

/-- The member `result.find( ch )`. -/
def findByte (ch : Byte) : ByteString → Option Nat
  | [] => none
  | c :: rest => if c == ch then some 0 else (findByte ch rest).map (· + 1)

/-- The loop of lines 788-789: while there is a `'\r'`, the first one is
erased. -/
def stripCr : Nat → ByteString → Option ByteString
  | 0, _ => none
  | fuel + 1, result =>
    match findByte 13 result with
    | none => some result
    | some n => stripCr fuel (result.take n ++ result.drop (n + 1))

/-- The loop of lines 792-793: while there is a `'\n'`, the first one is
replaced by `<p></p>`. -/
def replaceLf : Nat → ByteString → Option ByteString
  | 0, _ => none
  | fuel + 1, result =>
    match findByte 10 result with
    | none => some result
    | some n => replaceLf fuel (result.take n ++ bytes "<p></p>" ++ result.drop (n + 1))

/-- The string `QString::number( n ).toStdString()`. -/
def number (n : Nat) : ByteString := bytes (toString n)

/-- A tag rendered outside the sources at hand: `before`, then the children
when the tag renders them, then `after`. -/
def externalTag (R : Renderer) (node : Node)
    (renderedChildren : Except RenderError (ByteString × Nat)) (optionalPartNom : Nat) :
    Except RenderError (ByteString × Nat) :=
  match R.external node with
  | .error e => .error e
  | .ok (before, none) => .ok (before, optionalPartNom)
  | .ok (before, some after) =>
    match renderedChildren with
    | .error e => .error e
    | .ok (inner, n) => .ok (before ++ inner ++ after, n)

/-- The pattern `result += before + processNodeChildren( node ) + after`. -/
def wrapChildren (before : ByteString)
    (renderedChildren : Except RenderError (ByteString × Nat)) (after : ByteString) :
    Except RenderError (ByteString × Nat) :=
  match renderedChildren with
  | .error e => .error e
  | .ok (inner, n) => .ok (before ++ inner ++ after, n)

mutual

/-- The member `nodeToHtml`: the string it returns and the value it leaves in
`optionalPartNom`. -/
def nodeToHtml (R : Renderer) : Node → Nat → Except RenderError (ByteString × Nat)
  | .mk isTag tagName tagAttrs text children, optionalPartNom =>
    let node := Node.mk isTag tagName tagAttrs text children
    if !isTag then
      let result := R.escape (Utf8.encode text)
      -- Handle all end-of-line
      -- Strip all '\r'
      match stripCr (result.length + 1) result with
      | none => .error .outOfFuel
      | some result =>
        -- Replace all '\n'
        match replaceLf (result.length + 1) result with
        | none => .error .outOfFuel
        | some result => .ok (result, optionalPartNom)
    else if tagName == ws "b" then
      wrapChildren (bytes "<b class=\"dsl_b\">")
        (processNodeChildren R children optionalPartNom) (bytes "</b>")
    else if tagName == ws "i" then
      wrapChildren (bytes "<i class=\"dsl_i\">")
        (processNodeChildren R children optionalPartNom) (bytes "</i>")
    else if tagName == ws "u" then
      match processNodeChildren R children optionalPartNom with
      | .error e => .error e
      | .ok (nodeText, n) =>
        let result :=
          if !nodeText.isEmpty && isDslWs (nodeText.getD 0 0).val then bytes " " else []
        .ok (result ++ bytes "<span class=\"dsl_u\">" ++ nodeText ++ bytes "</span>", n)
    else if tagName == ws "c" then
      if tagAttrs.isEmpty then
        wrapChildren (bytes "<span class=\"c_default_color\">")
          (processNodeChildren R children optionalPartNom) (bytes "</span>")
      else
        wrapChildren
          (bytes "<font color=\"" ++ R.escape (Utf8.encode tagAttrs) ++ bytes "\">")
          (processNodeChildren R children optionalPartNom) (bytes "</font>")
    else if tagName == ws "*" then
      let id := bytes "O" ++ R.dictId.take 7 ++ bytes "_" ++ number R.articleNom ++
        bytes "_opt_" ++ number optionalPartNom
      wrapChildren (bytes "<span class=\"dsl_opt\" id=\"" ++ id ++ bytes "\">")
        (processNodeChildren R children (optionalPartNom + 1)) (bytes "</span>")
    else if tagName == ws "m" then
      wrapChildren (bytes "<div class=\"dsl_m\">")
        (processNodeChildren R children optionalPartNom) (bytes "</div>")
    else if tagName.length == 2 && charAt tagName 0 == 109 &&
        (48 ≤ charAt tagName 1 && charAt tagName 1 ≤ 57) then
      wrapChildren (bytes "<div class=\"dsl_" ++ Utf8.encode tagName ++ bytes "\">")
        (processNodeChildren R children optionalPartNom) (bytes "</div>")
    else if tagName == ws "trn" then
      wrapChildren (bytes "<span class=\"dsl_trn\">")
        (processNodeChildren R children optionalPartNom) (bytes "</span>")
    else if tagName == ws "ex" then
      wrapChildren (bytes "<span class=\"dsl_ex\">")
        (processNodeChildren R children optionalPartNom) (bytes "</span>")
    else if tagName == ws "com" then
      wrapChildren (bytes "<span class=\"dsl_com\">")
        (processNodeChildren R children optionalPartNom) (bytes "</span>")
    else if tagName == ws "s" || tagName == ws "video" then
      externalTag R node (processNodeChildren R children optionalPartNom) optionalPartNom
    else if tagName == ws "url" then
      externalTag R node (processNodeChildren R children optionalPartNom) optionalPartNom
    else if tagName == ws "!trs" then
      wrapChildren (bytes "<span class=\"dsl_trs\">")
        (processNodeChildren R children optionalPartNom) (bytes "</span>")
    else if tagName == ws "p" then
      let val := Utf8.encode (R.renderAsText node)
      -- If we have such a key, display a title
      let title :=
        match R.abrv.lookup val with
        | some title => bytes " title=\"" ++ R.escape title ++ bytes "\""
        | none => []
      wrapChildren (bytes "<span class=\"dsl_p\"" ++ title ++ bytes ">")
        (processNodeChildren R children optionalPartNom) (bytes "</span>")
    else if tagName == [39] then
      match processNodeChildren R children optionalPartNom with
      | .error e => .error e
      | .ok (data, n) =>
        .ok (bytes "<span class=\"dsl_stress\"><span class=\"dsl_stress_without_accent\">" ++
          data ++ bytes "</span>" ++ bytes "<span class=\"dsl_stress_with_accent\">" ++ data ++
          Utf8.encode [0x301] ++ bytes "</span></span>", n)
    else if tagName == ws "lang" then
      externalTag R node (processNodeChildren R children optionalPartNom) optionalPartNom
    else if tagName == ws "ref" then
      externalTag R node (processNodeChildren R children optionalPartNom) optionalPartNom
    else if tagName == ws "@" then
      externalTag R node (processNodeChildren R children optionalPartNom) optionalPartNom
    else if tagName == ws "sub" then
      wrapChildren (bytes "<sub>") (processNodeChildren R children optionalPartNom)
        (bytes "</sub>")
    else if tagName == ws "sup" then
      wrapChildren (bytes "<sup>") (processNodeChildren R children optionalPartNom)
        (bytes "</sup>")
    else if tagName == ws "t" then
      wrapChildren (bytes "<span class=\"dsl_t\">")
        (processNodeChildren R children optionalPartNom) (bytes "</span>")
    else if tagName == ws "br" then
      .ok (bytes "<br />", optionalPartNom)
    else
      let attrs := if !tagAttrs.isEmpty then bytes " " ++ R.qUtf8 tagAttrs else []
      wrapChildren (bytes "<span class=\"dsl_unknown\">[" ++ R.qUtf8 tagName ++ attrs ++ bytes "]")
        (processNodeChildren R children optionalPartNom) (bytes "</span>")

/-- The member `processNodeChildren`, on the children of the node. -/
def processNodeChildren (R : Renderer) : List Node → Nat → Except RenderError (ByteString × Nat)
  | [], optionalPartNom => .ok ([], optionalPartNom)
  | i :: rest, optionalPartNom =>
    match nodeToHtml R i optionalPartNom with
    | .error e => .error e
    | .ok (html, n) =>
      match processNodeChildren R rest n with
      | .error e => .error e
      | .ok (result, n) => .ok (html ++ result, n)

end

end Dsl
namespace Dsl

/-! ### Text nodes, in the words of the specification -/

/-- What becomes of one byte of an escaped text: a carriage return is
removed, a line feed is replaced by `<p></p>`, any other byte is kept. -/
def endOfLineHtml (b : Byte) : ByteString :=
  if b == 13 then [] else if b == 10 then bytes "<p></p>" else [b]

/-- A renderer for examples: nothing is escaped, a wide string is converted
by `Utf8.encode`, no abbreviation is known, and every tag rendered outside
the sources raises. -/
def Renderer.plain : Renderer where
  escape := fun str => str
  qUtf8 := fun str => Utf8.encode str
  renderAsText := fun _ => []
  abrv := []
  dictId := bytes "0123456789abcdef"
  articleNom := 0
  external := fun _ => .error .external

/-! ### Tags, in the words of the specification -/

/-- A margin tag: `m0` .. `m9`. -/
def marginTag (tagName : wstring) : Bool :=
  match tagName with
  | [109, d] => 48 ≤ d && d ≤ 57
  | _ => false

/-- The purely structural tags: `b`, `i`, `u`, `c`, `*`, `m`, `m0`..`m9`, `trn`,
`ex`, `com`, `!trs`, the apostrophe, `sub`, `sup`, `t` and `br`. -/
def structuralTag (tagName : wstring) : Bool :=
  [ws "b", ws "i", ws "u", ws "c", ws "*", ws "m", ws "trn", ws "ex", ws "com", ws "!trs", [39],
    ws "sub", ws "sup", ws "t", ws "br"].contains tagName || marginTag tagName

/-- The recognised tags: the structural ones and `s`, `video`, `url`, `p`,
`lang`, `ref`, `@`. -/
def recognisedTag (tagName : wstring) : Bool :=
  structuralTag tagName ||
    [ws "s", ws "video", ws "url", ws "p", ws "lang", ws "ref", ws "@"].contains tagName

mutual

/-- A tree built from text nodes, unknown tags and structural tags. -/
def plainTree : Node → Bool
  | .mk isTag tagName _ _ children =>
    !isTag || ((structuralTag tagName || !recognisedTag tagName) && plainTrees children)

/-- A list of such trees. -/
def plainTrees : List Node → Bool
  | [] => true
  | i :: rest => plainTree i && plainTrees rest

end

/-- The tag `[c red]x[/c]`. -/
def redNode : Node := Node.tag (ws "c") (ws "red") [Node.ofText (ws "x")]

/-- The tag `[foo bar]` around the tag `[b]` around the text `x`, a line feed
and `y`. -/
def fooNode : Node :=
  Node.tag (ws "foo") (ws "bar") [Node.tag (ws "b") [] [Node.ofText (ws "x\ny")]]

end Dsl
namespace Utf8

set_option maxRecDepth 100000 in
theorem bits_ascii : ∀ b : Byte, b.val < 0x80 → b.val &&& 0x80 = 0 := by decide

set_option maxRecDepth 100000 in
theorem bits_trail : ∀ b : Byte, 0x80 ≤ b.val → b.val < 0xC0 →
    b.val &&& 0x80 ≠ 0 ∧ b.val &&& 0x40 = 0 := by decide

set_option maxRecDepth 100000 in
theorem bits_lead2 : ∀ b : Byte, 0xC0 ≤ b.val → b.val < 0xE0 →
    b.val &&& 0x80 ≠ 0 ∧ b.val &&& 0x40 ≠ 0 ∧ b.val &&& 0x20 = 0 := by decide

set_option maxRecDepth 100000 in
theorem bits_lead3 : ∀ b : Byte, 0xE0 ≤ b.val → b.val < 0xF0 →
    b.val &&& 0x80 ≠ 0 ∧ b.val &&& 0x40 ≠ 0 ∧ b.val &&& 0x20 ≠ 0 ∧ b.val &&& 0x10 = 0 := by
  decide

set_option maxRecDepth 100000 in
theorem bits_lead4 : ∀ b : Byte, 0xF0 ≤ b.val → b.val < 0xF8 →
    b.val &&& 0x80 ≠ 0 ∧ b.val &&& 0x40 ≠ 0 ∧ b.val &&& 0x20 ≠ 0 ∧ b.val &&& 0x10 ≠ 0 ∧
      b.val &&& 8 = 0 := by
  decide

set_option maxRecDepth 100000 in
theorem bits_lead5 : ∀ b : Byte, 0xF8 ≤ b.val →
    b.val &&& 0x80 ≠ 0 ∧ b.val &&& 0x40 ≠ 0 ∧ b.val &&& 0x20 ≠ 0 ∧ b.val &&& 0x10 ≠ 0 ∧
      b.val &&& 8 ≠ 0 := by
  decide

set_option maxRecDepth 100000 in
theorem isContinuation_eq_isTrailForm : ∀ b : Byte, isContinuation b = isTrailForm b := by
  decide


theorem decode_ascii_cons (b : Byte) (rest : List Byte) (h : b.val < 0x80) :
    decode (b :: rest) = (decode rest).map fun ws => b.val :: ws := by
  have h0 := bits_ascii b h
  rw [decode.eq_def]
  simp [h0]

theorem decode_trail_cons (b : Byte) (rest : List Byte) (h1 : 0x80 ≤ b.val)
    (h2 : b.val < 0xC0) : decode (b :: rest) = none := by
  obtain ⟨h80, h40⟩ := bits_trail b h1 h2
  rw [decode.eq_def]
  simp [h80, h40]

theorem decode_lead5_cons (b : Byte) (rest : List Byte) (h1 : 0xF8 ≤ b.val) :
    decode (b :: rest) = none := by
  obtain ⟨h80, h40, h20, h10, h8⟩ := bits_lead5 b h1
  rw [decode.eq_def]
  simp [h80, h40, h20, h10, h8]

theorem decode_lead2_nil (b : Byte) (h1 : 0xC0 ≤ b.val) (h2 : b.val < 0xE0) :
    decode [b] = none := by
  obtain ⟨h80, h40, h20⟩ := bits_lead2 b h1 h2
  rw [decode.eq_def]
  simp [h80, h40, h20]

theorem decode_lead2_cons (b b1 : Byte) (rest : List Byte) (h1 : 0xC0 ≤ b.val)
    (h2 : b.val < 0xE0) :
    decode (b :: b1 :: rest) =
      if isTrailForm b1 then
        (decode rest).map fun ws => (((b.val &&& 0x1F) <<< 6) ||| (b1.val &&& 0x3F)) :: ws
      else none := by
  obtain ⟨h80, h40, h20⟩ := bits_lead2 b h1 h2
  rw [decode.eq_def]
  cases t1 : isTrailForm b1 <;> simp [h80, h40, h20, isContinuation_eq_isTrailForm, t1]

theorem decode_lead3_short (b : Byte) (rest : List Byte) (h1 : 0xE0 ≤ b.val)
    (h2 : b.val < 0xF0) (hlen : rest.length < 2) : decode (b :: rest) = none := by
  obtain ⟨h80, h40, h20, h10⟩ := bits_lead3 b h1 h2
  rw [decode.eq_def]
  match rest, hlen with
  | [], _ => simp [h80, h40, h20, h10]
  | [_], _ => simp [h80, h40, h20, h10]

theorem decode_lead3_cons (b b1 b2 : Byte) (rest : List Byte) (h1 : 0xE0 ≤ b.val)
    (h2 : b.val < 0xF0) :
    decode (b :: b1 :: b2 :: rest) =
      if isTrailForm b1 && isTrailForm b2 then
        (decode rest).map fun ws =>
          ((((b.val &&& 0xF) <<< 12) ||| ((b1.val &&& 0x3F) <<< 6)) ||| (b2.val &&& 0x3F)) :: ws
      else none := by
  obtain ⟨h80, h40, h20, h10⟩ := bits_lead3 b h1 h2
  rw [decode.eq_def]
  cases t1 : isTrailForm b1 <;> cases t2 : isTrailForm b2 <;>
    simp [h80, h40, h20, h10, isContinuation_eq_isTrailForm, t1, t2]

theorem decode_lead4_short (b : Byte) (rest : List Byte) (h1 : 0xF0 ≤ b.val)
    (h2 : b.val < 0xF8) (hlen : rest.length < 3) : decode (b :: rest) = none := by
  obtain ⟨h80, h40, h20, h10, h8⟩ := bits_lead4 b h1 h2
  rw [decode.eq_def]
  match rest, hlen with
  | [], _ => simp [h80, h40, h20, h10, h8]
  | [_], _ => simp [h80, h40, h20, h10, h8]
  | [_, _], _ => simp [h80, h40, h20, h10, h8]

theorem decode_lead4_cons (b b1 b2 b3 : Byte) (rest : List Byte) (h1 : 0xF0 ≤ b.val)
    (h2 : b.val < 0xF8) :
    decode (b :: b1 :: b2 :: b3 :: rest) =
      if isTrailForm b1 && isTrailForm b2 && isTrailForm b3 then
        (decode rest).map fun ws =>
          ((((b.val &&& 7) <<< 18) ||| ((b1.val &&& 0x3F) <<< 12))
            ||| ((b2.val &&& 0x3F) <<< 6) ||| (b3.val &&& 0x3F)) :: ws
      else none := by
  obtain ⟨h80, h40, h20, h10, h8⟩ := bits_lead4 b h1 h2
  rw [decode.eq_def]
  cases t1 : isTrailForm b1 <;> cases t2 : isTrailForm b2 <;> cases t3 : isTrailForm b3 <;>
    simp [h80, h40, h20, h10, h8, isContinuation_eq_isTrailForm, t1, t2, t3]

theorem decode_nil : decode [] = some [] := rfl

theorem meetsBadLead_nil : meetsBadLead [] = false := rfl

theorem meetsBadLead_ascii_cons (b : Byte) (rest : List Byte) (h : b.val < 0x80) :
    meetsBadLead (b :: rest) = meetsBadLead rest := by
  simp [meetsBadLead, meetsBadLeadFrom, announcedTrail, h]

theorem meetsBadLead_trail_cons (b : Byte) (rest : List Byte) (h1 : 0x80 ≤ b.val)
    (h2 : b.val < 0xC0) : meetsBadLead (b :: rest) = true := by
  have : ¬ b.val < 0x80 := by omega
  simp [meetsBadLead, meetsBadLeadFrom, announcedTrail, this, h2]

theorem meetsBadLead_lead2 (b : Byte) (rest : List Byte) (h1 : 0xC0 ≤ b.val)
    (h2 : b.val < 0xE0) : meetsBadLead (b :: rest) = meetsBadLeadFrom 1 rest := by
  have a1 : ¬ b.val < 0x80 := by omega
  have a2 : ¬ b.val < 0xC0 := by omega
  simp [meetsBadLead, meetsBadLeadFrom, announcedTrail, a1, a2, h2]

theorem meetsBadLead_lead3 (b : Byte) (rest : List Byte) (h1 : 0xE0 ≤ b.val)
    (h2 : b.val < 0xF0) : meetsBadLead (b :: rest) = meetsBadLeadFrom 2 rest := by
  have a1 : ¬ b.val < 0x80 := by omega
  have a2 : ¬ b.val < 0xC0 := by omega
  have a3 : ¬ b.val < 0xE0 := by omega
  simp [meetsBadLead, meetsBadLeadFrom, announcedTrail, a1, a2, a3, h2]

theorem meetsBadLead_lead4 (b : Byte) (rest : List Byte) (h1 : 0xF0 ≤ b.val)
    (h2 : b.val < 0xF8) : meetsBadLead (b :: rest) = meetsBadLeadFrom 3 rest := by
  have a1 : ¬ b.val < 0x80 := by omega
  have a2 : ¬ b.val < 0xC0 := by omega
  have a3 : ¬ b.val < 0xE0 := by omega
  have a4 : ¬ b.val < 0xF0 := by omega
  simp [meetsBadLead, meetsBadLeadFrom, announcedTrail, a1, a2, a3, a4, h2]

theorem meetsBadLead_lead5 (b : Byte) (rest : List Byte) (h1 : 0xF8 ≤ b.val) :
    meetsBadLead (b :: rest) = true := by
  have a1 : ¬ b.val < 0x80 := by omega
  have a2 : ¬ b.val < 0xC0 := by omega
  have a3 : ¬ b.val < 0xE0 := by omega
  have a4 : ¬ b.val < 0xF0 := by omega
  have a5 : ¬ b.val < 0xF8 := by omega
  simp [meetsBadLead, meetsBadLeadFrom, announcedTrail, a1, a2, a3, a4, a5]

theorem decode_none_iff_lead2 (b : Byte) (rest : List Byte) (h1 : 0xC0 ≤ b.val)
    (h2 : b.val < 0xE0)
    (ih : ∀ r : List Byte, r.length < rest.length → (decode r = none ↔ meetsBadLead r = true)) :
    decode (b :: rest) = none ↔ meetsBadLead (b :: rest) = true := by
  rw [meetsBadLead_lead2 b rest h1 h2]
  match rest, ih with
  | [], _ => simp [decode_lead2_nil b h1 h2, meetsBadLeadFrom]
  | d1 :: rest1, ih =>
    have := ih rest1 (by simp)
    rw [meetsBadLead] at this
    rw [decode_lead2_cons b d1 rest1 h1 h2]
    cases hd1 : isTrailForm d1 <;> simp [this, hd1, meetsBadLeadFrom]

theorem decode_none_iff_lead3 (b : Byte) (rest : List Byte) (h1 : 0xE0 ≤ b.val)
    (h2 : b.val < 0xF0)
    (ih : ∀ r : List Byte, r.length < rest.length → (decode r = none ↔ meetsBadLead r = true)) :
    decode (b :: rest) = none ↔ meetsBadLead (b :: rest) = true := by
  rw [meetsBadLead_lead3 b rest h1 h2]
  match rest, ih with
  | [], _ => simp [decode_lead3_short b _ h1 h2, meetsBadLeadFrom]
  | [_], _ => simp [decode_lead3_short b _ h1 h2, meetsBadLeadFrom]
  | d1 :: d2 :: rest2, ih =>
    have := ih rest2 (by simp; omega)
    rw [meetsBadLead] at this
    rw [decode_lead3_cons b d1 d2 rest2 h1 h2]
    cases hd1 : isTrailForm d1 <;> cases hd2 : isTrailForm d2 <;> simp [this, hd1, hd2, meetsBadLeadFrom]

theorem decode_none_iff_lead4 (b : Byte) (rest : List Byte) (h1 : 0xF0 ≤ b.val)
    (h2 : b.val < 0xF8)
    (ih : ∀ r : List Byte, r.length < rest.length → (decode r = none ↔ meetsBadLead r = true)) :
    decode (b :: rest) = none ↔ meetsBadLead (b :: rest) = true := by
  rw [meetsBadLead_lead4 b rest h1 h2]
  match rest, ih with
  | [], _ => simp [decode_lead4_short b _ h1 h2, meetsBadLeadFrom]
  | [_], _ => simp [decode_lead4_short b _ h1 h2, meetsBadLeadFrom]
  | [_, _], _ => simp [decode_lead4_short b _ h1 h2, meetsBadLeadFrom]
  | d1 :: d2 :: d3 :: rest3, ih =>
    have := ih rest3 (by simp; omega)
    rw [meetsBadLead] at this
    rw [decode_lead4_cons b d1 d2 d3 rest3 h1 h2]
    cases hd1 : isTrailForm d1 <;> cases hd2 : isTrailForm d2 <;>
      cases hd3 : isTrailForm d3 <;> simp [this, hd1, hd2, hd3, meetsBadLeadFrom]

theorem decode_none_iff_aux (n : Nat) :
    ∀ bs : List Byte, bs.length ≤ n → (decode bs = none ↔ meetsBadLead bs = true) := by
  induction n with
  | zero =>
    intro bs h
    have : bs = [] := List.length_eq_zero.mp (Nat.le_zero.mp h)
    subst this
    simp [decode_nil, meetsBadLead_nil]
  | succ n ih =>
    intro bs h
    match bs, h with
    | [], _ => simp [decode_nil, meetsBadLead_nil]
    | b :: rest, h =>
      have hlen : rest.length ≤ n := by simpa using h
      have ih2 : ∀ r : List Byte, r.length < rest.length →
          (decode r = none ↔ meetsBadLead r = true) := fun r hr => ih r (by omega)
      by_cases c1 : b.val < 0x80
      · rw [decode_ascii_cons b rest c1, meetsBadLead_ascii_cons b rest c1]
        simp [ih rest hlen]
      by_cases c2 : b.val < 0xC0
      · rw [decode_trail_cons b rest (by omega) c2, meetsBadLead_trail_cons b rest (by omega) c2]
        simp
      by_cases c3 : b.val < 0xE0
      · exact decode_none_iff_lead2 b rest (by omega) c3 ih2
      by_cases c4 : b.val < 0xF0
      · exact decode_none_iff_lead3 b rest (by omega) c4 ih2
      by_cases c5 : b.val < 0xF8
      · exact decode_none_iff_lead4 b rest (by omega) c5 ih2
      · rw [decode_lead5_cons b rest (by omega), meetsBadLead_lead5 b rest (by omega)]
        simp

theorem decode_eq_none_iff (bs : List Byte) : decode bs = none ↔ meetsBadLead bs = true :=
  decode_none_iff_aux bs.length bs (le_refl _)

theorem decode_of_all_ascii (bs : List Byte) (h : ∀ b ∈ bs, b.val < 0x80) :
    decode bs = some (bs.map fun b => b.val) := by
  induction bs with
  | nil => simp [decode_nil]
  | cons b rest ih =>
    rw [decode_ascii_cons b rest (h b (by simp)), ih (fun c hc => h c (by simp [hc]))]
    simp

theorem decodeString_throws_iff (bs : List Byte) :
    (∃ e, decodeString bs = Except.error e) ↔ decode bs = none := by
  unfold decodeString
  cases bs with
  | nil => simp [decode_nil]
  | cons b rest =>
    cases h : decode (b :: rest) <;> simp

theorem decodeString_of_decode_some (bs : List Byte) (ws : wstring) (h : decode bs = some ws) :
    decodeString bs = Except.ok ws := by
  unfold decodeString
  cases bs with
  | nil =>
    rw [decode_nil] at h
    simp at h
    simp [h]
  | cons b rest => simp [h]

/-- C1: `Utf8::decode` fails (the pointer overload returns `-1`, the string
overload throws `exCantDecode`) if and only if, reading the input left to
right, it meets a lead byte of the form `10xxxxxx` or `11111xxx`, or a lead
byte `110xxxxx` / `1110xxxx` / `11110xxx` that is not followed by 1 / 2 / 3
further bytes all of the form `10xxxxxx`; every input starting with a
continuation byte is rejected, and every input made only of bytes below
`0x80` decodes to the same values, one code point per byte. -/
theorem decode_fails_iff_meetsBadLead :
    (∀ bs : List Byte, decode bs = none ↔ meetsBadLead bs = true) ∧
    (∀ bs : List Byte, (∃ e, decodeString bs = Except.error e) ↔ meetsBadLead bs = true) ∧
    (∀ (b : Byte) (rest : List Byte), 0x80 ≤ b.val → b.val < 0xC0 →
      decode (b :: rest) = none ∧ ∃ e, decodeString (b :: rest) = Except.error e) ∧
    (∀ bs : List Byte, (∀ b ∈ bs, b.val < 0x80) →
      decode bs = some (bs.map fun b => b.val) ∧
      decodeString bs = Except.ok (bs.map fun b => b.val)) := by
  refine ⟨decode_eq_none_iff, ?_, ?_, ?_⟩
  · intro bs
    rw [decodeString_throws_iff, decode_eq_none_iff]
  · intro b rest h1 h2
    have h := decode_trail_cons b rest h1 h2
    exact ⟨h, (decodeString_throws_iff _).mpr h⟩
  · intro bs h
    have hd := decode_of_all_ascii bs h
    exact ⟨hd, decodeString_of_decode_some bs _ hd⟩

end Utf8

namespace Utf8

/-! ### Bit operations of the codec as arithmetic -/

theorem or_eq_add_of_lt (k m y : Nat) (h : y < 2 ^ k) : (m * 2 ^ k) ||| y = m * 2 ^ k + y := by
  rw [Nat.mul_comm m (2 ^ k)]
  exact (Nat.mul_add_lt_is_or h m).symm

theorem and_3F (x : Nat) : x &&& 0x3F = x % 64 := Nat.and_pow_two_sub_one_eq_mod x 6

theorem and_1F (x : Nat) : x &&& 0x1F = x % 32 := Nat.and_pow_two_sub_one_eq_mod x 5

theorem and_0F (x : Nat) : x &&& 0xF = x % 16 := Nat.and_pow_two_sub_one_eq_mod x 4

theorem and_07 (x : Nat) : x &&& 7 = x % 8 := Nat.and_pow_two_sub_one_eq_mod x 3

theorem or_80 (x : Nat) (h : x < 64) : 0x80 ||| x = 128 + x := by
  have := or_eq_add_of_lt 6 2 x (by simpa using h)
  simpa using this

theorem or_C0 (x : Nat) (h : x < 32) : 0xC0 ||| x = 192 + x := by
  have := or_eq_add_of_lt 5 6 x (by simpa using h)
  simpa using this

theorem or_E0 (x : Nat) (h : x < 16) : 0xE0 ||| x = 224 + x := by
  have := or_eq_add_of_lt 4 14 x (by simpa using h)
  simpa using this

theorem or_F0 (x : Nat) (h : x < 8) : 0xF0 ||| x = 240 + x := by
  have := or_eq_add_of_lt 3 30 x (by simpa using h)
  simpa using this

/-- The value `decode` assembles from a two-byte sequence. -/
theorem value2_eq (b b1 : Nat) :
    ((b &&& 0x1F) <<< 6) ||| (b1 &&& 0x3F) = 64 * (b % 32) + b1 % 64 := by
  rw [and_1F, and_3F, Nat.shiftLeft_eq]
  have := or_eq_add_of_lt 6 (b % 32) (b1 % 64) (by have := Nat.mod_lt b1 (show 0 < 64 by decide); simpa using this)
  simp only [Nat.reducePow] at this ⊢
  omega

/-- The value `decode` assembles from a three-byte sequence. -/
theorem value3_eq (b b1 b2 : Nat) :
    (((b &&& 0xF) <<< 12) ||| ((b1 &&& 0x3F) <<< 6)) ||| (b2 &&& 0x3F) =
      4096 * (b % 16) + 64 * (b1 % 64) + b2 % 64 := by
  rw [and_0F, and_3F, and_3F, Nat.shiftLeft_eq, Nat.shiftLeft_eq]
  have h1 := Nat.mod_lt b1 (show 0 < 64 by decide)
  have h2 := Nat.mod_lt b2 (show 0 < 64 by decide)
  have e1 := or_eq_add_of_lt 12 (b % 16) (b1 % 64 * 2 ^ 6) (by simp only [Nat.reducePow]; omega)
  rw [e1]
  have e2 := or_eq_add_of_lt 6 (b % 16 * 64 + b1 % 64) (b2 % 64) (by simpa using h2)
  simp only [Nat.reducePow] at e2 ⊢
  have e3 : b % 16 * 4096 + b1 % 64 * 64 = (b % 16 * 64 + b1 % 64) * 64 := by omega
  rw [e3, e2]
  omega

/-- The value `decode` assembles from a four-byte sequence. -/
theorem value4_eq (b b1 b2 b3 : Nat) :
    ((((b &&& 7) <<< 18) ||| ((b1 &&& 0x3F) <<< 12)) ||| ((b2 &&& 0x3F) <<< 6)) |||
        (b3 &&& 0x3F) =
      262144 * (b % 8) + 4096 * (b1 % 64) + 64 * (b2 % 64) + b3 % 64 := by
  rw [and_07, and_3F, and_3F, and_3F, Nat.shiftLeft_eq, Nat.shiftLeft_eq, Nat.shiftLeft_eq]
  have h1 := Nat.mod_lt b1 (show 0 < 64 by decide)
  have h2 := Nat.mod_lt b2 (show 0 < 64 by decide)
  have h3 := Nat.mod_lt b3 (show 0 < 64 by decide)
  have e1 := or_eq_add_of_lt 18 (b % 8) (b1 % 64 * 2 ^ 12) (by simp only [Nat.reducePow]; omega)
  rw [e1]
  have e2 := or_eq_add_of_lt 12 (b % 8 * 64 + b1 % 64) (b2 % 64 * 2 ^ 6)
    (by simp only [Nat.reducePow]; omega)
  have e3 := or_eq_add_of_lt 6 ((b % 8 * 64 + b1 % 64) * 64 + b2 % 64) (b3 % 64)
    (by simpa using h3)
  simp only [Nat.reducePow] at e2 e3 ⊢
  have a1 : b % 8 * 262144 + b1 % 64 * 4096 = (b % 8 * 64 + b1 % 64) * 4096 := by omega
  rw [a1, e2]
  have a2 : (b % 8 * 64 + b1 % 64) * 4096 + b2 % 64 * 64 =
      ((b % 8 * 64 + b1 % 64) * 64 + b2 % 64) * 64 := by omega
  rw [a2, e3]
  omega

end Utf8

namespace Utf8

/-! ### Strict validity against what `decode` accepts -/

theorem toByte_val (n : Nat) (h : n < 256) : (toByte n).val = n := by
  simp [toByte, Nat.mod_eq_of_lt h]

theorem encode_cons1 (w : Nat) (ws : wstring) (h : w < 0x80) :
    encode (w :: ws) = toByte w :: encode ws := by
  rw [encode, if_pos h]

theorem encode_cons2 (w : Nat) (ws : wstring) (h1 : 0x80 ≤ w) (h2 : w < 0x800) :
    encode (w :: ws) =
      toByte (0xC0 ||| (w >>> 6)) :: toByte (0x80 ||| (w &&& 0x3F)) :: encode ws := by
  rw [encode, if_neg (by omega), if_pos h2]

theorem encode_cons3 (w : Nat) (ws : wstring) (h1 : 0x800 ≤ w) (h2 : w < 0x10000) :
    encode (w :: ws) =
      toByte (0xE0 ||| (w >>> 12)) :: toByte (0x80 ||| ((w >>> 6) &&& 0x3F)) ::
        toByte (0x80 ||| (w &&& 0x3F)) :: encode ws := by
  rw [encode, if_neg (by omega), if_neg (by omega), if_pos h2]

theorem encode_cons4 (w : Nat) (ws : wstring) (h1 : 0x10000 ≤ w) :
    encode (w :: ws) =
      toByte (0xF0 ||| (w >>> 18)) :: toByte (0x80 ||| ((w >>> 12) &&& 0x3F)) ::
        toByte (0x80 ||| ((w >>> 6) &&& 0x3F)) :: toByte (0x80 ||| (w &&& 0x3F)) ::
          encode ws := by
  rw [encode, if_neg (by omega), if_neg (by omega), if_neg (by omega)]

/-- The first byte `encode` writes for a code point below `0x10000` is below
`0x80`, in `0xC0..0xDF` or in `0xE0..0xEF` according to the size of the code
point. -/
theorem encode_head_class (w : Nat) (ws : wstring) (h : w < 0x10000) :
    ∃ (c : Byte) (tl : List Byte), encode (w :: ws) = c :: tl ∧
      (w < 0x80 → c.val < 0x80) ∧
      (0x80 ≤ w → w < 0x800 → 0xC0 ≤ c.val ∧ c.val < 0xE0) ∧
      (0x800 ≤ w → 0xE0 ≤ c.val ∧ c.val < 0xF0) := by
  by_cases c1 : w < 0x80
  · refine ⟨_, _, encode_cons1 w ws c1, ?_, ?_, ?_⟩
    · intro _
      rw [toByte_val w (by omega)]
      exact c1
    · intro h1; omega
    · intro h1; omega
  by_cases c2 : w < 0x800
  · refine ⟨_, _, encode_cons2 w ws (by omega) c2, ?_, ?_, ?_⟩
    · intro h1; omega
    · intro _ _
      have hd : w >>> 6 < 32 := by
        rw [Nat.shiftRight_eq_div_pow]
        simp only [Nat.reducePow]
        omega
      rw [or_C0 _ hd, toByte_val _ (by omega)]
      omega
    · intro h1; omega
  · refine ⟨_, _, encode_cons3 w ws (by omega) h, ?_, ?_, ?_⟩
    · intro h1; omega
    · intro _ h2; omega
    · intro _
      have hd : w >>> 12 < 16 := by
        rw [Nat.shiftRight_eq_div_pow]
        simp only [Nat.reducePow]
        omega
      rw [or_E0 _ hd, toByte_val _ (by omega)]
      omega

theorem validUtf8_nil : validUtf8 [] = true := rfl

theorem validUtf8_ascii_cons (b : Byte) (rest : List Byte) (h : b.val < 0x80) :
    validUtf8 (b :: rest) = validUtf8 rest := by
  have : followingRanges b = some [] := by
    rw [followingRanges, if_pos (by omega)]
  simp [validUtf8, validUtf8From, this]

theorem validUtf8From_nil_cons (b : Byte) (rest : List Byte) (owed : List (Nat × Nat))
    (h : followingRanges b = some owed) :
    validUtf8From [] (b :: rest) = validUtf8From owed rest := by
  simp [validUtf8From, h]

theorem validUtf8_of_two (b b1 : Byte) (rest : List Byte) (h1 : 0xC2 ≤ b.val)
    (h2 : b.val ≤ 0xDF) (t1 : 0x80 ≤ b1.val ∧ b1.val ≤ 0xBF) (hr : validUtf8 rest = true) :
    validUtf8 (b :: b1 :: rest) = true := by
  have : followingRanges b = some [(0x80, 0xBF)] := by
    rw [followingRanges, if_neg (by omega), if_pos ⟨h1, h2⟩]
  rw [validUtf8, validUtf8From_nil_cons b _ _ this]
  simp [validUtf8From, t1.1, t1.2]
  exact hr

theorem validUtf8_of_three (b b1 b2 : Byte) (rest : List Byte) (lo hi : Nat)
    (hf : followingRanges b = some [(lo, hi), (0x80, 0xBF)])
    (t1 : lo ≤ b1.val ∧ b1.val ≤ hi) (t2 : 0x80 ≤ b2.val ∧ b2.val ≤ 0xBF)
    (hr : validUtf8 rest = true) :
    validUtf8 (b :: b1 :: b2 :: rest) = true := by
  rw [validUtf8, validUtf8From_nil_cons b _ _ hf]
  simp [validUtf8From, t1.1, t1.2, t2.1, t2.2]
  exact hr

theorem validUtf8_of_four (b b1 b2 b3 : Byte) (rest : List Byte) (lo hi : Nat)
    (hf : followingRanges b = some [(lo, hi), (0x80, 0xBF), (0x80, 0xBF)])
    (t1 : lo ≤ b1.val ∧ b1.val ≤ hi) (t2 : 0x80 ≤ b2.val ∧ b2.val ≤ 0xBF)
    (t3 : 0x80 ≤ b3.val ∧ b3.val ≤ 0xBF) (hr : validUtf8 rest = true) :
    validUtf8 (b :: b1 :: b2 :: b3 :: rest) = true := by
  rw [validUtf8, validUtf8From_nil_cons b _ _ hf]
  simp [validUtf8From, t1.1, t1.2, t2.1, t2.2, t3.1, t3.2]
  exact hr

theorem isTrailForm_iff (b : Byte) : isTrailForm b = true ↔ 0x80 ≤ b.val ∧ b.val ≤ 0xBF := by
  simp [isTrailForm]
  omega

/-- A code point `decode` may return without the input being at fault: not a
surrogate and not above U+10FFFF. -/
theorem scalar_of_forall {ws : wstring} {w : Nat}
    (h : ∀ x ∈ w :: ws, isSurrogate x = false ∧ x ≤ 0x10FFFF) :
    (isSurrogate w = false ∧ w ≤ 0x10FFFF) ∧ ∀ x ∈ ws, isSurrogate x = false ∧ x ≤ 0x10FFFF :=
  ⟨h w (by simp), fun x hx => h x (by simp [hx])⟩

theorem canonical_step1 (b : Byte) (rest : List Byte) (ws : wstring) (h : b.val < 0x80)
    (hd : decode (b :: rest) = some ws) (he : encode ws = b :: rest) :
    ∃ ws1, ws = b.val :: ws1 ∧ decode rest = some ws1 ∧ encode ws1 = rest := by
  rw [decode_ascii_cons b rest h] at hd
  cases hr : decode rest with
  | none => simp [hr] at hd
  | some ws1 =>
    simp [hr] at hd
    subst hd
    rw [encode_cons1 _ _ h] at he
    exact ⟨ws1, rfl, rfl, (List.cons.inj he).2⟩

theorem canonical_step2 (b b1 : Byte) (rest : List Byte) (ws : wstring) (h1 : 0xC0 ≤ b.val)
    (h2 : b.val < 0xE0) (hd : decode (b :: b1 :: rest) = some ws)
    (he : encode ws = b :: b1 :: rest) :
    ∃ ws1, decode rest = some ws1 ∧ encode ws1 = rest ∧
      ws = (64 * (b.val % 32) + b1.val % 64) :: ws1 ∧
      0xC2 ≤ b.val ∧ isTrailForm b1 = true := by
  rw [decode_lead2_cons b b1 rest h1 h2] at hd
  cases t1 : isTrailForm b1 with
  | false => simp [t1] at hd
  | true =>
    cases hr : decode rest with
    | none => simp [t1, hr] at hd
    | some ws1 =>
      simp only [t1, hr, if_true, Option.map_some', Option.some.injEq] at hd
      rw [value2_eq] at hd
      subst hd
      obtain ⟨c, tl, hc, k1, k2, k3⟩ :=
        encode_head_class (64 * (b.val % 32) + b1.val % 64) ws1 (by omega)
      have hcb : c = b := by
        rw [hc] at he
        exact (List.cons.inj he).1
      subst hcb
      have hv : 0x80 ≤ 64 * (c.val % 32) + b1.val % 64 := by
        by_contra hlt
        have := k1 (by omega)
        omega
      rw [encode_cons2 _ _ hv (by omega)] at he
      refine ⟨ws1, rfl, ?_, rfl, by omega, rfl⟩
      exact (List.cons.inj (List.cons.inj he).2).2

theorem canonical_step3 (b b1 b2 : Byte) (rest : List Byte) (ws : wstring)
    (h1 : 0xE0 ≤ b.val) (h2 : b.val < 0xF0) (hd : decode (b :: b1 :: b2 :: rest) = some ws)
    (he : encode ws = b :: b1 :: b2 :: rest) :
    ∃ ws1, decode rest = some ws1 ∧ encode ws1 = rest ∧
      ws = (4096 * (b.val % 16) + 64 * (b1.val % 64) + b2.val % 64) :: ws1 ∧
      0x800 ≤ 4096 * (b.val % 16) + 64 * (b1.val % 64) + b2.val % 64 ∧
      isTrailForm b1 = true ∧ isTrailForm b2 = true := by
  rw [decode_lead3_cons b b1 b2 rest h1 h2] at hd
  cases t1 : isTrailForm b1 with
  | false => simp [t1] at hd
  | true =>
    cases t2 : isTrailForm b2 with
    | false => simp [t1, t2] at hd
    | true =>
      cases hr : decode rest with
      | none => simp [t1, t2, hr] at hd
      | some ws1 =>
        simp only [t1, t2, hr, Bool.and_self, if_true, Option.map_some',
          Option.some.injEq] at hd
        rw [value3_eq] at hd
        subst hd
        obtain ⟨c, tl, hc, k1, k2, k3⟩ :=
          encode_head_class (4096 * (b.val % 16) + 64 * (b1.val % 64) + b2.val % 64) ws1
            (by omega)
        have hcb : c = b := by
          rw [hc] at he
          exact (List.cons.inj he).1
        subst hcb
        have hv : 0x800 ≤ 4096 * (c.val % 16) + 64 * (b1.val % 64) + b2.val % 64 := by
          by_contra hlt
          by_cases hs : 4096 * (c.val % 16) + 64 * (b1.val % 64) + b2.val % 64 < 0x80
          · have := k1 hs
            omega
          · have := k2 (by omega) (by omega)
            omega
        rw [encode_cons3 _ _ hv (by omega)] at he
        refine ⟨ws1, rfl, ?_, rfl, hv, rfl, rfl⟩
        exact (List.cons.inj (List.cons.inj (List.cons.inj he).2).2).2

theorem canonical_step4 (b b1 b2 b3 : Byte) (rest : List Byte) (ws : wstring)
    (h1 : 0xF0 ≤ b.val) (h2 : b.val < 0xF8)
    (hd : decode (b :: b1 :: b2 :: b3 :: rest) = some ws)
    (he : encode ws = b :: b1 :: b2 :: b3 :: rest) :
    ∃ ws1, decode rest = some ws1 ∧ encode ws1 = rest ∧
      ws = (262144 * (b.val % 8) + 4096 * (b1.val % 64) + 64 * (b2.val % 64) + b3.val % 64)
        :: ws1 ∧
      0x10000 ≤ 262144 * (b.val % 8) + 4096 * (b1.val % 64) + 64 * (b2.val % 64) + b3.val % 64 ∧
      isTrailForm b1 = true ∧ isTrailForm b2 = true ∧ isTrailForm b3 = true := by
  rw [decode_lead4_cons b b1 b2 b3 rest h1 h2] at hd
  cases t1 : isTrailForm b1 with
  | false => simp [t1] at hd
  | true =>
    cases t2 : isTrailForm b2 with
    | false => simp [t1, t2] at hd
    | true =>
      cases t3 : isTrailForm b3 with
      | false => simp [t1, t2, t3] at hd
      | true =>
        cases hr : decode rest with
        | none => simp [t1, t2, t3, hr] at hd
        | some ws1 =>
          simp only [t1, t2, t3, hr, Bool.and_self, if_true, Option.map_some',
            Option.some.injEq] at hd
          rw [value4_eq] at hd
          subst hd
          have hv : 0x10000 ≤
              262144 * (b.val % 8) + 4096 * (b1.val % 64) + 64 * (b2.val % 64) + b3.val % 64 := by
            by_contra hlt
            obtain ⟨c, tl, hc, k1, k2, k3⟩ :=
              encode_head_class
                (262144 * (b.val % 8) + 4096 * (b1.val % 64) + 64 * (b2.val % 64) + b3.val % 64)
                ws1 (by omega)
            have hcb : c = b := by
              rw [hc] at he
              exact (List.cons.inj he).1
            subst hcb
            by_cases hs : 262144 * (c.val % 8) + 4096 * (b1.val % 64) + 64 * (b2.val % 64) +
                b3.val % 64 < 0x80
            · have := k1 hs
              omega
            by_cases hs2 : 262144 * (c.val % 8) + 4096 * (b1.val % 64) + 64 * (b2.val % 64) +
                b3.val % 64 < 0x800
            · have := k2 (by omega) hs2
              omega
            · have := k3 (by omega)
              omega
          rw [encode_cons4 _ _ hv] at he
          refine ⟨ws1, rfl, ?_, rfl, hv, rfl, rfl, rfl⟩
          exact (List.cons.inj (List.cons.inj (List.cons.inj (List.cons.inj he).2).2).2).2

theorem isSurrogate_false_iff (w : Nat) : isSurrogate w = false ↔ w < 0xD800 ∨ 0xDFFF < w := by
  simp [isSurrogate]
  omega

/-- A byte sequence that `decode` accepts, that is the canonical encoding of
the code points returned, and whose code points are Unicode scalar values,
is valid UTF-8. -/
theorem validUtf8_of_canonical (n : Nat) :
    ∀ (bs : List Byte) (ws : wstring), bs.length ≤ n → decode bs = some ws →
      encode ws = bs → (∀ w ∈ ws, isSurrogate w = false ∧ w ≤ 0x10FFFF) →
      validUtf8 bs = true := by
  induction n with
  | zero =>
    intro bs ws h _ _ _
    have : bs = [] := List.length_eq_zero.mp (Nat.le_zero.mp h)
    subst this
    rfl
  | succ n ih =>
    intro bs ws h hd he hs
    match bs, h with
    | [], _ => rfl
    | b :: rest, h =>
      have hlen : rest.length ≤ n := by simpa using h
      by_cases c1 : b.val < 0x80
      · obtain ⟨ws1, rfl, hd1, he1⟩ := canonical_step1 b rest ws c1 hd he
        rw [validUtf8_ascii_cons b rest c1]
        exact ih rest ws1 hlen hd1 he1 (scalar_of_forall hs).2
      by_cases c2 : b.val < 0xC0
      · rw [decode_trail_cons b rest (by omega) c2] at hd
        simp at hd
      by_cases c3 : b.val < 0xE0
      · match rest, hlen with
        | [], _ =>
          rw [decode_lead2_nil b (by omega) c3] at hd
          simp at hd
        | b1 :: rest1, hlen =>
          obtain ⟨ws1, hd1, he1, rfl, hb, t1⟩ :=
            canonical_step2 b b1 rest1 ws (by omega) c3 hd he
          exact validUtf8_of_two b b1 rest1 hb (by omega) ((isTrailForm_iff b1).mp t1)
            (ih rest1 ws1 (by simp at hlen; omega) hd1 he1 (scalar_of_forall hs).2)
      by_cases c4 : b.val < 0xF0
      · match rest, hlen with
        | [], _ =>
          rw [decode_lead3_short b _ (by omega) c4 (by simp)] at hd
          simp at hd
        | [_], _ =>
          rw [decode_lead3_short b _ (by omega) c4 (by simp)] at hd
          simp at hd
        | b1 :: b2 :: rest2, hlen =>
          obtain ⟨ws1, hd1, he1, rfl, hv, t1, t2⟩ :=
            canonical_step3 b b1 b2 rest2 ws (by omega) c4 hd he
          have hr := ih rest2 ws1 (by simp at hlen; omega) hd1 he1 (scalar_of_forall hs).2
          have hsc := (scalar_of_forall hs).1
          rw [isSurrogate_false_iff] at hsc
          have r1 := (isTrailForm_iff b1).mp t1
          have r2 := (isTrailForm_iff b2).mp t2
          by_cases e0 : b.val = 0xE0
          · refine validUtf8_of_three b b1 b2 rest2 0xA0 0xBF ?_ (by omega) r2 hr
            rw [followingRanges, if_neg (by omega), if_neg (by omega), if_pos e0]
          by_cases ed : b.val = 0xED
          · refine validUtf8_of_three b b1 b2 rest2 0x80 0x9F ?_ (by omega) r2 hr
            rw [followingRanges, if_neg (by omega), if_neg (by omega), if_neg e0,
              if_neg (by omega), if_pos ed]
          by_cases ec : b.val ≤ 0xEC
          · refine validUtf8_of_three b b1 b2 rest2 0x80 0xBF ?_ r1 r2 hr
            rw [followingRanges, if_neg (by omega), if_neg (by omega), if_neg e0,
              if_pos (by omega)]
          · refine validUtf8_of_three b b1 b2 rest2 0x80 0xBF ?_ r1 r2 hr
            rw [followingRanges, if_neg (by omega), if_neg (by omega), if_neg e0,
              if_neg (by omega), if_neg ed, if_pos (by omega)]
      by_cases c5 : b.val < 0xF8
      · match rest, hlen with
        | [], _ =>
          rw [decode_lead4_short b _ (by omega) c5 (by simp)] at hd
          simp at hd
        | [_], _ =>
          rw [decode_lead4_short b _ (by omega) c5 (by simp)] at hd
          simp at hd
        | [_, _], _ =>
          rw [decode_lead4_short b _ (by omega) c5 (by simp)] at hd
          simp at hd
        | b1 :: b2 :: b3 :: rest3, hlen =>
          obtain ⟨ws1, hd1, he1, rfl, hv, t1, t2, t3⟩ :=
            canonical_step4 b b1 b2 b3 rest3 ws (by omega) c5 hd he
          have hr := ih rest3 ws1 (by simp at hlen; omega) hd1 he1 (scalar_of_forall hs).2
          have hsc := (scalar_of_forall hs).1.2
          have r1 := (isTrailForm_iff b1).mp t1
          have r2 := (isTrailForm_iff b2).mp t2
          have r3 := (isTrailForm_iff b3).mp t3
          by_cases f0 : b.val = 0xF0
          · refine validUtf8_of_four b b1 b2 b3 rest3 0x90 0xBF ?_ (by omega) r2 r3 hr
            rw [followingRanges, if_neg (by omega), if_neg (by omega), if_neg (by omega),
              if_neg (by omega), if_neg (by omega), if_neg (by omega), if_pos f0]
          by_cases f4 : b.val = 0xF4
          · refine validUtf8_of_four b b1 b2 b3 rest3 0x80 0x8F ?_ (by omega) r2 r3 hr
            rw [followingRanges, if_neg (by omega), if_neg (by omega), if_neg (by omega),
              if_neg (by omega), if_neg (by omega), if_neg (by omega), if_neg f0,
              if_neg (by omega), if_pos f4]
          · refine validUtf8_of_four b b1 b2 b3 rest3 0x80 0xBF ?_ r1 r2 r3 hr
            rw [followingRanges, if_neg (by omega), if_neg (by omega), if_neg (by omega),
              if_neg (by omega), if_neg (by omega), if_neg (by omega), if_neg f0,
              if_pos (by omega)]
      · rw [decode_lead5_cons b rest (by omega)] at hd
        simp at hd

/-- What `decode` returns for a sequence that is not valid UTF-8 shows the
defect it does not check. -/
theorem decode_of_invalid_flags (bs : List Byte) (ws : wstring) (h : validUtf8 bs = false)
    (hd : decode bs = some ws) :
    encode ws ≠ bs ∨ ∃ w ∈ ws, isSurrogate w = true ∨ 0x10FFFF < w := by
  by_contra hcon
  rw [not_or] at hcon
  obtain ⟨he, hs⟩ := hcon
  have he2 : encode ws = bs := not_not.mp he
  have hs2 : ∀ w ∈ ws, isSurrogate w = false ∧ w ≤ 0x10FFFF := by
    intro w hw
    by_contra hc
    apply hs
    refine ⟨w, hw, ?_⟩
    cases hsw : isSurrogate w with
    | true => exact Or.inl rfl
    | false =>
      right
      by_contra hle
      exact hc ⟨hsw, by omega⟩
  have := validUtf8_of_canonical bs.length bs ws (le_refl _) hd he2 hs2
  rw [h] at this
  exact Bool.noConfusion this

set_option maxRecDepth 100000 in
/-- No well-formed sequence starts with `C0`, `C1` or a byte from `F5` on. -/
theorem followingRanges_none : ∀ b : Byte,
    b.val = 0xC0 ∨ b.val = 0xC1 ∨ 0xF5 ≤ b.val → followingRanges b = none := by
  decide

set_option maxRecDepth 100000 in
theorem followingRanges_ED : ∀ b : Byte,
    b.val = 0xED → followingRanges b = some [(0x80, 0x9F), (0x80, 0xBF)] := by
  decide

set_option maxRecDepth 100000 in
theorem followingRanges_F4 : ∀ b : Byte,
    b.val = 0xF4 → followingRanges b = some [(0x80, 0x8F), (0x80, 0xBF), (0x80, 0xBF)] := by
  decide

/-- A two-byte sequence led by `C0` or `C1` is an overlong form: it is not
valid UTF-8, and `decode` returns the value below `0x80` it holds. -/
theorem decode_overlong2 (b b1 : Byte) (rest : List Byte) (ws : wstring)
    (hb : b.val = 0xC0 ∨ b.val = 0xC1) (t1 : isTrailForm b1 = true)
    (hr : decode rest = some ws) :
    validUtf8 (b :: b1 :: rest) = false ∧
      decode (b :: b1 :: rest) = some ((64 * (b.val % 32) + b1.val % 64) :: ws) ∧
      64 * (b.val % 32) + b1.val % 64 < 0x80 := by
  have hf : followingRanges b = none := followingRanges_none b (by omega)
  refine ⟨by simp [validUtf8, validUtf8From, hf], ?_, by omega⟩
  rw [decode_lead2_cons b b1 rest (by omega) (by omega), if_pos t1, hr, value2_eq]
  rfl

/-- A three-byte sequence led by `ED` with a second byte `A0..BF` encodes a
surrogate: it is not valid UTF-8, and `decode` returns the surrogate. -/
theorem decode_surrogate3 (b b1 b2 : Byte) (rest : List Byte) (ws : wstring)
    (hb : b.val = 0xED) (h1 : 0xA0 ≤ b1.val ∧ b1.val ≤ 0xBF) (t2 : isTrailForm b2 = true)
    (hr : decode rest = some ws) :
    validUtf8 (b :: b1 :: b2 :: rest) = false ∧
      decode (b :: b1 :: b2 :: rest) =
        some ((4096 * (b.val % 16) + 64 * (b1.val % 64) + b2.val % 64) :: ws) ∧
      isSurrogate (4096 * (b.val % 16) + 64 * (b1.val % 64) + b2.val % 64) = true := by
  have hf : followingRanges b = some [(0x80, 0x9F), (0x80, 0xBF)] := followingRanges_ED b hb
  have t1 : isTrailForm b1 = true := (isTrailForm_iff b1).mpr ⟨by omega, by omega⟩
  have hlo : ¬ b1.val ≤ 0x9F := by omega
  refine ⟨?_, ?_, ?_⟩
  · rw [validUtf8, validUtf8From_nil_cons b _ _ hf]
    simp [validUtf8From, hlo]
  · rw [decode_lead3_cons b b1 b2 rest (by omega) (by omega), t1, t2, Bool.and_self,
      if_pos rfl, hr, value3_eq]
    rfl
  · have k2 := Nat.mod_lt b2.val (show 0 < 64 by decide)
    simp only [isSurrogate, Bool.and_eq_true, decide_eq_true_eq]
    omega

/-- A four-byte sequence led by `F4` with a second byte `90..BF`, or led by
`F5`, `F6` or `F7`, encodes a value above U+10FFFF: it is not valid UTF-8, and
`decode` returns the value. -/
theorem decode_above4 (b b1 b2 b3 : Byte) (rest : List Byte) (ws : wstring)
    (hb : (b.val = 0xF4 ∧ 0x90 ≤ b1.val) ∨ (0xF5 ≤ b.val ∧ b.val ≤ 0xF7))
    (t1 : isTrailForm b1 = true) (t2 : isTrailForm b2 = true) (t3 : isTrailForm b3 = true)
    (hr : decode rest = some ws) :
    validUtf8 (b :: b1 :: b2 :: b3 :: rest) = false ∧
      decode (b :: b1 :: b2 :: b3 :: rest) =
        some ((262144 * (b.val % 8) + 4096 * (b1.val % 64) + 64 * (b2.val % 64) +
          b3.val % 64) :: ws) ∧
      0x10FFFF < 262144 * (b.val % 8) + 4096 * (b1.val % 64) + 64 * (b2.val % 64) +
        b3.val % 64 := by
  have k1 := (isTrailForm_iff b1).mp t1
  refine ⟨?_, ?_, ?_⟩
  · rcases hb with ⟨h4, h90⟩ | ⟨h5, h7⟩
    · have hf : followingRanges b = some [(0x80, 0x8F), (0x80, 0xBF), (0x80, 0xBF)] :=
        followingRanges_F4 b h4
      have hhi : ¬ b1.val ≤ 0x8F := by omega
      rw [validUtf8, validUtf8From_nil_cons b _ _ hf]
      simp [validUtf8From, hhi]
    · have hf : followingRanges b = none := followingRanges_none b (by omega)
      simp [validUtf8, validUtf8From, hf]
  · have hlt : b.val < 0xF8 := by
      rcases hb with ⟨h4, _⟩ | ⟨_, h7⟩ <;> omega
    have hge : 0xF0 ≤ b.val := by
      rcases hb with ⟨h4, _⟩ | ⟨h5, _⟩ <;> omega
    rw [decode_lead4_cons b b1 b2 b3 rest hge hlt, t1, t2, t3, Bool.and_self, Bool.and_self,
      if_pos rfl, hr, value4_eq]
    rfl
  · rcases hb with ⟨h4, h90⟩ | ⟨h5, h7⟩ <;> omega

/-- C2 (as amended): for every byte sequence that is not valid UTF-8,
`Utf8::decode` fails exactly when, reading left to right, it meets a lead
byte of the form `10xxxxxx` or `11111xxx` or a lead byte that is not followed
by the bytes of the form `10xxxxxx` it announces.  Every other sequence that
is not valid UTF-8 is decoded, not rejected, and the code points returned
show the defect the decoder does not check: the input is not their
canonical encoding (an overlong form), or one of them is a surrogate or lies
above U+10FFFF. -/
theorem decode_of_invalid_utf8 (bs : List Byte) (h : validUtf8 bs = false) :
    (decode bs = none ↔ meetsBadLead bs = true) ∧
    (meetsBadLead bs = false →
      ∃ ws, decode bs = some ws ∧
        (encode ws ≠ bs ∨ ∃ w ∈ ws, isSurrogate w = true ∨ 0x10FFFF < w)) ∧
    (decode bs = none ∨
      ∃ ws, decode bs = some ws ∧
        (encode ws ≠ bs ∨ ∃ w ∈ ws, isSurrogate w = true ∨ 0x10FFFF < w)) := by
  refine ⟨decode_eq_none_iff bs, ?_, ?_⟩
  · intro hm
    cases hd : decode bs with
    | none =>
      rw [(decode_eq_none_iff bs).mp hd] at hm
      exact Bool.noConfusion hm
    | some ws => exact ⟨ws, rfl, decode_of_invalid_flags bs ws h hd⟩
  · cases hd : decode bs with
    | none => exact Or.inl rfl
    | some ws => exact Or.inr ⟨ws, rfl, decode_of_invalid_flags bs ws h hd⟩

/-- C2, witness: the overlong form `C0 80` is not valid UTF-8 and meets no
bad lead byte; it is decoded to the code point 0, whose encoding is the one
byte `00`. -/
theorem decode_of_invalid_utf8_witness :
    validUtf8 [0xC0, 0x80] = false ∧ meetsBadLead [0xC0, 0x80] = false ∧
      decode [0xC0, 0x80] = some [0] ∧ encode [0] = [0x00] ∧
      ∃ ws, decode [0xC0, 0x80] = some ws ∧
        (encode ws ≠ [0xC0, 0x80] ∨ ∃ w ∈ ws, isSurrogate w = true ∨ 0x10FFFF < w) :=
  ⟨by decide, by decide, by decide, by decide,
    (decode_of_invalid_utf8 [0xC0, 0x80] (by decide)).2.1 (by decide)⟩

/-- C2, counterexample: the overlong form `C0 80`, the encoded surrogate
`ED A0 80` and `F4 90 80 80` (the value 0x110000) are not valid UTF-8, yet
`Utf8::decode` returns code points for each of them.  So it does for every
sequence of these kinds followed by bytes it decodes: a two-byte sequence
led by `C0` or `C1`, a three-byte sequence `ED A0..BF 80..BF`, and a
four-byte sequence led by `F4 90..BF` or by `F5`, `F6` or `F7`. -/
theorem decode_accepts_invalid_utf8 :
    (validUtf8 [0xC0, 0x80] = false ∧ decode [0xC0, 0x80] = some [0]) ∧
    (validUtf8 [0xED, 0xA0, 0x80] = false ∧ decode [0xED, 0xA0, 0x80] = some [0xD800]) ∧
    (validUtf8 [0xF4, 0x90, 0x80, 0x80] = false ∧
      decode [0xF4, 0x90, 0x80, 0x80] = some [0x110000]) ∧
    (∀ (b b1 : Byte) (rest : List Byte) (ws : wstring),
      b.val = 0xC0 ∨ b.val = 0xC1 → isTrailForm b1 = true → decode rest = some ws →
      validUtf8 (b :: b1 :: rest) = false ∧
        decode (b :: b1 :: rest) = some ((64 * (b.val % 32) + b1.val % 64) :: ws) ∧
        64 * (b.val % 32) + b1.val % 64 < 0x80) ∧
    (∀ (b b1 b2 : Byte) (rest : List Byte) (ws : wstring),
      b.val = 0xED → 0xA0 ≤ b1.val ∧ b1.val ≤ 0xBF → isTrailForm b2 = true →
      decode rest = some ws →
      validUtf8 (b :: b1 :: b2 :: rest) = false ∧
        decode (b :: b1 :: b2 :: rest) =
          some ((4096 * (b.val % 16) + 64 * (b1.val % 64) + b2.val % 64) :: ws) ∧
        isSurrogate (4096 * (b.val % 16) + 64 * (b1.val % 64) + b2.val % 64) = true) ∧
    (∀ (b b1 b2 b3 : Byte) (rest : List Byte) (ws : wstring),
      (b.val = 0xF4 ∧ 0x90 ≤ b1.val) ∨ (0xF5 ≤ b.val ∧ b.val ≤ 0xF7) →
      isTrailForm b1 = true → isTrailForm b2 = true → isTrailForm b3 = true →
      decode rest = some ws →
      validUtf8 (b :: b1 :: b2 :: b3 :: rest) = false ∧
        decode (b :: b1 :: b2 :: b3 :: rest) =
          some ((262144 * (b.val % 8) + 4096 * (b1.val % 64) + 64 * (b2.val % 64) +
            b3.val % 64) :: ws) ∧
        0x10FFFF < 262144 * (b.val % 8) + 4096 * (b1.val % 64) + 64 * (b2.val % 64) +
          b3.val % 64) :=
  ⟨by decide, by decide, by decide, decode_overlong2, decode_surrogate3, decode_above4⟩

end Utf8
namespace Utf8

/-! ### The first line of a buffer -/

theorem search_le (s2 : List Byte) : ∀ s1 : List Byte, search s1 s2 ≤ s1.length := by
  intro s1
  induction s1 with
  | nil => exact Nat.le_refl _
  | cons c rest ih =>
    unfold search
    split
    · exact Nat.zero_le _
    · simp only [List.length_cons]
      omega

/-- Without an occurrence of the pattern, `std::search` returns the end of the
text. -/
theorem search_of_not_occurs (s2 : List Byte) :
    ∀ s1 : List Byte, ¬ Occurs s2 s1 → search s1 s2 = s1.length := by
  intro s1
  induction s1 with
  | nil => intro _; rfl
  | cons c rest ih =>
    intro h
    unfold search
    split
    · rename_i hp
      exact absurd ⟨0, by simp, hp⟩ h
    · rw [ih]
      · rfl
      · rintro ⟨i, hi, hp⟩
        exact h ⟨i + 1, by simp only [List.length_cons]; omega, hp⟩

/-- What `findFirstLinePosition` returns when the line terminator does not
occur: the length of the text, which is not negative. -/
theorem findFirstLinePosition_of_not_occurs (s1 s2 : List Byte) (h : ¬ Occurs s2 s1) :
    findFirstLinePosition s1 s2 = (s1.length : Int) := by
  unfold findFirstLinePosition
  simp only [search_of_not_occurs s2 s1 h, beq_self_eq_true, if_true]

/-- C23, evaluation: for the three bytes `abc` and the terminator `"\n"`, which
does not occur in them, `findFirstLinePosition` returns 3, the length,
and not -1; and it returns no negative number on any input. -/
theorem findFirstLinePosition_abc :
    ¬ Occurs [10] [97, 98, 99] ∧
      findFirstLinePosition [97, 98, 99] [10] = 3 ∧
      findFirstLinePosition [97, 98, 99] [10] ≠ -1 ∧
      ∀ s1 s2 : List Byte, 0 ≤ findFirstLinePosition s1 s2 := by
  refine ⟨?_, by decide, by decide, ?_⟩
  · rintro ⟨i, hi, hp⟩
    simp only [List.length_cons, List.length_nil] at hi
    have : i = 0 ∨ i = 1 ∨ i = 2 := by omega
    rcases this with rfl | rfl | rfl <;> revert hp <;> decide
  · intro s1 s2
    unfold findFirstLinePosition
    simp only
    split <;> omega

end Utf8
namespace Utf8

/-! ### Decoding what `encode` wrote -/

theorem shiftRight_lt (w k m : Nat) (h : w < m * 2 ^ k) : w >>> k < m := by
  rw [Nat.shiftRight_eq_div_pow]
  exact Nat.div_lt_of_lt_mul (by rw [Nat.mul_comm]; exact h)

theorem trail_val (x : Nat) : (toByte (0x80 ||| (x &&& 0x3F))).val = 128 + x % 64 := by
  have h := Nat.mod_lt x (show 0 < 64 by decide)
  rw [and_3F, or_80 _ h, toByte_val _ (by omega)]

theorem trail_isTrailForm (x : Nat) : isTrailForm (toByte (0x80 ||| (x &&& 0x3F))) = true := by
  have h := Nat.mod_lt x (show 0 < 64 by decide)
  rw [isTrailForm_iff, trail_val]
  omega

theorem decode_encode_cons1 (w : Nat) (ws : wstring) (h : w < 0x80) :
    decode (encode (w :: ws)) = (decode (encode ws)).map fun r => w :: r := by
  rw [encode_cons1 w ws h, decode_ascii_cons _ _ (by rw [toByte_val w (by omega)]; exact h),
    toByte_val w (by omega)]

theorem decode_encode_cons2 (w : Nat) (ws : wstring) (h1 : 0x80 ≤ w) (h2 : w < 0x800) :
    decode (encode (w :: ws)) = (decode (encode ws)).map fun r => w :: r := by
  have hd : w >>> 6 < 32 := shiftRight_lt w 6 32 (by simpa using h2)
  have hb : (toByte (0xC0 ||| (w >>> 6))).val = 192 + w >>> 6 := by
    rw [or_C0 _ hd, toByte_val _ (by omega)]
  have hdiv : w >>> 6 = w / 64 := by rw [Nat.shiftRight_eq_div_pow]
  rw [encode_cons2 w ws h1 h2, decode_lead2_cons _ _ _ (by omega) (by omega), trail_isTrailForm,
    if_pos rfl, value2_eq, hb, trail_val, hdiv]
  have hv : 64 * ((192 + w / 64) % 32) + (128 + w % 64) % 64 = w := by omega
  rw [hv]

theorem decode_encode_cons3 (w : Nat) (ws : wstring) (h1 : 0x800 ≤ w) (h2 : w < 0x10000) :
    decode (encode (w :: ws)) = (decode (encode ws)).map fun r => w :: r := by
  have hd : w >>> 12 < 16 := shiftRight_lt w 12 16 (by simpa using h2)
  have hb : (toByte (0xE0 ||| (w >>> 12))).val = 224 + w >>> 12 := by
    rw [or_E0 _ hd, toByte_val _ (by omega)]
  have hdiv : w >>> 12 = w / 4096 := by rw [Nat.shiftRight_eq_div_pow]
  have hdiv6 : w >>> 6 = w / 64 := by rw [Nat.shiftRight_eq_div_pow]
  rw [encode_cons3 w ws h1 h2, decode_lead3_cons _ _ _ _ (by omega) (by omega),
    trail_isTrailForm, trail_isTrailForm, Bool.and_self, if_pos rfl, value3_eq, hb, trail_val,
    trail_val, hdiv, hdiv6]
  have hv : 4096 * ((224 + w / 4096) % 16) + 64 * ((128 + w / 64 % 64) % 64) +
      (128 + w % 64) % 64 = w := by omega
  rw [hv]

theorem decode_encode_cons4 (w : Nat) (ws : wstring) (h1 : 0x10000 ≤ w) (h2 : w < 0x200000) :
    decode (encode (w :: ws)) = (decode (encode ws)).map fun r => w :: r := by
  have hd : w >>> 18 < 8 := shiftRight_lt w 18 8 (by simpa using h2)
  have hb : (toByte (0xF0 ||| (w >>> 18))).val = 240 + w >>> 18 := by
    rw [or_F0 _ hd, toByte_val _ (by omega)]
  have hdiv : w >>> 18 = w / 262144 := by rw [Nat.shiftRight_eq_div_pow]
  have hdiv12 : w >>> 12 = w / 4096 := by rw [Nat.shiftRight_eq_div_pow]
  have hdiv6 : w >>> 6 = w / 64 := by rw [Nat.shiftRight_eq_div_pow]
  rw [encode_cons4 w ws h1, decode_lead4_cons _ _ _ _ _ (by omega) (by omega),
    trail_isTrailForm, trail_isTrailForm, trail_isTrailForm, Bool.and_self, Bool.and_self,
    if_pos rfl, value4_eq, hb, trail_val, trail_val, trail_val, hdiv, hdiv12, hdiv6]
  have hv : 262144 * ((240 + w / 262144) % 8) + 4096 * ((128 + w / 4096 % 64) % 64) +
      64 * ((128 + w / 64 % 64) % 64) + (128 + w % 64) % 64 = w := by omega
  rw [hv]

/-- Code points below `0x200000` are decoded from their encoding. -/
theorem decode_encode_of_lt (ws : wstring) (h : ∀ w ∈ ws, w < 0x200000) :
    decode (encode ws) = some ws := by
  induction ws with
  | nil => rfl
  | cons w ws ih =>
    have hw := h w (by simp)
    have ih := ih fun x hx => h x (by simp [hx])
    by_cases c1 : w < 0x80
    · rw [decode_encode_cons1 w ws c1, ih]; rfl
    by_cases c2 : w < 0x800
    · rw [decode_encode_cons2 w ws (by omega) c2, ih]; rfl
    by_cases c3 : w < 0x10000
    · rw [decode_encode_cons3 w ws (by omega) c3, ih]; rfl
    · rw [decode_encode_cons4 w ws (by omega) hw, ih]; rfl

theorem encode_eq_nil_iff (ws : wstring) : encode ws = [] ↔ ws = [] := by
  cases ws with
  | nil => simp [encode]
  | cons w ws =>
    simp only [reduceCtorEq, iff_false]
    unfold encode
    split_ifs <;> simp

theorem encodeString_eq_encode (ws : wstring) : encodeString ws = encode ws := by
  unfold encodeString
  cases ws with
  | nil => rfl
  | cons w ws => rfl

/-- C24: for every sequence of code points each below `0x200000`, the
pointer overload of `decode` returns the sequence from what `encode` wrote,
the string overload of `decode` returns it from what the string overload of
`encode` returned, and another such sequence with the same encoding is the
same sequence. -/
theorem decode_encode_roundtrip (ws : wstring) (h : ∀ w ∈ ws, w < 0x200000) :
    decode (encode ws) = some ws ∧
    decodeString (encodeString ws) = .ok ws ∧
    ∀ vs : wstring, (∀ v ∈ vs, v < 0x200000) →
      (encode vs = encode ws → vs = ws) ∧ (encodeString vs = encodeString ws → vs = ws) := by
  have hd := decode_encode_of_lt ws h
  have hinj : ∀ vs : wstring, (∀ v ∈ vs, v < 0x200000) → encode vs = encode ws → vs = ws := by
    intro vs hvs he
    have hv := decode_encode_of_lt vs hvs
    rw [he, hd] at hv
    exact (Option.some.inj hv).symm
  refine ⟨hd, ?_, fun vs hvs => ⟨hinj vs hvs, ?_⟩⟩
  · rw [encodeString_eq_encode]
    exact decodeString_of_decode_some _ _ hd
  · intro he
    rw [encodeString_eq_encode, encodeString_eq_encode] at he
    exact hinj vs hvs he

/-- C24, witness: the code points `0x41`, `0x3B1`, `0x20AC`, `0xD800` and
`0x1FFFFF`. -/
theorem decode_encode_roundtrip_witness :
    decode (encode [0x41, 0x3B1, 0x20AC, 0xD800, 0x1FFFFF]) =
      some [0x41, 0x3B1, 0x20AC, 0xD800, 0x1FFFFF] ∧
    encode [0x41, 0x3B1, 0x20AC, 0xD800, 0x1FFFFF] =
      [⟨0x41, by decide⟩, ⟨0xCE, by decide⟩, ⟨0xB1, by decide⟩, ⟨0xE2, by decide⟩,
        ⟨0x82, by decide⟩, ⟨0xAC, by decide⟩, ⟨0xED, by decide⟩, ⟨0xA0, by decide⟩,
        ⟨0x80, by decide⟩, ⟨0xF7, by decide⟩, ⟨0xBF, by decide⟩, ⟨0xBF, by decide⟩,
        ⟨0xBF, by decide⟩] :=
  ⟨(decode_encode_roundtrip [0x41, 0x3B1, 0x20AC, 0xD800, 0x1FFFFF] (by decide)).1, by decide⟩

end Utf8
namespace Utf8

/-! ### The codec stays inside its buffers -/

theorem put_of_lt {α : Type} (capacity : Nat) (out : List α) (x : α) (h : out.length < capacity) :
    put capacity out x = some (out ++ [x]) := by
  unfold put
  rw [if_pos h]

/-- With room for four bytes a code point, no write of `encode` is outside
the buffer, and the bytes written are those of the list function. -/
theorem encodeChecked_of_room (capacity : Nat) :
    ∀ (ws : wstring) (out : List Byte), out.length + 4 * ws.length ≤ capacity →
      encodeChecked capacity ws out = some (out ++ encode ws) := by
  intro ws
  induction ws with
  | nil => intro out _; simp [encodeChecked, encode]
  | cons w ws ih =>
    intro out h
    simp only [List.length_cons] at h
    unfold encodeChecked encode
    split_ifs
    · rw [put_of_lt _ _ _ (by omega)]
      simp only [Option.some_bind]
      rw [ih _ (by simp; omega)]
      simp
    · rw [put_of_lt _ _ _ (by omega)]
      simp only [Option.some_bind]
      rw [put_of_lt _ _ _ (by simp; omega)]
      simp only [Option.some_bind]
      rw [ih _ (by simp; omega)]
      simp
    · rw [put_of_lt _ _ _ (by omega)]
      simp only [Option.some_bind]
      rw [put_of_lt _ _ _ (by simp; omega)]
      simp only [Option.some_bind]
      rw [put_of_lt _ _ _ (by simp; omega)]
      simp only [Option.some_bind]
      rw [ih _ (by simp; omega)]
      simp
    · rw [put_of_lt _ _ _ (by omega)]
      simp only [Option.some_bind]
      rw [put_of_lt _ _ _ (by simp; omega)]
      simp only [Option.some_bind]
      rw [put_of_lt _ _ _ (by simp; omega)]
      simp only [Option.some_bind]
      rw [put_of_lt _ _ _ (by simp; omega)]
      simp only [Option.some_bind]
      rw [ih _ (by simp; omega)]
      simp

/-- The number of bytes `encode` writes for a code point. -/
theorem encode_length_cons (w : Nat) (ws : wstring) :
    (encode (w :: ws)).length =
      (if w < 0x80 then 1 else if w < 0x800 then 2 else if w < 0x10000 then 3 else 4) +
        (encode ws).length := by
  rw [encode]
  split_ifs <;> simp <;> omega

theorem encode_length_le (ws : wstring) : (encode ws).length ≤ 4 * ws.length := by
  induction ws with
  | nil => simp [encode]
  | cons w ws ih =>
    rw [encode_length_cons, List.length_cons]
    split_ifs <;> omega

theorem runOf_map_cons (o : Option wstring) (out : wstring) (v : Nat) :
    runOf ((o.map fun ws => v :: ws).map fun ws => out ++ ws) =
      runOf (o.map fun ws => (out ++ [v]) ++ ws) := by
  cases o <;> simp [runOf]

/-- The code points `decode` returns are not more than the bytes read. -/
theorem decode_length_le (n : Nat) :
    ∀ (bs : List Byte) (ws : wstring), bs.length ≤ n → decode bs = some ws →
      ws.length ≤ bs.length := by
  induction n with
  | zero =>
    intro bs ws hlen h
    have : bs = [] := List.length_eq_zero.mp (by omega)
    subst this
    rw [decode_nil] at h
    cases h
    simp
  | succ n ih =>
    intro bs ws hlen h
    cases bs with
    | nil =>
      rw [decode_nil] at h
      cases h
      simp
    | cons b rest =>
      simp only [List.length_cons] at hlen ⊢
      have step : ∀ (tail : List Byte) (v : Nat), tail.length ≤ rest.length →
          ((decode tail).map fun r => v :: r) = some ws → ws.length ≤ rest.length + 1 := by
        intro tail v ht hm
        cases hr : decode tail with
        | none => simp [hr] at hm
        | some r =>
          simp only [hr, Option.map_some', Option.some.injEq] at hm
          subst hm
          have := ih tail r (by omega) hr
          simp only [List.length_cons]
          omega
      by_cases c1 : b.val < 0x80
      · rw [decode_ascii_cons b rest c1] at h
        exact step rest _ (le_refl _) h
      by_cases c2 : b.val < 0xC0
      · rw [decode_trail_cons b rest (by omega) c2] at h
        cases h
      by_cases c3 : b.val < 0xE0
      · cases rest with
        | nil =>
          rw [decode_lead2_nil b (by omega) c3] at h
          cases h
        | cons b1 rest1 =>
          rw [decode_lead2_cons b b1 rest1 (by omega) c3] at h
          split at h
          · exact step rest1 _ (by simp) h
          · cases h
      by_cases c4 : b.val < 0xF0
      · match rest, h, step with
        | [], h, _ =>
          rw [decode_lead3_short b [] (by omega) c4 (by simp)] at h
          cases h
        | [b1], h, _ =>
          rw [decode_lead3_short b [b1] (by omega) c4 (by simp)] at h
          cases h
        | b1 :: b2 :: rest2, h, step =>
          rw [decode_lead3_cons b b1 b2 rest2 (by omega) c4] at h
          split at h
          · exact step rest2 _ (by simp; omega) h
          · cases h
      by_cases c5 : b.val < 0xF8
      · match rest, h, step with
        | [], h, _ =>
          rw [decode_lead4_short b [] (by omega) c5 (by simp)] at h
          cases h
        | [b1], h, _ =>
          rw [decode_lead4_short b [b1] (by omega) c5 (by simp)] at h
          cases h
        | [b1, b2], h, _ =>
          rw [decode_lead4_short b [b1, b2] (by omega) c5 (by simp)] at h
          cases h
        | b1 :: b2 :: b3 :: rest3, h, step =>
          rw [decode_lead4_cons b b1 b2 b3 rest3 (by omega) c5] at h
          split at h
          · exact step rest3 _ (by simp; omega) h
          · cases h
      · rw [decode_lead5_cons b rest (by omega)] at h
        cases h

theorem runOf_map_none (out : wstring) :
    runOf ((none : Option wstring).map fun ws => out ++ ws) = .invalid := rfl

/-- From an index `pos` with `inSize` bytes up to the end of the input, with
room for `inSize` more code points and fuel for `inSize` iterations, the
loop of `decode` reads and writes inside its buffers and comes to what the
list function gives for the bytes from `pos` on. -/
theorem decodeLoop_eq (input : List Byte) (capacity : Nat) :
    ∀ (fuel pos inSize : Nat) (out : wstring), pos + inSize = input.length → inSize < fuel →
      out.length + inSize ≤ capacity →
      decodeLoop input capacity fuel pos inSize out =
        runOf ((decode (input.drop pos)).map fun ws => out ++ ws) := by
  intro fuel
  induction fuel with
  | zero => intro pos inSize out _ h; omega
  | succ fuel ih =>
    intro pos inSize out hpos hfuel hroom
    rw [decodeLoop]
    by_cases h0 : inSize = 0
    · rw [if_pos h0]
      have : input.drop pos = [] := List.drop_eq_nil_of_le (by omega)
      rw [this, decode_nil]
      simp [runOf]
    rw [if_neg h0]
    have hlt : pos < input.length := by omega
    have hput : ∀ v : Nat, put capacity out v = some (out ++ [v]) :=
      fun v => put_of_lt _ _ _ (by omega)
    have hrec : ∀ (k : Nat) (v : Nat), k ≤ inSize → 1 ≤ k →
        decodeLoop input capacity fuel (pos + k) (inSize - k) (out ++ [v]) =
          runOf (((decode (input.drop (pos + k))).map fun ws => v :: ws).map
            fun ws => out ++ ws) := by
      intro k v hk hk1
      rw [runOf_map_cons]
      exact ih (pos + k) (inSize - k) (out ++ [v]) (by omega) (by omega)
        (by simp only [List.length_append, List.length_singleton]; omega)
    rw [List.getElem?_eq_getElem hlt, List.drop_eq_getElem_cons hlt]
    simp only
    generalize hb : input[pos] = b
    by_cases c1 : b.val < 0x80
    · have h80 := bits_ascii b c1
      rw [decode_ascii_cons b _ c1]
      simp only [h80, ne_eq, not_true_eq_false, if_false, hput]
      exact hrec 1 _ (by omega) (le_refl _)
    by_cases c2 : b.val < 0xC0
    · obtain ⟨h80, h40⟩ := bits_trail b (by omega) c2
      rw [decode_trail_cons b _ (by omega) c2]
      simp [h80, h40, runOf]
    by_cases c3 : b.val < 0xE0
    · obtain ⟨h80, h40, h20⟩ := bits_lead2 b (by omega) c3
      simp only [h80, h40, h20, ne_eq, not_false_eq_true, not_true_eq_false, if_true, if_false,
        reduceCtorEq]
      by_cases hs : inSize - 1 = 0
      · have hd : input.drop (pos + 1) = [] := List.drop_eq_nil_of_le (by omega)
        rw [if_pos hs, hd, decode_lead2_nil b (by omega) c3]
        rfl
      · have hlt1 : pos + 1 < input.length := by omega
        rw [if_neg hs, List.getElem?_eq_getElem hlt1, List.drop_eq_getElem_cons hlt1,
          decode_lead2_cons b _ _ (by omega) c3]
        simp only [isContinuation_eq_isTrailForm]
        cases t1 : isTrailForm input[pos + 1] with
        | false => simp [runOf]
        | true =>
          simp only [Bool.not_true, Bool.false_eq_true, if_false, if_true, hput]
          have := hrec 2 (((b.val &&& 0x1F) <<< 6) ||| (input[pos + 1].val &&& 0x3F))
            (by omega) (by omega)
          rw [show inSize - 1 - 1 = inSize - 2 by omega, show pos + 1 + 1 = pos + 2 by omega]
          exact this
    by_cases c4 : b.val < 0xF0
    · obtain ⟨h80, h40, h20, h10⟩ := bits_lead3 b (by omega) c4
      simp only [h80, h40, h20, h10, ne_eq, not_false_eq_true, not_true_eq_false, if_true,
        if_false, reduceCtorEq]
      by_cases hs : inSize - 1 < 2
      · rw [if_pos hs, decode_lead3_short b _ (by omega) c4
          (by rw [List.length_drop]; omega)]
        rfl
      · have hlt1 : pos + 1 < input.length := by omega
        have hlt2 : pos + 2 < input.length := by omega
        have hlt2b : pos + 1 + 1 < input.length := by omega
        rw [if_neg hs, List.getElem?_eq_getElem hlt1, List.getElem?_eq_getElem hlt2,
          List.drop_eq_getElem_cons hlt1, List.drop_eq_getElem_cons hlt2b,
          decode_lead3_cons b _ _ _ (by omega) c4]
        simp only [isContinuation_eq_isTrailForm, show pos + 1 + 1 = pos + 2 by omega]
        cases t1 : isTrailForm input[pos + 1] with
        | false => simp [runOf]
        | true =>
          cases t2 : isTrailForm input[pos + 2] with
          | false => simp [runOf]
          | true =>
            simp only [Bool.not_true, Bool.false_eq_true, if_false, if_true, hput,
              Bool.and_self]
            have := hrec 3 ((((b.val &&& 0xF) <<< 12) ||| ((input[pos + 1].val &&& 0x3F) <<< 6))
              ||| (input[pos + 2].val &&& 0x3F)) (by omega) (by omega)
            rw [show inSize - 1 - 2 = inSize - 3 by omega,
              show pos + 2 + 1 = pos + 3 by omega]
            exact this
    by_cases c5 : b.val < 0xF8
    · obtain ⟨h80, h40, h20, h10, h8⟩ := bits_lead4 b (by omega) c5
      simp only [h80, h40, h20, h10, h8, ne_eq, not_false_eq_true, not_true_eq_false, if_true,
        if_false, reduceCtorEq]
      by_cases hs : inSize - 1 < 3
      · rw [if_pos hs, decode_lead4_short b _ (by omega) c5
          (by rw [List.length_drop]; omega)]
        rfl
      · have hlt1 : pos + 1 < input.length := by omega
        have hlt2 : pos + 2 < input.length := by omega
        have hlt3 : pos + 3 < input.length := by omega
        have hlt2b : pos + 1 + 1 < input.length := by omega
        have hlt3b : pos + 1 + 1 + 1 < input.length := by omega
        rw [if_neg hs, List.getElem?_eq_getElem hlt1, List.getElem?_eq_getElem hlt2,
          List.getElem?_eq_getElem hlt3,
          List.drop_eq_getElem_cons hlt1, List.drop_eq_getElem_cons hlt2b,
          List.drop_eq_getElem_cons hlt3b,
          decode_lead4_cons b _ _ _ _ (by omega) c5]
        simp only [isContinuation_eq_isTrailForm, show pos + 1 + 1 = pos + 2 by omega,
          show pos + 2 + 1 = pos + 3 by omega]
        cases t1 : isTrailForm input[pos + 1] with
        | false => simp [runOf]
        | true =>
          cases t2 : isTrailForm input[pos + 2] with
          | false => simp [runOf]
          | true =>
            cases t3 : isTrailForm input[pos + 3] with
            | false => simp [runOf]
            | true =>
              simp only [Bool.not_true, Bool.false_eq_true, if_false, if_true, hput,
                Bool.and_self]
              have := hrec 4 (((((b.val &&& 7) <<< 18) |||
                ((input[pos + 1].val &&& 0x3F) <<< 12)) |||
                ((input[pos + 2].val &&& 0x3F) <<< 6)) ||| (input[pos + 3].val &&& 0x3F))
                (by omega) (by omega)
              rw [show inSize - 1 - 3 = inSize - 4 by omega,
                show pos + 3 + 1 = pos + 4 by omega]
              exact this
    · obtain ⟨h80, h40, h20, h10, h8⟩ := bits_lead5 b (by omega)
      rw [decode_lead5_cons b _ (by omega)]
      simp [h80, h40, h20, h10, h8, runOf]

/-- C25: with the buffers the string overloads allocate, no write of
`encode` is outside the `4 * n` bytes allocated for `n` code points, it
writes 1, 2, 3 or 4 bytes for a code point below `0x80`, below `0x800`, below
`0x10000` or not, so at most `4 * n` bytes; no read of `decode` is at an
index that is not below the size `n` of its input, no write outside the `n`
code points allocated, and it writes at most `n` code points. -/
theorem codec_stays_in_buffers :
    (∀ ws : wstring, encodeChecked (ws.length * 4) ws [] = some (encode ws)) ∧
    (∀ ws : wstring, encodeStringChecked ws = some (encodeString ws)) ∧
    (∀ (w : Nat) (ws : wstring), (encode (w :: ws)).length =
      (if w < 0x80 then 1 else if w < 0x800 then 2 else if w < 0x10000 then 3 else 4) +
        (encode ws).length) ∧
    (∀ ws : wstring, (encode ws).length ≤ 4 * ws.length) ∧
    (∀ bs : List Byte, decodeChecked bs bs.length = runOf (decode bs)) ∧
    (∀ bs : List Byte, decodeStringChecked bs = runOf (decode bs)) ∧
    (∀ (bs : List Byte) (ws : wstring), decode bs = some ws → ws.length ≤ bs.length) := by
  have henc : ∀ ws : wstring, encodeChecked (ws.length * 4) ws [] = some (encode ws) := by
    intro ws
    have := encodeChecked_of_room (ws.length * 4) ws [] (by simp; omega)
    simpa using this
  have hdec : ∀ bs : List Byte, decodeChecked bs bs.length = runOf (decode bs) := by
    intro bs
    unfold decodeChecked
    rw [decodeLoop_eq bs bs.length (bs.length + 1) 0 bs.length [] (by omega) (by omega)
      (by simp)]
    rw [List.drop_zero]
    cases hd : decode bs <;> simp [runOf]
  refine ⟨henc, ?_, encode_length_cons, encode_length_le, hdec, ?_,
    fun bs ws h => decode_length_le bs.length bs ws (le_refl _) h⟩
  · intro ws
    unfold encodeStringChecked encodeString
    cases ws with
    | nil => rfl
    | cons w ws => exact henc (w :: ws)
  · intro bs
    unfold decodeStringChecked
    cases bs with
    | nil => rfl
    | cons b rest => exact hdec (b :: rest)

end Utf8
namespace Dsl

/-! ### `indexIsOldOrBad` -/

/-- C3: `indexIsOldOrBad( indexFile, hasZipFile )` returns true if and only
if the header cannot be read in full, or the signature is not `0x584c5344`,
or the format version is not `CurrentFormatVersion`, or `(bool)
header.hasZipFile` differs from the argument, or `hasZipFile` is true and the
zip support version is not `CurrentZipSupportVersion`.  So any mismatch of
the format version and any change in the presence of the zip file forces a
rebuild, while a mismatch of the zip support version alone does not when
there is no zip file. -/
theorem indexIsOldOrBad_iff (btreeFormatVersion foldingVersion : Nat) :
    (∀ (readHeader : Option IdxHeader) (hasZipFile : Bool),
      indexIsOldOrBad btreeFormatVersion foldingVersion readHeader hasZipFile = true ↔
        readHeader = none ∨
        ∃ header, readHeader = some header ∧
          (header.signature ≠ 0x584c5344 ∨
           header.formatVersion ≠ CurrentFormatVersion btreeFormatVersion foldingVersion ∨
           (header.hasZipFile ≠ 0 ↔ hasZipFile = false) ∨
           (hasZipFile = true ∧ header.zipSupportVersion ≠ CurrentZipSupportVersion))) ∧
    (∀ (header : IdxHeader) (hasZipFile : Bool),
      header.formatVersion ≠ CurrentFormatVersion btreeFormatVersion foldingVersion →
        indexIsOldOrBad btreeFormatVersion foldingVersion (some header) hasZipFile = true) ∧
    (∀ header : IdxHeader,
      (header.hasZipFile = 0 →
        indexIsOldOrBad btreeFormatVersion foldingVersion (some header) true = true) ∧
      (header.hasZipFile ≠ 0 →
        indexIsOldOrBad btreeFormatVersion foldingVersion (some header) false = true)) ∧
    (∀ header : IdxHeader,
      header.signature = Signature →
      header.formatVersion = CurrentFormatVersion btreeFormatVersion foldingVersion →
      header.hasZipFile = 0 →
        indexIsOldOrBad btreeFormatVersion foldingVersion (some header) false = false) := by
  refine ⟨?_, ?_, ?_, ?_⟩
  · intro readHeader hasZipFile
    cases readHeader with
    | none => simp [indexIsOldOrBad]
    | some header =>
      cases hasZipFile <;>
        simp [indexIsOldOrBad, Signature, or_assoc]
  · intro header hasZipFile h
    simp [indexIsOldOrBad, h]
  · intro header
    constructor
    · intro h
      simp [indexIsOldOrBad, h]
    · intro h
      simp [indexIsOldOrBad, h]
  · intro header h1 h2 h3
    simp [indexIsOldOrBad, h1, h2, h3]

end Dsl

namespace Dsl

open Utf8 (toByte toByte_val)

/-! ### Length-prefixed fields -/

theorem readU32_writeU32 (n : Nat) (rest : ByteString) :
    readU32 (writeU32 n ++ rest) = some (n % 2 ^ 32, rest) := by
  have hm : n % 2 ^ 32 < 2 ^ 32 := Nat.mod_lt _ (by decide)
  simp only [writeU32, List.cons_append, List.nil_append, readU32, toByte, Option.some.injEq,
    Prod.mk.injEq, and_true]
  simp only [Nat.reducePow] at hm ⊢
  omega

theorem readU32_writeU32_of_lt (n : Nat) (rest : ByteString) (h : n < 2 ^ 32) :
    readU32 (writeU32 n ++ rest) = some (n, rest) := by
  rw [readU32_writeU32, Nat.mod_eq_of_lt h]

theorem readBytes_append (bs rest : ByteString) :
    readBytes bs.length (bs ++ rest) = some (bs, rest) := by
  simp [readBytes]

/-- When a sound-dictionary name was written, the name section is read back
as written and nothing after it is consumed. -/
theorem readNameSection_with_sound_name (dictionaryName soundDictName rest : ByteString)
    (hd : dictionaryName.length < 2 ^ 32) (hs : soundDictName.length < 2 ^ 32)
    (hne : soundDictName ≠ []) :
    (writeNameSection dictionaryName soundDictName).2 = 1 ∧
    readNameSection ((writeNameSection dictionaryName soundDictName).1 ++ rest) =
      some (dictionaryName, soundDictName, rest) := by
  have hemp : soundDictName.isEmpty = false := by
    cases soundDictName with
    | nil => exact absurd rfl hne
    | cons _ _ => rfl
  have hpos : 0 < soundDictName.length := List.length_pos.mpr hne
  constructor
  · simp [writeNameSection, hemp]
  · simp only [writeNameSection, hemp, Bool.not_false, if_true, List.append_assoc]
    unfold readNameSection
    rw [readU32_writeU32_of_lt _ _ hd]
    cases dictionaryName with
    | nil =>
      simp only [List.length_nil, gt_iff_lt, lt_self_iff_false, if_false, List.nil_append]
      rw [readU32_writeU32_of_lt _ _ hs]
      simp only [gt_iff_lt, hpos, if_true]
      rw [readBytes_append]
    | cons d ds =>
      simp only [gt_iff_lt, List.length_cons, Nat.zero_lt_succ, if_true]
      rw [← List.length_cons d ds, readBytes_append]
      simp only
      rw [readU32_writeU32_of_lt _ _ hs]
      simp only [gt_iff_lt, hpos, if_true]
      rw [readBytes_append]

/-- The name section with the names `A` and `BC`, followed by two foreign
bytes. -/
theorem readNameSection_with_sound_name_witness :
    (writeNameSection [0x41] [0x42, 0x43]).2 = 1 ∧
    readNameSection ((writeNameSection [0x41] [0x42, 0x43]).1 ++ [9, 9]) =
      some ([0x41], [0x42, 0x43], [9, 9]) :=
  readNameSection_with_sound_name [0x41] [0x42, 0x43] [9, 9] (by decide) (by decide)
    (by decide)

/-- When no sound-dictionary name was written, the reader still reads a
length and a string from whatever follows the dictionary name. -/
theorem readNameSection_without_sound_name (dictionaryName rest : ByteString)
    (hd : dictionaryName.length < 2 ^ 32) :
    (writeNameSection dictionaryName []).2 = 0 ∧
    readNameSection ((writeNameSection dictionaryName []).1 ++ rest) =
      match readU32 rest with
      | none => none
      | some (sNameSize, rest1) =>
        match (if sNameSize > 0 then readBytes sNameSize rest1 else some ([], rest1)) with
        | none => none
        | some (preferredSoundDictionary, rest2) =>
          some (dictionaryName, preferredSoundDictionary, rest2) := by
  constructor
  · simp [writeNameSection]
  · simp only [writeNameSection, List.isEmpty_nil, Bool.not_true, Bool.false_eq_true, if_false,
      List.append_assoc]
    unfold readNameSection
    rw [readU32_writeU32_of_lt _ _ hd]
    cases dictionaryName with
    | nil =>
      simp only [List.length_nil, gt_iff_lt, lt_self_iff_false, if_false, List.nil_append]
    | cons d ds =>
      simp only [gt_iff_lt, List.length_cons, Nat.zero_lt_succ, if_true]
      rw [← List.length_cons d ds, readBytes_append]

/-- C4, the code at the failing input: the builder writes the dictionary name
`A` and no sound-dictionary name (`hasSoundDictionaryName` stays 0), and the
bytes `01 00 00 00 58 07` follow in the file; the constructor reads the name
`A`, then takes `01 00 00 00` for the length of a sound-dictionary name and
the byte `58` for that name, leaving only `07` unread. -/
theorem readNameSection_reads_past_missing_sound_name :
    writeNameSection [0x41] [] = ([1, 0, 0, 0, 0x41], 0) ∧
    readNameSection ((writeNameSection [0x41] []).1 ++ [1, 0, 0, 0, 0x58, 7]) =
      some ([0x41], [0x58], [7]) := by
  decide

end Dsl

namespace Dsl

/-! ### The abbreviation block -/

theorem assign_of_all_lt (acc : StringMap) (key value : ByteString)
    (h : ∀ x ∈ acc, x.1 < key) : acc.assign key value = acc ++ [(key, value)] := by
  induction acc with
  | nil => rfl
  | cons e acc ih =>
    obtain ⟨k, v⟩ := e
    have hk : k < key := h (k, v) (by simp)
    have h1 : ¬ key < k := lt_asymm hk
    have h2 : ¬ key = k := ne_of_gt hk
    simp only [StringMap.assign, h1, h2, if_false, List.cons_append]
    rw [ih (fun x hx => h x (by simp [hx]))]

theorem foldl_assign_of_ordered (es acc : StringMap) (h : StringMap.Ordered (acc ++ es)) :
    es.foldl (fun m e => m.assign e.1 e.2) acc = acc ++ es := by
  induction es generalizing acc with
  | nil => simp
  | cons e es ih =>
    have hlt : ∀ x ∈ acc, x.1 < e.1 := by
      intro x hx
      have := List.pairwise_append.mp h
      exact this.2.2 x hx e (by simp)
    rw [List.foldl_cons, assign_of_all_lt acc e.1 e.2 hlt]
    have h2 : StringMap.Ordered ((acc ++ [(e.1, e.2)]) ++ es) := by
      simpa [StringMap.Ordered] using h
    rw [ih _ h2]
    simp

theorem readAbrvEntries_writeAbrvEntries (es : StringMap) :
    ∀ (acc : StringMap) (rest : ByteString),
      (∀ e ∈ es, e.1.length < 2 ^ 32 ∧ e.2.length < 2 ^ 32) →
      readAbrvEntries es.length (writeAbrvEntries es ++ rest) acc =
        some (es.foldl (fun m e => m.assign e.1 e.2) acc, rest) := by
  induction es with
  | nil =>
    intro acc rest _
    simp [readAbrvEntries, writeAbrvEntries]
  | cons e es ih =>
    intro acc rest h
    obtain ⟨k, v⟩ := e
    obtain ⟨hk, hv⟩ := h (k, v) (by simp)
    simp only [List.length_cons, readAbrvEntries, writeAbrvEntries, List.append_assoc]
    rw [readU32_writeU32_of_lt _ _ hk, Nat.mod_eq_of_lt hk, List.take_length]
    simp only
    rw [readBytes_append]
    simp only
    rw [readU32_writeU32_of_lt _ _ hv, Nat.mod_eq_of_lt hv, List.take_length]
    simp only
    rw [readBytes_append]
    simp only
    rw [ih _ _ (fun x hx => h x (by simp [hx]))]
    simp

/-- C5 (as amended): abbreviation-table round trip.  For every map `m` from
byte strings to byte strings with fewer than `2^32` entries and every key and
value shorter than `2^32` bytes, the block the builder serialises (the count,
then for each entry in key order the key length, the key bytes, the value
length and the value bytes) is parsed by the loop of `doDeferredInit` into a
map equal to `m`, reading exactly the bytes of the block and nothing of what
follows it. -/
theorem readAbrvBlock_writeAbrvBlock (m : StringMap) (rest : ByteString)
    (hord : m.Ordered) (hcount : m.length < 2 ^ 32)
    (hlen : ∀ e ∈ m, e.1.length < 2 ^ 32 ∧ e.2.length < 2 ^ 32) :
    readAbrvBlock (writeAbrvBlock m ++ rest) = some (m, rest) := by
  unfold readAbrvBlock writeAbrvBlock
  rw [List.append_assoc, readU32_writeU32_of_lt _ _ hcount]
  simp only
  rw [readAbrvEntries_writeAbrvEntries m [] rest hlen,
    foldl_assign_of_ordered m [] (by simpa using hord)]
  simp

/-! A map too large for its `uint32_t` count: `2^32` entries, the `i`-th key
being `i` zero bytes and every value empty. -/

theorem replicate_zero_lt (i j : Nat) (h : i < j) :
    (List.replicate i (0 : Byte)) < List.replicate j (0 : Byte) := by
  induction i generalizing j with
  | zero =>
    cases j with
    | zero => exact absurd h (Nat.lt_irrefl 0)
    | succ j => exact List.Lex.nil
  | succ i ih =>
    cases j with
    | zero => exact absurd h (Nat.not_lt_zero _)
    | succ j => exact List.Lex.cons (ih j (Nat.lt_of_succ_lt_succ h))

theorem zeroKeys_ordered (n : Nat) :
    StringMap.Ordered ((List.range n).map fun i => (List.replicate i (0 : Byte), [])) := by
  unfold StringMap.Ordered
  rw [List.pairwise_map]
  exact (List.pairwise_lt_range n).imp fun {a b} hab => replicate_zero_lt a b hab

theorem zeroKeys_lengths (n : Nat) :
    ∀ e ∈ (List.range n).map fun i => (List.replicate i (0 : Byte), ([] : ByteString)),
      e.1.length < n ∧ e.2.length = 0 := by
  intro e he
  rw [List.mem_map] at he
  obtain ⟨i, hi, rfl⟩ := he
  exact ⟨by simpa using List.mem_range.mp hi, rfl⟩

theorem readAbrvBlock_of_count_zero (m : StringMap) (rest : ByteString)
    (h : m.length % 2 ^ 32 = 0) :
    readAbrvBlock (writeAbrvBlock m ++ rest) = some ([], writeAbrvEntries m ++ rest) := by
  unfold readAbrvBlock writeAbrvBlock
  rw [List.append_assoc, readU32_writeU32, h]
  rfl

/-- C5, witness: a map of two entries, followed by one foreign byte. -/
theorem readAbrvBlock_writeAbrvBlock_witness :
    readAbrvBlock (writeAbrvBlock [([1], [2, 3]), ([1, 0], [])] ++ [5]) =
      some ([([1], [2, 3]), ([1, 0], [])], [5]) :=
  readAbrvBlock_writeAbrvBlock [([1], [2, 3]), ([1, 0], [])] [5]
    (by unfold StringMap.Ordered; decide) (by decide) (by decide)

/-- C5, counterexample: the map `oversizedAbrv` has its keys in strictly
increasing order and every key and value shorter than `2^32` bytes, but it
has `2^32` entries; the builder writes the count `0` for it, and the reader
returns the empty map, having read only the four bytes of the count. -/
theorem readAbrvBlock_oversizedAbrv :
    oversizedAbrv.Ordered ∧
    (∀ e ∈ oversizedAbrv, e.1.length < 2 ^ 32 ∧ e.2.length < 2 ^ 32) ∧
    readAbrvBlock (writeAbrvBlock oversizedAbrv) = some ([], writeAbrvEntries oversizedAbrv) ∧
    readAbrvBlock (writeAbrvBlock oversizedAbrv) ≠ some (oversizedAbrv, []) := by
  have hlen : oversizedAbrv.length = 2 ^ 32 := by
    unfold oversizedAbrv
    rw [List.length_map, List.length_range]
  have hread : readAbrvBlock (writeAbrvBlock oversizedAbrv) =
      some ([], writeAbrvEntries oversizedAbrv) := by
    have := readAbrvBlock_of_count_zero oversizedAbrv [] (by rw [hlen, Nat.mod_self])
    rwa [List.append_nil, List.append_nil] at this
  refine ⟨zeroKeys_ordered _, ?_, hread, ?_⟩
  · intro e he
    have := zeroKeys_lengths (2 ^ 32) e he
    exact ⟨this.1, by rw [this.2]; exact Nat.two_pow_pos 32⟩
  · rw [hread]
    intro h
    have h1 : ([] : StringMap) = oversizedAbrv := (Prod.mk.inj (Option.some.inj h)).1
    have h2 : oversizedAbrv.length = 0 := by rw [← h1]; rfl
    rw [hlen] at h2
    exact absurd h2 (Nat.pos_iff_ne_zero.mp (Nat.two_pow_pos 32))

end Dsl

namespace Dsl

/-! ### Searching a string -/

theorem charAt_cons_succ (c : Nat) (rest : wstring) (i : Nat) :
    charAt (c :: rest) (i + 1) = charAt rest i := by
  simp [charAt]

theorem charAt_cons_zero (c : Nat) (rest : wstring) : charAt (c :: rest) 0 = c := by
  simp [charAt]

theorem charAt_drop (s : wstring) (b i : Nat) : charAt (s.drop b) i = charAt s (b + i) := by
  simp [charAt, List.getD_eq_getElem?_getD, List.getElem?_drop]

theorem indexWhere_some (p : Nat → Bool) :
    ∀ (l : wstring) (i : Nat), indexWhere p l = some i →
      i < l.length ∧ p (charAt l i) = true ∧ ∀ j, j < i → p (charAt l j) = false := by
  intro l
  induction l with
  | nil => intro i h; simp [indexWhere] at h
  | cons c rest ih =>
    intro i h
    by_cases hc : p c = true
    · simp only [indexWhere, hc, if_true, Option.some.injEq] at h
      subst h
      exact ⟨by simp, by simpa [charAt_cons_zero] using hc, fun j hj => absurd hj (Nat.not_lt_zero _)⟩
    · simp only [indexWhere, hc, Bool.false_eq_true, if_false, Option.map_eq_some'] at h
      obtain ⟨k, hk, rfl⟩ := h
      obtain ⟨h1, h2, h3⟩ := ih k hk
      refine ⟨by simp; omega, by rw [charAt_cons_succ]; exact h2, ?_⟩
      intro j hj
      cases j with
      | zero => rw [charAt_cons_zero]; simpa using hc
      | succ j => rw [charAt_cons_succ]; exact h3 j (by omega)

theorem indexWhere_none (p : Nat → Bool) :
    ∀ (l : wstring), indexWhere p l = none → ∀ j, j < l.length → p (charAt l j) = false := by
  intro l
  induction l with
  | nil => intro _ j hj; simp at hj
  | cons c rest ih =>
    intro h j hj
    by_cases hc : p c = true
    · simp [indexWhere, hc] at h
    · simp only [indexWhere, hc, Bool.false_eq_true, if_false, Option.map_eq_none'] at h
      cases j with
      | zero => rw [charAt_cons_zero]; simpa using hc
      | succ j =>
        rw [charAt_cons_succ]
        exact ih h j (by simpa using hj)

/-- The character is a line feed or a carriage return. -/
theorem contains_lf_cr (c : Nat) : ([10, 13] : List Nat).contains c = (c == 10 || c == 13) := by
  simp only [List.contains, List.elem]
  cases c == 10 <;> cases c == 13 <;> rfl

theorem findFirstOf_some (s : wstring) (b e : Nat) (h : findFirstOf s [10, 13] b = some e) :
    b ≤ e ∧ e < s.length ∧ (charAt s e = 10 ∨ charAt s e = 13) ∧
      ∀ q, b ≤ q → q < e → charAt s q ≠ 10 ∧ charAt s q ≠ 13 := by
  unfold findFirstOf at h
  rw [Option.map_eq_some'] at h
  obtain ⟨k, hk, rfl⟩ := h
  obtain ⟨h1, h2, h3⟩ := indexWhere_some _ _ _ hk
  rw [List.length_drop] at h1
  rw [charAt_drop, contains_lf_cr] at h2
  refine ⟨by omega, by omega, ?_, ?_⟩
  · rw [Nat.add_comm]
    simpa using h2
  · intro q hq1 hq2
    have := h3 (q - b) (by omega)
    rw [charAt_drop, contains_lf_cr] at this
    have e : b + (q - b) = q := by omega
    rw [e] at this
    simpa using this

theorem findFirstOf_none (s : wstring) (b : Nat) (h : findFirstOf s [10, 13] b = none) :
    ∀ q, b ≤ q → q < s.length → charAt s q ≠ 10 ∧ charAt s q ≠ 13 := by
  unfold findFirstOf at h
  rw [Option.map_eq_none'] at h
  intro q hq1 hq2
  have := indexWhere_none _ _ h (q - b) (by rw [List.length_drop]; omega)
  rw [charAt_drop, contains_lf_cr] at this
  have e : b + (q - b) = q := by omega
  rw [e] at this
  simpa using this

/-- The end of the line that starts at `b`: the position of the next line
feed or carriage return, or the length of the string. -/
theorem lineEnd_spec (s : wstring) (b : Nat) (hb : b ≤ s.length) :
    let e := (findFirstOf s [10, 13] b).getD s.length
    b ≤ e ∧ e ≤ s.length ∧ (e < s.length → charAt s e = 10 ∨ charAt s e = 13) ∧
      ∀ q, b ≤ q → q < e → charAt s q ≠ 10 ∧ charAt s q ≠ 13 := by
  cases h : findFirstOf s [10, 13] b with
  | none =>
    simp only [Option.getD_none]
    exact ⟨hb, le_refl _, fun hlt => absurd hlt (Nat.lt_irrefl _), findFirstOf_none s b h⟩
  | some e =>
    simp only [Option.getD_some]
    obtain ⟨h1, h2, h3, h4⟩ := findFirstOf_some s b e h
    exact ⟨h1, by omega, fun _ => h3, h4⟩

theorem find_range_least (f : Nat → Bool) (n p : Nat) (hp : p < n) (hf : f p = true)
    (hmin : ∀ q, q < p → f q = false) : (List.range n).find? f = some p := by
  induction n with
  | zero => exact absurd hp (Nat.not_lt_zero _)
  | succ n ih =>
    rw [List.range_succ, List.find?_append]
    by_cases hpn : p < n
    · rw [ih hpn]
      rfl
    · have hpe : p = n := by omega
      subst hpe
      have hnone : (List.range p).find? f = none := by
        rw [List.find?_eq_none]
        intro x hx
        rw [hmin x (List.mem_range.mp hx)]
        simp
      rw [hnone]
      simp [hf]

theorem find_range_none (f : Nat → Bool) (n : Nat) (h : ∀ q, q < n → f q = false) :
    (List.range n).find? f = none := by
  rw [List.find?_eq_none]
  intro x hx
  rw [h x (List.mem_range.mp hx)]
  simp

end Dsl

namespace Dsl

/-! ### The header walk of a top-level article -/

theorem isDslWs_not_lf (c : Nat) (h : isDslWs c = true) : c ≠ 10 ∧ c ≠ 13 := by
  simp only [isDslWs, Bool.or_eq_true, beq_iff_eq] at h
  omega

theorem advance_at_end (P : Prims) (insidedCard : Bool) (data : wstring) :
    advance P insidedCard data data.length = (data.length, false) := by
  simp [advance]

theorem advance_toplevel (P : Prims) (data : wstring) (e : Nat) (he : e < data.length)
    (hterm : charAt data e = 10 ∨ charAt data e = 13) :
    e < (advance P false data e).1 ∧ (advance P false data e).1 ≤ data.length ∧
    (∀ q, e < q → q < (advance P false data e).1 → isDslWs (charAt data q) = false) ∧
    ((advance P false data e).1 < data.length →
      isLineStart data (advance P false data e).1 = true) ∧
    ((advance P false data e).2 = true →
      (advance P false data e).1 < data.length ∧
        isDslWs (charAt data (advance P false data e).1) = false) ∧
    ((advance P false data e).2 = false →
      (advance P false data e).1 = data.length ∨
        isDslWs (charAt data (advance P false data e).1) = true) := by
  have hne : (e == data.length) = false := by simp; omega
  rcases hterm with h10 | h13
  · -- a line feed: one character is skipped
    have h1 : (charAt data e == 13) = false := by simp [h10]
    have h2 : (e != data.length && charAt data e == 10) = true := by simp [h10]; omega
    by_cases hend : e + 1 = data.length
    · have : advance P false data e = (e + 1, false) := by
        simp [advance, hne, h1, h2, hend]
      rw [this]
      refine ⟨by simp, by simp; omega, ?_, ?_, ?_, ?_⟩
      · intro q h3 h4; simp at h4; omega
      · intro h; simp at h; omega
      · intro h; simp at h
      · intro _; left; simpa using hend
    · have hend2 : (e + 1 == data.length) = false := by simp; omega
      have hls : isLineStart data (e + 1) = true := by simp [isLineStart, h10]
      by_cases hw : isDslWs (charAt data (e + 1)) = true
      · have : advance P false data e = (e + 1, false) := by
          simp [advance, hne, h1, h2, hend2, hw, stopsAtIndentedLine]
        rw [this]
        refine ⟨by simp, by simp; omega, ?_, ?_, ?_, ?_⟩
        · intro q h3 h4; simp at h4; omega
        · intro _; exact hls
        · intro h; simp at h
        · intro _; right; exact hw
      · have hw2 : isDslWs (charAt data (e + 1)) = false := by simpa using hw
        have : advance P false data e = (e + 1, true) := by
          simp [advance, hne, h1, h2, hend2, hw2]
        rw [this]
        refine ⟨by simp, by simp; omega, ?_, ?_, ?_, ?_⟩
        · intro q h3 h4; simp at h4; omega
        · intro _; exact hls
        · intro _; exact ⟨by simp; omega, hw2⟩
        · intro h; simp at h
  · -- a carriage return, possibly followed by a line feed
    have h1 : (charAt data e == 13) = true := by simp [h13]
    by_cases hend : e + 1 = data.length
    · have : advance P false data e = (e + 1, false) := by
        simp [advance, hne, h1, hend]
      rw [this]
      refine ⟨by simp, by simp; omega, ?_, ?_, ?_, ?_⟩
      · intro q h3 h4; simp at h4; omega
      · intro h; simp at h; omega
      · intro h; simp at h
      · intro _; left; simpa using hend
    · have hend1 : (e + 1 != data.length) = true := by simp; omega
      have hend1b : (e + 1 == data.length) = false := by simp; omega
      by_cases hlf : charAt data (e + 1) = 10
      · have h2 : (charAt data (e + 1) == 10) = true := by simp [hlf]
        have hnw : isDslWs (charAt data (e + 1)) = false := by simp [isDslWs, hlf]
        by_cases hend2 : e + 2 = data.length
        · have : advance P false data e = (e + 2, false) := by
            simp [advance, hne, h1, hend1, h2, hend2]
          rw [this]
          refine ⟨by simp, by simp; omega, ?_, ?_, ?_, ?_⟩
          · intro q h3 h4
            simp at h4
            have : q = e + 1 := by omega
            rw [this]; exact hnw
          · intro h; simp at h; omega
          · intro h; simp at h
          · intro _; left; simpa using hend2
        · have hend2b : (e + 1 + 1 == data.length) = false := by simp; omega
          have hls : isLineStart data (e + 2) = true := by simp [isLineStart, hlf]
          by_cases hw : isDslWs (charAt data (e + 2)) = true
          · have : advance P false data e = (e + 2, false) := by
              simp [advance, hne, h1, hend1, h2, hend2b, hw, stopsAtIndentedLine]
            rw [this]
            refine ⟨by simp, by simp; omega, ?_, ?_, ?_, ?_⟩
            · intro q h3 h4
              simp at h4
              have : q = e + 1 := by omega
              rw [this]; exact hnw
            · intro _; exact hls
            · intro h; simp at h
            · intro _; right; exact hw
          · have hw2 : isDslWs (charAt data (e + 2)) = false := by simpa using hw
            have : advance P false data e = (e + 2, true) := by
              simp [advance, hne, h1, hend1, h2, hend2b, hw2]
            rw [this]
            refine ⟨by simp, by simp; omega, ?_, ?_, ?_, ?_⟩
            · intro q h3 h4
              simp at h4
              have : q = e + 1 := by omega
              rw [this]; exact hnw
            · intro _; exact hls
            · intro _; exact ⟨by simp; omega, hw2⟩
            · intro h; simp at h
      · have h2 : (charAt data (e + 1) == 10) = false := by simp [hlf]
        have hls : isLineStart data (e + 1) = true := by simp [isLineStart, h13, hlf]
        by_cases hw : isDslWs (charAt data (e + 1)) = true
        · have : advance P false data e = (e + 1, false) := by
            simp [advance, hne, h1, hend1b, h2, hw, stopsAtIndentedLine]
          rw [this]
          refine ⟨by simp, by simp; omega, ?_, ?_, ?_, ?_⟩
          · intro q h3 h4; simp at h4; omega
          · intro _; exact hls
          · intro h; simp at h
          · intro _; right; exact hw
        · have hw2 : isDslWs (charAt data (e + 1)) = false := by simpa using hw
          have : advance P false data e = (e + 1, true) := by
            simp [advance, hne, h1, hend1b, h2, hw2]
          rw [this]
          refine ⟨by simp, by simp; omega, ?_, ?_, ?_, ?_⟩
          · intro q h3 h4; simp at h4; omega
          · intro _; exact hls
          · intro _; exact ⟨by simp; omega, hw2⟩
          · intro h; simp at h

/-- No line starts strictly inside a line. -/
theorem isLineStart_inside (data : wstring) (b q : Nat) (h1 : b < q)
    (h2 : charAt data (q - 1) ≠ 10 ∧ charAt data (q - 1) ≠ 13) :
    isLineStart data q = false := by
  have hq : (q == 0) = false := by simp; omega
  simp [isLineStart, hq, h2.1, h2.2]

/-- The header walk of a top-level article ends, at the end of the text or at
the start of the first line that begins with a space or tab. -/
theorem headerWalk_toplevel (P : Prims) (ignoreDiacritics : Bool)
    (requestedHeadwordFolded data : wstring) :
    ∀ (fuel : Nat) (st : WalkState), st.pos < data.length →
      (∀ q, q ≤ st.pos → (isLineStart data q && isDslWs (charAt data q)) = false) →
      data.length - st.pos < fuel →
      ∃ st2, headerWalk P false ignoreDiacritics requestedHeadwordFolded data fuel st = some st2 ∧
        st2.pos ≤ data.length ∧
        (∀ q, q < st2.pos → (isLineStart data q && isDslWs (charAt data q)) = false) ∧
        (st2.pos < data.length →
          (isLineStart data st2.pos && isDslWs (charAt data st2.pos)) = true) := by
  intro fuel
  induction fuel with
  | zero => intro st _ _ hf; exact absurd hf (Nat.not_lt_zero _)
  | succ fuel ih =>
    intro st hpos hinv hfuel
    obtain ⟨h1, h2, h3, h4⟩ := lineEnd_spec data st.pos (by omega)
    rw [headerWalk]
    generalize (findFirstOf data [10, 13] st.pos).getD data.length = e at h1 h2 h3 h4 ⊢
    generalize (if (!st.foundDisplayedHeadword) = true then
        processHeadword P false ignoreDiacritics requestedHeadwordFolded st
          (substr data st.pos (e - st.pos))
      else st) = st1
    -- no indented line starts up to the end of the current line
    have hupto : ∀ q, q ≤ e → (isLineStart data q && isDslWs (charAt data q)) = false := by
      intro q hq
      by_cases hqp : q ≤ st.pos
      · exact hinv q hqp
      · have := h4 (q - 1) (by omega) (by omega)
        rw [isLineStart_inside data st.pos q (by omega) this]
        rfl
    by_cases hend : e = data.length
    · subst hend
      rw [advance_at_end]
      simp only [Bool.false_eq_true, if_false]
      refine ⟨_, rfl, le_refl _, ?_, ?_⟩
      · intro q hq; exact hupto q (by simp at hq; omega)
      · intro h; simp at h
    · have he : e < data.length := by omega
      obtain ⟨a1, a2, a3, a4, a5, a6⟩ := advance_toplevel P data e he (h3 he)
      have hbefore : ∀ q, q < (advance P false data e).1 →
          (isLineStart data q && isDslWs (charAt data q)) = false := by
        intro q hq
        by_cases hqe : q ≤ e
        · exact hupto q hqe
        · rw [a3 q (by omega) hq]
          simp
      cases hc : (advance P false data e).2 with
      | false =>
        simp only [Bool.false_eq_true, if_false]
        refine ⟨_, rfl, a2, hbefore, ?_⟩
        intro hlt
        simp only at hlt
        rcases a6 hc with h | h
        · omega
        · simp only
          rw [a4 hlt, h]
          rfl
      | true =>
        simp only [if_true]
        obtain ⟨b1, b2⟩ := a5 hc
        apply ih
        · exact b1
        · intro q hq
          simp only at hq
          by_cases hql : q < (advance P false data e).1
          · exact hbefore q hql
          · have : q = (advance P false data e).1 := by omega
            rw [this, b2]
            simp
        · simp only
          omega

/-- For a top-level article `loadArticle` returns, with `articleText` the
body in the sense of `bodyOf`. -/
theorem loadArticle_toplevel_body (P : Prims) (text requestedHeadwordFolded : wstring)
    (ignoreDiacritics : Bool) (tildeValue displayedHeadword : wstring)
    (hne : text ≠ []) (hfirst : isDslWs (charAt text 0) = false) :
    ∃ r, loadArticle P (.decoded text) requestedHeadwordFolded ignoreDiacritics tildeValue
        displayedHeadword = .ok r ∧
      r.insidedCard = false ∧ r.articleText = bodyOf text := by
  cases text with
  | nil => exact absurd rfl hne
  | cons first rest =>
    have hf : isDslWs first = false := by simpa [charAt_cons_zero] using hfirst
    obtain ⟨st2, hw, hle, hmin, hat⟩ :=
      headerWalk_toplevel P ignoreDiacritics requestedHeadwordFolded (first :: rest)
        ((first :: rest).length + 1)
        { pos := 0, hadFirstHeadword := false, foundDisplayedHeadword := false,
          headwordIndex := 0, tildeValue := tildeValue, tildeValueWithUnsorted := [],
          displayedHeadword := displayedHeadword }
        (by simp)
        (by
          intro q hq
          have : q = 0 := by simpa using hq
          subst this
          rw [hfirst]
          simp)
        (by simp)
    simp only [loadArticle, articleDataOf, hf]
    rw [hw]
    refine ⟨_, rfl, rfl, ?_⟩
    simp only
    by_cases hend : st2.pos = (first :: rest).length
    · have hnone : firstIndentedLine (first :: rest) = none := by
        unfold firstIndentedLine
        exact find_range_none _ _ (fun q hq => hmin q (by omega))
      simp [bodyOf, hnone, hend]
    · have hlt : st2.pos < (first :: rest).length := by omega
      have hsome : firstIndentedLine (first :: rest) = some st2.pos := by
        unfold firstIndentedLine
        exact find_range_least _ _ _ hlt (hat hlt) hmin
      have hne2 : (st2.pos != (first :: rest).length) = true := by simpa using hend
      simp only [bodyOf, hsome, hne2, if_true]

/-- C6: for every non-empty decoded article text whose first character is
not a space or tab (a top-level article), `loadArticle` returns and sets
`articleText` to the suffix of the text that begins at the start of the first
line whose first character is a space or tab, lines being separated by
`"\r\n"`, `"\r"` or `"\n"`; if no line starts with a space or tab,
`articleText` is empty.  The right-hand side mentions neither the requested
headword, nor the flag `ignoreDiacritics`, nor the primitives that decide
whether a headword matched. -/
theorem loadArticle_articleText_toplevel (P : Prims) (text requestedHeadwordFolded : wstring)
    (ignoreDiacritics : Bool) (tildeValue displayedHeadword : wstring)
    (hne : text ≠ []) (hfirst : isDslWs (charAt text 0) = false) :
    ∃ r, loadArticle P (.decoded text) requestedHeadwordFolded ignoreDiacritics tildeValue
        displayedHeadword = .ok r ∧
      r.insidedCard = false ∧ r.articleText = bodyOf text :=
  loadArticle_toplevel_body P text requestedHeadwordFolded ignoreDiacritics tildeValue
    displayedHeadword hne hfirst

/-- C6, witness: a text with two headword lines ended by `"\r\n"` and a body
line that starts with a space. -/
theorem loadArticle_articleText_toplevel_witness :
    bodyOf (ws "dog\r\nhound\r\n body\n") = ws " body\n" ∧
    ∃ r, loadArticle Prims.plain (.decoded (ws "dog\r\nhound\r\n body\n")) (ws "hound") false
        [] [] = .ok r ∧
      r.insidedCard = false ∧ r.articleText = bodyOf (ws "dog\r\nhound\r\n body\n") :=
  ⟨by decide,
    loadArticle_articleText_toplevel Prims.plain (ws "dog\r\nhound\r\n body\n") (ws "hound")
      false [] [] (by decide) (by decide)⟩

end Dsl

namespace Dsl

/-! ### The article `cat` -/

/-- The first line of the article `cat` ends at position 3, and the walk
leaves the loop at position 4, the start of the indented line. -/
theorem cat_article_first_line (P : Prims) :
    (findFirstOf (ws "cat\n\tThe [i]cat[/i].\n") [10, 13] 0).getD
        (ws "cat\n\tThe [i]cat[/i].\n").length = 3 ∧
    substr (ws "cat\n\tThe [i]cat[/i].\n") 0 (3 - 0) = ws "cat" ∧
    advance P false (ws "cat\n\tThe [i]cat[/i].\n") 3 = (4, false) :=
  ⟨by decide, by decide, rfl⟩

/-- The headword line `cat` matches the request `cat` when the primitives
leave the plain word `cat` as it is. -/
theorem processHeadword_cat (P : Prims) (ignoreDiacritics : Bool) (st : WalkState)
    (hst : st.hadFirstHeadword = false)
    (hexp : P.expandOptionalParts (ws "cat") [] = (ws "cat", [ws "cat"]))
    (huns : ∀ strip, P.processUnsortedParts (ws "cat") strip = ws "cat")
    (hcase : P.applySimpleCaseOnly (ws "cat") = ws "cat")
    (hesc : P.unescapeDsl (ws "cat") = ws "cat")
    (hnorm : P.normalizeHeadword (ws "cat") = ws "cat")
    (htrim : P.trimWhitespace (ws "cat") = ws "cat") :
    processHeadword P false ignoreDiacritics (ws "cat") st (ws "cat") =
      { st with tildeValue := ws "cat", tildeValueWithUnsorted := ws "cat",
                displayedHeadword := ws "cat", foundDisplayedHeadword := true } := by
  have hemp : (ws "cat").isEmpty = false := by decide
  have hmatch : altMatches P ignoreDiacritics (ws "cat") (ws "cat") = true := by
    cases ignoreDiacritics <;> simp [altMatches, hesc, hnorm, htrim]
  simp [processHeadword, insidedHeadword, hemp, hst, hexp, huns, hcase, hmatch]

/-- C7 (as amended): for the decoded article text `"cat\n\tThe [i]cat[/i].\n"`
and the requested folded headword `"cat"`, with primitives that leave the
plain word `cat` as it is, `loadArticle` returns `displayedHeadword = "cat"`,
`headwordIndex = 0` and `articleText = "\tThe [i]cat[/i].\n"`: the body keeps
its leading tab and its line terminator. -/
theorem loadArticle_cat (P : Prims) (ignoreDiacritics : Bool)
    (tildeValue displayedHeadword : wstring)
    (hexp : P.expandOptionalParts (ws "cat") [] = (ws "cat", [ws "cat"]))
    (huns : ∀ strip, P.processUnsortedParts (ws "cat") strip = ws "cat")
    (hcase : P.applySimpleCaseOnly (ws "cat") = ws "cat")
    (hesc : P.unescapeDsl (ws "cat") = ws "cat")
    (hnorm : P.normalizeHeadword (ws "cat") = ws "cat")
    (htrim : P.trimWhitespace (ws "cat") = ws "cat") :
    loadArticle P (.decoded (ws "cat\n\tThe [i]cat[/i].\n")) (ws "cat") ignoreDiacritics
        tildeValue displayedHeadword =
      .ok { tildeValue := ws "cat", displayedHeadword := ws "cat", headwordIndex := 0,
            articleText := ws "\tThe [i]cat[/i].\n", foundDisplayedHeadword := true,
            insidedCard := false } := by
  obtain ⟨f1, f2, f3⟩ := cat_article_first_line P
  have hdata : ws "cat\n\tThe [i]cat[/i].\n" = 99 :: ws "at\n\tThe [i]cat[/i].\n" := by decide
  have hlen : (ws "cat\n\tThe [i]cat[/i].\n").length + 1 = 21 + 1 := by decide
  have hdrop : (ws "cat\n\tThe [i]cat[/i].\n").drop 4 = ws "\tThe [i]cat[/i].\n" := by decide
  have hw : headerWalk P false ignoreDiacritics (ws "cat") (ws "cat\n\tThe [i]cat[/i].\n")
      ((ws "cat\n\tThe [i]cat[/i].\n").length + 1)
      { pos := 0, hadFirstHeadword := false, foundDisplayedHeadword := false,
        headwordIndex := 0, tildeValue := tildeValue, tildeValueWithUnsorted := [],
        displayedHeadword := displayedHeadword } =
      some { pos := 4, hadFirstHeadword := false, foundDisplayedHeadword := true,
             headwordIndex := 0, tildeValue := ws "cat", tildeValueWithUnsorted := ws "cat",
             displayedHeadword := ws "cat" } := by
    rw [hlen, headerWalk]
    simp only [f1, f2, f3, Bool.not_false, if_true, Bool.false_eq_true, if_false]
    rw [processHeadword_cat P ignoreDiacritics _ rfl hexp huns hcase hesc hnorm htrim]
  unfold loadArticle
  simp only [articleDataOf]
  rw [hdata]
  simp only
  have hws : isDslWs 99 = false := by decide
  rw [← hdata, hws, hw]
  have hpos : ((4 : Nat) != (ws "cat\n\tThe [i]cat[/i].\n").length) = true := by decide
  simp only [hws, hpos, hdrop, Bool.not_true, Bool.false_eq_true, if_false, if_true]

/-- C7, witness: the primitives on plain text leave `cat` as it is. -/
theorem loadArticle_cat_witness :
    loadArticle Prims.plain (.decoded (ws "cat\n\tThe [i]cat[/i].\n")) (ws "cat") false [] [] =
      .ok { tildeValue := ws "cat", displayedHeadword := ws "cat", headwordIndex := 0,
            articleText := ws "\tThe [i]cat[/i].\n", foundDisplayedHeadword := true,
            insidedCard := false } :=
  loadArticle_cat Prims.plain false [] [] rfl (fun _ => rfl) (by decide) rfl rfl (by decide)

/-- C7, counterexample: whatever the primitives, the flag and the values
passed in, `loadArticle` does not return the body `"The [i]cat[/i]."` for the
text `"cat\n\tThe [i]cat[/i].\n"`: the body it returns starts with the tab
and ends with the line feed. -/
theorem loadArticle_cat_body_keeps_tab :
    bodyOf (ws "cat\n\tThe [i]cat[/i].\n") = ws "\tThe [i]cat[/i].\n" ∧
    ¬ ∃ (P : Prims) (ignoreDiacritics : Bool) (tildeValue displayedHeadword : wstring)
        (r : LoadResult),
      loadArticle P (.decoded (ws "cat\n\tThe [i]cat[/i].\n")) (ws "cat") ignoreDiacritics
          tildeValue displayedHeadword = .ok r ∧
        r.articleText = ws "The [i]cat[/i]." := by
  have hbody : bodyOf (ws "cat\n\tThe [i]cat[/i].\n") = ws "\tThe [i]cat[/i].\n" := by decide
  refine ⟨hbody, ?_⟩
  rintro ⟨P, ign, tv, dh, r, hr, htext⟩
  obtain ⟨r2, hr2, _, hbody2⟩ :=
    loadArticle_toplevel_body P (ws "cat\n\tThe [i]cat[/i].\n") (ws "cat") ign tv dh
      (by decide) (by decide)
  rw [hr] at hr2
  have : r = r2 := by
    injection hr2
  subst this
  rw [hbody2, hbody] at htext
  exact absurd htext (by decide)

end Dsl

namespace Dsl

/-! ### The placeholder article of a failed read -/

theorem processHeadword_empty (P : Prims) (insidedCard ignoreDiacritics : Bool)
    (requestedHeadwordFolded : wstring) (st : WalkState) :
    processHeadword P insidedCard ignoreDiacritics requestedHeadwordFolded st [] = st := by
  simp [processHeadword, insidedHeadword]

/-- The header walk over a text that starts with line feed, carriage return,
tab: two empty lines are passed and the walk ends at the tab, with no
variable but the position changed. -/
theorem headerWalk_placeholder (P : Prims) (ignoreDiacritics : Bool)
    (requestedHeadwordFolded tail : wstring) (fuel : Nat) (st : WalkState)
    (hpos : st.pos = 0) (hfound : st.foundDisplayedHeadword = false) :
    headerWalk P false ignoreDiacritics requestedHeadwordFolded (10 :: 13 :: 9 :: tail)
      (fuel + 2) st = some { st with pos := 2 } := by
  have e0 : (findFirstOf (10 :: 13 :: 9 :: tail) [10, 13] 0).getD
      (10 :: 13 :: 9 :: tail).length = 0 := by
    simp [findFirstOf, indexWhere]
  have e1 : (findFirstOf (10 :: 13 :: 9 :: tail) [10, 13] 1).getD
      (10 :: 13 :: 9 :: tail).length = 1 := by
    simp [findFirstOf, indexWhere]
  have a0 : advance P false (10 :: 13 :: 9 :: tail) 0 = (1, true) := by
    simp [advance, charAt, isDslWs]
  have a1 : advance P false (10 :: 13 :: 9 :: tail) 1 = (2, false) := by
    simp [advance, charAt, isDslWs, stopsAtIndentedLine]
  have s0 : ∀ b, substr (10 :: 13 :: 9 :: tail) b (b - b) = [] := by
    intro b
    simp [substr]
  rw [headerWalk]
  simp only [hpos, hfound, e0, a0, s0, processHeadword_empty, Bool.not_false, if_true]
  rw [headerWalk]
  simp only [hfound, e1, a1, s0, processHeadword_empty, Bool.not_false, if_true,
    Bool.false_eq_true, if_false]

/-- After a failed read `loadArticle` returns the placeholder from its tab
on, leaves `tildeValue` as passed and sets `displayedHeadword` to it. -/
theorem loadArticle_failed (P : Prims) (errorStr requestedHeadwordFolded : wstring)
    (ignoreDiacritics : Bool) (tildeValue displayedHeadword : wstring) :
    loadArticle P (.failed errorStr) requestedHeadwordFolded ignoreDiacritics tildeValue
        displayedHeadword =
      .ok { tildeValue := tildeValue, displayedHeadword := tildeValue, headwordIndex := 0,
            articleText := ws "\t" ++ ws "DICTZIP error: " ++ errorStr,
            foundDisplayedHeadword := false, insidedCard := false } := by
  have hdata : articleDataOf (.failed errorStr) =
      10 :: 13 :: 9 :: (ws "DICTZIP error: " ++ errorStr) := rfl
  have hlen : (10 :: 13 :: 9 :: (ws "DICTZIP error: " ++ errorStr)).length + 1 =
      ((ws "DICTZIP error: " ++ errorStr).length + 2) + 2 := by
    simp only [List.length_cons]
  have hws : isDslWs 10 = false := by decide
  have htab : ws "\t" = [9] := by decide
  unfold loadArticle
  simp only [hdata, hws]
  rw [hlen, headerWalk_placeholder P ignoreDiacritics requestedHeadwordFolded _ _ _ rfl rfl]
  simp [htab]

/-- C8: when the decompressor read fails with error message `m`,
`loadArticle` does not raise.  Called as `DslArticleRequest::run` calls it
(lines 1605-1615, the one call of this private function), with `tildeValue`
and `displayedHeadword` two fresh empty strings, it returns for every `m`
with `articleText` equal to `"\t"` followed by `"DICTZIP error: "` followed by
`m`, with `headwordIndex = 0`, and with `tildeValue` and `displayedHeadword`
left as passed: no headword line is processed.  Whatever is passed,
`tildeValue` is left as it is and `displayedHeadword` leaves with the value
of `tildeValue` (lines 716-724), which for the call is the value passed. -/
theorem loadArticle_read_failure (P : Prims) (m requestedHeadwordFolded : wstring)
    (ignoreDiacritics : Bool) :
    loadArticle P (.failed m) requestedHeadwordFolded ignoreDiacritics [] [] =
      .ok { tildeValue := [], displayedHeadword := [], headwordIndex := 0,
            articleText := ws "\t" ++ ws "DICTZIP error: " ++ m,
            foundDisplayedHeadword := false, insidedCard := false } ∧
    (∀ passed : wstring,
      loadArticle P (.failed m) requestedHeadwordFolded ignoreDiacritics passed passed =
        .ok { tildeValue := passed, displayedHeadword := passed, headwordIndex := 0,
              articleText := ws "\t" ++ ws "DICTZIP error: " ++ m,
              foundDisplayedHeadword := false, insidedCard := false }) ∧
    ∀ tildeValue displayedHeadword : wstring,
      loadArticle P (.failed m) requestedHeadwordFolded ignoreDiacritics tildeValue
          displayedHeadword =
        .ok { tildeValue := tildeValue, displayedHeadword := tildeValue, headwordIndex := 0,
              articleText := ws "\t" ++ ws "DICTZIP error: " ++ m,
              foundDisplayedHeadword := false, insidedCard := false } :=
  ⟨loadArticle_failed P m requestedHeadwordFolded ignoreDiacritics [] [],
    fun passed => loadArticle_failed P m requestedHeadwordFolded ignoreDiacritics passed passed,
    loadArticle_failed P m requestedHeadwordFolded ignoreDiacritics⟩

end Dsl
namespace Dsl

/-! ### The displayed headword when nothing matched -/

/-- Lines 716-724: without a match the displayed headword is the tilde value
of a top-level article and `requestedHeadwordFolded` for an embedded card. -/
theorem loadArticle_no_match (P : Prims) (read : ArticleRead)
    (requestedHeadwordFolded : wstring) (ignoreDiacritics : Bool)
    (tildeValue displayedHeadword : wstring) (r : LoadResult)
    (hload : loadArticle P read requestedHeadwordFolded ignoreDiacritics tildeValue
      displayedHeadword = .ok r)
    (hno : r.foundDisplayedHeadword = false) :
    r.displayedHeadword = if r.insidedCard then requestedHeadwordFolded else r.tildeValue := by
  unfold loadArticle at hload
  cases hd : articleDataOf read with
  | nil => simp [hd] at hload
  | cons first rest =>
    simp only [hd] at hload
    split at hload
    · exact absurd hload (by simp)
    · injection hload with hload
      subst hload
      simp only at hno
      simp [hno]

/-- C9 (as amended): when no headword alternative of the loaded article
matches the request, the displayed headword `loadArticle` returns is the
tilde value if the article is top-level, and is `requestedHeadwordFolded`,
the requested word after `Folding::applySimpleCaseOnly`, if the article is an
embedded card; `DslArticleRequest::run` puts the word as the caller asked for
it in its place only when that value is empty or starts with a space or
tab. -/
theorem displayedHeadword_without_match (P : Prims) (read : ArticleRead) (word : wstring)
    (ignoreDiacritics : Bool) (r : LoadResult)
    (hload : loadArticle P read (P.applySimpleCaseOnly word) ignoreDiacritics [] [] = .ok r)
    (hno : r.foundDisplayedHeadword = false) :
    (r.insidedCard = false → r.displayedHeadword = r.tildeValue) ∧
    (r.insidedCard = true → r.displayedHeadword = P.applySimpleCaseOnly word) ∧
    requestDisplayedHeadword P read word ignoreDiacritics =
      some (if r.displayedHeadword.isEmpty || isDslWs (charAt r.displayedHeadword 0) then word
        else r.displayedHeadword) := by
  have h := loadArticle_no_match P read _ ignoreDiacritics [] [] r hload hno
  refine ⟨?_, ?_, ?_⟩
  · intro hi
    rw [h, hi]
    rfl
  · intro hi
    rw [h, hi]
    rfl
  · unfold requestDisplayedHeadword
    simp only [hload]
    split <;> rfl

/-- C9, witness: the embedded card `"\t@robin\n\t\tred\n"` requested as
`Dove`. -/
theorem displayedHeadword_without_match_witness :
    loadArticle Prims.plain (.decoded (ws "\t@robin\n\t\tred\n"))
        (Prims.plain.applySimpleCaseOnly (ws "Dove")) false [] [] =
      .ok { tildeValue := ws "robin", displayedHeadword := ws "dove", headwordIndex := 1,
            articleText := ws "\t\tred\n", foundDisplayedHeadword := false,
            insidedCard := true } ∧
    requestDisplayedHeadword Prims.plain (.decoded (ws "\t@robin\n\t\tred\n")) (ws "Dove")
        false = some (ws "dove") :=
  ⟨by decide,
    (displayedHeadword_without_match Prims.plain (.decoded (ws "\t@robin\n\t\tred\n"))
      (ws "Dove") false
      { tildeValue := ws "robin", displayedHeadword := ws "dove", headwordIndex := 1,
        articleText := ws "\t\tred\n", foundDisplayedHeadword := false, insidedCard := true }
      (by decide) rfl).2.2⟩

/-- C9, counterexample: the embedded card `"\t@robin\n\t\tred\n"` is loaded
for the word `Dove`, which simple case folding turns into `dove`.  No
headword matches, and the displayed headword is `dove`, the folded word, not
`Dove`, the word as the caller asked for it, both as `loadArticle` returns it
and after the special case of `DslArticleRequest::run`. -/
theorem displayedHeadword_of_card_is_folded :
    (∃ r, loadArticle Prims.plain (.decoded (ws "\t@robin\n\t\tred\n"))
        (Prims.plain.applySimpleCaseOnly (ws "Dove")) false [] [] = .ok r ∧
      r.insidedCard = true ∧ r.foundDisplayedHeadword = false ∧
      r.displayedHeadword = ws "dove") ∧
    requestDisplayedHeadword Prims.plain (.decoded (ws "\t@robin\n\t\tred\n")) (ws "Dove")
        false = some (ws "dove") ∧
    ws "dove" ≠ ws "Dove" := by
  refine ⟨⟨{ tildeValue := ws "robin", displayedHeadword := ws "dove", headwordIndex := 1,
             articleText := ws "\t\tred\n", foundDisplayedHeadword := false,
             insidedCard := true }, by decide, rfl, rfl, rfl⟩, by decide, by decide⟩

end Dsl

namespace Dsl

/-! ### The tilde test on the headword of an embedded card -/

theorem findChar_some (s : wstring) (ch p hpos : Nat) (h : findChar s ch p = some hpos) :
    p ≤ hpos ∧ hpos < s.length ∧ charAt s hpos = ch := by
  unfold findChar at h
  rw [Option.map_eq_some'] at h
  obtain ⟨i, hi, rfl⟩ := h
  obtain ⟨h1, h2, _⟩ := indexWhere_some _ _ _ hi
  rw [List.length_drop] at h1
  rw [charAt_drop] at h2
  refine ⟨by omega, by omega, ?_⟩
  rw [Nat.add_comm]
  exact eq_of_beq h2

/-- The loop of lines 595-601 stops at the first tilde it is given: the
character it tests, `head[ hpos ]`, is the tilde itself and never a
backslash. -/
theorem tildeScan_stops (head : wstring) (fuel p hpos : Nat)
    (h : findChar head 126 p = some hpos) :
    tildeScan head (fuel + 1) (findChar head 126 p) = some hpos := by
  obtain ⟨_, _, h3⟩ := findChar_some head 126 p hpos h
  rw [h]
  unfold tildeScan
  simp [h3]

/-- Lines 588-607: the text after `@` is discarded as soon as it holds a tilde,
whatever stands before the tilde. -/
theorem insidedHeadword_of_at (P : Prims) (rawHeadword : wstring) (hpos : Nat)
    (hraw : rawHeadword.isEmpty = false) (hws : isDslWs (charAt rawHeadword 0) = true)
    (hat : findChar rawHeadword 64 0 = some hpos) :
    insidedHeadword P true rawHeadword =
      if (findChar (P.trimWhitespace (rawHeadword.drop (hpos + 1))) 126 0).isSome then []
      else P.trimWhitespace (rawHeadword.drop (hpos + 1)) := by
  unfold insidedHeadword
  simp only [hraw, hws, Bool.not_false, Bool.and_self, if_true, hat]
  cases ht : findChar (P.trimWhitespace (rawHeadword.drop (hpos + 1))) 126 0 with
  | none =>
    simp only [Option.isSome_none, Bool.false_eq_true, if_false]
    unfold tildeScan
    rfl
  | some t =>
    rw [← ht, tildeScan_stops _ _ 0 t ht]
    simp [ht]

/-- C30, evaluation: the embedded card whose headword line is `@a\~b`, with
its only tilde escaped, requested as `a~b`.  The text after `@` is discarded:
it is not compared with the request (no headword is found, and the headword
index is still 0), whereas the headword `ab` of the same card is kept and
found. -/
theorem loadArticle_escaped_tilde :
    insidedHeadword Prims.plain true (ws "\t@a\\~b") = [] ∧
      loadArticle Prims.plain (.decoded (ws "\t@a\\~b\n\t\tred\n")) (ws "a~b") false [] [] =
        .ok { tildeValue := [], displayedHeadword := ws "a~b", headwordIndex := 0,
              articleText := ws "\t\tred\n", foundDisplayedHeadword := false,
              insidedCard := true } ∧
      insidedHeadword Prims.plain true (ws "\t@ab") = ws "ab" ∧
      loadArticle Prims.plain (.decoded (ws "\t@ab\n\t\tred\n")) (ws "ab") false [] [] =
        .ok { tildeValue := ws "ab", displayedHeadword := ws "ab", headwordIndex := 0,
              articleText := ws "\t\tred\n", foundDisplayedHeadword := true,
              insidedCard := true } := by
  decide

end Dsl
namespace Dsl

/-! ### The header walk of `getArticleText` against that of `loadArticle` -/

/-- The walk of `getArticleText` fails as soon as a line it reaches has no
line terminator after it. -/
theorem textWalk_of_unterminated (P : Prims) (insidedCard : Bool) (articleData : wstring)
    (fuel : Nat) (st : TextWalk) (h : findFirstOf articleData [10, 13] st.pos = none) :
    textWalk P insidedCard articleData (fuel + 1) st = .error .readAtNpos := by
  unfold textWalk
  simp only [h]

/-- Where the walk of `getArticleText` comes to an end, the walk of
`loadArticle` ends at the same position. -/
theorem headerWalk_of_textWalk (P : Prims) (insidedCard ignoreDiacritics : Bool)
    (requestedHeadwordFolded articleData : wstring) :
    ∀ (fuel : Nat) (st st2 : TextWalk) (w : WalkState),
      textWalk P insidedCard articleData fuel st = .ok st2 → w.pos = st.pos →
      ∃ w2, headerWalk P insidedCard ignoreDiacritics requestedHeadwordFolded articleData
          fuel w = some w2 ∧ w2.pos = st2.pos := by
  intro fuel
  induction fuel with
  | zero => intro st st2 w h _; simp [textWalk] at h
  | succ fuel ih =>
    intro st st2 w h hw
    unfold textWalk at h
    unfold headerWalk
    simp only [hw]
    cases hf : findFirstOf articleData [10, 13] st.pos with
    | none => simp [hf] at h
    | some pos =>
      simp only [hf, Option.getD_some] at h ⊢
      by_cases hn : (advance P insidedCard articleData pos).2 = true
      · simp only [hn, if_true] at h ⊢
        exact ih _ st2 _ h rfl
      · simp only [hn, Bool.false_eq_true, if_false, Except.ok.injEq] at h ⊢
        subst h
        exact ⟨_, rfl, rfl⟩

/-- Where the header walk of `getArticleText` delivers, `loadArticle`
returns and selects the same text. -/
theorem loadArticle_of_articleTextHeader (P : Prims) (articleData : wstring) (r : TextHeader)
    (requestedHeadwordFolded : wstring) (ignoreDiacritics : Bool)
    (tildeValue displayedHeadword : wstring) (h : articleTextHeader P articleData = .ok r) :
    ∃ r2, loadArticle P (.decoded articleData) requestedHeadwordFolded ignoreDiacritics
        tildeValue displayedHeadword = .ok r2 ∧ r2.articleText = r.articleText := by
  unfold articleTextHeader at h
  unfold loadArticle
  simp only [articleDataOf]
  cases articleData with
  | nil => simp at h
  | cons first rest =>
    simp only [List.length_cons] at h ⊢
    cases ht : textWalk P (isDslWs first) (first :: rest) (rest.length + 1 + 1)
        { pos := 0, articleHeadword := [], tildeValue := [] } with
    | error e => simp [ht] at h
    | ok st =>
      simp only [ht, Except.ok.injEq] at h
      obtain ⟨w2, hw, hpos⟩ := headerWalk_of_textWalk P (isDslWs first) ignoreDiacritics
        requestedHeadwordFolded (first :: rest) _ _ st
        { pos := 0, hadFirstHeadword := false, foundDisplayedHeadword := false,
          headwordIndex := 0, tildeValue := tildeValue, tildeValueWithUnsorted := [],
          displayedHeadword := displayedHeadword } ht rfl
      rw [hw]
      refine ⟨_, rfl, ?_⟩
      subst h
      simp only [hpos]

/-- C26 fails on the code: for the article text `cat`, which has no line
terminator, and for `a`, line feed, `b`, whose last headword line has none,
`find_first_of` returns `npos` and the walk of `getArticleText` reads
`articleData[ npos ]`, where `loadArticle` sets the position to the size of
the text and returns an empty body; every non-empty text without a line
terminator does so, and where the walk of `getArticleText` does deliver,
`loadArticle` selects the same text. -/
theorem articleTextHeader_unterminated :
    articleTextHeader Prims.plain (ws "cat") = .error .readAtNpos ∧
    articleTextHeader Prims.plain (ws "a\nb") = .error .readAtNpos ∧
    loadArticle Prims.plain (.decoded (ws "cat")) (ws "cat") false [] [] =
      .ok { tildeValue := ws "cat", displayedHeadword := ws "cat", headwordIndex := 0,
            articleText := [], foundDisplayedHeadword := true, insidedCard := false } ∧
    loadArticle Prims.plain (.decoded (ws "a\nb")) (ws "a") false [] [] =
      .ok { tildeValue := ws "a", displayedHeadword := ws "a", headwordIndex := 0,
            articleText := [], foundDisplayedHeadword := true, insidedCard := false } ∧
    articleTextHeader Prims.plain (ws "cat\n\tbody\n") =
      .ok { articleHeadword := ws "cat", tildeValue := ws "cat", articleText := ws "\tbody\n" } ∧
    (∀ (P : Prims) (first : Nat) (rest : wstring),
      findFirstOf (first :: rest) [10, 13] 0 = none →
      articleTextHeader P (first :: rest) = .error .readAtNpos) ∧
    (∀ (P : Prims) (articleData : wstring) (r : TextHeader)
      (requestedHeadwordFolded : wstring) (ignoreDiacritics : Bool)
      (tildeValue displayedHeadword : wstring),
      articleTextHeader P articleData = .ok r →
      ∃ r2, loadArticle P (.decoded articleData) requestedHeadwordFolded ignoreDiacritics
          tildeValue displayedHeadword = .ok r2 ∧ r2.articleText = r.articleText) := by
  refine ⟨by decide, by decide, by decide, by decide, by decide, ?_,
    loadArticle_of_articleTextHeader⟩
  intro P first rest h
  unfold articleTextHeader
  simp only
  rw [textWalk_of_unterminated P _ _ _ _ h]

end Dsl
namespace Dsl

/-! ### The header walk reads inside the text and comes to an end -/

theorem readAt_of_lt (s : wstring) (i : Nat) (h : i < s.length) :
    readAt s i = some (charAt s i) := by
  unfold readAt charAt
  rw [List.getElem?_eq_getElem h, List.getD_eq_getElem?_getD, List.getElem?_eq_getElem h]
  rfl

theorem tildeScanChecked_eq (head : wstring) :
    ∀ (fuel : Nat) (o : Option Nat), (∀ hpos, o = some hpos → hpos < head.length) →
      tildeScanChecked head fuel o = some (tildeScan head fuel o) := by
  intro fuel
  induction fuel with
  | zero => intro o _; rfl
  | succ fuel ih =>
    intro o ho
    cases o with
    | none => rfl
    | some hpos =>
      have hlt := ho hpos rfl
      unfold tildeScanChecked tildeScan
      by_cases h0 : hpos = 0
      · simp [h0]
      · have hb : (hpos == 0) = false := by simpa using h0
        simp only [hb, Bool.false_eq_true, if_false, readAt_of_lt head hpos hlt,
          Option.some_bind, Bool.false_or]
        by_cases hc : (charAt head hpos != 92) = true
        · simp only [hc, if_true]
        · simp only [hc, Bool.false_eq_true, if_false]
          exact ih _ fun p hp => (findChar_some head 126 _ p hp).2.1

theorem insidedHeadwordChecked_eq (P : Prims) (insidedCard : Bool) (rawHeadword : wstring) :
    insidedHeadwordChecked P insidedCard rawHeadword =
      some (insidedHeadword P insidedCard rawHeadword) := by
  unfold insidedHeadwordChecked insidedHeadword
  cases insidedCard with
  | false => simp
  | true =>
    cases rawHeadword with
    | nil => simp
    | cons c rest =>
      have hr : readAt (c :: rest) 0 = some c := by
        rw [readAt_of_lt _ _ (by simp), charAt_cons_zero]
      simp only [Bool.true_and, List.isEmpty_cons, Bool.not_false, if_true, hr,
        Option.some_bind, charAt_cons_zero]
      by_cases hw : isDslWs c = true
      · simp only [hw, if_true]
        cases hf : findChar (c :: rest) 64 0 with
        | none => rfl
        | some hpos =>
          have hlt := (findChar_some _ _ _ _ hf).2.1
          simp only [if_pos (Nat.succ_le_of_lt hlt)]
          rw [tildeScanChecked_eq _ _ _ fun p hp => (findChar_some _ 126 _ p hp).2.1]
          rfl
      · simp only [hw, Bool.false_eq_true, if_false]

/-- The line that starts at a blank holds an `@` at its second place at the
earliest. -/
theorem findChar_at_of_blank (str : wstring) (hpos : Nat)
    (hw : isDslWs (charAt str 0) = true) (h : findChar str 64 0 = some hpos) :
    1 ≤ hpos ∧ hpos - 1 < str.length := by
  obtain ⟨_, h2, h3⟩ := findChar_some str 64 0 hpos h
  have h0 : hpos ≠ 0 := by
    intro h0
    rw [h0] at h3
    rw [h3] at hw
    exact absurd hw (by decide)
  omega

theorem stopsAtIndentedLineChecked_eq (P : Prims) (insidedCard : Bool) (articleData : wstring)
    (pos : Nat) (hlt : pos < articleData.length) (hw : isDslWs (charAt articleData pos) = true) :
    stopsAtIndentedLineChecked P insidedCard articleData pos =
      some (stopsAtIndentedLine P insidedCard articleData pos) := by
  unfold stopsAtIndentedLineChecked stopsAtIndentedLine
  cases insidedCard with
  | false => simp
  | true =>
    simp only [if_true, if_pos (Nat.le_of_lt hlt)]
    obtain ⟨e1, e2, e3, e4⟩ := lineEnd_spec articleData pos (Nat.le_of_lt hlt)
    have hne : pos ≠ (findFirstOf articleData [10, 13] pos).getD articleData.length := by
      intro heq
      by_cases hl : (findFirstOf articleData [10, 13] pos).getD articleData.length <
          articleData.length
      · have := e3 hl
        rw [← heq] at this
        have := isDslWs_not_lf _ hw
        omega
      · omega
    have hlen : (substr articleData pos
        ((findFirstOf articleData [10, 13] pos).getD articleData.length - pos)).length =
        (findFirstOf articleData [10, 13] pos).getD articleData.length - pos := by
      unfold substr
      rw [List.length_take, List.length_drop]
      omega
    have hstr0 : charAt (substr articleData pos
        ((findFirstOf articleData [10, 13] pos).getD articleData.length - pos)) 0 =
        charAt articleData pos := by
      unfold substr charAt
      rw [List.getD_eq_getElem?_getD, List.getD_eq_getElem?_getD, List.getElem?_take_of_lt
        (by omega), List.getElem?_drop]
      rfl
    cases hf : findChar (substr articleData pos
        ((findFirstOf articleData [10, 13] pos).getD articleData.length - pos)) 64 0 with
    | none => rfl
    | some hpos =>
      obtain ⟨k1, k2⟩ := findChar_at_of_blank _ hpos (by rw [hstr0]; exact hw) hf
      simp only [if_pos k1, readAt_of_lt _ _ k2, Option.map_some']

theorem advanceChecked_eq (P : Prims) (insidedCard : Bool) (articleData : wstring) (pos : Nat)
    (hle : pos ≤ articleData.length) :
    advanceChecked P insidedCard articleData pos =
      some (advance P insidedCard articleData pos) := by
  unfold advanceChecked advance
  by_cases hend : pos = articleData.length
  · simp [hend]
  · have hb : (pos == articleData.length) = false := by simpa using hend
    have hlt : pos < articleData.length := by omega
    simp only [hb, Bool.false_eq_true, if_false, readAt_of_lt _ _ hlt, Option.some_bind]
    generalize hp1 : (if (charAt articleData pos == 13) = true then pos + 1 else pos) = p1
    have hp1le : p1 ≤ articleData.length := by
      rw [← hp1]
      split <;> omega
    by_cases hend1 : p1 = articleData.length
    · simp [hend1]
    · have hb1 : (p1 != articleData.length) = true := by simpa using hend1
      have hb1e : (p1 == articleData.length) = false := by simpa using hend1
      have hlt1 : p1 < articleData.length := by omega
      simp only [hb1, if_true, readAt_of_lt _ _ hlt1, Option.map_some', Option.some_bind,
        Bool.true_and]
      generalize hp2 : (if (charAt articleData p1 == 10) = true then p1 + 1 else p1) = p2
      have hp2le : p2 ≤ articleData.length := by
        rw [← hp2]
        split <;> omega
      by_cases hend2 : p2 = articleData.length
      · simp [hend2]
      · have hb2 : (p2 == articleData.length) = false := by simpa using hend2
        have hlt2 : p2 < articleData.length := by omega
        simp only [hb2, Bool.false_eq_true, if_false, readAt_of_lt _ _ hlt2, Option.some_bind]
        by_cases hw : isDslWs (charAt articleData p2) = true
        · simp only [hw, if_true,
            stopsAtIndentedLineChecked_eq P insidedCard articleData p2 hlt2 hw, Option.map_some']
        · simp only [hw, Bool.false_eq_true, if_false]

/-- The position `advance` moves to does not depend on the kind of
article. -/
theorem advance_fst (P : Prims) (insidedCard : Bool) (articleData : wstring) (pos : Nat) :
    (advance P insidedCard articleData pos).1 = (advance P false articleData pos).1 := by
  unfold advance
  simp only
  split_ifs <;> rfl

/-- One round of the header walk from `begin`: the position it moves to is
inside the text or its end, and it is beyond `begin` when the loop goes
round again. -/
theorem walk_round (P : Prims) (insidedCard : Bool) (articleData : wstring) (begin : Nat)
    (hb : begin ≤ articleData.length) :
    (advance P insidedCard articleData
        ((findFirstOf articleData [10, 13] begin).getD articleData.length)).1 ≤
      articleData.length ∧
    ((advance P insidedCard articleData
        ((findFirstOf articleData [10, 13] begin).getD articleData.length)).2 = true →
      begin < (advance P insidedCard articleData
        ((findFirstOf articleData [10, 13] begin).getD articleData.length)).1) := by
  obtain ⟨e1, e2, e3, _⟩ := lineEnd_spec articleData begin hb
  generalize (findFirstOf articleData [10, 13] begin).getD articleData.length = e at e1 e2 e3 ⊢
  by_cases hend : e = articleData.length
  · subst hend
    rw [advance_at_end]
    exact ⟨Nat.le_refl _, fun h => absurd h (by simp)⟩
  · have hlt : e < articleData.length := by omega
    obtain ⟨k1, k2, _⟩ := advance_toplevel P articleData e hlt (e3 hlt)
    rw [advance_fst]
    exact ⟨k2, fun _ => by omega⟩

/-- The header walk comes to an end within one round per character left and
one more, at a position inside the text or its end. -/
theorem headerWalk_terminates (P : Prims) (insidedCard ignoreDiacritics : Bool)
    (requestedHeadwordFolded articleData : wstring) :
    ∀ (fuel : Nat) (st : WalkState), st.pos ≤ articleData.length →
      articleData.length - st.pos < fuel →
      ∃ w, headerWalk P insidedCard ignoreDiacritics requestedHeadwordFolded articleData
        fuel st = some w ∧ w.pos ≤ articleData.length := by
  intro fuel
  induction fuel with
  | zero => intro st _ h; omega
  | succ fuel ih =>
    intro st hpos hfuel
    obtain ⟨k1, k2⟩ := walk_round P insidedCard articleData st.pos hpos
    unfold headerWalk
    simp only
    split
    · rename_i hgo
      have := k2 hgo
      exact ih _ k1 (by simp only; omega)
    · exact ⟨_, rfl, k1⟩

/-- The checked walk delivers what the walk delivers: no index is outside
its string. -/
theorem headerWalkChecked_eq (P : Prims) (insidedCard ignoreDiacritics : Bool)
    (requestedHeadwordFolded articleData : wstring) :
    ∀ (fuel : Nat) (st : WalkState), st.pos ≤ articleData.length →
      headerWalkChecked P insidedCard ignoreDiacritics requestedHeadwordFolded articleData
          fuel st =
        match headerWalk P insidedCard ignoreDiacritics requestedHeadwordFolded articleData
            fuel st with
        | none => .error .outOfFuel
        | some w => .ok w := by
  intro fuel
  induction fuel with
  | zero => intro st _; rfl
  | succ fuel ih =>
    intro st hpos
    obtain ⟨e1, e2, _, _⟩ := lineEnd_spec articleData st.pos hpos
    obtain ⟨k1, _⟩ := walk_round P insidedCard articleData st.pos hpos
    unfold headerWalkChecked headerWalk
    simp only [insidedHeadwordChecked_eq, Option.map_some', if_pos hpos,
      advanceChecked_eq P insidedCard articleData _ e2]
    by_cases hfound : st.foundDisplayedHeadword = true
    · simp only [hfound, Bool.not_true, Bool.false_eq_true, if_false]
      split
      · exact ih _ k1
      · rfl
    · simp only [hfound, Bool.not_false, if_true]
      split
      · exact ih _ k1
      · rfl

/-- The loop goes round again only at a position inside the text. -/
theorem advance_continues_inside (P : Prims) (insidedCard : Bool) (articleData : wstring)
    (pos : Nat) (h : (advance P insidedCard articleData pos).2 = true) :
    (advance P insidedCard articleData pos).1 ≠ articleData.length := by
  unfold advance at h ⊢
  simp only at h ⊢
  split_ifs at h ⊢ <;> simp_all

/-- One round of the header walk that begins inside the text: the position
it moves to is beyond the one it began with and not beyond the end of the
text, and it is inside the text when the loop goes round again. -/
theorem walk_round_strict (P : Prims) (insidedCard : Bool) (articleData : wstring)
    (begin : Nat) (hb : begin < articleData.length) :
    begin < (advance P insidedCard articleData
        ((findFirstOf articleData [10, 13] begin).getD articleData.length)).1 ∧
    (advance P insidedCard articleData
        ((findFirstOf articleData [10, 13] begin).getD articleData.length)).1 ≤
      articleData.length ∧
    ((advance P insidedCard articleData
        ((findFirstOf articleData [10, 13] begin).getD articleData.length)).2 = true →
      (advance P insidedCard articleData
        ((findFirstOf articleData [10, 13] begin).getD articleData.length)).1 <
        articleData.length) := by
  obtain ⟨k1, _⟩ := walk_round P insidedCard articleData begin (Nat.le_of_lt hb)
  refine ⟨?_, k1, fun h => ?_⟩
  · obtain ⟨e1, e2, e3, _⟩ := lineEnd_spec articleData begin (Nat.le_of_lt hb)
    generalize (findFirstOf articleData [10, 13] begin).getD articleData.length = e
      at e1 e2 e3 ⊢
    by_cases hend : e = articleData.length
    · subst hend
      rw [advance_at_end]
      exact hb
    · have hlt : e < articleData.length := by omega
      obtain ⟨k3, _⟩ := advance_toplevel P articleData e hlt (e3 hlt)
      rw [advance_fst]
      omega
  · have := advance_continues_inside P insidedCard articleData _ h
    omega

end Dsl
namespace Dsl

/-! ### The article count of the scan -/

theorem addToBlock_length (chunks : Chunks) (x : Nat) :
    (chunks.addToBlock x).length = chunks.length := by
  cases chunks <;> rfl

theorem indexCard_words_fields (P : Prims) (desc_offset : Nat) (hws : List wstring) :
    ∀ s : Scan,
      let r := hws.foldl
        (fun (s : Scan) hw =>
          let allEntryWords := normalizedWords P (P.expandOptionalParts hw []).2
          { s with addedWords := s.addedWords ++ allEntryWords.map fun w => (w, desc_offset),
                   wordCount := toU32 (s.wordCount + allEntryWords.length) })
        s
      r.chunks = s.chunks ∧ r.articleCount = s.articleCount ∧ r.articles = s.articles ∧
        r.phase = s.phase := by
  induction hws with
  | nil => intro s; exact ⟨rfl, rfl, rfl, rfl⟩
  | cons hw hws ih =>
    intro s
    simp only [List.foldl_cons]
    obtain ⟨h1, h2, h3, h4⟩ := ih
      { s with addedWords := s.addedWords ++
                 (normalizedWords P (P.expandOptionalParts hw []).2).map fun w => (w, desc_offset),
               wordCount := toU32 (s.wordCount +
                 (normalizedWords P (P.expandOptionalParts hw []).2).length) }
    exact ⟨h1, h2, h3, h4⟩

theorem indexCard_fields (P : Prims) (s : Scan) (c : InsidedCard) :
    (indexCard P s c).articleCount = toU32 (s.articleCount + 1) ∧
    (indexCard P s c).chunks.length = s.chunks.length + 1 ∧
    (indexCard P s c).articles = s.articles ∧
    (indexCard P s c).phase = s.phase := by
  unfold indexCard
  simp only [Chunks.startNewBlock]
  obtain ⟨h1, h2, h3, h4⟩ := indexCard_words_fields P s.chunks.length c.headwords
    { s with chunks := (Chunks.addToBlock (Chunks.addToBlock ([] :: s.chunks) c.offset) c.size) }
  simp only at h1 h2 h3 h4
  refine ⟨?_, ?_, ?_, ?_⟩
  · simp only [h2]
  · simp only [h1, addToBlock_length, List.length_cons]
  · simp only [h3]
  · simp only [h4]

theorem indexCards_fields (P : Prims) (cards : List InsidedCard) :
    ∀ s : Scan, s.articleCount < 2 ^ 32 →
      (cards.foldl (indexCard P) s).articleCount = (s.articleCount + cards.length) % 2 ^ 32 ∧
      (cards.foldl (indexCard P) s).chunks.length = s.chunks.length + cards.length ∧
      (cards.foldl (indexCard P) s).articles = s.articles ∧
      (cards.foldl (indexCard P) s).phase = s.phase := by
  induction cards using List.reverseRecOn with
  | nil =>
    intro s hs
    simp only [List.foldl_nil, List.length_nil, Nat.add_zero, and_self, and_true]
    exact (Nat.mod_eq_of_lt hs).symm
  | append_singleton cards c ih =>
    intro s hs
    obtain ⟨h1, h3, h4, h5⟩ := ih s hs
    obtain ⟨k1, k2, k3, k4⟩ := indexCard_fields P (cards.foldl (indexCard P) s) c
    rw [List.foldl_append, List.foldl_cons, List.foldl_nil, List.length_append,
      List.length_singleton]
    refine ⟨?_, ?_, ?_, ?_⟩
    · rw [k1, h1]
      simp only [toU32, Nat.reducePow]
      omega
    · rw [k2, h3]
      omega
    · rw [k3, h4]
    · rw [k4, h5]

theorem recordedCards_append (s : Scan) (a : ArticleRecord) (s2 : Scan)
    (h : s2.articles = s.articles ++ [a]) :
    recordedCards s2 = recordedCards s + a.insidedCards.length := by
  simp [recordedCards, h]

theorem countInv_lt (base : Nat) (s : Scan) (h : CountInv base s) : s.articleCount < 2 ^ 32 := by
  rw [h.1]
  exact Nat.mod_lt _ (by decide)

/-- Finishing the open article keeps the count. -/
theorem finishArticle_countInv (P : Prims) (base : Nat) (s : Scan) (v : BodyVars)
    (curOffset : Nat) (hphase : s.phase = .body v) (h : CountInv base s) :
    CountInv base (finishArticle P s v curOffset) ∧
      (finishArticle P s v curOffset).phase = .main := by
  have hopen : openArticles s = 1 := by simp [openArticles, hphase]
  have hlt := countInv_lt base s h
  obtain ⟨h1, h2⟩ := h
  unfold finishArticle
  generalize (if v.insideInsided = true then
      v.insidedCards ++ [⟨v.offset, subU32 curOffset v.offset, v.insidedHeadwords⟩]
    else v.insidedCards) = cards
  obtain ⟨k1, k2, k3, k4⟩ := indexCards_fields P cards
    { s with chunks := s.chunks.addToBlock (subU32 curOffset v.articleOffset) } hlt
  simp only at k1 k2 k3 k4
  refine ⟨⟨?_, ?_⟩, rfl⟩
  · simp only [openArticles, recordedCards, k3, List.length_append, List.length_singleton,
      List.map_append, List.map_cons, List.map_nil, List.sum_append, List.sum_cons,
      List.sum_nil, Nat.add_zero]
    rw [k1, h1, hopen]
    simp only [recordedCards, Nat.reducePow]
    omega
  · simp only [openArticles, recordedCards, k3, List.length_append, List.length_singleton,
      List.map_append, List.map_cons, List.map_nil, List.sum_append, List.sum_cons,
      List.sum_nil, Nat.add_zero]
    rw [k2, addToBlock_length, h2, hopen]
    simp only [recordedCards]
    omega

/-- A line of the body changes nothing but the variables of the body loop. -/
theorem bodyLine_fields (P : Prims) (s : Scan) (v : BodyVars) (line : Line)
    (hphase : s.phase = .body v) :
    (bodyLine P s v line).articleCount = s.articleCount ∧
    (bodyLine P s v line).chunks = s.chunks ∧
    (bodyLine P s v line).articles = s.articles ∧
    ∃ v2, (bodyLine P s v line).phase = .body v2 := by
  unfold bodyLine
  split
  · exact ⟨rfl, rfl, rfl, v, hphase⟩
  · exact ⟨rfl, rfl, rfl, _, rfl⟩

theorem countInv_of_fields (base : Nat) (s s2 : Scan) (h : CountInv base s)
    (h1 : s2.articleCount = s.articleCount) (h2 : s2.chunks = s.chunks)
    (h3 : s2.articles = s.articles) (h4 : openArticles s2 = openArticles s) :
    CountInv base s2 := by
  unfold CountInv recordedCards at h ⊢
  rw [h1, h2, h3, h4]
  exact h

theorem bodyLine_countInv (P : Prims) (base : Nat) (s : Scan) (v : BodyVars) (line : Line)
    (hphase : s.phase = .body v) (h : CountInv base s) :
    CountInv base (bodyLine P s v line) := by
  obtain ⟨h1, h2, h3, v2, h4⟩ := bodyLine_fields P s v line hphase
  exact countInv_of_fields base s _ h h1 h2 h3 (by simp [openArticles, h4, hphase])

theorem mainLine_countInv (P : Prims) (base : Nat) (s : Scan) (line : Line)
    (hphase : s.phase = .main) (h : CountInv base s) :
    CountInv base (mainLine P s line) := by
  have hopen : openArticles s = 0 := by simp [openArticles, hphase]
  unfold mainLine
  split
  · exact countInv_of_fields base s _ h rfl rfl rfl (by simp [openArticles, hphase])
  · split
    · exact countInv_of_fields base s _ h rfl rfl rfl (by simp [openArticles, hphase])
    · exact countInv_of_fields base s _ h rfl rfl rfl (by simp [openArticles, hphase])

theorem beginArticle_countInv (P : Prims) (base : Nat) (s : Scan)
    (allEntryWords : List wstring) (articleOffset : Nat) (line : Line)
    (hphase : s.phase = .headwords allEntryWords articleOffset) (h : CountInv base s) :
    CountInv base (beginArticle P s allEntryWords articleOffset line) := by
  have hopen : openArticles s = 0 := by simp [openArticles, hphase]
  obtain ⟨h1, h2⟩ := h
  have hbase : ∀ v : BodyVars, CountInv base
      { s with chunks := Chunks.addToBlock ([] :: s.chunks) articleOffset,
               addedWords := s.addedWords ++
                 (normalizedWords P allEntryWords).map fun w => (w, s.chunks.length),
               articleCount := toU32 (s.articleCount + 1),
               wordCount := toU32 (s.wordCount + (normalizedWords P allEntryWords).length),
               phase := .body v } := by
    intro v
    constructor
    · simp only [openArticles, recordedCards, toU32, Nat.reducePow]
      rw [h1, hopen]
      simp only [recordedCards, Nat.reducePow]
      omega
    · simp only [openArticles, recordedCards, addToBlock_length, List.length_cons]
      rw [h2, hopen]
      simp only [recordedCards, Nat.add_zero]
  unfold beginArticle
  simp only [Chunks.startNewBlock]
  split
  · exact bodyLine_countInv P base _ _ line rfl (hbase _)
  · exact hbase _

/-- Every line keeps the count. -/
theorem scanLine_countInv (P : Prims) (skipped : wstring → Bool) (base : Nat) (s : Scan)
    (line : Line) (h : CountInv base s) : CountInv base (scanLine P skipped s line) := by
  unfold scanLine
  split
  · rename_i hphase
    split
    · exact h
    · exact mainLine_countInv P base s line hphase h
  · rename_i allEntryWords articleOffset hphase
    split
    · exact h
    · split
      · exact beginArticle_countInv P base s allEntryWords articleOffset line hphase h
      · exact countInv_of_fields base s _ h rfl rfl rfl (by simp [openArticles, hphase])
  · rename_i v hphase
    split
    · obtain ⟨k1, k2⟩ := finishArticle_countInv P base s v line.offset hphase h
      exact mainLine_countInv P base _ line k2 k1
    · exact bodyLine_countInv P base s v line hphase h

theorem scanLines_countInv (P : Prims) (skipped : wstring → Bool) (base : Nat)
    (lines : List Line) :
    ∀ s : Scan, CountInv base s → CountInv base (lines.foldl (scanLine P skipped) s) := by
  induction lines with
  | nil => intro s h; exact h
  | cons line lines ih =>
    intro s h
    exact ih _ (scanLine_countInv P skipped base s line h)

theorem scanEnd_countInv (P : Prims) (base : Nat) (s : Scan) (eofOffset : Nat)
    (h : CountInv base s) :
    CountInv base (scanEnd P s eofOffset) ∧ (scanEnd P s eofOffset).phase = .main := by
  unfold scanEnd
  split
  · rename_i hphase
    exact ⟨h, hphase⟩
  · rename_i hphase
    exact ⟨countInv_of_fields base s _ h rfl rfl rfl (by simp [openArticles, hphase]), rfl⟩
  · rename_i v hphase
    exact finishArticle_countInv P base s v eofOffset hphase h

/-- The counts of the finished scan. -/
theorem scanArticles_counts (P : Prims) (skipped : wstring → Bool) (chunks : Chunks)
    (lines : List Line) (eofOffset : Nat) :
    (scanArticles P skipped chunks lines eofOffset).articleCount =
      ((scanArticles P skipped chunks lines eofOffset).articles.length +
        recordedCards (scanArticles P skipped chunks lines eofOffset)) % 2 ^ 32 ∧
    (scanArticles P skipped chunks lines eofOffset).chunks.length =
      chunks.length + ((scanArticles P skipped chunks lines eofOffset).articles.length +
        recordedCards (scanArticles P skipped chunks lines eofOffset)) := by
  have h0 : CountInv chunks.length
      { chunks := chunks, addedWords := [], articleCount := 0, wordCount := 0, articles := [],
        phase := .main } := by
    constructor <;> simp [openArticles, recordedCards]
  obtain ⟨⟨h1, h2⟩, h3⟩ := scanEnd_countInv P chunks.length _ eofOffset
    (scanLines_countInv P skipped chunks.length lines _ h0)
  have hopen : openArticles (scanArticles P skipped chunks lines eofOffset) = 0 := by
    unfold scanArticles
    simp [openArticles, h3]
  unfold scanArticles at hopen ⊢
  rw [hopen] at h1 h2
  exact ⟨by simpa using h1, by rw [h2]; omega⟩

end Dsl

namespace Dsl

/-! ### The chunk blocks of the scan -/

theorem blocksOf_append (articles : List ArticleRecord) (a : ArticleRecord) :
    blocksOf (articles ++ [a]) =
      blocksOf articles ++
        ([a.articleOffset, a.articleSize] :: a.insidedCards.map fun c => [c.offset, c.size]) := by
  simp [blocksOf, List.flatMap_append]

theorem blocksOf_length (articles : List ArticleRecord) :
    (blocksOf articles).length =
      articles.length + (articles.map fun a => a.insidedCards.length).sum := by
  induction articles with
  | nil => rfl
  | cons a articles ih =>
    have : blocksOf (a :: articles) =
        ([a.articleOffset, a.articleSize] :: a.insidedCards.map fun c => [c.offset, c.size]) ++
          blocksOf articles := by
      simp [blocksOf, List.flatMap_cons]
    rw [this, List.length_append, ih]
    simp only [List.length_cons, List.length_map, List.map_cons, List.sum_cons]
    omega

theorem indexCard_chunks (P : Prims) (s : Scan) (c : InsidedCard) :
    (indexCard P s c).chunks = [c.offset, c.size] :: s.chunks := by
  unfold indexCard
  simp only [Chunks.startNewBlock]
  obtain ⟨h1, _, _, _⟩ := indexCard_words_fields P s.chunks.length c.headwords
    { s with chunks := (Chunks.addToBlock (Chunks.addToBlock ([] :: s.chunks) c.offset) c.size) }
  simp only at h1
  simp only [h1]
  rfl

theorem indexCards_chunks (P : Prims) (cards : List InsidedCard) :
    ∀ s : Scan, (cards.foldl (indexCard P) s).chunks =
      (cards.map fun c => [c.offset, c.size]).reverse ++ s.chunks := by
  induction cards with
  | nil => intro s; rfl
  | cons c cards ih =>
    intro s
    rw [List.foldl_cons, ih, indexCard_chunks]
    simp

theorem indexCards_articles (P : Prims) (cards : List InsidedCard) :
    ∀ s : Scan, (cards.foldl (indexCard P) s).articles = s.articles := by
  induction cards with
  | nil => intro s; rfl
  | cons c cards ih =>
    intro s
    rw [List.foldl_cons, ih, (indexCard_fields P s c).2.2.1]

/-- Finishing the open article leaves its block and the blocks of its cards
on top of the store. -/
theorem finishArticle_chunkInv (P : Prims) (base : Chunks) (s : Scan) (v : BodyVars)
    (curOffset : Nat) (hphase : s.phase = .body v) (h : ChunkInv base s) :
    ChunkInv base (finishArticle P s v curOffset) := by
  have hopen : openBlock s = [[v.articleOffset]] := by simp [openBlock, hphase]
  unfold ChunkInv at h ⊢
  rw [hopen] at h
  unfold finishArticle
  generalize (if v.insideInsided = true then
      v.insidedCards ++ [⟨v.offset, subU32 curOffset v.offset, v.insidedHeadwords⟩]
    else v.insidedCards) = cards
  have k1 := indexCards_chunks P cards
    { s with chunks := s.chunks.addToBlock (subU32 curOffset v.articleOffset) }
  have k2 := indexCards_articles P cards
    { s with chunks := s.chunks.addToBlock (subU32 curOffset v.articleOffset) }
  simp only at k1 k2
  simp only [openBlock, k1, k2, List.nil_append]
  rw [blocksOf_append, h]
  simp [Chunks.addToBlock]

theorem bodyStep_articleOffset (P : Prims) (v : BodyVars) (line : Line) :
    (bodyStep P v line).articleOffset = v.articleOffset := by
  unfold bodyStep
  simp only
  repeat' split
  all_goals rfl

theorem chunkInv_of_fields (base : Chunks) (s s2 : Scan) (h : ChunkInv base s)
    (h2 : s2.chunks = s.chunks) (h3 : s2.articles = s.articles)
    (h4 : openBlock s2 = openBlock s) : ChunkInv base s2 := by
  unfold ChunkInv at h ⊢
  rw [h2, h3, h4]
  exact h

theorem bodyLine_chunkInv (P : Prims) (base : Chunks) (s : Scan) (v : BodyVars) (line : Line)
    (hphase : s.phase = .body v) (h : ChunkInv base s) :
    ChunkInv base (bodyLine P s v line) := by
  unfold bodyLine
  split
  · exact h
  · exact chunkInv_of_fields base s _ h rfl rfl
      (by simp [openBlock, hphase, bodyStep_articleOffset])

theorem mainLine_chunkInv (P : Prims) (base : Chunks) (s : Scan) (line : Line)
    (hphase : s.phase = .main) (h : ChunkInv base s) :
    ChunkInv base (mainLine P s line) := by
  unfold mainLine
  split
  · exact chunkInv_of_fields base s _ h rfl rfl (by simp [openBlock, hphase])
  · split
    · exact chunkInv_of_fields base s _ h rfl rfl (by simp [openBlock, hphase])
    · exact chunkInv_of_fields base s _ h rfl rfl (by simp [openBlock, hphase])

theorem beginArticle_chunkInv (P : Prims) (base : Chunks) (s : Scan)
    (allEntryWords : List wstring) (articleOffset : Nat) (line : Line)
    (hphase : s.phase = .headwords allEntryWords articleOffset) (h : ChunkInv base s) :
    ChunkInv base (beginArticle P s allEntryWords articleOffset line) := by
  have hopen : openBlock s = [] := by simp [openBlock, hphase]
  unfold ChunkInv at h
  rw [hopen] at h
  have hbase : ∀ v : BodyVars, v.articleOffset = articleOffset → ChunkInv base
      { s with chunks := Chunks.addToBlock ([] :: s.chunks) articleOffset,
               addedWords := s.addedWords ++
                 (normalizedWords P allEntryWords).map fun w => (w, s.chunks.length),
               articleCount := toU32 (s.articleCount + 1),
               wordCount := toU32 (s.wordCount + (normalizedWords P allEntryWords).length),
               phase := .body v } := by
    intro v hv
    unfold ChunkInv
    simp only [openBlock, hv, Chunks.addToBlock, List.nil_append, List.cons_append]
    rw [h]
    simp
  unfold beginArticle
  simp only [Chunks.startNewBlock]
  split
  · exact bodyLine_chunkInv P base _ _ line rfl (hbase _ rfl)
  · exact hbase _ rfl

theorem scanLine_chunkInv (P : Prims) (skipped : wstring → Bool) (base : Chunks) (s : Scan)
    (line : Line) (h : ChunkInv base s) : ChunkInv base (scanLine P skipped s line) := by
  unfold scanLine
  split
  · rename_i hphase
    split
    · exact h
    · exact mainLine_chunkInv P base s line hphase h
  · rename_i allEntryWords articleOffset hphase
    split
    · exact h
    · split
      · exact beginArticle_chunkInv P base s allEntryWords articleOffset line hphase h
      · exact chunkInv_of_fields base s _ h rfl rfl (by simp [openBlock, hphase])
  · rename_i v hphase
    split
    · have k := finishArticle_chunkInv P base s v line.offset hphase h
      have kp : (finishArticle P s v line.offset).phase = .main := rfl
      exact mainLine_chunkInv P base _ line kp k
    · exact bodyLine_chunkInv P base s v line hphase h

theorem scanLines_chunkInv (P : Prims) (skipped : wstring → Bool) (base : Chunks)
    (lines : List Line) :
    ∀ s : Scan, ChunkInv base s → ChunkInv base (lines.foldl (scanLine P skipped) s) := by
  induction lines with
  | nil => intro s h; exact h
  | cons line lines ih =>
    intro s h
    exact ih _ (scanLine_chunkInv P skipped base s line h)

/-- The chunk store of the finished scan: the blocks of the articles and
cards, newest first, on top of the blocks it started with. -/
theorem scanArticles_chunks (P : Prims) (skipped : wstring → Bool) (chunks : Chunks)
    (lines : List Line) (eofOffset : Nat) :
    (scanArticles P skipped chunks lines eofOffset).chunks =
      (blocksOf (scanArticles P skipped chunks lines eofOffset).articles).reverse ++ chunks := by
  have h0 : ChunkInv chunks
      { chunks := chunks, addedWords := [], articleCount := 0, wordCount := 0, articles := [],
        phase := .main } := by
    simp [ChunkInv, openBlock, blocksOf]
  have h := scanLines_chunkInv P skipped chunks lines _ h0
  obtain ⟨_, hmain⟩ := scanEnd_countInv P chunks.length _ eofOffset
    (scanLines_countInv P skipped chunks.length lines
      { chunks := chunks, addedWords := [], articleCount := 0, wordCount := 0, articles := [],
        phase := .main }
      (by constructor <;> simp [openArticles, recordedCards]))
  have hend : ChunkInv chunks (scanArticles P skipped chunks lines eofOffset) := by
    unfold scanArticles scanEnd
    split
    · exact h
    · rename_i hphase
      exact chunkInv_of_fields chunks _ _ h rfl rfl (by simp [openBlock, hphase])
    · rename_i v hphase
      exact finishArticle_chunkInv P chunks _ v eofOffset hphase h
  have hopen : openBlock (scanArticles P skipped chunks lines eofOffset) = [] := by
    unfold scanArticles
    simp [openBlock, hmain]
  unfold ChunkInv at hend
  rw [hopen] at hend
  simpa using hend

end Dsl

namespace Dsl

/-! ### The articles the scan records are the parent articles of the source -/

theorem mainLine_place (P : Prims) (s : Scan) (line : Line) :
    (mainLine P s line).articles = s.articles ∧
    placeOf (mainLine P s line).phase =
      if startsArticle line.text then Place.headwords else Place.between := by
  unfold mainLine startsArticle
  by_cases h1 : line.text.isEmpty = true
  · simp [h1, placeOf]
  · by_cases h2 : line.text.length > 100
    · have h3 : ¬ line.text.length ≤ 100 := by omega
      simp [h1, h2, h3, placeOf]
    · have h3 : line.text.length ≤ 100 := by omega
      by_cases h4 : isDslWs (charAt line.text 0) = true
      · simp [h1, h2, h3, h4, placeOf]
      · simp [h1, h2, h3, h4, placeOf]

theorem finishArticle_place (P : Prims) (s : Scan) (v : BodyVars) (curOffset : Nat) :
    (finishArticle P s v curOffset).articles.length = s.articles.length + 1 ∧
    (finishArticle P s v curOffset).phase = .main := by
  unfold finishArticle
  simp only [indexCards_articles, List.length_append, List.length_singleton, and_self]

theorem bodyLine_place (P : Prims) (s : Scan) (v : BodyVars) (line : Line)
    (hphase : s.phase = .body v) :
    (bodyLine P s v line).articles = s.articles ∧
    placeOf (bodyLine P s v line).phase = Place.body := by
  unfold bodyLine
  split
  · exact ⟨rfl, by rw [hphase]; rfl⟩
  · exact ⟨rfl, rfl⟩

theorem beginArticle_place (P : Prims) (s : Scan) (allEntryWords : List wstring)
    (articleOffset : Nat) (line : Line) :
    (beginArticle P s allEntryWords articleOffset line).articles = s.articles ∧
    placeOf (beginArticle P s allEntryWords articleOffset line).phase = Place.body := by
  unfold beginArticle
  simp only [Chunks.startNewBlock]
  split
  · exact bodyLine_place P _ _ line rfl
  · exact ⟨rfl, rfl⟩

theorem openArticles_of_place (s : Scan) :
    openArticles s = if placeOf s.phase = Place.body then 1 else 0 := by
  cases h : s.phase <;> simp [openArticles, placeOf, h]

/-- One line keeps the articles finished or open in step with the count
read off the lines. -/
theorem scanLine_place (P : Prims) (skipped : wstring → Bool) (s : Scan) (line : Line) :
    placeOf (scanLine P skipped s line).phase = (placeStep skipped (placeOf s.phase) line.text).1 ∧
    (scanLine P skipped s line).articles.length + openArticles (scanLine P skipped s line) =
      s.articles.length + openArticles s +
        (placeStep skipped (placeOf s.phase) line.text).2 := by
  rw [openArticles_of_place, openArticles_of_place]
  cases hphase : s.phase with
  | main =>
    have hp : placeOf Phase.main = Place.between := rfl
    rw [hp]
    by_cases hs : skipped line.text = true
    · have e : scanLine P skipped s line = s := by simp [scanLine, hphase, hs]
      rw [e, hphase, hp]
      simp [placeStep, hs]
    · have e : scanLine P skipped s line = mainLine P s line := by
        simp [scanLine, hphase, hs]
      obtain ⟨m1, m2⟩ := mainLine_place P s line
      rw [e, m1, m2]
      by_cases hst : startsArticle line.text = true
      · simp [placeStep, hs, hst]
      · simp [placeStep, hs, hst]
  | headwords allEntryWords articleOffset =>
    have hp : placeOf (Phase.headwords allEntryWords articleOffset) = Place.headwords := rfl
    rw [hp]
    by_cases he : line.text.isEmpty = true
    · have e : scanLine P skipped s line = s := by simp [scanLine, hphase, he]
      rw [e, hphase, hp]
      simp [placeStep, indented, he]
    · by_cases hw : isDslWs (charAt line.text 0) = true
      · have e : scanLine P skipped s line =
            beginArticle P s allEntryWords articleOffset line := by
          simp [scanLine, hphase, he, hw]
        obtain ⟨b1, b2⟩ := beginArticle_place P s allEntryWords articleOffset line
        rw [e, b1, b2]
        simp [placeStep, indented, he, hw]
      · have e : (scanLine P skipped s line).articles = s.articles ∧
            placeOf (scanLine P skipped s line).phase = Place.headwords := by
          simp [scanLine, hphase, he, hw, placeOf]
        rw [e.1, e.2]
        simp [placeStep, indented, he, hw]
  | body v =>
    have hp : placeOf (Phase.body v) = Place.body := rfl
    rw [hp]
    by_cases hnew : (!line.text.isEmpty && !isDslWs (charAt line.text 0)) = true
    · have e : scanLine P skipped s line =
          mainLine P (finishArticle P s v line.offset) line := by
        simp only [scanLine, hphase, hnew, if_true]
      obtain ⟨f1, _⟩ := finishArticle_place P s v line.offset
      obtain ⟨m1, m2⟩ := mainLine_place P (finishArticle P s v line.offset) line
      rw [e, m1, m2, f1]
      have he : line.text.isEmpty = false := by
        cases h : line.text.isEmpty <;> simp [h] at hnew ⊢
      have hw : isDslWs (charAt line.text 0) = false := by
        cases h : isDslWs (charAt line.text 0) <;> simp [h] at hnew ⊢
      by_cases hst : startsArticle line.text = true
      · simp [placeStep, indented, he, hw, hst]
      · simp [placeStep, indented, he, hw, hst]
    · have e : scanLine P skipped s line = bodyLine P s v line := by
        simp only [scanLine, hphase, hnew, Bool.false_eq_true, if_false]
      obtain ⟨b1, b2⟩ := bodyLine_place P s v line hphase
      rw [e, b1, b2]
      have hor : (line.text.isEmpty || indented line.text) = true := by
        unfold indented
        cases he : line.text.isEmpty <;> cases hw : isDslWs (charAt line.text 0) <;>
          simp [he, hw] at hnew ⊢
      simp [placeStep, hor]

theorem scanLines_place (P : Prims) (skipped : wstring → Bool) (lines : List Line) :
    ∀ (s : Scan) (n : Nat), s.articles.length + openArticles s = n →
      placeOf (lines.foldl (scanLine P skipped) s).phase =
          (countArticles skipped lines (placeOf s.phase, n)).1 ∧
        (lines.foldl (scanLine P skipped) s).articles.length +
            openArticles (lines.foldl (scanLine P skipped) s) =
          (countArticles skipped lines (placeOf s.phase, n)).2 := by
  induction lines with
  | nil => intro s n h; exact ⟨rfl, h⟩
  | cons line lines ih =>
    intro s n h
    obtain ⟨k1, k2⟩ := scanLine_place P skipped s line
    have := ih (scanLine P skipped s line) _ rfl
    unfold countArticles at this ⊢
    rw [List.foldl_cons, List.foldl_cons]
    rw [k1, k2, h] at this
    exact this

/-- The articles the scan has recorded at the end of the file are the
parent articles of the source. -/
theorem scanArticles_parentArticles (P : Prims) (skipped : wstring → Bool) (chunks : Chunks)
    (lines : List Line) (eofOffset : Nat) :
    (scanArticles P skipped chunks lines eofOffset).articles.length =
      parentArticles skipped lines := by
  obtain ⟨k1, k2⟩ := scanLines_place P skipped lines
    { chunks := chunks, addedWords := [], articleCount := 0, wordCount := 0, articles := [],
      phase := .main } 0 rfl
  unfold parentArticles
  rw [show placeOf Phase.main = Place.between from rfl] at k2
  rw [← k2]
  unfold scanArticles scanEnd
  split
  · rename_i hphase
    simp [openArticles, hphase]
  · rename_i hphase
    simp [openArticles, hphase]
  · rename_i v hphase
    rw [(finishArticle_place P _ v eofOffset).1]
    simp [openArticles, hphase]

end Dsl
namespace Dsl

/-- C10 (as amended): for every sequence of scanned source lines, the
articles the scan records are the parent articles of the source, that is
the headword groups that are followed by an indented line; the
`articleCount` written to the header equals, modulo `2^32` (it is a
`uint32_t`), their number plus the number of embedded cards recorded; that
number is the number of chunk blocks the scan created, which are, oldest
first, the block `(articleOffset, articleSize)` of each article followed by
the blocks `(offset, size)` of its cards.  So `articleCount` equals the
number of articles and cards whenever there are fewer than `2^32` of them. -/
theorem scanArticles_articleCount (P : Prims) (skipped : wstring → Bool) (chunks : Chunks)
    (lines : List Line) (eofOffset : Nat) :
    (scanArticles P skipped chunks lines eofOffset).articles.length =
      parentArticles skipped lines ∧
    (scanArticles P skipped chunks lines eofOffset).articleCount =
      (parentArticles skipped lines +
        recordedCards (scanArticles P skipped chunks lines eofOffset)) % 2 ^ 32 ∧
    (scanArticles P skipped chunks lines eofOffset).chunks =
      (blocksOf (scanArticles P skipped chunks lines eofOffset).articles).reverse ++ chunks ∧
    (blocksOf (scanArticles P skipped chunks lines eofOffset).articles).length =
      parentArticles skipped lines +
        recordedCards (scanArticles P skipped chunks lines eofOffset) ∧
    (parentArticles skipped lines +
        recordedCards (scanArticles P skipped chunks lines eofOffset) < 2 ^ 32 →
      (scanArticles P skipped chunks lines eofOffset).articleCount =
        parentArticles skipped lines +
          recordedCards (scanArticles P skipped chunks lines eofOffset)) := by
  obtain ⟨h1, _⟩ := scanArticles_counts P skipped chunks lines eofOffset
  have hp := scanArticles_parentArticles P skipped chunks lines eofOffset
  rw [hp] at h1
  refine ⟨hp, h1, scanArticles_chunks P skipped chunks lines eofOffset, ?_, ?_⟩
  · rw [blocksOf_length, hp]
    rfl
  · intro hlt
    rw [h1, Nat.mod_eq_of_lt hlt]

/-! A source of `2^32` articles. -/

theorem finishArticle_plain (P : Prims) (s : Scan) (v : BodyVars) (curOffset : Nat)
    (hi : v.insideInsided = false) (hc : v.insidedCards = []) :
    (finishArticle P s v curOffset).articles =
      s.articles ++ [⟨v.articleOffset, subU32 curOffset v.articleOffset, []⟩] ∧
    (finishArticle P s v curOffset).phase = .main := by
  simp [finishArticle, hi, hc]

theorem bodyStep_no_at (P : Prims) (v : BodyVars) (line : Line)
    (hi : v.insideInsided = false) (hat : findChar line.text 64 0 = none) :
    bodyStep P v line = v := by
  simp [bodyStep, hi, hat]

theorem bodyLine_no_at (P : Prims) (s : Scan) (v : BodyVars) (line : Line)
    (hphase : s.phase = .body v) (hi : v.insideInsided = false)
    (hat : findChar line.text 64 0 = none) : bodyLine P s v line = s := by
  unfold bodyLine
  split
  · rfl
  · rw [bodyStep_no_at P v line hi hat, ← hphase]

theorem beginArticle_no_at (P : Prims) (s : Scan) (allEntryWords : List wstring)
    (articleOffset : Nat) (line : Line) (hat : findChar line.text 64 0 = none) :
    (beginArticle P s allEntryWords articleOffset line).articles = s.articles ∧
    ∃ v, (beginArticle P s allEntryWords articleOffset line).phase = .body v ∧
      v.insideInsided = false ∧ v.insidedCards = [] := by
  unfold beginArticle
  simp only [Chunks.startNewBlock]
  split
  · rw [bodyLine_no_at P _ _ line rfl rfl hat]
    exact ⟨rfl, _, rfl, rfl, rfl⟩
  · exact ⟨rfl, _, rfl, rfl, rfl⟩

theorem mainLine_a (P : Prims) (s : Scan) (o : Nat) :
    (mainLine P s ⟨ws "a", o⟩).articles = s.articles ∧
    ∃ allEntryWords articleOffset,
      (mainLine P s ⟨ws "a", o⟩).phase = .headwords allEntryWords articleOffset := by
  have h1 : ((ws "a").isEmpty || decide ((ws "a").length > 100)) = false := by decide
  have h2 : isDslWs (charAt (ws "a") 0) = false := by decide
  simp only [mainLine, h1, h2, Bool.false_eq_true, if_false]
  exact ⟨trivial, _, _, rfl⟩

theorem scanLine_headwords_b (P : Prims) (skipped : wstring → Bool) (s : Scan)
    (allEntryWords : List wstring) (articleOffset o : Nat)
    (hphase : s.phase = .headwords allEntryWords articleOffset) :
    scanLine P skipped s ⟨ws "\tb", o⟩ =
      beginArticle P s allEntryWords articleOffset ⟨ws "\tb", o⟩ := by
  have h1 : (ws "\tb").isEmpty = false := by decide
  have h2 : isDslWs (charAt (ws "\tb") 0) = true := by decide
  simp only [scanLine, hphase, h1, h2, Bool.false_eq_true, if_false, if_true]

/-- One article of `articlesSource` takes the scan from between two articles
to between the next two. -/
theorem scan_one_article (P : Prims) (n : Nat) (s : Scan) (o1 o2 : Nat)
    (h : BetweenArticles n s) :
    BetweenArticles (n + 1)
      (scanLine P skipsBlank (scanLine P skipsBlank s ⟨ws "a", o1⟩) ⟨ws "\tb", o2⟩) := by
  have hsk : skipsBlank (ws "a") = false := by decide
  have hat : findChar (ws "\tb") 64 0 = none := by decide
  have ha : (!(ws "a").isEmpty && !isDslWs (charAt (ws "a") 0)) = true := by decide
  obtain ⟨hn, hc, hp⟩ := h
  -- the state after the headword line
  have hfirst : ∃ s1 allEntryWords articleOffset,
      scanLine P skipsBlank s ⟨ws "a", o1⟩ = s1 ∧
      s1.phase = .headwords allEntryWords articleOffset ∧
      s1.articles.length = n ∧ recordedCards s1 = 0 := by
    rcases hp with hmain | ⟨v, hbody, hi, hcards⟩
    · have hopen : openArticles s = 0 := by simp [openArticles, hmain]
      obtain ⟨k1, aw, ao, k2⟩ := mainLine_a P s o1
      refine ⟨_, aw, ao, rfl, ?_, ?_, ?_⟩
      · simp only [scanLine, hmain, hsk, Bool.false_eq_true, if_false]
        exact k2
      · simp only [scanLine, hmain, hsk, Bool.false_eq_true, if_false]
        rw [k1]
        omega
      · simp only [scanLine, hmain, hsk, Bool.false_eq_true, if_false]
        simp only [recordedCards, k1]
        exact hc
    · have hopen : openArticles s = 1 := by simp [openArticles, hbody]
      obtain ⟨f1, f2⟩ := finishArticle_plain P s v o1 hi hcards
      obtain ⟨k1, aw, ao, k2⟩ := mainLine_a P (finishArticle P s v o1) o1
      refine ⟨_, aw, ao, rfl, ?_, ?_, ?_⟩
      · simp only [scanLine, hbody, ha, if_true]
        exact k2
      · simp only [scanLine, hbody, ha, if_true]
        rw [k1, f1, List.length_append, List.length_singleton]
        omega
      · simp only [scanLine, hbody, ha, if_true]
        simp only [recordedCards, k1, f1, List.map_append, List.map_cons, List.map_nil,
          List.sum_append, List.sum_cons, List.sum_nil, List.length_nil, Nat.add_zero]
        exact hc
  obtain ⟨s1, aw, ao, hs1, hph, hlen, hcards⟩ := hfirst
  rw [hs1, scanLine_headwords_b P skipsBlank s1 aw ao o2 hph]
  obtain ⟨b1, v, b2, b3, b4⟩ := beginArticle_no_at P s1 aw ao ⟨ws "\tb", o2⟩ hat
  refine ⟨?_, ?_, Or.inr ⟨v, b2, b3, b4⟩⟩
  · simp only [openArticles, b2, b1, hlen]
  · simp only [recordedCards, b1]
    exact hcards

theorem scan_articlesSource (P : Prims) (n : Nat) (s : Scan) (h : BetweenArticles 0 s) :
    BetweenArticles n ((articlesSource n).foldl (scanLine P skipsBlank) s) := by
  induction n with
  | zero => exact h
  | succ n ih =>
    unfold articlesSource at ih ⊢
    rw [List.range_succ, List.flatMap_append, List.foldl_append, List.flatMap_singleton,
      List.foldl_cons, List.foldl_cons, List.foldl_nil]
    exact scan_one_article P n _ _ _ ih

theorem scanEnd_between (P : Prims) (n : Nat) (s : Scan) (eofOffset : Nat)
    (h : BetweenArticles n s) :
    (scanEnd P s eofOffset).articles.length = n ∧ recordedCards (scanEnd P s eofOffset) = 0 := by
  obtain ⟨hn, hc, hp⟩ := h
  rcases hp with hmain | ⟨v, hbody, hi, hcards⟩
  · have hopen : openArticles s = 0 := by simp [openArticles, hmain]
    simp only [scanEnd, hmain]
    exact ⟨by omega, hc⟩
  · have hopen : openArticles s = 1 := by simp [openArticles, hbody]
    obtain ⟨f1, _⟩ := finishArticle_plain P s v eofOffset hi hcards
    simp only [scanEnd, hbody]
    constructor
    · rw [f1, List.length_append, List.length_singleton]
      omega
    · simp only [recordedCards, f1, List.map_append, List.map_cons, List.map_nil,
        List.sum_append, List.sum_cons, List.sum_nil, List.length_nil, Nat.add_zero]
      exact hc

/-- C10, counterexample: a source of `2^32` articles (headword line `a`, body
line `"\tb"`) has `2^32` parent articles indexed and no embedded card, and
the `articleCount` written to the header is 0.  And the headword line `a`
followed by an empty line and the end of the file is a headword group
followed by a further line, yet nothing is indexed for it: no article is
recorded, no block is created and `articleCount` is 0. -/
theorem scanArticles_articleCount_wraps :
    (scanArticles Prims.plain skipsBlank [] (articlesSource (2 ^ 32)) (5 * 2 ^ 32)).articles.length
      = 2 ^ 32 ∧
    recordedCards (scanArticles Prims.plain skipsBlank [] (articlesSource (2 ^ 32)) (5 * 2 ^ 32))
      = 0 ∧
    (scanArticles Prims.plain skipsBlank [] (articlesSource (2 ^ 32)) (5 * 2 ^ 32)).articleCount
      = 0 ∧
    (scanArticles Prims.plain skipsBlank [] (articlesSource (2 ^ 32)) (5 * 2 ^ 32)).articleCount ≠
      (scanArticles Prims.plain skipsBlank [] (articlesSource (2 ^ 32))
          (5 * 2 ^ 32)).articles.length +
        recordedCards
          (scanArticles Prims.plain skipsBlank [] (articlesSource (2 ^ 32)) (5 * 2 ^ 32)) ∧
    scanArticles Prims.plain skipsBlank [] loneHeadwordSource 3 =
      { chunks := [], addedWords := [], articleCount := 0, wordCount := 0, articles := [],
        phase := .main } ∧
    parentArticles skipsBlank loneHeadwordSource = 0 := by
  have h0 : BetweenArticles 0
      { chunks := [], addedWords := [], articleCount := 0, wordCount := 0, articles := [],
        phase := .main } :=
    ⟨rfl, rfl, Or.inl rfl⟩
  have h := scanEnd_between Prims.plain (2 ^ 32) _ (5 * 2 ^ 32)
    (scan_articlesSource Prims.plain (2 ^ 32) _ h0)
  have a1 : (scanArticles Prims.plain skipsBlank [] (articlesSource (2 ^ 32))
      (5 * 2 ^ 32)).articles.length = 2 ^ 32 := h.1
  have a2 : recordedCards (scanArticles Prims.plain skipsBlank [] (articlesSource (2 ^ 32))
      (5 * 2 ^ 32)) = 0 := h.2
  have c := (scanArticles_counts Prims.plain skipsBlank [] (articlesSource (2 ^ 32))
    (5 * 2 ^ 32)).1
  generalize scanArticles Prims.plain skipsBlank [] (articlesSource (2 ^ 32)) (5 * 2 ^ 32) = S
    at a1 a2 c ⊢
  rw [a1, a2] at c
  have c0 : S.articleCount = 0 := by
    rw [c]
    norm_num
  refine ⟨a1, a2, c0, ?_, by decide, by decide⟩
  rw [c0, a1, a2]
  norm_num

end Dsl

namespace Dsl

/-! ### The word count written to the header -/

theorem indexCard_words_wordInv (P : Prims) (desc_offset : Nat) (hws : List wstring) :
    ∀ s : Scan, WordInv s →
      WordInv (hws.foldl
        (fun (s : Scan) hw =>
          let allEntryWords := normalizedWords P (P.expandOptionalParts hw []).2
          { s with addedWords := s.addedWords ++ allEntryWords.map fun w => (w, desc_offset),
                   wordCount := toU32 (s.wordCount + allEntryWords.length) })
        s) := by
  induction hws with
  | nil => intro s h; exact h
  | cons hw hws ih =>
    intro s h
    simp only [List.foldl_cons]
    apply ih
    unfold WordInv at h ⊢
    simp only [toU32, List.length_append, List.length_map, h, Nat.reducePow]
    omega

theorem indexCard_wordInv (P : Prims) (s : Scan) (c : InsidedCard) (h : WordInv s) :
    WordInv (indexCard P s c) := by
  unfold indexCard
  simp only [Chunks.startNewBlock]
  exact indexCard_words_wordInv P s.chunks.length c.headwords
    { s with chunks := (Chunks.addToBlock (Chunks.addToBlock ([] :: s.chunks) c.offset) c.size) }
    h

theorem indexCards_wordInv (P : Prims) (cards : List InsidedCard) :
    ∀ s : Scan, WordInv s → WordInv (cards.foldl (indexCard P) s) := by
  induction cards with
  | nil => intro s h; exact h
  | cons c cards ih => intro s h; exact ih _ (indexCard_wordInv P s c h)

theorem finishArticle_wordInv (P : Prims) (s : Scan) (v : BodyVars) (curOffset : Nat)
    (h : WordInv s) : WordInv (finishArticle P s v curOffset) := by
  unfold finishArticle
  exact indexCards_wordInv P _ { s with chunks := _ } h

theorem bodyLine_wordInv (P : Prims) (s : Scan) (v : BodyVars) (line : Line) (h : WordInv s) :
    WordInv (bodyLine P s v line) := by
  unfold bodyLine
  split
  · exact h
  · exact h

theorem mainLine_wordInv (P : Prims) (s : Scan) (line : Line) (h : WordInv s) :
    WordInv (mainLine P s line) := by
  unfold mainLine
  split
  · exact h
  · split
    · exact h
    · exact h

theorem beginArticle_wordInv (P : Prims) (s : Scan) (allEntryWords : List wstring)
    (articleOffset : Nat) (line : Line) (h : WordInv s) :
    WordInv (beginArticle P s allEntryWords articleOffset line) := by
  have hbase : ∀ (chunks : Chunks) (n : Nat) (v : BodyVars), WordInv
      { s with chunks := chunks,
               addedWords := s.addedWords ++
                 (normalizedWords P allEntryWords).map fun w => (w, s.chunks.length),
               articleCount := n,
               wordCount := toU32 (s.wordCount + (normalizedWords P allEntryWords).length),
               phase := .body v } := by
    intro chunks n v
    unfold WordInv at h ⊢
    simp only [toU32, List.length_append, List.length_map, h, Nat.reducePow]
    omega
  unfold beginArticle
  simp only [Chunks.startNewBlock]
  split
  · exact bodyLine_wordInv P _ _ line (hbase _ _ _)
  · exact hbase _ _ _

/-- Every line keeps the word count equal to the number of calls of
`addWord`. -/
theorem scanLine_wordInv (P : Prims) (skipped : wstring → Bool) (s : Scan) (line : Line)
    (h : WordInv s) : WordInv (scanLine P skipped s line) := by
  unfold scanLine
  split
  · split
    · exact h
    · exact mainLine_wordInv P s line h
  · split
    · exact h
    · split
      · exact beginArticle_wordInv P s _ _ line h
      · exact h
  · split
    · exact mainLine_wordInv P _ line (finishArticle_wordInv P s _ line.offset h)
    · exact bodyLine_wordInv P s _ line h

theorem scanLines_wordInv (P : Prims) (skipped : wstring → Bool) (lines : List Line) :
    ∀ s : Scan, WordInv s → WordInv (lines.foldl (scanLine P skipped) s) := by
  induction lines with
  | nil => intro s h; exact h
  | cons line lines ih => intro s h; exact ih _ (scanLine_wordInv P skipped s line h)

theorem scanEnd_wordInv (P : Prims) (s : Scan) (eofOffset : Nat) (h : WordInv s) :
    WordInv (scanEnd P s eofOffset) := by
  unfold scanEnd
  split
  · exact h
  · exact h
  · exact finishArticle_wordInv P s _ eofOffset h

/-- C11, as amended: the word count written to the header is, modulo `2^32`,
the number of calls of `addWord` the scan made, one for every expanded
headword of every article and embedded card; whether `addWord` keeps the
word plays no part, so the entries that reach the B-tree are at most as many
as the calls counted. -/
theorem scanArticles_wordCount (P : Prims) (skipped : wstring → Bool) (chunks : Chunks)
    (lines : List Line) (eofOffset maxHeadwordSize : Nat) :
    (scanArticles P skipped chunks lines eofOffset).wordCount =
        (scanArticles P skipped chunks lines eofOffset).addedWords.length % 2 ^ 32 ∧
      (insertedWords maxHeadwordSize (scanArticles P skipped chunks lines eofOffset)).length ≤
        (scanArticles P skipped chunks lines eofOffset).addedWords.length := by
  refine ⟨?_, List.length_filter_le _ _⟩
  have h0 : WordInv
      { chunks := chunks, addedWords := [], articleCount := 0, wordCount := 0, articles := [],
        phase := .main } := rfl
  exact scanEnd_wordInv P _ eofOffset (scanLines_wordInv P skipped lines _ h0)

/-- C11 fails as stated: with `maxHeadwordSize = 2` the article of
`longAltSource` has the headwords `a` and `bcd`; `addWord` is called for
both and drops `bcd`, one entry reaches the B-tree, and the word count
is 2. -/
theorem scanArticles_wordCount_counts_dropped :
    (scanArticles Prims.plain skipsBlank [] longAltSource 9).addedWords =
        [(ws "a", 0), (ws "bcd", 0)] ∧
      insertedWords 2 (scanArticles Prims.plain skipsBlank [] longAltSource 9) =
        [(ws "a", 0)] ∧
      (scanArticles Prims.plain skipsBlank [] longAltSource 9).wordCount = 2 ∧
      (scanArticles Prims.plain skipsBlank [] longAltSource 9).wordCount ≠
        (insertedWords 2 (scanArticles Prims.plain skipsBlank [] longAltSource 9)).length := by
  decide

end Dsl
namespace Dsl

/-! ### The header flag `hasAbrv` -/

/-- C15, as amended: the header flag `hasAbrv` is non-zero exactly when the
abbreviation table was written to the chunk store, whether it has an entry
or not; that is the case for every abbreviation file that is found and read
to its end without an exception.  With no abbreviation file, or with an
exception, the flag is 0 and nothing is written. -/
theorem readAbbreviations_hasAbrv (P : Prims) (renderAsText : wstring → wstring)
    (skipped : wstring → Bool) (file : AbrvFile) :
    ((readAbbreviations P renderAsText skipped file).hasAbrv ≠ 0 ↔
        (readAbbreviations P renderAsText skipped file).abrvBlock =
          some (writeAbrvBlock (readAbbreviations P renderAsText skipped file).abrv)) ∧
      ((readAbbreviations P renderAsText skipped file).hasAbrv = 0 ↔
        (readAbbreviations P renderAsText skipped file).abrvBlock = none) ∧
      (∀ lines, file = .opened lines false →
        (readAbbreviations P renderAsText skipped file).hasAbrv = 1) ∧
      (file = .absent ∨ file = .unreadable →
        (readAbbreviations P renderAsText skipped file).hasAbrv = 0) := by
  cases file with
  | absent => simp [readAbbreviations]
  | unreadable => simp [readAbbreviations]
  | opened lines readRaises =>
    unfold readAbbreviations
    simp only
    split
    · rename_i h
      simp only [Bool.and_eq_true] at h
      simp [h.1]
    · simp

/-- C15 fails as stated: an abbreviation file that is found and has no line
yields no entry, and still `hasAbrv` is 1 and a table without entries (the
count 0) is written; a file with one entry gives the flag 1 as well. -/
theorem readAbbreviations_empty_file :
    readAbbreviations Prims.plain id skipsBlank (.opened [] false) =
        { hasAbrv := 1, abrv := [], abrvBlock := some [0, 0, 0, 0] } ∧
      (readAbbreviations Prims.plain id skipsBlank (.opened oneAbrvSource false)).hasAbrv = 1 ∧
      (readAbbreviations Prims.plain id skipsBlank (.opened oneAbrvSource false)).abrv =
        [([97], [98])] := by
  decide

end Dsl
namespace Dsl

/-! ### The embedded cards of a body -/

theorem bodyStep_allEntryWords (P : Prims) (v : BodyVars) (line : Line) :
    (bodyStep P v line).allEntryWords = v.allEntryWords := by
  unfold bodyStep
  simp only
  repeat' split
  all_goals rfl

/-- A line of body text is counted when a card is open. -/
theorem bodyStep_text (P : Prims) (v : BodyVars) (line : Line)
    (h : bodyKind P v.allEntryWords line.text = .text) :
    bodyStep P v line =
      if v.insideInsided then { v with linesInsideCard := toU32 (v.linesInsideCard + 1) }
      else v := by
  unfold bodyKind at h
  unfold bodyStep
  split at h
  · rename_i hf
    simp only [hf]
  · rename_i n hf
    simp only [hf]
    split at h
    · rename_i h92
      simp only [h92, if_true]
    · rename_i h92
      simp only [h92, if_false, Bool.false_eq_true]
      split at h
      · rename_i hat
        simp only [hat, if_true]
      · simp only at h
        split at h <;> cases h

/-- The variables after an `@` line, before its headword is looked at (lines
2202-2217). -/
theorem bodyStep_headword (P : Prims) (v : BodyVars) (line : Line) (h : wstring)
    (hk : bodyKind P v.allEntryWords line.text = .headword h) :
    bodyStep P v line =
      if v.insideInsided then
        if v.linesInsideCard != 0 then
          { v with insidedCards := v.insidedCards ++
                     [⟨v.offset, subU32 line.offset v.offset, v.insidedHeadwords⟩],
                   insidedHeadwords := [h],
                   linesInsideCard := 0,
                   offset := toU32 line.offset,
                   insideInsided := true }
        else { v with insidedHeadwords := v.insidedHeadwords ++ [h], insideInsided := true }
      else
        { v with offset := toU32 line.offset, linesInsideCard := 0,
                 insidedHeadwords := v.insidedHeadwords ++ [h], insideInsided := true } := by
  unfold bodyKind at hk
  unfold bodyStep
  split at hk
  · cases hk
  · rename_i n hf
    simp only [hf]
    split at hk
    · cases hk
    · rename_i h92
      simp only [h92, if_false, Bool.false_eq_true]
      split at hk
      · cases hk
      · rename_i hat
        simp only [hat, if_false, Bool.false_eq_true]
        simp only at hk
        split at hk
        · rename_i hne
          simp only [hne, if_true]
          injection hk with hk
          subst hk
          cases v.insideInsided
          · rfl
          · cases (v.linesInsideCard != 0) <;> rfl
        · cases hk

/-- The variables after a closing `@` line. -/
theorem bodyStep_closing (P : Prims) (v : BodyVars) (line : Line)
    (hk : bodyKind P v.allEntryWords line.text = .closing) :
    bodyStep P v line =
      if v.insideInsided then
        if v.linesInsideCard != 0 then
          { v with insidedCards := v.insidedCards ++
                     [⟨v.offset, subU32 line.offset v.offset, v.insidedHeadwords⟩],
                   insidedHeadwords := [],
                   linesInsideCard := 0,
                   offset := toU32 line.offset,
                   insideInsided := false }
        else { v with insideInsided := false }
      else { v with offset := toU32 line.offset, linesInsideCard := 0, insideInsided := false } := by
  unfold bodyKind at hk
  unfold bodyStep
  split at hk
  · cases hk
  · rename_i n hf
    simp only [hf]
    split at hk
    · cases hk
    · rename_i h92
      simp only [h92, if_false, Bool.false_eq_true]
      split at hk
      · cases hk
      · rename_i hat
        simp only [hat, if_false, Bool.false_eq_true]
        simp only at hk
        split at hk
        · cases hk
        · rename_i hne
          simp only [hne, if_false, Bool.false_eq_true]
          cases v.insideInsided
          · rfl
          · cases (v.linesInsideCard != 0) <;> rfl

theorem toU32_of_lt (n : Nat) (h : n < 2 ^ 32) : toU32 n = n := Nat.mod_eq_of_lt h

/-- One non-empty line keeps the variables of the body loop in step with the
grouping of the specification, as long as the line counter does not wrap
and no closing `@` line comes right after an `@` headword line. -/
theorem cardsRel_step (P : Prims) (v : BodyVars) (g : Grouping) (n : Nat) (a : Bool)
    (line : Line) (hrel : CardsRel v g n)
    (ha : a = true ↔ ∃ c, g.current = some c ∧ c.bodyLines = 0) (hn : n + 1 < 2 ^ 32)
    (hclose : closesEmptyCard a [bodyKind P v.allEntryWords line.text] = false) :
    CardsRel (bodyStep P v line) (groupStep g (bodyKind P v.allEntryWords line.text) line.offset)
        (n + 1) ∧
      ((bodyKind P v.allEntryWords line.text).isHeadword = true ↔
        ∃ c, (groupStep g (bodyKind P v.allEntryWords line.text) line.offset).current = some c ∧
          c.bodyLines = 0) := by
  obtain ⟨hcards, hcur⟩ := hrel
  cases hk : bodyKind P v.allEntryWords line.text with
  | text =>
    rw [bodyStep_text P v line hk]
    cases hg : g.current with
    | none =>
      rw [hg] at hcur
      simp only [hcur.1, Bool.false_eq_true, if_false, groupStep, hg]
      refine ⟨⟨hcards, ?_⟩, ?_⟩
      · rw [hg]
        exact hcur
      · simp [BodyKind.isHeadword, hg]
    | some c =>
      rw [hg] at hcur
      obtain ⟨h1, h2, h3, h4, h5⟩ := hcur
      simp only [h1, if_true, groupStep, hg]
      refine ⟨⟨hcards, ?_⟩, ?_⟩
      · refine ⟨rfl, h2, h3, ?_, Nat.succ_le_succ h5⟩
        simp only [h4]
        exact toU32_of_lt _ (by omega)
      · simp [BodyKind.isHeadword]
  | headword h =>
    rw [bodyStep_headword P v line h hk]
    cases hg : g.current with
    | none =>
      rw [hg] at hcur
      simp only [hcur.1, Bool.false_eq_true, if_false, groupStep, hg]
      refine ⟨⟨hcards, ?_⟩, ?_⟩
      · refine ⟨rfl, rfl, ?_, rfl, Nat.zero_le _⟩
        simp only [hcur.2, List.nil_append]
      · simp [BodyKind.isHeadword]
    | some c =>
      rw [hg] at hcur
      obtain ⟨h1, h2, h3, h4, h5⟩ := hcur
      simp only [h1, if_true, groupStep, hg]
      by_cases hz : c.bodyLines = 0
      · have hb : (v.linesInsideCard != 0) = false := by simp [h4, hz]
        simp only [hb, Bool.false_eq_true, if_false, hz, if_true]
        refine ⟨⟨hcards, ?_⟩, ?_⟩
        · refine ⟨rfl, h2, ?_, ?_, Nat.zero_le _⟩
          · simp only [h3]
          · simp only [h4, hz]
        · simp [BodyKind.isHeadword, hz]
      · have hb : (v.linesInsideCard != 0) = true := by simp [h4, hz]
        simp only [hb, if_true, hz, if_false]
        refine ⟨⟨?_, ?_⟩, ?_⟩
        · simp only [hcards, List.map_append, List.map_cons, List.map_nil, CardSpan.stored, h2,
            h3]
        · exact ⟨rfl, rfl, rfl, rfl, Nat.zero_le _⟩
        · simp [BodyKind.isHeadword]
  | closing =>
    rw [bodyStep_closing P v line hk]
    rw [hk] at hclose
    simp only [closesEmptyCard, Bool.or_false] at hclose
    cases hg : g.current with
    | none =>
      rw [hg] at hcur
      simp only [hcur.1, Bool.false_eq_true, if_false, groupStep, hg]
      refine ⟨⟨hcards, ?_⟩, ?_⟩
      · rw [hg]
        exact ⟨rfl, hcur.2⟩
      · simp [BodyKind.isHeadword, hg]
    | some c =>
      rw [hg] at hcur
      obtain ⟨h1, h2, h3, h4, h5⟩ := hcur
      have hz : c.bodyLines ≠ 0 := by
        intro hz
        have : a = true := ha.2 ⟨c, hg, hz⟩
        rw [this] at hclose
        cases hclose
      have hb : (v.linesInsideCard != 0) = true := by simp [h4, hz]
      simp only [h1, if_true, groupStep, hg, hb]
      refine ⟨⟨?_, ?_⟩, ?_⟩
      · simp only [hcards, List.map_append, List.map_cons, List.map_nil, CardSpan.stored, h2, h3]
      · exact ⟨rfl, rfl⟩
      · simp [BodyKind.isHeadword]

theorem closesEmptyCard_cons (a : Bool) (kind : BodyKind) (rest : List BodyKind) :
    closesEmptyCard a (kind :: rest) =
      (closesEmptyCard a [kind] || closesEmptyCard kind.isHeadword rest) := by
  cases kind <;> simp [closesEmptyCard, BodyKind.isHeadword]

/-- The lines of a body keep the variables of the body loop in step with the
grouping of the specification. -/
theorem cardsRel_fold (P : Prims) (allEntryWords : List wstring) (lines : List Line) :
    ∀ (v : BodyVars) (g : Grouping) (n : Nat) (a : Bool), v.allEntryWords = allEntryWords →
      CardsRel v g n → (a = true ↔ ∃ c, g.current = some c ∧ c.bodyLines = 0) →
      n + lines.length < 2 ^ 32 →
      closesEmptyCard a ((bodyItems P allEntryWords lines).map fun item => item.1) = false →
      CardsRel (lines.foldl (bodyStep P) v)
        ((bodyItems P allEntryWords lines).foldl (fun g item => groupStep g item.1 item.2) g)
        (n + lines.length) := by
  induction lines with
  | nil =>
    intro v g n a _ hrel _ _ _
    exact hrel
  | cons line lines ih =>
    intro v g n a hw hrel ha hn hclose
    simp only [bodyItems, List.map_cons, List.foldl_cons, List.length_cons] at hn hclose ⊢
    rw [closesEmptyCard_cons, Bool.or_eq_false_iff] at hclose
    rw [← hw] at hclose
    obtain ⟨hrel2, ha2⟩ := cardsRel_step P v g n a line hrel ha (by omega) hclose.1
    have h := ih (bodyStep P v line)
      (groupStep g (bodyKind P v.allEntryWords line.text) line.offset) (n + 1)
      (bodyKind P v.allEntryWords line.text).isHeadword
      (by rw [bodyStep_allEntryWords, hw]) hrel2 ha2 (by omega)
      (by rw [hw] at hclose ⊢; exact hclose.2)
    rw [hw] at h
    have hlen : n + (lines.length + 1) = n + 1 + lines.length := by omega
    rw [hlen]
    exact h

/-- The cards the body loop records are the cards of the specification, as
they are stored: for a body of fewer than `2^32` non-empty lines in which no
closing `@` line comes right after an `@` headword line. -/
theorem closedCards_eq_specCards (P : Prims) (allEntryWords : List wstring)
    (articleOffset offset : Nat) (lines : List Line) (curOffset : Nat)
    (hlen : lines.length < 2 ^ 32)
    (hclose : closesEmptyCard false
      ((bodyItems P allEntryWords lines).map fun item => item.1) = false) :
    closedCards (lines.foldl (bodyStep P) (BodyVars.start allEntryWords articleOffset offset))
        curOffset =
      (specCards (bodyItems P allEntryWords lines) curOffset).map CardSpan.stored := by
  have h := cardsRel_fold P allEntryWords lines
    (BodyVars.start allEntryWords articleOffset offset) ⟨[], none⟩ 0 false rfl
    ⟨rfl, rfl, rfl⟩ (by simp) (by omega) hclose
  obtain ⟨hcards, hcur⟩ := h
  unfold closedCards specCards
  simp only
  cases hg : (List.foldl (fun g item => groupStep g item.1 item.2) ⟨[], none⟩
      (bodyItems P allEntryWords lines)).current with
  | none =>
    rw [hg] at hcur
    simp only [hcur.1, Bool.false_eq_true, if_false]
    exact hcards
  | some c =>
    rw [hg] at hcur
    obtain ⟨h1, h2, h3, _, _⟩ := hcur
    simp only [h1, if_true, hcards, h2, h3, List.map_append, List.map_cons, List.map_nil,
      CardSpan.stored]

end Dsl
namespace Dsl

/-! ### The body of an article within the scan -/

/-- Finishing an article records it with the cards of the body loop. -/
theorem finishArticle_articles (P : Prims) (s : Scan) (v : BodyVars) (curOffset : Nat) :
    (finishArticle P s v curOffset).articles =
      s.articles ++
        [⟨v.articleOffset, subU32 curOffset v.articleOffset, closedCards v curOffset⟩] := by
  unfold finishArticle closedCards
  simp only
  rw [indexCards_articles]

/-- Lines that are empty or start with a blank stay in the body loop; those
that are not empty go through `bodyStep`. -/
theorem scanLines_body (P : Prims) (skipped : wstring → Bool) (lines : List Line) :
    ∀ (s : Scan) (v : BodyVars), s.phase = .body v →
      (∀ line ∈ lines, line.text = [] ∨ isDslWs (charAt line.text 0) = true) →
      lines.foldl (scanLine P skipped) s =
        { s with phase :=
            (Phase.body ((lines.filter fun line => !line.text.isEmpty).foldl (bodyStep P) v)) } := by
  induction lines with
  | nil =>
    intro s v hphase _
    simp only [List.foldl_nil, List.filter_nil, ← hphase]
  | cons line lines ih =>
    intro s v hphase hlines
    have hline := hlines line (List.mem_cons_self _ _)
    have hrest : ∀ l ∈ lines, l.text = [] ∨ isDslWs (charAt l.text 0) = true :=
      fun l hl => hlines l (List.mem_cons_of_mem _ hl)
    have hstep : scanLine P skipped s line = bodyLine P s v line := by
      unfold scanLine
      simp only [hphase]
      rcases hline with h | h
      · simp [h]
      · simp [h]
    rw [List.foldl_cons, hstep]
    unfold bodyLine
    by_cases he : line.text.isEmpty = true
    · simp only [he, if_true, List.filter_cons, Bool.not_true, Bool.false_eq_true, if_false]
      exact ih s v hphase hrest
    · simp only [he, if_false, List.filter_cons, Bool.not_eq_true, Bool.not_false, if_true,
        List.foldl_cons, Bool.false_eq_true]
      rw [ih { s with phase := .body (bodyStep P v line) } (bodyStep P v line) rfl hrest]

/-- The body loop is entered with fresh variables, and the line that ended
the headwords goes through `bodyStep` when it has a character that is not
whitespace. -/
theorem beginArticle_phase (P : Prims) (s : Scan) (allEntryWords : List wstring)
    (articleOffset : Nat) (first : Line) (hfirst : first.text ≠ []) :
    (beginArticle P s allEntryWords articleOffset first).phase =
        .body ((articleBody P first []).foldl (bodyStep P)
          (BodyVars.start (normalizedWords P allEntryWords) articleOffset (toU32 first.offset))) ∧
      (beginArticle P s allEntryWords articleOffset first).articles = s.articles := by
  have he : first.text.isEmpty = false := by
    cases h : first.text with
    | nil => exact absurd h hfirst
    | cons _ _ => rfl
  unfold beginArticle articleBody
  simp only [Chunks.startNewBlock, List.filter_nil, List.append_nil]
  by_cases hs : (P.applyWhitespaceOnly first.text).isEmpty = true
  · simp only [hs, Bool.not_true, Bool.false_eq_true, if_false, if_true, List.foldl_nil,
      BodyVars.start, and_self]
  · simp only [hs, Bool.not_eq_true, Bool.not_false, if_true, if_false, List.foldl_cons,
      List.foldl_nil, bodyLine, he, Bool.false_eq_true, BodyVars.start, and_self]

/-- An article within the scan: after the line that ends its headwords and
the lines of its body, the scan is in the body loop, whose variables are the
ones `bodyStep` gives over the lines of `articleBody`. -/
theorem scan_article_body (P : Prims) (skipped : wstring → Bool) (s : Scan)
    (allEntryWords : List wstring) (articleOffset : Nat) (first : Line) (rest : List Line)
    (hphase : s.phase = .headwords allEntryWords articleOffset)
    (hfirst : first.text ≠ [] ∧ isDslWs (charAt first.text 0) = true)
    (hrest : ∀ line ∈ rest, line.text = [] ∨ isDslWs (charAt line.text 0) = true) :
    ((first :: rest).foldl (scanLine P skipped) s).phase =
        .body ((articleBody P first rest).foldl (bodyStep P)
          (BodyVars.start (normalizedWords P allEntryWords) articleOffset (toU32 first.offset))) ∧
      ((first :: rest).foldl (scanLine P skipped) s).articles = s.articles := by
  have he : first.text.isEmpty = false := by
    cases h : first.text with
    | nil => exact absurd h hfirst.1
    | cons _ _ => rfl
  have hstep : scanLine P skipped s first = beginArticle P s allEntryWords articleOffset first := by
    unfold scanLine
    simp only [hphase, he, Bool.false_eq_true, if_false, hfirst.2, if_true]
  obtain ⟨hb, hart⟩ := beginArticle_phase P s allEntryWords articleOffset first hfirst.1
  rw [List.foldl_cons, hstep, scanLines_body P skipped rest _ _ hb hrest]
  simp only [hart, and_true]
  unfold articleBody
  simp only [List.filter_nil, List.append_nil, List.foldl_append, List.foldl_nil]

theorem bodySteps_articleOffset (P : Prims) (lines : List Line) :
    ∀ v : BodyVars, (lines.foldl (bodyStep P) v).articleOffset = v.articleOffset := by
  induction lines with
  | nil => intro v; rfl
  | cons line lines ih =>
    intro v
    rw [List.foldl_cons, ih, bodyStep_articleOffset]

/-- An article within the scan, finished at `closeOffset`: its record holds
the cards of the specification, as they are stored. -/
theorem scan_article_cards (P : Prims) (skipped : wstring → Bool) (s : Scan)
    (allEntryWords : List wstring) (articleOffset : Nat) (first : Line) (rest : List Line)
    (closeOffset : Nat)
    (hphase : s.phase = .headwords allEntryWords articleOffset)
    (hfirst : first.text ≠ [] ∧ isDslWs (charAt first.text 0) = true)
    (hrest : ∀ line ∈ rest, line.text = [] ∨ isDslWs (charAt line.text 0) = true)
    (hlen : (articleBody P first rest).length < 2 ^ 32)
    (hclose : closesEmptyCard false
      ((bodyItems P (normalizedWords P allEntryWords) (articleBody P first rest)).map
        fun item => item.1) = false) :
    ∃ v, ((first :: rest).foldl (scanLine P skipped) s).phase = .body v ∧
      (finishArticle P ((first :: rest).foldl (scanLine P skipped) s) v closeOffset).articles =
        s.articles ++
          [⟨articleOffset, subU32 closeOffset articleOffset,
            (specCards (bodyItems P (normalizedWords P allEntryWords)
              (articleBody P first rest)) closeOffset).map CardSpan.stored⟩] := by
  obtain ⟨hb, hart⟩ := scan_article_body P skipped s allEntryWords articleOffset first rest
    hphase hfirst hrest
  refine ⟨_, hb, ?_⟩
  rw [finishArticle_articles, hart, bodySteps_articleOffset,
    closedCards_eq_specCards P _ articleOffset (toU32 first.offset) _ closeOffset hlen hclose]
  rfl

end Dsl
namespace Dsl

/-! ### Runs of `@` headword lines -/

/-- C12, as amended: in the scan of an article body of fewer than `2^32`
non-empty lines in which no closing `@` line comes right after an `@` headword
line, the cards recorded for the article carry the headwords the
specification gives them: one card for every maximal run of `@` headword
lines with no non-empty body line between them, with the headwords of
exactly those lines in order, an `@` headword line after a body line of the
open card closing that card and starting a new one. -/
theorem scan_card_headwords (P : Prims) (skipped : wstring → Bool) (s : Scan)
    (allEntryWords : List wstring) (articleOffset : Nat) (first : Line) (rest : List Line)
    (closeOffset : Nat)
    (hphase : s.phase = .headwords allEntryWords articleOffset)
    (hfirst : first.text ≠ [] ∧ isDslWs (charAt first.text 0) = true)
    (hrest : ∀ line ∈ rest, line.text = [] ∨ isDslWs (charAt line.text 0) = true)
    (hlen : (articleBody P first rest).length < 2 ^ 32)
    (hclose : closesEmptyCard false
      ((bodyItems P (normalizedWords P allEntryWords) (articleBody P first rest)).map
        fun item => item.1) = false) :
    ∃ v size cards, ((first :: rest).foldl (scanLine P skipped) s).phase = .body v ∧
      (finishArticle P ((first :: rest).foldl (scanLine P skipped) s) v closeOffset).articles =
        s.articles ++ [⟨articleOffset, size, cards⟩] ∧
      (cards.map fun card => card.headwords) =
        (specCards (bodyItems P (normalizedWords P allEntryWords) (articleBody P first rest))
          closeOffset).map fun card => card.headwords := by
  obtain ⟨v, hv, hart⟩ := scan_article_cards P skipped s allEntryWords articleOffset first rest
    closeOffset hphase hfirst hrest hlen hclose
  refine ⟨v, _, _, hv, hart, ?_⟩
  rw [List.map_map]
  rfl

/-- C12, witness: the body `@b`, `@c`, text, `@d`, text of the article `w`
gives the two cards `b, c` and `d`. -/
theorem scan_card_headwords_witness :
    (specCards (bodyItems Prims.plain (normalizedWords Prims.plain [ws "w"])
        (articleBody Prims.plain ⟨ws "\t@b", 2⟩ threeCardLines)) 20).map
          (fun card => card.headwords) = [[ws "b", ws "c"], [ws "d"]] ∧
      ∃ v size cards,
        ((⟨ws "\t@b", 2⟩ :: threeCardLines).foldl (scanLine Prims.plain skipsBlank)
          afterHeadwordW).phase = .body v ∧
        (finishArticle Prims.plain
            ((⟨ws "\t@b", 2⟩ :: threeCardLines).foldl (scanLine Prims.plain skipsBlank)
              afterHeadwordW) v 20).articles =
          afterHeadwordW.articles ++ [⟨0, size, cards⟩] ∧
        (cards.map fun card => card.headwords) =
          (specCards (bodyItems Prims.plain (normalizedWords Prims.plain [ws "w"])
            (articleBody Prims.plain ⟨ws "\t@b", 2⟩ threeCardLines)) 20).map
              fun card => card.headwords :=
  ⟨by decide,
    scan_card_headwords Prims.plain skipsBlank afterHeadwordW [ws "w"] 0 ⟨ws "\t@b", 2⟩
      threeCardLines 20 rfl (by decide) (by decide) (by decide) (by decide)⟩

/-- Lines of text raise the line counter of an open card, modulo `2^32`. -/
theorem bodySteps_text (n : Nat) :
    ∀ v : BodyVars, v.insideInsided = true → v.linesInsideCard < 2 ^ 32 →
      ((List.range n).map fun i => (⟨ws "\tx", 6 + 3 * i⟩ : Line)).foldl
          (bodyStep Prims.plain) v =
        { v with linesInsideCard := (v.linesInsideCard + n) % 2 ^ 32 } := by
  induction n with
  | zero =>
    intro v _ hl
    simp only [List.range_zero, List.map_nil, List.foldl_nil, Nat.add_zero,
      Nat.mod_eq_of_lt hl]
  | succ n ih =>
    intro v hin hl
    rw [List.range_succ, List.map_append, List.foldl_append, ih v hin hl]
    simp only [List.map_cons, List.map_nil, List.foldl_cons, List.foldl_nil]
    have hk : ∀ (v : BodyVars) (o : Nat),
        bodyKind Prims.plain v.allEntryWords (⟨ws "\tx", o⟩ : Line).text = .text :=
      fun _ _ => rfl
    rw [bodyStep_text Prims.plain _ _ (hk _ _)]
    simp only [hin, if_true, toU32]
    congr 1
    omega

/-- Lines of text are counted for the open card of the specification. -/
theorem groupSteps_text (n : Nat) :
    ∀ (cards : List CardSpan) (c : OpenCard),
      (bodyItems Prims.plain [ws "w"]
          ((List.range n).map fun i => (⟨ws "\tx", 6 + 3 * i⟩ : Line))).foldl
          (fun g item => groupStep g item.1 item.2) ⟨cards, some c⟩ =
        ⟨cards, some { c with bodyLines := c.bodyLines + n }⟩ := by
  induction n with
  | zero => intro cards c; rfl
  | succ n ih =>
    intro cards c
    unfold bodyItems at ih ⊢
    rw [List.range_succ, List.map_append, List.map_append, List.foldl_append, ih cards c]
    rfl

theorem longCardRest_body (n : Nat) :
    articleBody Prims.plain ⟨ws "\t@a", 2⟩ (longCardRest n) =
      ⟨ws "\t@a", 2⟩ :: longCardRest n := by
  unfold articleBody
  have hf : (longCardRest n).filter (fun line => !line.text.isEmpty) = longCardRest n := by
    rw [List.filter_eq_self]
    intro line hline
    unfold longCardRest at hline
    rw [List.mem_append, List.mem_map, List.mem_singleton] at hline
    rcases hline with ⟨i, _, rfl⟩ | rfl <;> rfl
  rw [hf]
  rfl

/-- The cards the body loop records for a card of `n` lines of text followed
by a second `@` headword line, when `n` is a multiple of `2^32`: one card
with both headwords. -/
theorem longCard_closedCards (n eof : Nat) (hn : n % 2 ^ 32 = 0) :
    closedCards ((articleBody Prims.plain ⟨ws "\t@a", 2⟩ (longCardRest n)).foldl
        (bodyStep Prims.plain) (BodyVars.start [ws "w"] 0 2)) eof =
      [⟨2, subU32 eof 2, [ws "a", ws "b"]⟩] := by
  rw [longCardRest_body, List.foldl_cons]
  have h1 : bodyStep Prims.plain (BodyVars.start [ws "w"] 0 2) ⟨ws "\t@a", 2⟩ =
      { allEntryWords := [ws "w"], articleOffset := 0, insideInsided := true, insidedCards := [],
        offset := 2, insidedHeadwords := [ws "a"], linesInsideCard := 0 } := by decide
  rw [h1]
  unfold longCardRest
  rw [List.foldl_append, bodySteps_text n _ rfl (by decide)]
  simp only [Nat.zero_add, hn, List.foldl_cons, List.foldl_nil]
  have hk : ∀ (v : BodyVars) (o : Nat),
      bodyKind Prims.plain v.allEntryWords (⟨ws "\t@b", o⟩ : Line).text =
        .headword (ws "b") :=
    fun _ _ => rfl
  rw [bodyStep_headword Prims.plain _ _ (ws "b") (hk _ _)]
  rfl

/-- The cards of the specification for the same body, when `n` is not zero:
two cards. -/
theorem longCard_specCards (n eof : Nat) (hn : n ≠ 0) :
    specCards (bodyItems Prims.plain [ws "w"]
        (articleBody Prims.plain ⟨ws "\t@a", 2⟩ (longCardRest n))) eof =
      [⟨2, 6 + 3 * n, [ws "a"]⟩, ⟨6 + 3 * n, eof, [ws "b"]⟩] := by
  rw [longCardRest_body]
  unfold specCards longCardRest
  have h1 : bodyItems Prims.plain [ws "w"]
      (⟨ws "\t@a", 2⟩ :: (((List.range n).map fun i => (⟨ws "\tx", 6 + 3 * i⟩ : Line)) ++
        [⟨ws "\t@b", 6 + 3 * n⟩])) =
      (BodyKind.headword (ws "a"), 2) ::
        (bodyItems Prims.plain [ws "w"]
          ((List.range n).map fun i => (⟨ws "\tx", 6 + 3 * i⟩ : Line)) ++
          [(BodyKind.headword (ws "b"), 6 + 3 * n)]) := by
    unfold bodyItems
    rw [List.map_cons, List.map_append]
    rfl
  simp only [h1, List.foldl_cons, List.foldl_append, List.foldl_nil]
  have h2 : groupStep ⟨[], none⟩ (BodyKind.headword (ws "a")) 2 =
      ⟨[], some ⟨2, [ws "a"], 0⟩⟩ := rfl
  rw [h2, groupSteps_text n [] ⟨2, [ws "a"], 0⟩]
  simp only [groupStep, Nat.zero_add, hn, if_false, List.nil_append]
  rfl

theorem scanEnd_body (P : Prims) (s : Scan) (v : BodyVars) (eofOffset : Nat)
    (h : s.phase = .body v) : scanEnd P s eofOffset = finishArticle P s v eofOffset := by
  unfold scanEnd
  simp only [h]

/-- The scan of the article `w` whose body is a card of `n` lines of text
followed by a second `@` headword line, `n` being a multiple of `2^32`. -/
theorem longCard_scan (n eof : Nat) (hn : n % 2 ^ 32 = 0) :
    (scanEnd Prims.plain
        ((⟨ws "\t@a", 2⟩ :: longCardRest n).foldl (scanLine Prims.plain skipsBlank)
          afterHeadwordW) eof).articles =
      [⟨0, subU32 eof 0, [⟨2, subU32 eof 2, [ws "a", ws "b"]⟩]⟩] := by
  have hrest : ∀ line ∈ longCardRest n,
      line.text = [] ∨ isDslWs (charAt line.text 0) = true := by
    intro line hline
    unfold longCardRest at hline
    rw [List.mem_append, List.mem_map, List.mem_singleton] at hline
    rcases hline with ⟨i, _, rfl⟩ | rfl <;> exact Or.inr rfl
  obtain ⟨hb, hart⟩ := scan_article_body Prims.plain skipsBlank afterHeadwordW [ws "w"] 0
    ⟨ws "\t@a", 2⟩ (longCardRest n) rfl ⟨by decide, rfl⟩ hrest
  rw [scanEnd_body _ _ _ _ hb, finishArticle_articles, hart, bodySteps_articleOffset]
  have hw : normalizedWords Prims.plain [ws "w"] = [ws "w"] := rfl
  have ho : toU32 (⟨ws "\t@a", 2⟩ : Line).offset = 2 := rfl
  rw [hw, ho, longCard_closedCards n eof hn]
  rfl

/-- C12 fails as stated: in the article `w` the card `@a` has `2^32` lines of
text before the line `@b`.  The line counter of the card is back at 0, the
line `@b` is taken into the run of `@a`, and one card with the headwords `a`
and `b` is recorded, where the specification has the card `a` closed and a
card `b` started. -/
theorem scan_card_headwords_wraps :
    ((scanEnd Prims.plain
        ((⟨ws "\t@a", 2⟩ :: longCardRest (2 ^ 32)).foldl (scanLine Prims.plain skipsBlank)
          afterHeadwordW) (10 + 3 * 2 ^ 32)).articles.map
        fun a => a.insidedCards.map fun card => card.headwords) = [[[ws "a", ws "b"]]] ∧
      ((specCards (bodyItems Prims.plain [ws "w"]
          (articleBody Prims.plain ⟨ws "\t@a", 2⟩ (longCardRest (2 ^ 32))))
          (10 + 3 * 2 ^ 32)).map fun card => card.headwords) = [[ws "a"], [ws "b"]] := by
  constructor
  · rw [longCard_scan (2 ^ 32) (10 + 3 * 2 ^ 32) (Nat.mod_self _)]
    rfl
  · rw [longCard_specCards (2 ^ 32) (10 + 3 * 2 ^ 32) (by norm_num)]
    rfl

end Dsl
namespace Dsl

/-! ### Offset and size of an embedded card -/

theorem subU32_of_le (curOffset offset : Nat) (h1 : offset ≤ curOffset)
    (h2 : curOffset < 2 ^ 32) : subU32 curOffset offset = curOffset - offset := by
  unfold subU32
  have h3 : ((curOffset : Int) - (offset : Int)) = ((curOffset - offset : Nat) : Int) := by
    omega
  rw [h3]
  have h4 : (((curOffset - offset : Nat) : Int) % (2 ^ 32 : Int)) =
      ((curOffset - offset : Nat) : Int) := by
    apply Int.emod_eq_of_lt
    · omega
    · have : curOffset - offset < 2 ^ 32 := by omega
      exact_mod_cast this
  rw [h4, Int.toNat_ofNat]

/-- C13, as amended: in the scan of an article body of fewer than `2^32`
non-empty lines in which no closing `@` line comes right after an `@` headword
line, every card recorded has for offset the source offset of the first `@`
line of its headword group and for size the source offset of the line that
closes it minus that offset, both as `uint32_t`, that is modulo `2^32`; they
are these numbers themselves when the closing offset is below `2^32` and not
below the offset of the group. -/
theorem scan_card_ranges (P : Prims) (skipped : wstring → Bool) (s : Scan)
    (allEntryWords : List wstring) (articleOffset : Nat) (first : Line) (rest : List Line)
    (closeOffset : Nat)
    (hphase : s.phase = .headwords allEntryWords articleOffset)
    (hfirst : first.text ≠ [] ∧ isDslWs (charAt first.text 0) = true)
    (hrest : ∀ line ∈ rest, line.text = [] ∨ isDslWs (charAt line.text 0) = true)
    (hlen : (articleBody P first rest).length < 2 ^ 32)
    (hclose : closesEmptyCard false
      ((bodyItems P (normalizedWords P allEntryWords) (articleBody P first rest)).map
        fun item => item.1) = false) :
    ∃ v size cards, ((first :: rest).foldl (scanLine P skipped) s).phase = .body v ∧
      (finishArticle P ((first :: rest).foldl (scanLine P skipped) s) v closeOffset).articles =
        s.articles ++ [⟨articleOffset, size, cards⟩] ∧
      (cards.map fun card => (card.offset, card.size)) =
        (specCards (bodyItems P (normalizedWords P allEntryWords) (articleBody P first rest))
          closeOffset).map
            (fun card => (toU32 card.offset, subU32 card.closeOffset (toU32 card.offset))) ∧
      ∀ card ∈ specCards (bodyItems P (normalizedWords P allEntryWords)
          (articleBody P first rest)) closeOffset,
        card.offset ≤ card.closeOffset → card.closeOffset < 2 ^ 32 →
          toU32 card.offset = card.offset ∧
            subU32 card.closeOffset (toU32 card.offset) = card.closeOffset - card.offset := by
  obtain ⟨v, hv, hart⟩ := scan_article_cards P skipped s allEntryWords articleOffset first rest
    closeOffset hphase hfirst hrest hlen hclose
  refine ⟨v, _, _, hv, hart, ?_, ?_⟩
  · rw [List.map_map]
    rfl
  · intro card _ h1 h2
    have h3 : toU32 card.offset = card.offset := toU32_of_lt _ (by omega)
    rw [h3]
    exact ⟨rfl, subU32_of_le _ _ h1 h2⟩

/-- C13, witness: the body `@b`, `@c`, text, `@d`, text of the article `w`,
closed at offset 20, gives the card `b, c` at offset 2 with size 11 and the
card `d` at offset 13 with size 7. -/
theorem scan_card_ranges_witness :
    (specCards (bodyItems Prims.plain (normalizedWords Prims.plain [ws "w"])
        (articleBody Prims.plain ⟨ws "\t@b", 2⟩ threeCardLines)) 20).map
          (fun card => (toU32 card.offset, subU32 card.closeOffset (toU32 card.offset))) =
        [(2, 11), (13, 7)] ∧
      ∃ v size cards,
        ((⟨ws "\t@b", 2⟩ :: threeCardLines).foldl (scanLine Prims.plain skipsBlank)
          afterHeadwordW).phase = .body v ∧
        (finishArticle Prims.plain
            ((⟨ws "\t@b", 2⟩ :: threeCardLines).foldl (scanLine Prims.plain skipsBlank)
              afterHeadwordW) v 20).articles =
          afterHeadwordW.articles ++ [⟨0, size, cards⟩] ∧
        (cards.map fun card => (card.offset, card.size)) =
          (specCards (bodyItems Prims.plain (normalizedWords Prims.plain [ws "w"])
            (articleBody Prims.plain ⟨ws "\t@b", 2⟩ threeCardLines)) 20).map
              (fun card => (toU32 card.offset, subU32 card.closeOffset (toU32 card.offset))) ∧
        ∀ card ∈ specCards (bodyItems Prims.plain (normalizedWords Prims.plain [ws "w"])
            (articleBody Prims.plain ⟨ws "\t@b", 2⟩ threeCardLines)) 20,
          card.offset ≤ card.closeOffset → card.closeOffset < 2 ^ 32 →
            toU32 card.offset = card.offset ∧
              subU32 card.closeOffset (toU32 card.offset) = card.closeOffset - card.offset :=
  ⟨by decide,
    scan_card_ranges Prims.plain skipsBlank afterHeadwordW [ws "w"] 0 ⟨ws "\t@b", 2⟩
      threeCardLines 20 rfl (by decide) (by decide) (by decide) (by decide)⟩

/-- C13 fails as stated: in a source beyond `2^32` bytes the card `@a` starts
at the source offset `2^32 + 2` and is closed by the end of the file at
`2^32 + 9`; the card recorded has offset 2, not `2^32 + 2`. -/
theorem scan_card_offset_wraps :
    (scanArticles Prims.plain skipsBlank [] farSource (2 ^ 32 + 9)).articles =
        [⟨0, 9, [⟨2, 7, [ws "a"]⟩]⟩] ∧
      specCards (bodyItems Prims.plain [ws "w"]
          (articleBody Prims.plain ⟨ws "\t@a", 2 ^ 32 + 2⟩ [⟨ws "\tx", 2 ^ 32 + 6⟩]))
          (2 ^ 32 + 9) =
        [⟨2 ^ 32 + 2, 2 ^ 32 + 9, [ws "a"]⟩] ∧
      (2 : Nat) ≠ 2 ^ 32 + 2 := by
  decide

end Dsl
namespace Dsl

/-! ### An article whose first headword line is too long -/

theorem scan_eta (s : Scan) (h : s.phase = .main) : { s with phase := Phase.main } = s := by
  cases s
  simp only at h
  simp only [h]

/-- A line of more than 100 characters that starts an article is passed
over: the article before it is finished, nothing is indexed for the line, and
the scan is in the main loop. -/
theorem scanLine_long (P : Prims) (skipped : wstring → Bool) (s : Scan) (long : Line)
    (hs : ∀ allEntryWords articleOffset, s.phase ≠ .headwords allEntryWords articleOffset)
    (hlong : 100 < long.text.length) (hblank : isDslWs (charAt long.text 0) = false) :
    scanLine P skipped s long = { closePrevious P s long with phase := Phase.main } := by
  have hlen : (long.text.isEmpty || decide (long.text.length > 100)) = true := by
    simp [hlong]
  have he : long.text.isEmpty = false := by
    cases h : long.text with
    | nil => rw [h] at hlong; simp at hlong
    | cons _ _ => rfl
  unfold scanLine closePrevious
  cases hp : s.phase with
  | main =>
    simp only
    split
    · exact (scan_eta s hp).symm
    · unfold mainLine
      simp only [hlen, if_true]
  | headwords W o => exact absurd hp (hs W o)
  | body v =>
    simp only [he, hblank, Bool.not_false, Bool.and_self, if_true]
    unfold mainLine
    simp only [hlen, if_true]

/-- A line of at most 100 characters that does not start with a blank and is
not passed over by the scanner is taken for the main headword of an
article. -/
theorem scanLine_main_headword (P : Prims) (skipped : wstring → Bool) (s : Scan) (alt : Line)
    (hs : s.phase = .main) (hskip : skipped alt.text = false) (hne : alt.text ≠ [])
    (hlen : alt.text.length ≤ 100) (hblank : isDslWs (charAt alt.text 0) = false) :
    scanLine P skipped s alt =
      { s with phase :=
          (Phase.headwords (P.expandOptionalParts (P.processUnsortedParts alt.text true) []).2
            (toU32 alt.offset)) } := by
  have he : alt.text.isEmpty = false := by
    cases h : alt.text with
    | nil => exact absurd h hne
    | cons _ _ => rfl
  have hl : decide (alt.text.length > 100) = false := by
    rw [decide_eq_false_iff_not]
    omega
  unfold scanLine
  simp only [hs, hskip, Bool.false_eq_true, if_false]
  unfold mainLine
  simp only [he, hl, Bool.or_self, Bool.false_eq_true, if_false, hblank]

theorem beginArticle_fields (P : Prims) (s : Scan) (allEntryWords : List wstring)
    (articleOffset : Nat) (first : Line) :
    (beginArticle P s allEntryWords articleOffset first).addedWords =
        s.addedWords ++ (normalizedWords P allEntryWords).map (fun w => (w, s.chunks.length)) ∧
      (beginArticle P s allEntryWords articleOffset first).chunks =
        [articleOffset] :: s.chunks := by
  unfold beginArticle
  simp only [Chunks.startNewBlock]
  split
  · unfold bodyLine
    split <;> exact ⟨rfl, rfl⟩
  · exact ⟨rfl, rfl⟩

theorem indexCard_words_addedWords (P : Prims) (desc_offset : Nat) (hws : List wstring) :
    ∀ s : Scan, ∃ entries,
      (hws.foldl
        (fun (s : Scan) hw =>
          let allEntryWords := normalizedWords P (P.expandOptionalParts hw []).2
          { s with addedWords := s.addedWords ++ allEntryWords.map fun w => (w, desc_offset),
                   wordCount := toU32 (s.wordCount + allEntryWords.length) })
        s).addedWords = s.addedWords ++ entries ∧
      entries.map Prod.fst =
        hws.flatMap fun hw => normalizedWords P (P.expandOptionalParts hw []).2 := by
  induction hws with
  | nil => intro s; exact ⟨[], by simp, rfl⟩
  | cons hw hws ih =>
    intro s
    obtain ⟨entries, h1, h2⟩ := ih
      { s with addedWords := s.addedWords ++
                 (normalizedWords P (P.expandOptionalParts hw []).2).map fun w => (w, desc_offset),
               wordCount := toU32 (s.wordCount +
                 (normalizedWords P (P.expandOptionalParts hw []).2).length) }
    refine ⟨(normalizedWords P (P.expandOptionalParts hw []).2).map (fun w => (w, desc_offset)) ++
      entries, ?_, ?_⟩
    · rw [List.foldl_cons, h1]
      simp only [List.append_assoc]
    · rw [List.map_append, h2, List.flatMap_cons, List.map_map]
      congr 1
      exact List.map_id _

theorem indexCards_addedWords (P : Prims) (cards : List InsidedCard) :
    ∀ s : Scan, ∃ entries,
      (cards.foldl (indexCard P) s).addedWords = s.addedWords ++ entries ∧
      entries.map Prod.fst = cardWords P cards := by
  induction cards with
  | nil => intro s; exact ⟨[], by simp, rfl⟩
  | cons c cards ih =>
    intro s
    obtain ⟨e1, h1, h2⟩ := indexCard_words_addedWords P s.chunks.length c.headwords
      { s with chunks := (Chunks.addToBlock (Chunks.addToBlock ([] :: s.chunks) c.offset) c.size) }
    have hc : (indexCard P s c).addedWords = s.addedWords ++ e1 := by
      unfold indexCard
      simp only [Chunks.startNewBlock]
      exact h1
    obtain ⟨e2, h3, h4⟩ := ih (indexCard P s c)
    refine ⟨e1 ++ e2, ?_, ?_⟩
    · rw [List.foldl_cons, h3, hc, List.append_assoc]
    · rw [List.map_append, h2, h4]
      simp only [cardWords, List.flatMap_cons]

/-- Finishing an article completes its block with the size and indexes the
headwords of its cards, and nothing else. -/
theorem finishArticle_fields (P : Prims) (s : Scan) (v : BodyVars) (curOffset : Nat) :
    (finishArticle P s v curOffset).chunks =
        ((closedCards v curOffset).map fun c => [c.offset, c.size]).reverse ++
          s.chunks.addToBlock (subU32 curOffset v.articleOffset) ∧
      ∃ entries, (finishArticle P s v curOffset).addedWords = s.addedWords ++ entries ∧
        entries.map Prod.fst = cardWords P (closedCards v curOffset) := by
  unfold finishArticle closedCards
  simp only
  constructor
  · rw [indexCards_chunks]
  · exact indexCards_addedWords P _ _

theorem getBlock_top (base : Chunks) (block : List Nat) (above : Chunks) :
    Chunks.getBlock (above ++ block :: base) base.length = some block := by
  unfold Chunks.getBlock
  rw [List.reverse_append, List.reverse_cons, List.append_assoc,
    List.getElem?_append_right (by simp)]
  simp

/-- An article within the scan: what was indexed and written when its body
is being read. -/
theorem scan_article_fields (P : Prims) (skipped : wstring → Bool) (s : Scan)
    (allEntryWords : List wstring) (articleOffset : Nat) (first : Line) (rest : List Line)
    (hphase : s.phase = .headwords allEntryWords articleOffset)
    (hfirst : first.text ≠ [] ∧ isDslWs (charAt first.text 0) = true)
    (hrest : ∀ line ∈ rest, line.text = [] ∨ isDslWs (charAt line.text 0) = true) :
    ((first :: rest).foldl (scanLine P skipped) s).addedWords =
        s.addedWords ++ (normalizedWords P allEntryWords).map (fun w => (w, s.chunks.length)) ∧
      ((first :: rest).foldl (scanLine P skipped) s).chunks = [articleOffset] :: s.chunks := by
  have he : first.text.isEmpty = false := by
    cases h : first.text with
    | nil => exact absurd h hfirst.1
    | cons _ _ => rfl
  have hstep : scanLine P skipped s first = beginArticle P s allEntryWords articleOffset first := by
    unfold scanLine
    simp only [hphase, he, Bool.false_eq_true, if_false, hfirst.2, if_true]
  obtain ⟨hb, _⟩ := beginArticle_phase P s allEntryWords articleOffset first hfirst.1
  rw [List.foldl_cons, hstep, scanLines_body P skipped rest _ _ hb hrest]
  exact beginArticle_fields P s allEntryWords articleOffset first

/-- C14, as amended: when the first headword line of an article has more than
100 code points and the line after it is an alternative headword of at most
100 code points, the long line is passed over like a line outside any
article (no call of `addWord` is made for it, whatever `maxHeadwordSize` is,
and nothing is raised), the alternative headword is taken for the main
headword, and its expansions are indexed to a block that holds the offset of
the alternative headword line and the distance from there to the line that
ends the article, as `uint32_t`: with offsets below `2^32` the range from
the alternative headword line to the end of the body.  The only other words
indexed for the article are the headwords of its embedded cards. -/
theorem scan_long_first_headword (P : Prims) (skipped : wstring → Bool) (s : Scan)
    (long alt first : Line) (rest : List Line) (closeOffset : Nat)
    (hs : ∀ allEntryWords articleOffset, s.phase ≠ .headwords allEntryWords articleOffset)
    (hlong : 100 < long.text.length ∧ isDslWs (charAt long.text 0) = false)
    (halt : alt.text ≠ [] ∧ alt.text.length ≤ 100 ∧ isDslWs (charAt alt.text 0) = false ∧
      skipped alt.text = false)
    (hfirst : first.text ≠ [] ∧ isDslWs (charAt first.text 0) = true)
    (hrest : ∀ line ∈ rest, line.text = [] ∨ isDslWs (charAt line.text 0) = true) :
    scanLine P skipped s long = { closePrevious P s long with phase := Phase.main } ∧
      ∃ v cardEntries,
        ((long :: alt :: first :: rest).foldl (scanLine P skipped) s).phase = .body v ∧
        (finishArticle P ((long :: alt :: first :: rest).foldl (scanLine P skipped) s) v
            closeOffset).addedWords =
          (closePrevious P s long).addedWords ++
            (normalizedWords P
              (P.expandOptionalParts (P.processUnsortedParts alt.text true) []).2).map
                (fun w => (w, (closePrevious P s long).chunks.length)) ++ cardEntries ∧
        cardEntries.map Prod.fst = cardWords P (closedCards v closeOffset) ∧
        (finishArticle P ((long :: alt :: first :: rest).foldl (scanLine P skipped) s) v
            closeOffset).articles =
          (closePrevious P s long).articles ++
            [⟨toU32 alt.offset, subU32 closeOffset (toU32 alt.offset),
              closedCards v closeOffset⟩] ∧
        (finishArticle P ((long :: alt :: first :: rest).foldl (scanLine P skipped) s) v
            closeOffset).chunks.getBlock (closePrevious P s long).chunks.length =
          some [toU32 alt.offset, subU32 closeOffset (toU32 alt.offset)] ∧
        (alt.offset ≤ closeOffset → closeOffset < 2 ^ 32 →
          toU32 alt.offset = alt.offset ∧
            subU32 closeOffset (toU32 alt.offset) = closeOffset - alt.offset) := by
  have h1 := scanLine_long P skipped s long hs hlong.1 hlong.2
  refine ⟨h1, ?_⟩
  have h2 := scanLine_main_headword P skipped
    { closePrevious P s long with phase := Phase.main } alt rfl halt.2.2.2 halt.1 halt.2.1
    halt.2.2.1
  rw [List.foldl_cons, h1, List.foldl_cons, h2]
  obtain ⟨hb, hart⟩ := scan_article_body P skipped
    { closePrevious P s long with phase :=
        (Phase.headwords (P.expandOptionalParts (P.processUnsortedParts alt.text true) []).2
          (toU32 alt.offset)) }
    (P.expandOptionalParts (P.processUnsortedParts alt.text true) []).2 (toU32 alt.offset)
    first rest rfl hfirst hrest
  obtain ⟨hw, hc⟩ := scan_article_fields P skipped
    { closePrevious P s long with phase :=
        (Phase.headwords (P.expandOptionalParts (P.processUnsortedParts alt.text true) []).2
          (toU32 alt.offset)) }
    (P.expandOptionalParts (P.processUnsortedParts alt.text true) []).2 (toU32 alt.offset)
    first rest rfl hfirst hrest
  obtain ⟨hfc, entries, hfw, hfe⟩ := finishArticle_fields P
    ((first :: rest).foldl (scanLine P skipped)
      { closePrevious P s long with phase :=
          (Phase.headwords (P.expandOptionalParts (P.processUnsortedParts alt.text true) []).2
            (toU32 alt.offset)) })
    ((articleBody P first rest).foldl (bodyStep P)
      (BodyVars.start
        (normalizedWords P (P.expandOptionalParts (P.processUnsortedParts alt.text true) []).2)
        (toU32 alt.offset) (toU32 first.offset)))
    closeOffset
  refine ⟨_, entries, hb, ?_, hfe, ?_, ?_, ?_⟩
  · rw [hfw, hw]
  · rw [finishArticle_articles, hart, bodySteps_articleOffset]
    rfl
  · rw [hfc, hc, bodySteps_articleOffset]
    exact getBlock_top _ _ _
  · intro hle hlt
    have h3 : toU32 alt.offset = alt.offset := toU32_of_lt _ (by omega)
    rw [h3]
    exact ⟨rfl, subU32_of_le _ _ hle hlt⟩

set_option maxRecDepth 20000 in
/-- C14, witness: a headword line of 200 characters, the alternative
headword `cat` at offset 201 and the body line `"\tx"`, closed by the end of
the file at offset 208: the one word indexed is `cat`, to the block
`(201, 7)`. -/
theorem scan_long_first_headword_witness :
    (scanArticles Prims.plain skipsBlank [] longThenShortSource 208).addedWords =
        [(ws "cat", 0)] ∧
      (scanArticles Prims.plain skipsBlank [] longThenShortSource 208).chunks = [[201, 7]] ∧
      scanLine Prims.plain skipsBlank (Scan.start []) ⟨List.replicate 200 97, 0⟩ =
        { closePrevious Prims.plain (Scan.start []) ⟨List.replicate 200 97, 0⟩ with
          phase := Phase.main } ∧
      ∃ v cardEntries,
        ((⟨List.replicate 200 97, 0⟩ :: ⟨ws "cat", 201⟩ :: ⟨ws "\tx", 205⟩ :: []).foldl
          (scanLine Prims.plain skipsBlank) (Scan.start [])).phase = .body v ∧
        (finishArticle Prims.plain
            ((⟨List.replicate 200 97, 0⟩ :: ⟨ws "cat", 201⟩ :: ⟨ws "\tx", 205⟩ :: []).foldl
              (scanLine Prims.plain skipsBlank) (Scan.start [])) v 208).addedWords =
          (closePrevious Prims.plain (Scan.start []) ⟨List.replicate 200 97, 0⟩).addedWords ++
            (normalizedWords Prims.plain
              (Prims.plain.expandOptionalParts
                (Prims.plain.processUnsortedParts (⟨ws "cat", 201⟩ : Line).text true) []).2).map
                (fun w => (w, (closePrevious Prims.plain (Scan.start [])
                  ⟨List.replicate 200 97, 0⟩).chunks.length)) ++ cardEntries ∧
        cardEntries.map Prod.fst = cardWords Prims.plain (closedCards v 208) ∧
        (finishArticle Prims.plain
            ((⟨List.replicate 200 97, 0⟩ :: ⟨ws "cat", 201⟩ :: ⟨ws "\tx", 205⟩ :: []).foldl
              (scanLine Prims.plain skipsBlank) (Scan.start [])) v 208).articles =
          (closePrevious Prims.plain (Scan.start []) ⟨List.replicate 200 97, 0⟩).articles ++
            [⟨toU32 (⟨ws "cat", 201⟩ : Line).offset,
              subU32 208 (toU32 (⟨ws "cat", 201⟩ : Line).offset), closedCards v 208⟩] ∧
        (finishArticle Prims.plain
            ((⟨List.replicate 200 97, 0⟩ :: ⟨ws "cat", 201⟩ :: ⟨ws "\tx", 205⟩ :: []).foldl
              (scanLine Prims.plain skipsBlank) (Scan.start [])) v 208).chunks.getBlock
            (closePrevious Prims.plain (Scan.start []) ⟨List.replicate 200 97, 0⟩).chunks.length =
          some [toU32 (⟨ws "cat", 201⟩ : Line).offset,
            subU32 208 (toU32 (⟨ws "cat", 201⟩ : Line).offset)] ∧
        ((⟨ws "cat", 201⟩ : Line).offset ≤ 208 → 208 < 2 ^ 32 →
          toU32 (⟨ws "cat", 201⟩ : Line).offset = (⟨ws "cat", 201⟩ : Line).offset ∧
            subU32 208 (toU32 (⟨ws "cat", 201⟩ : Line).offset) =
              208 - (⟨ws "cat", 201⟩ : Line).offset) :=
  ⟨by decide, by decide,
    scan_long_first_headword Prims.plain skipsBlank (Scan.start []) ⟨List.replicate 200 97, 0⟩
      ⟨ws "cat", 201⟩ ⟨ws "\tx", 205⟩ [] 208 (by intro _ _ h; cases h) (by decide) (by decide)
      (by decide) (by simp)⟩

set_option maxRecDepth 20000 in
/-- C14 fails as stated: the headword line has 200 characters and the line
after it, of 150 characters, is shorter; both are passed over, the body line
finds no article open, and nothing is indexed. -/
theorem scan_two_long_headwords :
    (List.replicate 150 98).length < (List.replicate 200 97).length ∧
      (scanArticles Prims.plain skipsBlank [] twoLongSource 355).addedWords = [] ∧
      (scanArticles Prims.plain skipsBlank [] twoLongSource 355).articles = [] ∧
      (scanArticles Prims.plain skipsBlank [] twoLongSource 355).chunks = [] := by
  decide

end Dsl
namespace Dsl

/-! ### Where the headwords of a card come from -/

/-- C29, evaluation: in the article of `staleSource` the line `@a` (offset 2)
is followed at once by the closing line `@`; no card is recorded for it and
its headword stays in `insidedHeadwords`.  The card of the line `@b`, recorded
with offset 12 and size 7, carries the headwords `a` and `b`, and `a` is
indexed to the block of that card (address 1), although the line `@a` lies
outside the range from 12 to 19. -/
theorem scanArticles_staleSource :
    (scanArticles Prims.plain skipsBlank [] staleSource 19).articles =
        [⟨0, 19, [⟨12, 7, [ws "a", ws "b"]⟩]⟩] ∧
      (scanArticles Prims.plain skipsBlank [] staleSource 19).addedWords =
        [(ws "w", 0), (ws "a", 1), (ws "b", 1)] ∧
      (scanArticles Prims.plain skipsBlank [] staleSource 19).chunks = [[12, 7], [0, 19]] ∧
      ¬ (12 ≤ 2 ∧ 2 < 12 + 7) := by
  decide

end Dsl
namespace Dsl

/-! ### Embedded cards lie within their article, one after another -/

theorem cardsWithin_mono (cards : List InsidedCard) :
    ∀ (lo hi hi2 : Nat), CardsWithin lo cards hi → hi ≤ hi2 → CardsWithin lo cards hi2 := by
  induction cards with
  | nil => intro lo hi hi2 h1 h2; exact Nat.le_trans h1 h2
  | cons card cards ih => intro lo hi hi2 h1 h2; exact ⟨h1.1, ih _ _ _ h1.2 h2⟩

theorem cardsWithin_append (card : InsidedCard) (cards : List InsidedCard) :
    ∀ lo : Nat, CardsWithin lo cards card.offset →
      CardsWithin lo (cards ++ [card]) (card.offset + card.size) := by
  induction cards with
  | nil => intro lo h; exact ⟨h, Nat.le_refl _⟩
  | cons c cards ih => intro lo h; exact ⟨h.1, ih _ h.2⟩

theorem cardsWithin_bounds (cards : List InsidedCard) :
    ∀ (lo hi : Nat), CardsWithin lo cards hi →
      lo ≤ hi ∧ (∀ c ∈ cards, lo ≤ c.offset ∧ c.offset + c.size ≤ hi) ∧
        cards.Chain' fun c d => c.offset + c.size ≤ d.offset := by
  induction cards with
  | nil => intro lo hi h; exact ⟨h, by simp, List.chain'_nil⟩
  | cons card cards ih =>
    intro lo hi h
    obtain ⟨k1, k2, k3⟩ := ih _ _ h.2
    refine ⟨by have := h.1; omega, ?_, ?_⟩
    · intro c hc
      rcases List.mem_cons.mp hc with rfl | hc
      · exact ⟨h.1, by omega⟩
      · have := k2 c hc
        exact ⟨by have := h.1; omega, this.2⟩
    · rw [List.chain'_cons']
      refine ⟨?_, k3⟩
      intro d hd
      have hmem : d ∈ cards := List.mem_of_mem_head? hd
      exact (k2 d hmem).1

/-- A line of the body at an offset not before the line read last keeps the
cards closed between the start of the article and the variable `offset`. -/
theorem bodyStep_ranges (P : Prims) (v : BodyVars) (line : Line) (cur : Nat)
    (h1 : v.offset ≤ cur) (h2 : CardsWithin v.articleOffset v.insidedCards v.offset)
    (h3 : cur ≤ line.offset) (h4 : line.offset < 2 ^ 32) :
    (bodyStep P v line).offset ≤ line.offset ∧
      CardsWithin (bodyStep P v line).articleOffset (bodyStep P v line).insidedCards
        (bodyStep P v line).offset := by
  have hu : toU32 line.offset = line.offset := toU32_of_lt _ h4
  have hs : subU32 line.offset v.offset = line.offset - v.offset :=
    subU32_of_le _ _ (by omega) h4
  have hle : v.offset ≤ line.offset := by omega
  have hpush : CardsWithin v.articleOffset
      (v.insidedCards ++ [⟨v.offset, subU32 line.offset v.offset, v.insidedHeadwords⟩])
      line.offset := by
    have := cardsWithin_append ⟨v.offset, subU32 line.offset v.offset, v.insidedHeadwords⟩
      v.insidedCards v.articleOffset h2
    simp only [hs] at this ⊢
    rw [show v.offset + (line.offset - v.offset) = line.offset by omega] at this
    exact this
  have hmove : CardsWithin v.articleOffset v.insidedCards line.offset :=
    cardsWithin_mono _ _ _ _ h2 hle
  unfold bodyStep
  simp only [hu]
  split
  · split <;> exact ⟨hle, h2⟩
  · split
    · split <;> exact ⟨hle, h2⟩
    · split
      · split <;> exact ⟨hle, h2⟩
      · by_cases hin : v.insideInsided = true
        · by_cases hl : v.linesInsideCard = 0
          · simp only [hin, hl, if_true, bne_self_eq_false, Bool.false_eq_true, if_false]
            split <;> exact ⟨hle, h2⟩
          · have hl2 : (v.linesInsideCard != 0) = true := by simpa using hl
            simp only [hin, hl2, if_true]
            split <;> exact ⟨Nat.le_refl _, hpush⟩
        · simp only [hin, Bool.false_eq_true, if_false]
          split <;> exact ⟨Nat.le_refl _, hmove⟩

theorem rangesInv_of_le (cur cur2 : Nat) (s : Scan) (h : RangesInv cur s) (hle : cur ≤ cur2) :
    RangesInv cur2 s := by
  unfold RangesInv at h ⊢
  refine ⟨h.1, ?_⟩
  have h2 := h.2
  split
  · trivial
  · rename_i hphase
    simp only [hphase] at h2
    omega
  · rename_i v hphase
    simp only [hphase] at h2
    exact ⟨by omega, h2.2⟩

theorem mainLine_ranges (P : Prims) (s : Scan) (line : Line)
    (harts : ∀ a ∈ s.articles,
      CardsWithin a.articleOffset a.insidedCards (a.articleOffset + a.articleSize))
    (h4 : line.offset < 2 ^ 32) : RangesInv line.offset (mainLine P s line) := by
  unfold mainLine
  split
  · exact ⟨harts, trivial⟩
  · split
    · exact ⟨harts, trivial⟩
    · refine ⟨harts, ?_⟩
      simp only [toU32_of_lt _ h4]
      exact Nat.le_refl _

theorem bodyLine_ranges (P : Prims) (s : Scan) (v : BodyVars) (line : Line) (cur : Nat)
    (hphase : s.phase = .body v) (h : RangesInv cur s) (h3 : cur ≤ line.offset)
    (h4 : line.offset < 2 ^ 32) : RangesInv line.offset (bodyLine P s v line) := by
  unfold bodyLine
  split
  · exact rangesInv_of_le _ _ _ h h3
  · have h2 := h.2
    simp only [hphase] at h2
    exact ⟨h.1, bodyStep_ranges P v line cur h2.1 h2.2 h3 h4⟩

theorem closedCards_ranges (v : BodyVars) (curOffset : Nat) (h1 : v.offset ≤ curOffset)
    (h2 : CardsWithin v.articleOffset v.insidedCards v.offset) (h4 : curOffset < 2 ^ 32) :
    CardsWithin v.articleOffset (closedCards v curOffset)
      (v.articleOffset + subU32 curOffset v.articleOffset) := by
  have hlo : v.articleOffset ≤ v.offset := (cardsWithin_bounds _ _ _ h2).1
  rw [subU32_of_le _ _ (by omega) h4,
    show v.articleOffset + (curOffset - v.articleOffset) = curOffset by omega]
  unfold closedCards
  split
  · have := cardsWithin_append ⟨v.offset, subU32 curOffset v.offset, v.insidedHeadwords⟩
      v.insidedCards v.articleOffset h2
    simp only [subU32_of_le _ _ h1 h4] at this ⊢
    rw [show v.offset + (curOffset - v.offset) = curOffset by omega] at this
    exact this
  · exact cardsWithin_mono _ _ _ _ h2 h1

theorem finishArticle_ranges (P : Prims) (s : Scan) (v : BodyVars) (curOffset cur : Nat)
    (hphase : s.phase = .body v) (h : RangesInv cur s) (h3 : cur ≤ curOffset)
    (h4 : curOffset < 2 ^ 32) :
    ∀ a ∈ (finishArticle P s v curOffset).articles,
      CardsWithin a.articleOffset a.insidedCards (a.articleOffset + a.articleSize) := by
  have h2 := h.2
  simp only [hphase] at h2
  rw [finishArticle_articles]
  intro a ha
  rcases List.mem_append.mp ha with ha | ha
  · exact h.1 a ha
  · rw [List.mem_singleton] at ha
    subst ha
    exact closedCards_ranges v curOffset (by omega) h2.2 h4

theorem scanLine_ranges (P : Prims) (skipped : wstring → Bool) (s : Scan) (line : Line)
    (cur : Nat) (h : RangesInv cur s) (h3 : cur ≤ line.offset) (h4 : line.offset < 2 ^ 32) :
    RangesInv line.offset (scanLine P skipped s line) := by
  unfold scanLine
  split
  · rename_i hphase
    split
    · exact rangesInv_of_le _ _ _ h h3
    · exact mainLine_ranges P s line h.1 h4
  · rename_i allEntryWords articleOffset hphase
    have h2 := h.2
    simp only [hphase] at h2
    split
    · exact rangesInv_of_le _ _ _ h h3
    · split
      · unfold beginArticle
        simp only [Chunks.startNewBlock, toU32_of_lt _ h4]
        have hstart : RangesInv line.offset
            { s with chunks := Chunks.addToBlock ([] :: s.chunks) articleOffset,
                     addedWords := s.addedWords ++
                       (normalizedWords P allEntryWords).map fun w => (w, s.chunks.length),
                     articleCount := toU32 (s.articleCount + 1),
                     wordCount := toU32 (s.wordCount + (normalizedWords P allEntryWords).length),
                     phase := .body
                       { allEntryWords := normalizedWords P allEntryWords,
                         articleOffset := articleOffset, insideInsided := false,
                         insidedCards := [], offset := line.offset, insidedHeadwords := [],
                         linesInsideCard := 0 } } :=
          ⟨h.1, Nat.le_refl _, by show articleOffset ≤ line.offset; omega⟩
        split
        · exact bodyLine_ranges P _ _ line line.offset rfl hstart (Nat.le_refl _) h4
        · exact hstart
      · exact ⟨h.1, by show articleOffset ≤ line.offset; omega⟩
  · rename_i v hphase
    split
    · exact mainLine_ranges P _ line
        (finishArticle_ranges P s v line.offset cur hphase h h3 h4) h4
    · exact bodyLine_ranges P s v line cur hphase h h3 h4

theorem scanLines_ranges (P : Prims) (skipped : wstring → Bool) (eofOffset : Nat)
    (lines : List Line) :
    ∀ (s : Scan) (cur : Nat), RangesInv cur s → cur ≤ eofOffset →
      (∀ line ∈ lines, cur ≤ line.offset ∧ line.offset ≤ eofOffset) → eofOffset < 2 ^ 32 →
      lines.Pairwise (fun a b => a.offset ≤ b.offset) →
      ∃ last, last ≤ eofOffset ∧ RangesInv last (lines.foldl (scanLine P skipped) s) := by
  induction lines with
  | nil => intro s cur h hcur _ _ _; exact ⟨cur, hcur, h⟩
  | cons line lines ih =>
    intro s cur h hcur hall hsmall hsorted
    have hl := hall line (by simp)
    rw [List.pairwise_cons] at hsorted
    rw [List.foldl_cons]
    exact ih _ line.offset (scanLine_ranges P skipped s line cur h hl.1 (by omega)) hl.2
      (fun l hm => ⟨hsorted.1 l hm, (hall l (by simp [hm])).2⟩) hsmall hsorted.2

/-- C28 (amended): when the offsets the scanner reports are non-decreasing
and the offset of the end of the file is below `2^32`, every embedded card of
every article recorded starts at the offset of its article or later and ends
at the end of the article or before, and each card ends where the next one
starts or before. -/
theorem scanArticles_cards_nested (P : Prims) (skipped : wstring → Bool) (chunks : Chunks)
    (lines : List Line) (eofOffset : Nat)
    (hsorted : lines.Pairwise (fun a b => a.offset ≤ b.offset))
    (heof : ∀ line ∈ lines, line.offset ≤ eofOffset) (hsmall : eofOffset < 2 ^ 32) :
    ∀ a ∈ (scanArticles P skipped chunks lines eofOffset).articles,
      (∀ c ∈ a.insidedCards, a.articleOffset ≤ c.offset ∧
        c.offset + c.size ≤ a.articleOffset + a.articleSize) ∧
      a.insidedCards.Chain' fun c d => c.offset + c.size ≤ d.offset := by
  have hstart : RangesInv 0
      { chunks := chunks, addedWords := [], articleCount := 0, wordCount := 0, articles := [],
        phase := .main } := ⟨by simp, trivial⟩
  obtain ⟨last, hlast, hinv⟩ := scanLines_ranges P skipped eofOffset lines _ 0 hstart
    (Nat.zero_le _) (fun l hm => ⟨Nat.zero_le _, heof l hm⟩) hsmall hsorted
  have hall : ∀ a ∈ (scanArticles P skipped chunks lines eofOffset).articles,
      CardsWithin a.articleOffset a.insidedCards (a.articleOffset + a.articleSize) := by
    unfold scanArticles scanEnd
    split
    · exact hinv.1
    · exact hinv.1
    · rename_i v hphase
      exact finishArticle_ranges P _ v eofOffset last hphase hinv hlast hsmall
  intro a ha
  have hb := cardsWithin_bounds _ _ _ (hall a ha)
  exact ⟨hb.2.1, hb.2.2⟩

/-- C28, witness: the article `w` with the cards `b, c` and `d`. -/
theorem scanArticles_cards_nested_witness :
    (scanArticles Prims.plain skipsBlank [] (⟨ws "w", 0⟩ :: ⟨ws "\t@b", 2⟩ :: threeCardLines)
        20).articles = [⟨0, 20, [⟨2, 11, [ws "b", ws "c"]⟩, ⟨13, 7, [ws "d"]⟩]⟩] ∧
      ∀ a ∈ (scanArticles Prims.plain skipsBlank []
          (⟨ws "w", 0⟩ :: ⟨ws "\t@b", 2⟩ :: threeCardLines) 20).articles,
        (∀ c ∈ a.insidedCards, a.articleOffset ≤ c.offset ∧
          c.offset + c.size ≤ a.articleOffset + a.articleSize) ∧
        a.insidedCards.Chain' fun c d => c.offset + c.size ≤ d.offset :=
  ⟨by decide,
    scanArticles_cards_nested Prims.plain skipsBlank []
      (⟨ws "w", 0⟩ :: ⟨ws "\t@b", 2⟩ :: threeCardLines) 20 (by decide) (by decide)
      (by decide)⟩

/-- C28 fails as stated: in a source that crosses `2^32` bytes, with
offsets that increase, the article `w` is recorded with the offset
`2^32 - 2` and its card `a` with the offset 1, which is before the
article. -/
theorem scanArticles_card_before_article :
    crossingSource.Pairwise (fun a b => a.offset ≤ b.offset) ∧
      (∀ line ∈ crossingSource, line.offset ≤ 2 ^ 32 + 7) ∧
      (scanArticles Prims.plain skipsBlank [] crossingSource (2 ^ 32 + 7)).articles =
        [⟨2 ^ 32 - 2, 9, [⟨1, 6, [ws "a"]⟩]⟩] ∧
      ¬ (2 ^ 32 - 2 ≤ 1) := by
  decide

end Dsl
namespace Dsl

/-! ### The body loop reads `curString[ n - 1 ]` inside the line -/

theorem bodyStepChecked_eq (P : Prims) (v : BodyVars) (line : Line)
    (hw : isDslWs (charAt line.text 0) = true) :
    bodyStepChecked P v line = some (bodyStep P v line) := by
  unfold bodyStepChecked
  cases hf : findChar line.text 64 0 with
  | none => rfl
  | some n =>
    obtain ⟨k1, k2⟩ := findChar_at_of_blank line.text n hw hf
    simp only [if_pos k1, readAt_of_lt _ _ k2, Option.map_some']

theorem bodyLineChecked_eq (P : Prims) (s : Scan) (v : BodyVars) (line : Line)
    (h : line.text.isEmpty = true ∨ isDslWs (charAt line.text 0) = true) :
    bodyLineChecked P s v line = some (bodyLine P s v line) := by
  unfold bodyLineChecked bodyLine
  by_cases he : line.text.isEmpty = true
  · simp only [he, if_true]
  · have hw : isDslWs (charAt line.text 0) = true := by
      rcases h with h | h
      · exact absurd h he
      · exact h
    simp only [he, Bool.false_eq_true, if_false, bodyStepChecked_eq P v line hw,
      Option.map_some']

theorem beginArticleChecked_eq (P : Prims) (s : Scan) (allEntryWords : List wstring)
    (articleOffset : Nat) (line : Line) (hw : isDslWs (charAt line.text 0) = true) :
    beginArticleChecked P s allEntryWords articleOffset line =
      some (beginArticle P s allEntryWords articleOffset line) := by
  unfold beginArticleChecked beginArticle
  simp only [Chunks.startNewBlock]
  split
  · exact bodyLineChecked_eq P _ _ line (Or.inr hw)
  · rfl

theorem scanLineChecked_eq (P : Prims) (skipped : wstring → Bool) (s : Scan) (line : Line) :
    scanLineChecked P skipped s line = some (scanLine P skipped s line) := by
  unfold scanLineChecked scanLine
  split
  · rfl
  · rename_i allEntryWords articleOffset hphase
    by_cases he : line.text.isEmpty = true
    · simp only [he, if_true]
    · simp only [he, Bool.false_eq_true, if_false]
      by_cases hw : isDslWs (charAt line.text 0) = true
      · simp only [hw, if_true]
        exact beginArticleChecked_eq P s allEntryWords articleOffset line hw
      · simp only [hw, Bool.false_eq_true, if_false]
  · rename_i v hphase
    by_cases hnew : (!line.text.isEmpty && !isDslWs (charAt line.text 0)) = true
    · simp only [hnew, if_true]
    · simp only [hnew, Bool.false_eq_true, if_false]
      apply bodyLineChecked_eq
      cases he : line.text.isEmpty with
      | true => exact Or.inl rfl
      | false =>
        cases hw : isDslWs (charAt line.text 0) with
        | true => exact Or.inr rfl
        | false => simp [he, hw] at hnew

theorem scanLinesChecked_eq (P : Prims) (skipped : wstring → Bool) (lines : List Line) :
    ∀ s : Scan, lines.foldlM (scanLineChecked P skipped) s =
      some (lines.foldl (scanLine P skipped) s) := by
  induction lines with
  | nil => intro s; rfl
  | cons line lines ih =>
    intro s
    rw [List.foldlM_cons, scanLineChecked_eq]
    exact ih _

/-- C27: `loadArticle` raises exactly when the article text is empty, and
then it is `articleData.at( 0 )` that throws; the placeholder of a failed
read is never empty.  For a text that is not empty it returns, the checked
function returning the same: the header walk comes to an end and no index is
outside its string.  Every round of the walk begins inside the text, moves
to a position beyond the one it began with and not beyond the end of the
text, and the loop goes round again only from a position inside the text.
In a line that starts with a blank the
first `@` is not at index zero, so `str[ hpos - 1 ]` is read with `hpos` at
least 1, and the article scan reads `curString[ n - 1 ]` inside the line. -/
theorem loadArticle_safe :
    (∀ (P : Prims) (read : ArticleRead) (requestedHeadwordFolded : wstring)
        (ignoreDiacritics : Bool) (tildeValue displayedHeadword : wstring),
      ((∃ e, loadArticle P read requestedHeadwordFolded ignoreDiacritics tildeValue
          displayedHeadword = .error e) ↔ articleDataOf read = []) ∧
      (articleDataOf read = [] →
        loadArticle P read requestedHeadwordFolded ignoreDiacritics tildeValue
          displayedHeadword = .error .outOfRange) ∧
      (articleDataOf read ≠ [] →
        ∃ r, loadArticle P read requestedHeadwordFolded ignoreDiacritics tildeValue
            displayedHeadword = .ok r ∧
          loadArticleChecked P read requestedHeadwordFolded ignoreDiacritics tildeValue
            displayedHeadword = .ok r)) ∧
    (∀ errorStr : wstring, articleDataOf (.failed errorStr) ≠ []) ∧
    (∀ (P : Prims) (insidedCard : Bool) (articleData : wstring) (begin : Nat),
      begin < articleData.length →
      begin < (advance P insidedCard articleData
          ((findFirstOf articleData [10, 13] begin).getD articleData.length)).1 ∧
      (advance P insidedCard articleData
          ((findFirstOf articleData [10, 13] begin).getD articleData.length)).1 ≤
        articleData.length ∧
      ((advance P insidedCard articleData
          ((findFirstOf articleData [10, 13] begin).getD articleData.length)).2 = true →
        (advance P insidedCard articleData
          ((findFirstOf articleData [10, 13] begin).getD articleData.length)).1 <
          articleData.length)) ∧
    (∀ (str : wstring) (hpos : Nat), isDslWs (charAt str 0) = true →
      findChar str 64 0 = some hpos → 1 ≤ hpos ∧ hpos - 1 < str.length) ∧
    (∀ (P : Prims) (skipped : wstring → Bool) (chunks : Chunks) (lines : List Line)
        (eofOffset : Nat),
      scanArticlesChecked P skipped chunks lines eofOffset =
        some (scanArticles P skipped chunks lines eofOffset)) := by
  refine ⟨?_, ?_, walk_round_strict, findChar_at_of_blank, ?_⟩
  · intro P read requestedHeadwordFolded ignoreDiacritics tildeValue displayedHeadword
    have hempty : articleDataOf read = [] →
        loadArticle P read requestedHeadwordFolded ignoreDiacritics tildeValue
          displayedHeadword = .error .outOfRange := by
      intro h
      unfold loadArticle
      simp only [h]
    have hfull : articleDataOf read ≠ [] →
        ∃ r, loadArticle P read requestedHeadwordFolded ignoreDiacritics tildeValue
            displayedHeadword = .ok r ∧
          loadArticleChecked P read requestedHeadwordFolded ignoreDiacritics tildeValue
            displayedHeadword = .ok r := by
      intro h
      unfold loadArticle loadArticleChecked
      cases hd : articleDataOf read with
      | nil => exact absurd hd h
      | cons first rest =>
        simp only
        obtain ⟨w, hw, hpos⟩ := headerWalk_terminates P (isDslWs first) ignoreDiacritics
          requestedHeadwordFolded (first :: rest) ((first :: rest).length + 1)
          { pos := 0, hadFirstHeadword := false, foundDisplayedHeadword := false,
            headwordIndex := 0, tildeValue := tildeValue, tildeValueWithUnsorted := [],
            displayedHeadword := displayedHeadword } (Nat.zero_le _) (by simp)
        rw [headerWalkChecked_eq P (isDslWs first) ignoreDiacritics requestedHeadwordFolded
          (first :: rest) _ _ (Nat.zero_le _), hw]
        simp only [if_pos hpos]
        exact ⟨_, rfl, rfl⟩
    refine ⟨⟨?_, fun h => ⟨_, hempty h⟩⟩, hempty, hfull⟩
    rintro ⟨e, he⟩
    by_contra hne
    obtain ⟨r, hr, _⟩ := hfull hne
    rw [hr] at he
    cases he
  · intro errorStr
    simp [articleDataOf]
  · intro P skipped chunks lines eofOffset
    unfold scanArticlesChecked scanArticles
    rw [scanLinesChecked_eq]
    rfl

end Dsl
namespace Dsl

/-! ### The file name filter -/

theorem bytes_dsl : bytes ".dsl" = [46, 100, 115, 108] := rfl

theorem bytes_dsl_dz : bytes ".dsl.dz" = [46, 100, 115, 108, 46, 100, 122] := rfl

theorem bytes_abrv : bytes "_abrv" = [95, 97, 98, 114, 118] := rfl

theorem toLowerByte_ne_zero (c : Byte) (h : toLowerByte c ≠ 0) : c ≠ 0 := by
  intro hc
  rw [hc] at h
  exact h (by decide)

theorem cString_eq_self (t : ByteString) (h : ∀ c ∈ t, c ≠ 0) : cString t = t := by
  unfold cString
  rw [List.takeWhile_eq_self_iff]
  intro c hc
  simpa using h c hc

theorem cString_length_le (t : ByteString) : (cString t).length ≤ t.length := by
  unfold cString
  exact (List.takeWhile_sublist _).length_le

theorem cString_eq_of_length (t : ByteString) (h : t.length ≤ (cString t).length) :
    cString t = t := by
  induction t with
  | nil => rfl
  | cons c t ih =>
    unfold cString at h ih ⊢
    rw [List.takeWhile_cons] at h ⊢
    split
    · rename_i hc
      rw [if_pos hc] at h
      simp only [List.length_cons, Nat.add_le_add_iff_right] at h
      rw [ih h]
    · rename_i hc
      rw [if_neg hc] at h
      simp at h

theorem take_cString (n : Nat) (t : ByteString) : (cString t).take n = cString (t.take n) := by
  induction t generalizing n with
  | nil => simp [cString]
  | cons c t ih =>
    cases n with
    | zero => simp [cString]
    | succ n =>
      unfold cString at ih ⊢
      rw [List.take_succ_cons, List.takeWhile_cons, List.takeWhile_cons]
      split
      · rw [List.take_succ_cons, ih]
      · rfl

/-- Against a literal without zero byte and at least as long, the C string
compares as the bytes do. -/
theorem cString_map_eq_iff (u l : ByteString) (hl : ∀ c ∈ l, c ≠ 0) (hlen : u.length ≤ l.length) :
    (cString u).map toLowerByte = l ↔ u.map toLowerByte = l := by
  constructor
  · intro h
    have h1 : (cString u).length = l.length := by rw [← h, List.length_map]
    rw [cString_eq_of_length u (by omega)] at h
    exact h
  · intro h
    rw [cString_eq_self u]
    · exact h
    · intro c hc
      apply toLowerByte_ne_zero
      apply hl
      rw [← h]
      exact List.mem_map_of_mem _ hc

/-- The executable form of `EndsWithNoCase`: the last bytes of the name,
lowered, are the suffix. -/
theorem endsWithNoCase_iff (name l : ByteString) :
    EndsWithNoCase name l ↔
      l.length ≤ name.length ∧ (name.drop (name.length - l.length)).map toLowerByte = l := by
  constructor
  · rintro ⟨stem, ext, rfl, h⟩
    have hlen : ext.length = l.length := by rw [← h, List.length_map]
    refine ⟨by rw [List.length_append]; omega, ?_⟩
    have : (stem ++ ext).length - l.length = stem.length := by
      rw [List.length_append]; omega
    rw [this, List.drop_left]
    exact h
  · rintro ⟨_, h⟩
    exact ⟨name.take (name.length - l.length), name.drop (name.length - l.length),
      (List.take_append_drop _ _).symm, h⟩

/-- The comparison `strcasecmp( fileName.c_str() + ( fileName.size() - k ), l ) == 0`
against a lower-case literal `l` of length `k` without zero byte. -/
theorem strcasecmpEq_tail (name l : ByteString) (hl : ∀ c ∈ l, c ≠ 0)
    (hlow : l.map toLowerByte = l) (hge : l.length ≤ name.length) :
    strcasecmpEq (name.drop (name.length - l.length)) l = true ↔
      (name.drop (name.length - l.length)).map toLowerByte = l := by
  unfold strcasecmpEq
  rw [cString_eq_self l hl, hlow, beq_iff_eq]
  apply cString_map_eq_iff _ _ hl
  rw [List.length_drop]
  omega

/-- The comparison `strncasecmp( fileName.c_str() + fileName.size() - extSize - 5,
"_abrv", 5 ) == 0`, for a name of at least `extSize + 5` bytes: the stem ends
in `_abrv`. -/
theorem strncasecmpEq_abrv (name : ByteString) (k : Nat) (hge : k + 5 ≤ name.length) :
    strncasecmpEq (name.drop (name.length - k - 5)) (bytes "_abrv") 5 = true ↔
      EndsWithNoCase (name.take (name.length - k)) (bytes "_abrv") := by
  rw [bytes_abrv]
  have hl : ∀ c ∈ ([95, 97, 98, 114, 118] : ByteString), c ≠ 0 := by simp
  have h5 : ([95, 97, 98, 114, 118] : ByteString).length = 5 := rfl
  rw [endsWithNoCase_iff, h5, List.length_take]
  unfold strncasecmpEq
  rw [take_cString, take_cString, beq_iff_eq]
  have hlit : (cString (([95, 97, 98, 114, 118] : ByteString).take 5)).map toLowerByte =
      [95, 97, 98, 114, 118] := by decide
  rw [hlit, cString_map_eq_iff _ _ hl (by rw [h5]; exact List.length_take_le _ _)]
  have hmin : min (name.length - k) name.length = name.length - k := by omega
  have hdt : (name.take (name.length - k)).drop (name.length - k - 5) =
      (name.drop (name.length - k - 5)).take 5 := by
    rw [List.drop_take]
    congr 1
    omega
  rw [hmin, hdt]
  constructor
  · intro h
    exact ⟨by omega, h⟩
  · intro h
    exact h.2

theorem uncompressedDsl_iff (name : ByteString) :
    (decide (name.length ≥ 4) &&
        strcasecmpEq (name.drop (name.length - 4)) (bytes ".dsl")) = true ↔
      EndsWithNoCase name (bytes ".dsl") := by
  rw [endsWithNoCase_iff, bytes_dsl, Bool.and_eq_true, decide_eq_true_eq]
  have h4 : ([46, 100, 115, 108] : ByteString).length = 4 := rfl
  rw [h4]
  constructor
  · rintro ⟨h1, h2⟩
    exact ⟨h1, (strcasecmpEq_tail name [46, 100, 115, 108] (by simp) (by decide) h1).1 h2⟩
  · rintro ⟨h1, h2⟩
    exact ⟨h1, (strcasecmpEq_tail name [46, 100, 115, 108] (by simp) (by decide) h1).2 h2⟩

theorem compressedDsl_iff (name : ByteString) :
    (decide (name.length < 7) ||
        !strcasecmpEq (name.drop (name.length - 7)) (bytes ".dsl.dz")) = false ↔
      EndsWithNoCase name (bytes ".dsl.dz") := by
  rw [endsWithNoCase_iff, bytes_dsl_dz, Bool.or_eq_false_iff, decide_eq_false_iff_not,
    Bool.not_eq_false']
  have h7 : ([46, 100, 115, 108, 46, 100, 122] : ByteString).length = 7 := rfl
  rw [h7]
  constructor
  · rintro ⟨h1, h2⟩
    have h1 : 7 ≤ name.length := by omega
    exact ⟨h1,
      (strcasecmpEq_tail name [46, 100, 115, 108, 46, 100, 122] (by simp) (by decide) h1).1 h2⟩
  · rintro ⟨h1, h2⟩
    exact ⟨by omega,
      (strcasecmpEq_tail name [46, 100, 115, 108, 46, 100, 122] (by simp) (by decide) h1).2 h2⟩

theorem abrvStem_iff (name : ByteString) (k : Nat) (hk : k ≤ name.length) :
    (decide (name.length - k ≥ 5) &&
        strncasecmpEq (name.drop (name.length - k - 5)) (bytes "_abrv") 5) = true ↔
      EndsWithNoCase (name.take (name.length - k)) (bytes "_abrv") := by
  by_cases h : name.length - k ≥ 5
  · rw [Bool.and_eq_true, decide_eq_true_eq]
    rw [strncasecmpEq_abrv name k (by omega)]
    exact ⟨fun h2 => h2.2, fun h2 => ⟨h, h2⟩⟩
  · constructor
    · intro h2
      rw [Bool.and_eq_true, decide_eq_true_eq] at h2
      exact absurd h2.1 h
    · intro h2
      rw [endsWithNoCase_iff, bytes_abrv, List.length_take] at h2
      have := h2.1
      simp only [List.length_cons, List.length_nil] at this
      omega

/-- The stem of a name that ends in a suffix of `k` bytes. -/
theorem stem_eq_take (name stem ext l : ByteString) (h : name = stem ++ ext)
    (hext : ext.map toLowerByte = l) : stem = name.take (name.length - l.length) := by
  have hlen : ext.length = l.length := by rw [← hext, List.length_map]
  rw [h, List.length_append, hlen, Nat.add_sub_cancel, List.take_left]

/-- No name ends both in `.dsl` and in `.dsl.dz`. -/
theorem not_dsl_and_dz (name : ByteString) (h4 : EndsWithNoCase name (bytes ".dsl"))
    (h7 : EndsWithNoCase name (bytes ".dsl.dz")) : False := by
  rw [endsWithNoCase_iff, bytes_dsl] at h4
  rw [endsWithNoCase_iff, bytes_dsl_dz] at h7
  obtain ⟨_, h4⟩ := h4
  obtain ⟨h7l, h7⟩ := h7
  simp only [List.length_cons, List.length_nil, Nat.zero_add, Nat.reduceAdd] at h4 h7 h7l
  have hd : name.drop (name.length - 4) = (name.drop (name.length - 7)).drop 3 := by
    rw [List.drop_drop]
    congr 1
    omega
  rw [hd, List.map_drop, h7] at h4
  revert h4
  decide

theorem bool_eq_false_of_not_iff {b : Bool} {p : Prop} (h : b = true ↔ p) (hp : ¬ p) :
    b = false := by
  cases b
  · rfl
  · exact absurd (h.1 rfl) hp

theorem candidateExtSize_dsl (name : ByteString) (h4 : EndsWithNoCase name (bytes ".dsl")) :
    (EndsWithNoCase (name.take (name.length - 4)) (bytes "_abrv") →
        candidateExtSize name = none) ∧
      (¬ EndsWithNoCase (name.take (name.length - 4)) (bytes "_abrv") →
        candidateExtSize name = some 4) := by
  have u := (uncompressedDsl_iff name).2 h4
  have hk : 4 ≤ name.length := by
    rw [endsWithNoCase_iff, bytes_dsl] at h4
    exact h4.1
  constructor
  · intro ha
    have a := (abrvStem_iff name 4 hk).2 ha
    unfold candidateExtSize
    simp only [u, a, Bool.not_true, Bool.false_and, if_true, Bool.false_eq_true, if_false]
  · intro ha
    have a := bool_eq_false_of_not_iff (abrvStem_iff name 4 hk) ha
    unfold candidateExtSize
    simp only [u, a, Bool.not_true, Bool.false_and, if_true, Bool.false_eq_true, if_false]

theorem candidateExtSize_dsl_dz (name : ByteString)
    (h7 : EndsWithNoCase name (bytes ".dsl.dz")) :
    (EndsWithNoCase (name.take (name.length - 7)) (bytes "_abrv") →
        candidateExtSize name = none) ∧
      (¬ EndsWithNoCase (name.take (name.length - 7)) (bytes "_abrv") →
        candidateExtSize name = some 7) := by
  have u := bool_eq_false_of_not_iff (uncompressedDsl_iff name)
    (fun h4 => not_dsl_and_dz name h4 h7)
  have z := (compressedDsl_iff name).2 h7
  have hk : 7 ≤ name.length := by
    rw [endsWithNoCase_iff, bytes_dsl_dz] at h7
    exact h7.1
  constructor
  · intro ha
    have a := (abrvStem_iff name 7 hk).2 ha
    unfold candidateExtSize
    simp only [u, z, a, Bool.not_false, Bool.true_and, if_true, Bool.false_eq_true, if_false]
  · intro ha
    have a := bool_eq_false_of_not_iff (abrvStem_iff name 7 hk) ha
    unfold candidateExtSize
    simp only [u, z, a, Bool.not_false, Bool.true_and, if_true, Bool.false_eq_true, if_false]

theorem candidateExtSize_other (name : ByteString)
    (h4 : ¬ EndsWithNoCase name (bytes ".dsl")) (h7 : ¬ EndsWithNoCase name (bytes ".dsl.dz")) :
    candidateExtSize name = none := by
  have u := bool_eq_false_of_not_iff (uncompressedDsl_iff name) h4
  have z : (decide (name.length < 7) ||
      !strcasecmpEq (name.drop (name.length - 7)) (bytes ".dsl.dz")) = true := by
    cases hz : (decide (name.length < 7) ||
      !strcasecmpEq (name.drop (name.length - 7)) (bytes ".dsl.dz"))
    · exact absurd ((compressedDsl_iff name).1 hz) h7
    · rfl
  unfold candidateExtSize
  simp only [u, z, Bool.not_false, Bool.true_and, if_true]

theorem toLowerByte_val (c : Byte) :
    (toLowerByte c).val = if 65 ≤ c.val ∧ c.val ≤ 90 then c.val + 32 else c.val := by
  unfold toLowerByte
  split
  · rename_i h
    rw [Fin.val_add]
    have : (32 : Byte).val = 32 := rfl
    rw [this]
    omega
  · rfl

theorem toLowerByte_eq_dot (c : Byte) (h : toLowerByte c = 46) : c = 46 := by
  have hv := toLowerByte_val c
  rw [h] at hv
  have : (46 : Byte).val = 46 := rfl
  rw [this] at hv
  apply Fin.ext
  rw [this]
  split at hv <;> omega

theorem toLowerByte_l_ne_dot (c : Byte) (h : toLowerByte c = 108) : c ≠ 46 := by
  intro hc
  rw [hc] at h
  revert h
  decide

theorem toByte_dot : Utf8.toByte 46 = 46 := rfl

theorem baseNameOf_dsl (stem ext : ByteString) (h : ext.map toLowerByte = bytes ".dsl") :
    baseNameOf (stem ++ ext) = stem := by
  rw [bytes_dsl] at h
  rcases ext with _ | ⟨a, _ | ⟨b, _ | ⟨c, _ | ⟨d, _ | ⟨e, r⟩⟩⟩⟩⟩ <;>
    simp only [List.map_cons, List.map_nil, List.cons.injEq, and_true, reduceCtorEq,
      and_false] at h
  have ha := toLowerByte_eq_dot a h.1
  subst ha
  have hn : (stem ++ [46, b, c, d]).length - 4 = stem.length := by simp
  unfold baseNameOf
  rw [hn, List.getD_append_right _ _ _ _ (Nat.le_refl _), Nat.sub_self, toByte_dot]
  simp

theorem baseNameOf_dsl_dz (stem ext : ByteString) (h : ext.map toLowerByte = bytes ".dsl.dz") :
    baseNameOf (stem ++ ext) = stem := by
  rw [bytes_dsl_dz] at h
  rcases ext with _ | ⟨a, _ | ⟨b, _ | ⟨c, _ | ⟨d, _ | ⟨e, _ | ⟨f, _ | ⟨g, _ | ⟨x, r⟩⟩⟩⟩⟩⟩⟩⟩ <;>
    simp only [List.map_cons, List.map_nil, List.cons.injEq, and_true, reduceCtorEq,
      and_false] at h
  have hd := toLowerByte_l_ne_dot d h.2.2.2.1
  have hn : (stem ++ [a, b, c, d, e, f, g]).length - 4 = stem.length + 3 := by simp
  have hm : (stem ++ [a, b, c, d, e, f, g]).length - 7 = stem.length := by simp
  unfold baseNameOf
  rw [hn, hm, List.getD_append_right _ _ _ _ (Nat.le_add_right _ _), Nat.add_sub_cancel_left,
    toByte_dot]
  simp [hd]

/-- C16: `makeDictionaries` takes a file name for a candidate exactly when the
name is a stem followed by an extension that is `.dsl` or `.dsl.dz` up to
letter case, and the stem does not end in `_abrv` up to letter case; the
`try` block is then entered with that stem as `baseName`.  Every other name
is passed over by one of the two `continue` of lines 1855 and 1864, before
any scanner is made or file looked for. -/
theorem fileStep_candidate_iff (fileName : ByteString) :
    (∀ stem ext, fileName = stem ++ ext ∧
        (ext.map toLowerByte = bytes ".dsl" ∨ ext.map toLowerByte = bytes ".dsl.dz") ∧
        ¬ EndsWithNoCase stem (bytes "_abrv") → fileStep fileName = .candidate stem) ∧
      ((¬ ∃ stem ext, fileName = stem ++ ext ∧
        (ext.map toLowerByte = bytes ".dsl" ∨ ext.map toLowerByte = bytes ".dsl.dz") ∧
        ¬ EndsWithNoCase stem (bytes "_abrv")) → fileStep fileName = .skipped) := by
  constructor
  · rintro stem ext ⟨hname, hext, hstem⟩
    unfold fileStep
    rcases hext with hext | hext
    · have hs := stem_eq_take fileName stem ext _ hname hext
      rw [bytes_dsl] at hs
      simp only [List.length_cons, List.length_nil, Nat.zero_add, Nat.reduceAdd] at hs
      rw [hs] at hstem
      rw [(candidateExtSize_dsl fileName ⟨stem, ext, hname, hext⟩).2 hstem, hname,
        baseNameOf_dsl stem ext hext]
    · have hs := stem_eq_take fileName stem ext _ hname hext
      rw [bytes_dsl_dz] at hs
      simp only [List.length_cons, List.length_nil, Nat.zero_add, Nat.reduceAdd] at hs
      rw [hs] at hstem
      rw [(candidateExtSize_dsl_dz fileName ⟨stem, ext, hname, hext⟩).2 hstem, hname,
        baseNameOf_dsl_dz stem ext hext]
  · intro hno
    unfold fileStep
    have hnone : candidateExtSize fileName = none := by
      by_cases h4 : EndsWithNoCase fileName (bytes ".dsl")
      · by_cases ha : EndsWithNoCase (fileName.take (fileName.length - 4)) (bytes "_abrv")
        · exact (candidateExtSize_dsl fileName h4).1 ha
        · exfalso
          obtain ⟨stem, ext, hname, hext⟩ := h4
          apply hno
          refine ⟨stem, ext, hname, Or.inl hext, ?_⟩
          have hs := stem_eq_take fileName stem ext _ hname hext
          rw [bytes_dsl] at hs
          simp only [List.length_cons, List.length_nil, Nat.zero_add, Nat.reduceAdd] at hs
          rw [hs]
          exact ha
      · by_cases h7 : EndsWithNoCase fileName (bytes ".dsl.dz")
        · by_cases ha : EndsWithNoCase (fileName.take (fileName.length - 7)) (bytes "_abrv")
          · exact (candidateExtSize_dsl_dz fileName h7).1 ha
          · exfalso
            obtain ⟨stem, ext, hname, hext⟩ := h7
            apply hno
            refine ⟨stem, ext, hname, Or.inr hext, ?_⟩
            have hs := stem_eq_take fileName stem ext _ hname hext
            rw [bytes_dsl_dz] at hs
            simp only [List.length_cons, List.length_nil, Nat.zero_add, Nat.reduceAdd] at hs
            rw [hs]
            exact ha
        · exact candidateExtSize_other fileName h4 h7
    rw [hnone]

/-- The filter on four names: `a.dsl` and `A.DSL.DZ` are candidates with
base name `a` and `A`, `a_abrv.dsl` and `a.txt` are passed over. -/
theorem fileStep_examples :
    fileStep (bytes "a.dsl") = .candidate (bytes "a") ∧
      fileStep (bytes "A.DSL.DZ") = .candidate (bytes "A") ∧
      fileStep (bytes "a_abrv.dsl") = .skipped ∧
      fileStep (bytes "a.txt") = .skipped := by
  refine ⟨?_, ?_, ?_, ?_⟩ <;> rfl

end Dsl
namespace Utf8

/-! ### Encoding names -/

theorem toUpperByte_val (c : Byte) :
    (toUpperByte c).val = if 97 ≤ c.val ∧ c.val ≤ 122 then c.val - 32 else c.val := by
  unfold toUpperByte
  split
  · rename_i h
    rw [Fin.sub_def]
    have : (32 : Byte).val = 32 := rfl
    simp only [this]
    omega
  · rfl

/-- A byte that `toUpper` leaves alone comes back from its lower-case form. -/
theorem toUpperByte_toLowerByte (c : Byte) (h : toUpperByte c = c) :
    toUpperByte (Dsl.toLowerByte c) = c := by
  have h1 := toUpperByte_val c
  rw [h] at h1
  have h2 := Dsl.toLowerByte_val c
  have h3 := toUpperByte_val (Dsl.toLowerByte c)
  apply Fin.ext
  split at h1 <;> split at h2 <;> split at h3 <;> omega

/-- Upper-casing a spelling of an upper-case name gives the name. -/
theorem map_toUpperByte_of_sameUpToCase (name variant : Dsl.ByteString)
    (hname : ∀ c ∈ name, toUpperByte c = c) (h : SameUpToCase name variant) :
    variant.map toUpperByte = name := by
  unfold SameUpToCase at h
  induction name generalizing variant with
  | nil =>
    cases h
    rfl
  | cons c name ih =>
    cases h with
    | cons hcv hrest =>
      have hc := hname c (List.mem_cons_self _ _)
      rw [List.map_cons, ih _ (fun x hx => hname x (List.mem_cons_of_mem _ hx)) hrest]
      rcases hcv with rfl | rfl
      · rw [hc]
      · rw [toUpperByte_toLowerByte c hc]

set_option maxRecDepth 8000 in
theorem getEncodingNameFor_upper (e : Encoding) :
    ∀ c ∈ getEncodingNameFor (some e), toUpperByte c = c := by
  cases e <;> decide

/-- C17: for each of the eight encodings `e`, `getEncodingForName` gives `e`
back from the name `getEncodingNameFor` gives for `e`, in any letter case;
and the integer stored in the header for `e` selects, at load time, the
name of `e` (the values `code` of the enumerators being distinct). -/
theorem getEncodingForName_getEncodingNameFor (code : Encoding → Int)
    (hcode : Function.Injective code) (e : Encoding) (name : Dsl.ByteString)
    (hname : SameUpToCase (getEncodingNameFor (some e)) name) :
    getEncodingForName name = e ∧
      getEncodingNameFor (encodingOfTag code (code e)) = getEncodingNameFor (some e) := by
  constructor
  · have h := map_toUpperByte_of_sameUpToCase _ name (getEncodingNameFor_upper e) hname
    unfold getEncodingForName
    simp only [h]
    cases e <;> rfl
  · have hfind : encodingOfTag code (code e) = some e := by
      unfold encodingOfTag allEncodings
      have hiff : ∀ x, (code x == code e) = decide (x = e) := by
        intro x
        by_cases hx : x = e
        · simp [hx]
        · have : code x ≠ code e := fun hh => hx (hcode hh)
          simp [hx, this]
      simp only [hiff]
      cases e <;> rfl
    rw [hfind]

/-- The name `utf-16le`, in lower case, for the encoding `Utf16LE`, with the
numbering `exampleCode` of the enumerators. -/
theorem getEncodingForName_getEncodingNameFor_witness :
    getEncodingForName (Dsl.bytes "utf-16le") = .Utf16LE ∧
      getEncodingNameFor (encodingOfTag exampleCode (exampleCode .Utf16LE)) =
        getEncodingNameFor (some .Utf16LE) :=
  getEncodingForName_getEncodingNameFor exampleCode
    (by intro a b h; cases a <;> cases b <;> first | rfl | exact absurd h (by decide))
    .Utf16LE (Dsl.bytes "utf-16le")
    (by
      unfold SameUpToCase
      decide)

end Utf8
namespace Dsl

/-! ### Cancelling an article request -/

theorem articleLoop_finished (E : RequestEnv) (word : wstring) (links : List Nat) :
    ∀ (k : Nat) (included : List (Nat × Nat)) (nom : Nat) (r : DataRequest),
      (articleLoop E word links k included nom r).finished = true ∧
        (articleLoop E word links k included nom r).errorString = r.errorString := by
  induction links with
  | nil => intro k included nom r; exact ⟨rfl, rfl⟩
  | cons x rest ih =>
    intro k included nom r
    unfold articleLoop
    split
    · exact ⟨rfl, rfl⟩
    · split
      · exact ih _ _ _ _
      · split
        · exact ih _ _ _ _
        · exact ih _ _ _ _

/-- When the flag is first seen set by the load for the link number `n + 1`
of those left, the loop ends as the loop over the `n` first links does for
a request that is not cancelled. -/
theorem articleLoop_cancelled (E : RequestEnv) (word : wstring) (links : List Nat) :
    ∀ (n k : Nat) (included : List (Nat × Nat)) (nom : Nat) (r : DataRequest),
      n < links.length → (∀ j, j < n → E.isCancelled (k + j) = false) →
      E.isCancelled (k + n) = true →
      articleLoop E word links k included nom r =
        articleLoop E.uncancelled word (links.take n) k included nom r := by
  induction links with
  | nil => intro n k included nom r hn; simp at hn
  | cons x rest ih =>
    intro n k included nom r hn hbefore hat
    cases n with
    | zero =>
      unfold articleLoop
      simp only [Nat.add_zero] at hat
      simp only [hat, if_true, List.take_zero]
    | succ n =>
      have h0 : E.isCancelled k = false := by simpa using hbefore 0 (by omega)
      have hrest : ∀ (included : List (Nat × Nat)) (nom : Nat) (r : DataRequest),
          articleLoop E word rest (k + 1) included nom r =
            articleLoop E.uncancelled word (rest.take n) (k + 1) included nom r := by
        intro included nom r
        apply ih n (k + 1) included nom r (by simpa using hn)
        · intro j hj
          have := hbefore (j + 1) (by omega)
          rw [← this]
          congr 1
          omega
        · rw [← hat]
          congr 1
          omega
      rw [List.take_succ_cons]
      unfold articleLoop
      simp only [h0, Bool.false_eq_true, if_false, RequestEnv.uncancelled, hrest]
      rfl

/-- The loop does not look at the member `chain` of its environment. -/
theorem articleLoop_chain (E : RequestEnv) (chain : List Nat) (word : wstring)
    (links : List Nat) :
    ∀ (k : Nat) (included : List (Nat × Nat)) (nom : Nat) (r : DataRequest),
      articleLoop { E with chain := chain } word links k included nom r =
        articleLoop E word links k included nom r := by
  induction links with
  | nil => intro k included nom r; rfl
  | cons x rest ih =>
    intro k included nom r
    unfold articleLoop
    simp only [ih]
    rfl

/-- C22, as amended: when the flag is first seen set by the load `k` (the load
0 before the start, the load `k` before the `k`-th article of the chain),
the request finishes with no error string and with the articles before the
`k`-th appended, as the request that is not cancelled does for the first
`k - 1` links of the chain; it has no data when `k` is 0 or 1. -/
theorem runArticleRequest_cancelled (E : RequestEnv) (word : wstring) (articleNom k : Nat)
    (hk : E.isCancelled k = true) (hbefore : ∀ j, j < k → E.isCancelled j = false)
    (hreach : k = 0 ∨ (E.ensureInitDone = [] ∧ k ≤ E.chain.length)) :
    (runArticleRequest E word articleNom).finished = true ∧
      (runArticleRequest E word articleNom).errorString = none ∧
      (k ≤ 1 → (runArticleRequest E word articleNom).data = [] ∧
        (runArticleRequest E word articleNom).hasAnyData = false) ∧
      (1 ≤ k → runArticleRequest E word articleNom =
        runArticleRequest { E.uncancelled with chain := E.chain.take (k - 1) } word
          articleNom) := by
  cases k with
  | zero =>
    have hrun : runArticleRequest E word articleNom =
        { data := [], hasAnyData := false, errorString := none, finished := true } := by
      unfold runArticleRequest
      simp only [hk, if_true]
    rw [hrun]
    exact ⟨rfl, rfl, fun _ => ⟨rfl, rfl⟩, fun h => absurd h (by omega)⟩
  | succ n =>
    have h0 : E.isCancelled 0 = false := hbefore 0 (by omega)
    have hinit : E.ensureInitDone = [] ∧ n + 1 ≤ E.chain.length := by
      rcases hreach with h | h
      · omega
      · exact h
    have hloop := articleLoop_cancelled E word E.chain n 1 [] articleNom
      { data := [], hasAnyData := false, errorString := none, finished := false }
      (by omega)
      (fun j hj => by rw [Nat.add_comm]; exact hbefore (j + 1) (by omega))
      (by rw [Nat.add_comm]; exact hk)
    have hrun : runArticleRequest E word articleNom =
        articleLoop E.uncancelled word (E.chain.take n) 1 [] articleNom
          { data := [], hasAnyData := false, errorString := none, finished := false } := by
      unfold runArticleRequest
      simp only [h0, Bool.false_eq_true, if_false, hinit.1, List.isEmpty_nil, Bool.not_true]
      exact hloop
    have hfin := articleLoop_finished E.uncancelled word (E.chain.take n) 1 [] articleNom
      { data := [], hasAnyData := false, errorString := none, finished := false }
    refine ⟨by rw [hrun]; exact hfin.1, by rw [hrun]; exact hfin.2, ?_, ?_⟩
    · intro hle
      have hn : n = 0 := by omega
      subst hn
      rw [hrun]
      exact ⟨rfl, rfl⟩
    · intro _
      rw [hrun]
      unfold runArticleRequest
      simp only [RequestEnv.uncancelled, Bool.false_eq_true, if_false, hinit.1,
        List.isEmpty_nil, Bool.not_true, Nat.add_sub_cancel]
      exact (articleLoop_chain _ _ word _ 1 [] articleNom _).symm

/-- C22, witness: the request `catRequest 2`, whose flag is first seen set
before the second article of the chain. -/
theorem runArticleRequest_cancelled_witness :
    (runArticleRequest (catRequest 2) (ws "cat") 0).finished = true ∧
      (runArticleRequest (catRequest 2) (ws "cat") 0).errorString = none ∧
      (2 ≤ 1 → (runArticleRequest (catRequest 2) (ws "cat") 0).data = [] ∧
        (runArticleRequest (catRequest 2) (ws "cat") 0).hasAnyData = false) ∧
      (1 ≤ 2 → runArticleRequest (catRequest 2) (ws "cat") 0 =
        runArticleRequest
          { (catRequest 2).uncancelled with chain := (catRequest 2).chain.take (2 - 1) }
          (ws "cat") 0) :=
  runArticleRequest_cancelled (catRequest 2) (ws "cat") 0 2 rfl
    (fun j hj => by
      have : j = 0 ∨ j = 1 := by omega
      rcases this with rfl | rfl <;> rfl)
    (Or.inr ⟨rfl, by decide⟩)

/-- C22 fails as stated: in the request `catRequest 2` the flag is seen set
at a sampling point, the load before the second article of the chain; the
request finishes with the first article appended and `hasAnyData` true. -/
theorem runArticleRequest_cancelled_midway :
    (catRequest 2).isCancelled 2 = true ∧
      runArticleRequest (catRequest 2) (ws "cat") 0 =
        { data := bytes "\tbody\n", hasAnyData := true, errorString := none,
          finished := true } := by
  decide

end Dsl
namespace Dsl

/-! ### The order in which a resource is looked for -/

/-- The files are tried in the order of `triedPaths`, each next one only
when the one before cannot be opened; the archive is tried only when none of
the three can be opened, and whatever else happens ends the search. -/
theorem loadResource_eq (E : ResourceEnv) (resourceName : ByteString) :
    loadResource E resourceName =
      match firstOutcome E (triedPaths E resourceName) with
      | .loaded data => .ok data
      | .raised => .error ()
      | .cantOpen =>
        if E.zipIsOpen then
          match Utf8.decodeString resourceName with
          | .error _ => .error ()
          | .ok name =>
            match E.zipLoadFile name with
            | none => .error ()
            | some data => .ok data
        else .error () := by
  unfold loadResource triedPaths firstOutcome firstOutcome firstOutcome firstOutcome
  simp only
  cases E.loadFromFile (E.containingFolder ++ E.separator ++ resourceName) with
  | raised => rfl
  | loaded c => rfl
  | cantOpen =>
    simp only
    cases E.loadFromFile (E.resourceDir1 ++ resourceName) with
    | raised => rfl
    | loaded c => rfl
    | cantOpen =>
      simp only
      cases E.loadFromFile (E.resourceDir2 ++ resourceName) with
      | raised => rfl
      | loaded c => rfl
      | cantOpen => rfl

theorem firstOutcome_withZip (E : ResourceEnv) (zipIsOpen : Bool)
    (zipLoadFile : wstring → Option ByteString) (resourceName : ByteString) :
    firstOutcome (E.withZip zipIsOpen zipLoadFile)
        (triedPaths (E.withZip zipIsOpen zipLoadFile) resourceName) =
      firstOutcome E (triedPaths E resourceName) := by
  unfold triedPaths firstOutcome firstOutcome firstOutcome firstOutcome
  rfl

/-- C21 (amended): a request that is not cancelled, for a dictionary that is
initialised and a resource that is not a TIFF image.  The files of the
containing folder, of `<name>.files/` and of `<stem>.files/` are tried in
that order, each next one only when the one before cannot be opened.  When
the first file that does not fail so is loaded, its content is the data,
whatever the archive is; when it fails with another error, the request
finishes without data, whatever the archive is.  When none of the three can
be opened, the entry of the open archive is the data, and the request
finishes without data when the archive is closed, the name cannot be
decoded or the archive has no such entry. -/
theorem runResourceRequest_order (E : ResourceEnv) (resourceName : ByteString)
    (hcancel : E.isCancelled = false) (hinit : E.ensureInitDone = [])
    (htiff : E.isNameOfTiff resourceName = false) :
    (∀ content, firstOutcome E (triedPaths E resourceName) = .loaded content →
      ∀ zipIsOpen zipLoadFile,
        runResourceRequest (E.withZip zipIsOpen zipLoadFile) resourceName =
          { data := content, hasAnyData := true, errorString := none, finished := true }) ∧
    (firstOutcome E (triedPaths E resourceName) = .raised →
      ∀ zipIsOpen zipLoadFile,
        runResourceRequest (E.withZip zipIsOpen zipLoadFile) resourceName =
          { data := [], hasAnyData := false, errorString := none, finished := true }) ∧
    (firstOutcome E (triedPaths E resourceName) = .cantOpen →
      (∀ name data, E.zipIsOpen = true → Utf8.decodeString resourceName = .ok name →
        E.zipLoadFile name = some data →
        runResourceRequest E resourceName =
          { data := data, hasAnyData := true, errorString := none, finished := true }) ∧
      ((E.zipIsOpen = false ∨ (∃ e, Utf8.decodeString resourceName = .error e) ∨
          ∀ name, Utf8.decodeString resourceName = .ok name → E.zipLoadFile name = none) →
        runResourceRequest E resourceName =
          { data := [], hasAnyData := false, errorString := none, finished := true })) := by
  refine ⟨?_, ?_, ?_⟩
  · intro content h zipIsOpen zipLoadFile
    unfold runResourceRequest
    rw [loadResource_eq, firstOutcome_withZip, h]
    simp [ResourceEnv.withZip, hcancel, hinit, htiff]
  · intro h zipIsOpen zipLoadFile
    unfold runResourceRequest
    rw [loadResource_eq, firstOutcome_withZip, h]
    simp [ResourceEnv.withZip, hcancel, hinit]
  · intro h
    refine ⟨?_, ?_⟩
    · intro name data hopen hname hentry
      unfold runResourceRequest
      rw [loadResource_eq, h]
      simp [hcancel, hinit, htiff, hopen, hname, hentry]
    · intro hzip
      unfold runResourceRequest
      rw [loadResource_eq, h]
      rcases hzip with hclosed | ⟨e, herr⟩ | hlacks
      · simp [hcancel, hinit, hclosed]
      · simp [hcancel, hinit, herr]
      · cases hname : Utf8.decodeString resourceName with
        | error e => simp [hcancel, hinit, hname]
        | ok name => simp [hcancel, hinit, hname, hlacks name hname]

/-- C21, witness: for the dictionary with the two files the file of the
containing folder is the data, whatever the archive; when that file is
opened and fails to be read, the request finishes without data, whatever the
archive, though `<name>.files/` holds the resource. -/
theorem runResourceRequest_order_witness :
    firstOutcome twoFilesEnv (triedPaths twoFilesEnv (bytes "a.png")) = .loaded (bytes "B") ∧
    (∀ zipIsOpen zipLoadFile,
      runResourceRequest (twoFilesEnv.withZip zipIsOpen zipLoadFile) (bytes "a.png") =
        { data := bytes "B", hasAnyData := true, errorString := none, finished := true }) ∧
    firstOutcome brokenFileEnv (triedPaths brokenFileEnv (bytes "a.png")) = .raised ∧
    (∀ zipIsOpen zipLoadFile,
      runResourceRequest (brokenFileEnv.withZip zipIsOpen zipLoadFile) (bytes "a.png") =
        { data := [], hasAnyData := false, errorString := none, finished := true }) :=
  ⟨by decide,
    (runResourceRequest_order twoFilesEnv (bytes "a.png") rfl rfl rfl).1 (bytes "B")
      (by decide),
    by decide,
    (runResourceRequest_order brokenFileEnv (bytes "a.png") rfl rfl rfl).2.1 (by decide)⟩

/-- C21, counterexample: with a file `a.png` holding `A` in `<name>.files/`
and a file `a.png` holding `B` in the containing folder, the first file that
exists in the order of the specification holds `A`, and the request returns
`B`. -/
theorem runResourceRequest_prefers_containing_folder :
    firstLoaded twoFilesEnv (specPaths twoFilesEnv (bytes "a.png")) = some (bytes "A") ∧
    runResourceRequest twoFilesEnv (bytes "a.png") =
      { data := bytes "B", hasAnyData := true, errorString := none, finished := true } := by
  decide

end Dsl
namespace Dsl

/-! ### Text nodes -/

theorem findByte_none (ch : Byte) (s : ByteString) (h : findByte ch s = none) : ch ∉ s := by
  induction s with
  | nil => simp
  | cons c rest ih =>
    unfold findByte at h
    split at h
    · cases h
    · rename_i hc
      cases hr : findByte ch rest with
      | some k => rw [hr] at h; cases h
      | none =>
        intro hmem
        rcases List.mem_cons.1 hmem with rfl | hmem
        · simp at hc
        · exact ih hr hmem

theorem findByte_some (ch : Byte) (s : ByteString) (n : Nat) (h : findByte ch s = some n) :
    ∃ pre post, s = pre ++ ch :: post ∧ pre.length = n ∧ ch ∉ pre := by
  induction s generalizing n with
  | nil => cases h
  | cons c rest ih =>
    unfold findByte at h
    split at h
    · rename_i hc
      cases h
      exact ⟨[], rest, by simp [eq_of_beq hc], rfl, by simp⟩
    · rename_i hc
      cases hr : findByte ch rest with
      | none => rw [hr] at h; cases h
      | some k =>
        rw [hr] at h
        cases h
        obtain ⟨pre, post, hs, hlen, hno⟩ := ih k hr
        refine ⟨c :: pre, post, by rw [hs]; rfl, by simp [hlen], ?_⟩
        intro hmem
        rcases List.mem_cons.1 hmem with rfl | hmem
        · simp at hc
        · exact hno hmem

/-- The first loop ends, with every carriage return removed. -/
theorem stripCr_eq (fuel : Nat) :
    ∀ result : ByteString, result.count 13 < fuel →
      stripCr fuel result = some (result.filter fun b => b != 13) := by
  induction fuel with
  | zero => intro result h; omega
  | succ fuel ih =>
    intro result h
    unfold stripCr
    cases hf : findByte 13 result with
    | none =>
      have hno := findByte_none 13 result hf
      simp only
      congr 1
      symm
      rw [List.filter_eq_self]
      intro b hb
      simp only [bne_iff_ne, ne_eq]
      intro hb13
      exact hno (hb13 ▸ hb)
    | some n =>
      obtain ⟨pre, post, hs, hlen, hno⟩ := findByte_some 13 result n hf
      subst hlen
      simp only
      have ht : result.take pre.length ++ result.drop (pre.length + 1) = pre ++ post := by
        rw [hs]
        simp
      rw [ht, ih]
      · rw [hs]
        simp
      · rw [hs] at h
        simp only [List.count_append, List.count_cons_self] at h ⊢
        omega

theorem bytes_p : bytes "<p></p>" = [60, 112, 62, 60, 47, 112, 62] := rfl

/-- The second loop ends, with every line feed replaced. -/
theorem replaceLf_eq (fuel : Nat) :
    ∀ result : ByteString, result.count 10 < fuel →
      replaceLf fuel result =
        some (result.flatMap fun b => if b == 10 then bytes "<p></p>" else [b]) := by
  induction fuel with
  | zero => intro result h; omega
  | succ fuel ih =>
    intro result h
    unfold replaceLf
    cases hf : findByte 10 result with
    | none =>
      have hno := findByte_none 10 result hf
      simp only
      congr 1
      have hall : ∀ l : ByteString, (10 : Byte) ∉ l →
          l = l.flatMap fun b => if b == 10 then bytes "<p></p>" else [b] := by
        intro l
        induction l with
        | nil => intro _; rfl
        | cons c l ihl =>
          intro hl
          have hc : (c == 10) = false := by
            rw [beq_eq_false_iff_ne]
            intro hc
            exact hl (hc ▸ List.mem_cons_self _ _)
          rw [List.flatMap_cons, hc, ← ihl (fun hm => hl (List.mem_cons_of_mem _ hm))]
          rfl
      exact hall result hno
    | some n =>
      obtain ⟨pre, post, hs, hlen, hno⟩ := findByte_some 10 result n hf
      subst hlen
      simp only
      have ht : result.take pre.length ++ bytes "<p></p>" ++ result.drop (pre.length + 1) =
          pre ++ bytes "<p></p>" ++ post := by
        rw [hs]
        simp
      rw [ht, ih]
      · rw [hs, bytes_p]
        simp only [List.flatMap_append, List.flatMap_cons, List.append_assoc]
        rfl
      · rw [hs] at h
        rw [bytes_p]
        simp only [List.count_append, List.count_cons_self] at h ⊢
        have : List.count (10 : Byte) [60, 112, 62, 60, 47, 112, 62] = 0 := by decide
        omega

theorem endOfLineHtml_flatMap (result : ByteString) :
    ((result.filter fun b => b != 13).flatMap
        fun b => if b == 10 then bytes "<p></p>" else [b]) =
      result.flatMap endOfLineHtml := by
  induction result with
  | nil => rfl
  | cons c rest ih =>
    rw [List.flatMap_cons, ← ih]
    unfold endOfLineHtml
    by_cases hc : c = 13
    · subst hc
      rfl
    · have h1 : (c != 13) = true := by simpa using hc
      have h2 : (c == 13) = false := by simpa using hc
      simp only [List.filter_cons, h1, h2, if_true, List.flatMap_cons, Bool.false_eq_true,
        if_false]

/-- C18: for a text node `nodeToHtml` returns `Html::escape( Utf8::encode(
text ) )` with every carriage return removed and every line feed replaced by
`<p></p>`; both loops end, whatever the escaped text is, the counter
`optionalPartNom` is left as it was, and the string returned has neither a
carriage return nor a line feed. -/
theorem nodeToHtml_text (R : Renderer) (tagName tagAttrs text : wstring) (children : List Node)
    (optionalPartNom : Nat) :
    nodeToHtml R (.mk false tagName tagAttrs text children) optionalPartNom =
        .ok ((R.escape (Utf8.encode text)).flatMap endOfLineHtml, optionalPartNom) ∧
      (13 : Byte) ∉ (R.escape (Utf8.encode text)).flatMap endOfLineHtml ∧
      (10 : Byte) ∉ (R.escape (Utf8.encode text)).flatMap endOfLineHtml := by
  refine ⟨?_, ?_, ?_⟩
  · unfold nodeToHtml
    simp only [Bool.not_false, if_true]
    rw [stripCr_eq _ _ (Nat.lt_succ_of_le (List.count_le_length _ _))]
    simp only
    rw [replaceLf_eq _ _ (Nat.lt_succ_of_le (List.count_le_length _ _)), endOfLineHtml_flatMap]
  · rw [List.mem_flatMap]
    rintro ⟨b, _, hb⟩
    unfold endOfLineHtml at hb
    split at hb
    · cases hb
    · split at hb
      · rw [bytes_p] at hb
        revert hb
        decide
      · rename_i h13 _
        rw [List.mem_singleton] at hb
        rw [← hb] at h13
        exact h13 rfl
  · rw [List.mem_flatMap]
    rintro ⟨b, _, hb⟩
    unfold endOfLineHtml at hb
    split at hb
    · cases hb
    · split at hb
      · rw [bytes_p] at hb
        revert hb
        decide
      · rename_i _ h10
        rw [List.mem_singleton] at hb
        rw [← hb] at h10
        exact h10 rfl

end Dsl
namespace Dsl

/-! ### The colour tag -/

/-- C19, as amended: a `c` tag that carries a colour attribute is rendered as
a `font` element, `<font color="` + the escaped attribute + `">` around the
rendered children, not as a span; a `c` tag without attribute is rendered
as `<span class="c_default_color">` around the rendered children. -/
theorem nodeToHtml_c (R : Renderer) (tagAttrs text : wstring) (children : List Node)
    (optionalPartNom : Nat) :
    nodeToHtml R (.mk true (ws "c") tagAttrs text children) optionalPartNom =
      match processNodeChildren R children optionalPartNom with
      | .error e => .error e
      | .ok (inner, n) =>
        if tagAttrs.isEmpty then
          .ok (bytes "<span class=\"c_default_color\">" ++ inner ++ bytes "</span>", n)
        else
          .ok (bytes "<font color=\"" ++ R.escape (Utf8.encode tagAttrs) ++ bytes "\">" ++
            inner ++ bytes "</font>", n) := by
  unfold nodeToHtml
  have hb : (ws "c" == ws "b") = false := by decide
  have hi : (ws "c" == ws "i") = false := by decide
  have hu : (ws "c" == ws "u") = false := by decide
  have hc : (ws "c" == ws "c") = true := by decide
  simp only [Bool.not_true, Bool.false_eq_true, if_false, hb, hi, hu, hc, if_true, wrapChildren]
  cases processNodeChildren R children optionalPartNom with
  | error e => split <;> rfl
  | ok r => split <;> rfl

/-- C19 fails as stated: the tag `[c red]x[/c]` is rendered as
`<font color="red">x</font>`, which is not a span element. -/
theorem nodeToHtml_c_is_font :
    nodeToHtml Renderer.plain redNode 0 = .ok (bytes "<font color=\"red\">x</font>", 0) ∧
      ¬ (bytes "<span").isPrefixOf (bytes "<font color=\"red\">x</font>") = true := by
  constructor
  · rfl
  · decide

end Dsl
namespace Dsl

/-! ### Unknown tags, and rendering without exception -/

/-- A tag that is not recognised goes through the whole chain of comparisons
of `nodeToHtml` to its last branch. -/
theorem nodeToHtml_unknown (R : Renderer) (tagName tagAttrs text : wstring)
    (children : List Node) (optionalPartNom : Nat) (h : recognisedTag tagName = false) :
    nodeToHtml R (.mk true tagName tagAttrs text children) optionalPartNom =
      match processNodeChildren R children optionalPartNom with
      | .error e => .error e
      | .ok (inner, n) =>
        .ok (bytes "<span class=\"dsl_unknown\">[" ++ R.qUtf8 tagName ++
          (if !tagAttrs.isEmpty then bytes " " ++ R.qUtf8 tagAttrs else []) ++ bytes "]" ++
          inner ++ bytes "</span>", n) := by
  have hne : ∀ name : wstring, recognisedTag name = true → (tagName == name) = false := by
    intro name hname
    rw [beq_eq_false_iff_ne]
    intro heq
    rw [heq, hname] at h
    cases h
  have hm : (tagName.length == 2 && charAt tagName 0 == 109 &&
      (decide (48 ≤ charAt tagName 1) && decide (charAt tagName 1 ≤ 57))) = false := by
    cases hcond : (tagName.length == 2 && charAt tagName 0 == 109 &&
      (decide (48 ≤ charAt tagName 1) && decide (charAt tagName 1 ≤ 57)))
    · rfl
    · exfalso
      simp only [Bool.and_eq_true, beq_iff_eq, decide_eq_true_eq] at hcond
      obtain ⟨⟨hlen, h0⟩, h1, h2⟩ := hcond
      match tagName, hlen with
      | [a, d], _ =>
        simp only [charAt, List.getD_cons_zero, List.getD_cons_succ] at h0 h1 h2
        subst h0
        have : recognisedTag [109, d] = true := by
          simp [recognisedTag, structuralTag, marginTag, h1, h2]
        rw [this] at h
        cases h
  unfold nodeToHtml
  simp only [Bool.not_true, Bool.false_eq_true, if_false, hm, Bool.or_eq_true,
    hne (ws "b") (by decide), hne (ws "i") (by decide), hne (ws "u") (by decide),
    hne (ws "c") (by decide), hne (ws "*") (by decide), hne (ws "m") (by decide),
    hne (ws "trn") (by decide), hne (ws "ex") (by decide), hne (ws "com") (by decide),
    hne (ws "s") (by decide), hne (ws "video") (by decide), hne (ws "url") (by decide),
    hne (ws "!trs") (by decide), hne (ws "p") (by decide), hne [39] (by decide),
    hne (ws "lang") (by decide), hne (ws "ref") (by decide), hne (ws "@") (by decide),
    hne (ws "sub") (by decide), hne (ws "sup") (by decide), hne (ws "t") (by decide),
    hne (ws "br") (by decide), or_self, wrapChildren]

theorem exists_ok_ite {α : Type} (c : Prop) [Decidable c] (a b : Except RenderError α)
    (ha : ∃ r, a = .ok r) (hb : ∃ r, b = .ok r) : ∃ r, (if c then a else b) = .ok r := by
  split
  · exact ha
  · exact hb

/-- A structural tag whose children are rendered (with the counter as it is
and with the counter raised by one) is rendered. -/
theorem nodeToHtml_structural (R : Renderer) (tagName tagAttrs text : wstring)
    (children : List Node) (optionalPartNom : Nat) (h : structuralTag tagName = true)
    (hc : ∀ n, ∃ r, processNodeChildren R children n = .ok r) :
    ∃ r, nodeToHtml R (.mk true tagName tagAttrs text children) optionalPartNom = .ok r := by
  obtain ⟨⟨inner, n1⟩, h1⟩ := hc optionalPartNom
  obtain ⟨⟨inner2, n2⟩, h2⟩ := hc (optionalPartNom + 1)
  have hne : ∀ name : wstring, structuralTag name = false → (tagName == name) = false := by
    intro name hname
    rw [beq_eq_false_iff_ne]
    intro heq
    rw [heq, hname] at h
    cases h
  unfold nodeToHtml
  simp only [Bool.not_true, Bool.false_eq_true, if_false, Bool.or_eq_true,
    hne (ws "s") (by decide), hne (ws "video") (by decide), hne (ws "url") (by decide),
    hne (ws "p") (by decide), hne (ws "lang") (by decide), hne (ws "ref") (by decide),
    hne (ws "@") (by decide), or_self, wrapChildren, h1, h2]
  repeat' (first | exact ⟨_, rfl⟩ | apply exists_ok_ite)

mutual

/-- A plain tree is rendered, whatever the counter. -/
theorem nodeToHtml_plainTree (R : Renderer) :
    ∀ (node : Node) (n : Nat), plainTree node = true → ∃ r, nodeToHtml R node n = .ok r
  | .mk false tagName tagAttrs text children, n, _ =>
    ⟨_, (nodeToHtml_text R tagName tagAttrs text children n).1⟩
  | .mk true tagName tagAttrs text children, n, h => by
    unfold plainTree at h
    simp only [Bool.not_true, Bool.false_or, Bool.and_eq_true, Bool.or_eq_true,
      Bool.not_eq_true'] at h
    obtain ⟨hk, hch⟩ := h
    have hc : ∀ m, ∃ r, processNodeChildren R children m = .ok r :=
      fun m => processNodeChildren_plainTrees R children m hch
    rcases hk with hk | hk
    · exact nodeToHtml_structural R tagName tagAttrs text children n hk hc
    · obtain ⟨⟨inner, n1⟩, h1⟩ := hc n
      rw [nodeToHtml_unknown R tagName tagAttrs text children n hk, h1]
      exact ⟨_, rfl⟩

/-- A list of plain trees is rendered, whatever the counter. -/
theorem processNodeChildren_plainTrees (R : Renderer) :
    ∀ (children : List Node) (n : Nat), plainTrees children = true →
      ∃ r, processNodeChildren R children n = .ok r
  | [], n, _ => ⟨_, by unfold processNodeChildren; rfl⟩
  | i :: rest, n, h => by
    unfold plainTrees at h
    rw [Bool.and_eq_true] at h
    obtain ⟨⟨html, n1⟩, h1⟩ := nodeToHtml_plainTree R i n h.1
    obtain ⟨⟨result, n2⟩, h2⟩ := processNodeChildren_plainTrees R rest n1 h.2
    unfold processNodeChildren
    rw [h1]
    simp only
    rw [h2]
    exact ⟨_, rfl⟩

end

/-- C20: a tag whose name is not recognised is rendered as `<span
class="dsl_unknown">[` + name + (a space and the attributes when there are
any) + `]` + the rendering of its children + `</span>`; and `nodeToHtml` and
`processNodeChildren` return a result, without raising, on every tree built
from text nodes, unknown tags and the structural tags. -/
theorem nodeToHtml_unknown_and_plain (R : Renderer) :
    (∀ (tagName tagAttrs text : wstring) (children : List Node) (optionalPartNom : Nat),
      recognisedTag tagName = false →
      nodeToHtml R (.mk true tagName tagAttrs text children) optionalPartNom =
        match processNodeChildren R children optionalPartNom with
        | .error e => .error e
        | .ok (inner, n) =>
          .ok (bytes "<span class=\"dsl_unknown\">[" ++ R.qUtf8 tagName ++
            (if !tagAttrs.isEmpty then bytes " " ++ R.qUtf8 tagAttrs else []) ++ bytes "]" ++
            inner ++ bytes "</span>", n)) ∧
      (∀ (node : Node) (optionalPartNom : Nat), plainTree node = true →
        ∃ html n, nodeToHtml R node optionalPartNom = .ok (html, n)) ∧
      (∀ (children : List Node) (optionalPartNom : Nat), plainTrees children = true →
        ∃ html n, processNodeChildren R children optionalPartNom = .ok (html, n)) := by
  refine ⟨nodeToHtml_unknown R, ?_, ?_⟩
  · intro node n h
    obtain ⟨⟨html, n1⟩, h1⟩ := nodeToHtml_plainTree R node n h
    exact ⟨html, n1, h1⟩
  · intro children n h
    obtain ⟨⟨html, n1⟩, h1⟩ := processNodeChildren_plainTrees R children n h
    exact ⟨html, n1, h1⟩

/-- The tree `[foo bar][b]x` + line feed + `y[/b][/foo]` is plain and is
rendered with the unknown tag in a `dsl_unknown` span. -/
theorem nodeToHtml_fooNode :
    plainTree fooNode = true ∧
      nodeToHtml Renderer.plain fooNode 0 =
        .ok (bytes
          "<span class=\"dsl_unknown\">[foo bar]<b class=\"dsl_b\">x<p></p>y</b></span>", 0) := by
  constructor <;> rfl

end Dsl
